import Mathlib

/-!
# The DOS shell core of dosbox-staging: redirection parsing, autoexec assembly, run loop

A shallow embedding of `src/shell/shell.cpp`.

* C strings are lists of characters; a `char *` is the list of characters from the
  pointer onwards, and the string it denotes ends at the first NUL (`c_str`).
* `std::string` values are lists of characters (they may hold NUL characters).
* `E_Exit` never returns: operations that can reach it return an `Outcome`, which is
  either `ok` or `fatal` with the file-scope state at the moment of the exit.
* Loops that the source does not bound (the removal loop of the destructor, the
  run loops) take a bound on their iterations and return `none` when it is used
  up; theorems about them hold for every bound that is large enough.
* `GetRedirection` is embedded twice: as a scan over the text at the read cursor, which
  collects what is stored through the write cursor, and on the storage itself, with
  both cursors as offsets; the second embedding is tied to the first by a simulation.
-/

/-! ## C strings -/

/-- The NUL character that terminates a C string. -/
def NUL : Char := Char.ofNat 0

/-- The double quote character. -/
def DQUOTE : Char := Char.ofNat 34

/-- The C string found at a `char *`: the characters up to the first NUL (or up to the
end of the list, where the terminator is implicit). For a `std::string` this is
what `c_str()` hands to a C function. -/
def c_str (s : List Char) : List Char :=
  s.takeWhile (fun c => c != NUL)

/-- Characters of a text that is a C string: none of them is NUL. -/
def NoNul (s : List Char) : Prop := NUL ∉ s

instance (s : List Char) : Decidable (NoNul s) :=
  inferInstanceAs (Decidable (NUL ∉ s))

/-- The C library `isspace` in the "C" locale: space, `\t`, `\n`, `\v`, `\f`, `\r`. -/
def isspace (c : Char) : Bool :=
  c == ' ' || c == '\t' || c == '\n' || c == Char.ofNat 11 || c == Char.ofNat 12 || c == '\r'

/-- Modelled from the spec: `ltrim` is support code that is not part of the sources at
hand; the spec says it "skips leading whitespace after the operator". It returns the
pointer to the first character that is NUL or not whitespace. -/
def ltrim : List Char → List Char
  | [] => []
  | c :: cs => if c != NUL && isspace c then ltrim cs else c :: cs

/-- Modelled from the spec: `safe_strncpy(dst, src, n)` is support code that is not part
of the sources at hand; the spec has "the bounded substring is copied into a freshly
owned string". As `strncpy` into `n` bytes with a final NUL, it copies the C string
at `src`, at most `n - 1` characters of it. The result is the copied string. -/
def safe_strncpy (src : List Char) (n : Nat) : List Char :=
  (c_str src).take (n - 1)

/-! ## `DOS_Shell::GetRedirection` -/

namespace DOS_Shell

/-- What `GetRedirection` leaves behind: the characters it stored through the write
cursor `lw` (the normalized line, before the final NUL it stores at `*lw`), the two
targets, the append flag and the returned count. -/
structure Redirection where
  line : List Char
  ifn : Option (List Char)
  ofn : Option (List Char)
  append : Bool
  num : Nat
  deriving DecidableEq, Repr

/-- The filename loop `while (*lr && *lr != ' ' && *lr != stop && *lr != '|') lr++`:
does the loop go past character `c`? (`stop` is `<` after `>` and `>` after `<`.) -/
def inName (stop : Char) (c : Char) : Bool :=
  c != NUL && c != ' ' && c != stop && c != '|'

/-- The characters the filename loop runs over, starting from `lr`. -/
def nameSpan (stop : Char) (lr : List Char) : List Char :=
  lr.takeWhile (inName stop)

/-- The read cursor after the filename loop. -/
def nameRest (stop : Char) (lr : List Char) : List Char :=
  lr.dropWhile (inName stop)

/-- The freshly allocated target: `if ((*fn != lr) && (lr[-1] == ':')) lr[-1] = 0;`
followed by `safe_strncpy(temp, *fn, lr - *fn + 1)`. `fn` is the text at the start of
the filename. -/
def copyTarget (stop : Char) (fn : List Char) : List Char :=
  let name := nameSpan stop fn
  let rest := nameRest stop fn
  let buffer :=
    if name ≠ [] ∧ name.getLast? = some ':' then name.dropLast ++ NUL :: rest
    else name ++ rest
  safe_strncpy buffer (name.length + 1)

theorem ltrim_length_le (l : List Char) : (ltrim l).length ≤ l.length := by
  induction l with
  | nil => simp [ltrim]
  | cons c cs ih =>
    unfold ltrim
    split
    · simp; omega
    · simp

theorem nameRest_length_le (stop : Char) (l : List Char) :
    (nameRest stop l).length ≤ l.length := by
  unfold nameRest
  induction l with
  | nil => simp
  | cons c cs ih =>
    rw [List.dropWhile_cons]
    split
    · simp; omega
    · simp

/-- The read cursor after a `>`: `*append = (*lr == '>'); if (*append) lr++;`. -/
def skipSecondGt (lr : List Char) : List Char :=
  if lr.head? = some '>' then lr.tail else lr

theorem skipSecondGt_length_le (lr : List Char) : (skipSecondGt lr).length ≤ lr.length := by
  unfold skipSecondGt
  split
  · simp
  · exact Nat.le_refl _

theorem afterName_length_le (stop : Char) (lr : List Char) :
    (nameRest stop (ltrim lr)).length ≤ lr.length :=
  Nat.le_trans (nameRest_length_le stop (ltrim lr)) (ltrim_length_le lr)

/-- The main loop `while ((ch = *lr++))` of `GetRedirection`. The first argument is the
text at the read cursor `lr`, `quote` is the quote flag, and `r` holds what has been
stored so far. -/
def GetRedirection.scan (s : List Char) (quote : Bool) (r : Redirection) : Redirection :=
  match s with
  | [] => r
  | ch :: lr =>
    if ch = NUL then r
    else if quote = true ∧ ch ≠ DQUOTE then
      GetRedirection.scan lr quote { r with line := r.line ++ [ch] }
    else if ch = DQUOTE then
      GetRedirection.scan lr (!quote) { r with line := r.line ++ [ch] }
    else if ch = '>' then
      let fn := ltrim (skipSecondGt lr)
      GetRedirection.scan (nameRest '<' fn) quote
        { r with append := decide (lr.head? = some '>'), ofn := some (copyTarget '<' fn) }
    else if ch = '<' then
      let fn := ltrim lr
      GetRedirection.scan (nameRest '>' fn) quote
        { r with ifn := some (copyTarget '>' fn) }
    else if ch = '|' then
      GetRedirection.scan lr quote { r with line := r.line ++ [NUL], num := r.num + 1 }
    else
      GetRedirection.scan lr quote { r with line := r.line ++ [ch] }
termination_by s.length
decreasing_by
  all_goals simp_wf
  · exact Nat.lt_succ_of_le
      (Nat.le_trans (afterName_length_le _ _) (skipSecondGt_length_le _))
  · exact Nat.lt_succ_of_le (afterName_length_le _ _)

/-- `Bitu DOS_Shell::GetRedirection(char *s, char **ifn, char **ofn, bool *append)`.
`ifn`, `ofn` and `append` are the values the caller passes in. -/
def GetRedirection (s : List Char) (ifn ofn : Option (List Char)) (append : Bool) :
    Redirection :=
  GetRedirection.scan s false
    { line := [], ifn := ifn, ofn := ofn, append := append, num := 0 }

/-- Is position `i` of the line between an opening double quote and its matching
closing one? An odd number of double quotes stands before it and the character
there is not itself a double quote. -/
def insideQuotes (s : List Char) (i : Nat) : Bool :=
  (s.take i).count DQUOTE % 2 == 1 && s.get? i != some DQUOTE

/-- The double quotes of the line are balanced: there is an even number of them. -/
def balancedQuotes (s : List Char) : Bool :=
  s.count DQUOTE % 2 == 0

/-- A character of a plain word or filename: not NUL, not whitespace, not a double
quote and none of `<`, `>`, `|`. -/
def plainChar (c : Char) : Bool :=
  c != NUL && !isspace c && c != DQUOTE && c != '<' && c != '>' && c != '|'

/-- A filename without the colon at its end, if it has one. -/
def stripColon (name : List Char) : List Char :=
  if name.getLast? = some ':' then name.dropLast else name

/-- Is position `i` of the text between double quotes, when the text is entered with the
quote flag `q`? -/
def insideFrom (q : Bool) (s : List Char) (i : Nat) : Bool :=
  xor q ((s.take i).count DQUOTE % 2 == 1) && s.get? i != some DQUOTE

/-- The number of `|` of the text that are not between double quotes, when the text is
entered with the quote flag `q`. -/
def pipesFrom (q : Bool) (s : List Char) : Nat :=
  ((List.range s.length).filter
    (fun i => s.get? i == some '|' && !insideFrom q s i)).length

/-- The number of `|` characters of the line that are outside double quotes. -/
def outsidePipes (s : List Char) : Nat :=
  ((List.range s.length).filter
    (fun i => s.get? i == some '|' && !insideQuotes s i)).length

/-- A text that the scan copies as it is: it holds no NUL, its double quotes are
balanced, and every `<`, `>` and `|` in it stands between double quotes. -/
def Quiet (s : List Char) : Prop :=
  NoNul s ∧ balancedQuotes s = true
  ∧ ∀ i, i < s.length →
      (s.get? i = some '<' ∨ s.get? i = some '>' ∨ s.get? i = some '|') →
      insideQuotes s i = true

instance (s : List Char) : Decidable (Quiet s) := by
  unfold Quiet
  infer_instance

/-- A run of whitespace: every character is one that `ltrim` skips. -/
def blank (ws : List Char) : Prop := ∀ c ∈ ws, isspace c = true

instance (ws : List Char) : Decidable (blank ws) := by
  unfold blank
  infer_instance

/-- The text is empty or starts with a character that is not whitespace: `ltrim` stops
at once. -/
def startsName (fn : List Char) : Bool :=
  match fn.head? with
  | some c => !isspace c
  | none => true

/-- The text is empty or starts with a character at which the filename loop stops. -/
def stopsName (stop : Char) (rest : List Char) : Bool :=
  match rest.head? with
  | some c => !inName stop c
  | none => true

/-- The operator `>` (`double = false`) or `>>` (`double = true`). -/
def gtOperator (double : Bool) : List Char :=
  if double = true then ['>', '>'] else ['>']

end DOS_Shell


namespace DOS_Shell

/-- Every `<`, `>` and `|` of the text stands between double quotes. -/
def OperatorsQuoted (s : List Char) : Prop :=
  ∀ i, i < s.length →
    (s.get? i = some '<' ∨ s.get? i = some '>' ∨ s.get? i = some '|') →
    insideQuotes s i = true

instance (s : List Char) : Decidable (OperatorsQuoted s) := by
  unfold OperatorsQuoted
  infer_instance

end DOS_Shell

/-! ## `DOS_Shell::GetRedirection` on the storage of its line

`GetRedirection` reads and writes the same array: the read cursor `lr` and the write
cursor `lw` both start at `s`. The functions of this section follow the two cursors as
offsets into the array. -/

namespace DOS_Shell

/-- `*p` for the pointer at offset `i` of the storage of the line: the character
there, and the terminating NUL behind the characters of the list. -/
def peek (mem : List Char) (i : Nat) : Char :=
  mem.getD i NUL

/-- `GetRedirection` at work on the storage of its line: the characters `mem` from `s`
on, the read cursor `lr` and the write cursor `lw` as offsets from `s`, the quote
flag, the two targets, the append flag and the count. -/
structure InPlace where
  mem : List Char
  lr : Nat
  lw : Nat
  quote : Bool
  ifn : Option (List Char)
  ofn : Option (List Char)
  append : Bool
  num : Nat
  deriving DecidableEq, Repr

/-- `lr = ltrim(lr)` on offsets: the read cursor moves on by the number of characters
that `ltrim` skips. -/
def ltrimAt (mem : List Char) (lr : Nat) : Nat :=
  lr + ((mem.drop lr).length - (ltrim (mem.drop lr)).length)

/-- The character that the test `(*fn != lr) && (lr[-1] == ':')` reads, as an offset
into the storage: `lr[-1]` is read only when `*fn != lr` holds (`&&` does not evaluate
its right side otherwise), so there is none when the filename, which starts at `fn`
and ends in front of `lr`, is empty. -/
def GetRedirection.colonIndex (fn lr : Nat) : Option Nat :=
  if fn ≠ lr then some (lr - 1) else none

/-- The statements of the cases `>` and `<` from `*fn = lr` on, where `fn` is the offset
of the filename: the filename loop, `if ((*fn != lr) && (lr[-1] == ':')) lr[-1] = 0;`
and the copy `safe_strncpy(temp, *fn, lr - *fn + 1)`. The result holds the storage,
the read cursor and the copied target. -/
def GetRedirection.takeName (stop : Char) (mem : List Char) (fn : Nat) :
    List Char × Nat × List Char :=
  let lr := fn + (nameSpan stop (mem.drop fn)).length
  let mem1 :=
    match GetRedirection.colonIndex fn lr with
    | some i => if peek mem i = ':' then mem.set i NUL else mem
    | none => mem
  (mem1, lr, safe_strncpy (mem1.drop fn) (lr - fn + 1))

/-- One pass of the loop `while ((ch = *lr++))` of `GetRedirection`; `none` when `ch` is
NUL and the loop ends. -/
def GetRedirection.pass (c : InPlace) : Option InPlace :=
  let ch := peek c.mem c.lr
  let lr := c.lr + 1
  if ch = NUL then none
  else if c.quote = true ∧ ch ≠ DQUOTE then
    some { c with mem := c.mem.set c.lw ch, lr := lr, lw := c.lw + 1 }
  else if ch = DQUOTE then
    some { c with mem := c.mem.set c.lw ch, lr := lr, lw := c.lw + 1, quote := !c.quote }
  else if ch = '>' then
    let append := decide (peek c.mem lr = '>')
    let t := GetRedirection.takeName '<' c.mem
      (ltrimAt c.mem (if append = true then lr + 1 else lr))
    some { c with mem := t.1, lr := t.2.1, append := append, ofn := some t.2.2 }
  else if ch = '<' then
    let t := GetRedirection.takeName '>' c.mem (ltrimAt c.mem lr)
    some { c with mem := t.1, lr := t.2.1, ifn := some t.2.2 }
  else if ch = '|' then
    some { c with mem := c.mem.set c.lw NUL, lr := lr, lw := c.lw + 1, num := c.num + 1 }
  else
    some { c with mem := c.mem.set c.lw ch, lr := lr, lw := c.lw + 1 }

/-- The state after `n` passes of the loop; `none` when the loop has ended before. -/
def GetRedirection.after : Nat → InPlace → Option InPlace
  | 0, c => some c
  | n + 1, c =>
    match GetRedirection.pass c with
    | none => none
    | some c1 => GetRedirection.after n c1

/-- The loop `while ((ch = *lr++))` with a bound on the number of its passes: the state
in which it ends (the read cursor has gone past the NUL that ended it), or `none`
when the bound is used up. -/
def GetRedirection.loop : Nat → InPlace → Option InPlace
  | 0, _ => none
  | fuel + 1, c =>
    match GetRedirection.pass c with
    | none => some { c with lr := c.lr + 1 }
    | some c1 => GetRedirection.loop fuel c1

/-- The state in which `GetRedirection` enters its loop: both cursors at `s`. -/
def GetRedirection.start (s : List Char) (ifn ofn : Option (List Char)) (append : Bool) :
    InPlace :=
  { mem := s, lr := 0, lw := 0, quote := false, ifn := ifn, ofn := ofn, append := append,
    num := 0 }

/-- `GetRedirection` on the storage of its line: the loop, and then `*lw = 0`. -/
def GetRedirection.inPlace (fuel : Nat) (s : List Char) (ifn ofn : Option (List Char))
    (append : Bool) : Option InPlace :=
  (GetRedirection.loop fuel (GetRedirection.start s ifn ofn append)).map
    fun c => { c with mem := c.mem.set c.lw NUL }

/-- The state `c` of the run on the storage of the line `s` stands where the scan of
the text `t` with the record `r` stands: the characters `pre` in front of the read
cursor hold no NUL, the unread text `t` is in the storage as it is in `s`, what was
written is the line of the record, and the write cursor is not in front of the
read cursor. -/
def InPlace.Tracks (s : List Char) (c : InPlace) (t : List Char) (r : Redirection) : Prop :=
  ∃ pre junk, s = pre ++ t ∧ NoNul pre ∧ c.mem = r.line ++ junk ++ t
    ∧ (r.line ++ junk).length = pre.length ∧ c.lr = pre.length ∧ c.lw = r.line.length
    ∧ c.ifn = r.ifn ∧ c.ofn = r.ofn ∧ c.append = r.append ∧ c.num = r.num

end DOS_Shell

/-! ## The autoexec registry: `AutoexecObject` and the file-scope state of `shell.cpp` -/

/-- `#define AUTOEXEC_SIZE 4096`: the capacity of `autoexec_data`. -/
def AUTOEXEC_SIZE : Nat := 4096

/-- `std::string::find(c, pos)`: the first position at or after `pos` that holds `c`. -/
def find_char (s : List Char) (c : Char) (pos : Nat) : Option Nat :=
  ((s.drop pos).findIdx? (fun x => x == c)).map (fun i => pos + i)

/-- The first position of the list at which `pat` starts, if any. -/
def findSub (pat : List Char) : List Char → Option Nat
  | [] => if pat = [] then some 0 else none
  | c :: cs =>
    if pat.isPrefixOf (c :: cs) then some 0 else (findSub pat cs).map (fun i => i + 1)

/-- `std::string::find(pat, pos)`: the first position at or after `pos` at which `pat`
starts. -/
def find_str (s pat : List Char) (pos : Nat) : Option Nat :=
  if pos ≤ s.length then (findSub pat (s.drop pos)).map (fun i => pos + i) else none

/-- `std::string::replace(n, 1, "\r\n")`: the character at `n` gives way to CR LF. -/
def replace_with_crlf (s : List Char) (n : Nat) : List Char :=
  s.take n ++ '\r' :: '\n' :: s.drop (n + 1)

/-- The loop of `CreateAutoexec` that gives `linecopy` CR LF line ends
(`while (offset < linecopy.length())`). The first argument bounds the number of
iterations; every iteration moves `offset` past one more `\n`. -/
def crlfLoop : Nat → List Char → Nat → List Char
  | 0, linecopy, _ => linecopy
  | fuel + 1, linecopy, offset =>
    if offset < linecopy.length then
      match find_char linecopy '\n' offset with
      | none => linecopy
      | some n =>
        match find_str linecopy ['\r', '\n'] offset with
        | some rn =>
          if rn + 1 = n then crlfLoop fuel linecopy (n + 1)
          else crlfLoop fuel (replace_with_crlf linecopy n) (n + 2)
        | none => crlfLoop fuel (replace_with_crlf linecopy n) (n + 2)
    else linecopy

/-- The text of one line as `CreateAutoexec` writes it: `linecopy` after the CR LF
loop. A line of length `k` needs at most `k` iterations and one last test. -/
def crlf (line : List Char) : List Char :=
  crlfLoop (line.length + 1) line 0

/-- The number of line feeds of the text from `offset` on. -/
def lfAfter (s : List Char) (offset : Nat) : Nat :=
  (s.drop offset).count '\n'

/-- The text with every line feed that does not directly follow a carriage return
replaced by CR LF and every other character kept; `prev` is the character that stands
in front of the text, if any. -/
def lfToCrlf (prev : Option Char) : List Char → List Char
  | [] => []
  | c :: cs =>
    if c = '\n' ∧ prev ≠ some '\r' then '\r' :: '\n' :: lfToCrlf (some c) cs
    else c :: lfToCrlf (some c) cs

/-- Every line feed of the text directly follows a carriage return. -/
def EveryLfFollowsCr (s : List Char) : Prop :=
  ∀ i, s.get? i = some '\n' → 0 < i ∧ s.get? (i - 1) = some '\r'

/-- The script stream of a shell, `DOS_Shell::bf`. Modelled from the spec: the batch
file class is not part of the sources at hand; the spec describes it as a "lazy,
finite, non-restartable sequence of text lines". `lines` are the lines still to be
read. -/
structure BatchFile where
  filename : List Char
  lines : List (List Char)
  deriving DecidableEq, Repr

/-- The members of a `DOS_Shell` that `shell.cpp` itself reads and writes. -/
structure DOS_Shell where
  bf : Option BatchFile
  echo : Bool
  exit_cmd_called : Bool
  deriving DecidableEq, Repr

/-- The file-scope state of `shell.cpp`: the C string held in `autoexec_data`,
`autoexec_strings`, `first_shell`, the blob registered as the virtual file
`AUTOEXEC.BAT` (`VFILE_Register` / `VFILE_Remove`), and the `SetEnv` calls made on the
first shell, in order. -/
structure Globals where
  autoexec_data : List Char
  autoexec_strings : List (List Char)
  first_shell : Option DOS_Shell
  vfile : Option (List Char)
  setenv : List (List Char × List Char)
  deriving DecidableEq, Repr

/-- The state at program start: an empty buffer, no lines, no shell. -/
def Globals.init : Globals :=
  { autoexec_data := [], autoexec_strings := [], first_shell := none, vfile := none,
    setenv := [] }

/-- The two fatal exits of the autoexec code. -/
inductive Exit where
  /-- `E_Exit("autoexec: already created %s", buf.c_str())`. -/
  | already_created (buf : List Char)
  /-- `E_Exit("SYSTEM:Autoexec.bat file overflow")`. -/
  | file_overflow
  deriving DecidableEq, Repr

/-- How a member function ends: it returns (with its object and the file-scope
state), or `E_Exit` ends the process (with the file-scope state of that moment). -/
inductive Outcome (α : Type) where
  | ok (a : α) (g : Globals)
  | fatal (e : Exit) (g : Globals)
  deriving DecidableEq, Repr

/-- An `AutoexecObject`: the `installed` latch and the line text `buf`. -/
structure AutoexecObject where
  installed : Bool
  buf : List Char
  deriving DecidableEq, Repr

namespace AutoexecObject

/-- A line object as its constructor leaves it. -/
def fresh : AutoexecObject := { installed := false, buf := [] }

/-- The `for (std::string linecopy : autoexec_strings)` loop of `CreateAutoexec`,
started with `data` in the buffer. It stops at the first line that fails the size
test; the flag tells whether every line was written. -/
def CreateAutoexec.lines : List (List Char) → List Char → Bool × List Char
  | [], data => (true, data)
  | line :: rest, data =>
    let linecopy := crlf line
    let auto_len := data.length
    if auto_len + linecopy.length + 3 > AUTOEXEC_SIZE then (false, data)
    else CreateAutoexec.lines rest (data ++ c_str linecopy ++ ['\r', '\n'])

/-- `void AutoexecObject::CreateAutoexec()`. -/
def CreateAutoexec (g : Globals) : Outcome Unit :=
  let g1 := if g.first_shell.isSome then { g with vfile := none } else g
  match CreateAutoexec.lines g1.autoexec_strings [] with
  | (false, data) => Outcome.fatal Exit.file_overflow { g1 with autoexec_data := data }
  | (true, data) =>
    let g2 := { g1 with autoexec_data := data }
    Outcome.ok () (if g2.first_shell.isSome then { g2 with vfile := some data } else g2)

/-- `strncasecmp(a, b, n) == 0` on C strings. -/
def strncasecmp_eq (a b : List Char) (n : Nat) : Bool :=
  ((c_str a).take n).map Char.toLower == ((c_str b).take n).map Char.toLower

/-- The test `(strncasecmp(buf2, "set ", 4) == 0) && (strlen(buf2) > 4)`. -/
def isSetLine (buf2 : List Char) : Bool :=
  strncasecmp_eq buf2 "set ".toList 4 && decide ((c_str buf2).length > 4)

/-- `strpbrk(s, "=")`: the position of the first `=` of the C string `s`. -/
def strpbrk_eq (s : List Char) : Option Nat :=
  (c_str s).findIdx? (fun x => x == '=')

/-- The environment update at the end of `Install`, made when a first shell exists. -/
def Install.updateEnv (buf : List Char) (g : Globals) : Globals :=
  if g.first_shell.isSome then
    let buf2 := safe_strncpy buf (buf.length + 1)
    if isSetLine buf2 then
      let after_set := buf2.drop 4
      match strpbrk_eq after_set with
      | none => { g with setenv := g.setenv ++ [(after_set, [])] }
      | some i => { g with setenv := g.setenv ++ [(after_set.take i, after_set.drop (i + 1))] }
    else g
  else g

/-- `void AutoexecObject::Install(const std::string &in)`. -/
def Install (o : AutoexecObject) (text : List Char) (g : Globals) : Outcome AutoexecObject :=
  if o.installed then Outcome.fatal (Exit.already_created (c_str o.buf)) g
  else
    let o1 : AutoexecObject := { installed := true, buf := text }
    match CreateAutoexec { g with autoexec_strings := g.autoexec_strings ++ [text] } with
    | Outcome.fatal e g1 => Outcome.fatal e g1
    | Outcome.ok _ g1 => Outcome.ok o1 (Install.updateEnv text g1)

/-- `void AutoexecObject::InstallBefore(const std::string &in)`. -/
def InstallBefore (o : AutoexecObject) (text : List Char) (g : Globals) :
    Outcome AutoexecObject :=
  if o.installed then Outcome.fatal (Exit.already_created (c_str o.buf)) g
  else
    let o1 : AutoexecObject := { installed := true, buf := text }
    match CreateAutoexec { g with autoexec_strings := text :: g.autoexec_strings } with
    | Outcome.fatal e g1 => Outcome.fatal e g1
    | Outcome.ok _ g1 => Outcome.ok o1 g1

/-- The test `first_shell && first_shell->bf &&
first_shell->bf->filename.find("AUTOEXEC.BAT") != std::string::npos`. -/
def runsAutoexecBat (g : Globals) : Bool :=
  match g.first_shell with
  | none => false
  | some sh =>
    match sh.bf with
    | none => false
    | some bf => (find_str bf.filename "AUTOEXEC.BAT".toList 0).isSome

/-- The removal loop of `~AutoexecObject`,
`for (auto_it it = autoexec_strings.begin(); it != autoexec_strings.end(); )`.
The first argument bounds the number of times the loop test is run; `buf` is the
object's text, `before` the entries in front of `it` and the last list the entries
from `it` on. The result is `none` when the bound is used up before `it` reaches the
end. -/
def dtor.loop : Nat → List Char → List (List Char) → List (List Char) → Globals →
    Option (List Char × List (List Char) × Globals)
  | 0, _, _, _, _ => none
  | _ + 1, buf, before, [], g => some (buf, before, g)
  | fuel + 1, buf, before, x :: xs, g =>
    if x = buf then
      let buf2 := safe_strncpy buf (buf.length + 1)
      if isSetLine buf2 then
        let after_set := buf2.drop 4
        match strpbrk_eq after_set with
        | none =>
          -- `delete [] buf2; continue;` with `it` where it was
          dtor.loop fuel buf before (x :: xs) g
        | some i =>
          -- `stringset = true`
          let g1 :=
            if g.first_shell.isSome then
              { g with setenv := g.setenv ++ [(after_set.take i, [])] }
            else g
          if runsAutoexecBat g1 then
            let blank := List.replicate buf.length ' '
            dtor.loop fuel blank (before ++ [blank]) xs g1
          else dtor.loop fuel buf before xs g1
      else
        -- `stringset` is false: `it = autoexec_strings.erase(it)`
        dtor.loop fuel buf before xs g
    else dtor.loop fuel buf (before ++ [x]) xs g

/-- `AutoexecObject::~AutoexecObject()`, with a bound on the iterations of its loop.
`none`: the loop did not come to its end within the bound. -/
def dtor (fuel : Nat) (o : AutoexecObject) (g : Globals) : Option (Outcome Unit) :=
  if !o.installed then some (Outcome.ok () g)
  else
    match dtor.loop fuel o.buf [] g.autoexec_strings g with
    | none => none
    | some (_, strings, g1) => some (CreateAutoexec { g1 with autoexec_strings := strings })

/-- The copy `buf2` that `~AutoexecObject` (like `Install`) makes of the text. -/
def buf2 (buf : List Char) : List Char :=
  safe_strncpy buf (buf.length + 1)

/-- The value `stringset` gets in the removal loop for an entry that equals `buf`:
the text is a `set ` line longer than four characters with a `=` after the `set `. -/
def stringset (buf : List Char) : Bool :=
  isSetLine (buf2 buf) && (strpbrk_eq ((buf2 buf).drop 4)).isSome

/-- The texts at which the removal loop takes its `continue`: a `set ` line longer
than four characters without a `=`. -/
def stalls (buf : List Char) : Bool :=
  isSetLine (buf2 buf) && (strpbrk_eq ((buf2 buf).drop 4)).isNone

/-- The buffer holds what the loop of `CreateAutoexec` writes for the sequence: the
state every call of `CreateAutoexec` that returns leaves behind. -/
def rebuilt (g : Globals) : Prop :=
  CreateAutoexec.lines g.autoexec_strings [] = (true, g.autoexec_data)

instance (g : Globals) : Decidable (rebuilt g) :=
  inferInstanceAs (Decidable (CreateAutoexec.lines g.autoexec_strings [] = (true, g.autoexec_data)))

end AutoexecObject

/-! ## `AUTOEXEC::ProcessConfigFileAutoexec` -/

/-- The line objects of the `AUTOEXEC` module: `AutoexecObject autoexec[17]` and
`autoexec_echo`. -/
structure AUTOEXEC where
  autoexec : Fin 17 → AutoexecObject
  autoexec_echo : AutoexecObject

namespace AUTOEXEC

/-- The module before any install: 18 line objects as constructed. -/
def fresh : AUTOEXEC :=
  { autoexec := fun _ => AutoexecObject.fresh, autoexec_echo := AutoexecObject.fresh }

/-- `strcspn(s, "\r\n")`: the length of the first line of the C string `s`. -/
def strcspn_crlf (s : List Char) : Nat :=
  ((c_str s).takeWhile (fun c => c != '\r' && c != '\n')).length

/-- The directive test in front of `ProcessConfigFileAutoexec`: is `echo off` (or
`@echo off`) the first line, and where does `extra` point afterwards? -/
def detectEchoOff (extra : List Char) : Bool × List Char :=
  let firstline_length := strcspn_crlf extra
  if AutoexecObject.strncasecmp_eq extra "echo off".toList 8 && firstline_length == 8 then
    (true, extra.drop 8)
  else if AutoexecObject.strncasecmp_eq extra "@echo off".toList 9 && firstline_length == 9 then
    (true, extra.drop 9)
  else (false, extra)

/-- The two steps `if (*extra == '\r') extra++; if (*extra == '\n') extra++;`. -/
def skipLineEnd (extra : List Char) : List Char :=
  let e1 := if extra.head? = some '\r' then extra.tail else extra
  if e1.head? = some '\n' then e1.tail else e1

/-- The last step: `if (*extra) autoexec[0].Install(std::string(extra));`. -/
def installRest (m : AUTOEXEC) (extra : List Char) (g : Globals) : Outcome AUTOEXEC :=
  if c_str extra ≠ [] then
    match (m.autoexec 0).Install (c_str extra) g with
    | Outcome.fatal e g1 => Outcome.fatal e g1
    | Outcome.ok o g1 => Outcome.ok { m with autoexec := Function.update m.autoexec 0 o } g1
  else Outcome.ok m g

/-- `void AUTOEXEC::ProcessConfigFileAutoexec(const Section_line &section, ...)`;
`data` is `section.data`. -/
def ProcessConfigFileAutoexec (m : AUTOEXEC) (data : List Char) (g : Globals) :
    Outcome AUTOEXEC :=
  if data = [] then Outcome.ok m g
  else
    match detectEchoOff data with
    | (true, extra) =>
      match m.autoexec_echo.InstallBefore "@echo off".toList g with
      | Outcome.fatal e g1 => Outcome.fatal e g1
      | Outcome.ok o g1 => installRest { m with autoexec_echo := o } (skipLineEnd extra) g1
    | (false, extra) => installRest m extra g

end AUTOEXEC

/-! ## The constructor of `AUTOEXEC` -/

/-- The apostrophe, which the constructor turns into a double quote on Windows. -/
def SQUOTE : Char := Char.ofNat 39

/-- Modelled from the spec: what the constructor reads from the command line and the
configuration (the `control` object is not part of the sources at hand; the spec
lists the "assembler-time flags: secure-mode switch, no-autoexec switch, repeated
one-shot command switches, exit switch, instant-launch policy" and the
"configuration-file-supplied autoexec content"). `WIN32` tells whether the code
under `#if defined(WIN32)` is compiled in. -/
structure Startup where
  /-- `control->cmdline->FindExist("-securemode", true)`. -/
  securemode : Bool
  /-- `control->cmdline->FindExist("-noautoexec", true)`. -/
  noautoexec : Bool
  /-- `ds->GetPropValue("autoexec_section") == "join"`. -/
  join : Bool
  /-- The lines that the successive calls `FindString("-c", line, true)` find. -/
  c_lines : List (List Char)
  /-- `control->cmdline->FindExist("-exit")`. -/
  exit_switch : Bool
  /-- `control->GetStartupVerbosity() == Verbosity::InstantLaunch`. -/
  instant_launch : Bool
  /-- The arguments that `FindCommand(1, line)`, `FindCommand(2, line)`, ... find. -/
  commands : List (List Char)
  /-- The data of the section the constructor is given (`configuration`). -/
  section_data : List Char
  /-- The data of `control->GetOverwrittenAutoexecSection()`. -/
  overwritten_data : List Char
  WIN32 : Bool

/-- Modelled from the spec: the host file system as the constructor sees it (`stat`,
`getcwd` and `path_exists` are not part of the sources at hand; the spec has
"names an existing directory or file (resolved first as given, then relative to the
current working directory)"). `stat path` is `none` when `stat` fails and otherwise
tells whether `st_mode & S_IFDIR` holds. `CROSS_LEN` and `CROSS_FILESPLIT` are
constants of a header that is not part of the sources at hand. -/
structure Host where
  stat : List Char → Option Bool
  getcwd : Option (List Char)
  path_exists : List Char → Bool
  CROSS_LEN : Nat
  CROSS_FILESPLIT : Char

/-- How a call goes on after a call that may have ended in a fatal exit. -/
def Outcome.andThen {α β : Type} (r : Outcome α) (f : α → Globals → Outcome β) :
    Outcome β :=
  match r with
  | Outcome.ok a g => f a g
  | Outcome.fatal e g => Outcome.fatal e g

namespace AUTOEXEC

/-- The line `z:\config.com -securemode`. -/
def lockdown : List Char := "z:\\config.com -securemode".toList

/-- `std::string("MOUNT C \"") + buffer + "\""`. -/
def mountLine (buffer : List Char) : List Char :=
  "MOUNT C ".toList ++ DQUOTE :: buffer ++ [DQUOTE]

/-- `std::string("IMGMOUNT D \"") + orig + std::string("\" -t iso")`. -/
def imgmountLine (orig : List Char) : List Char :=
  "IMGMOUNT D ".toList ++ DQUOTE :: orig ++ DQUOTE :: " -t iso".toList

/-- `autoexec[i].Install(text)`. -/
def installSlot (i : Fin 17) (text : List Char) (m : AUTOEXEC) (g : Globals) :
    Outcome AUTOEXEC :=
  match (m.autoexec i).Install text g with
  | Outcome.fatal e g1 => Outcome.fatal e g1
  | Outcome.ok o g1 => Outcome.ok { m with autoexec := Function.update m.autoexec i o } g1

/-- `if (secure) autoexec[i].Install("z:\\config.com -securemode");` -/
def installLockdown (secure : Bool) (i : Fin 17) (m : AUTOEXEC) (g : Globals) :
    Outcome AUTOEXEC :=
  if secure = true then installSlot i lockdown m g else Outcome.ok m g

/-- The line of a `-c` switch as the loop looks at it: on Windows every apostrophe
has been turned into a double quote. -/
def cLine (win32 : Bool) (line : List Char) : List Char :=
  if win32 = true then line.map (fun ch => if ch = SQUOTE then DQUOTE else ch) else line

/-- The test `line == "exit" || line == "\"exit\""`. -/
def isExitLine (line : List Char) : Bool :=
  line = "exit".toList || line = DQUOTE :: "exit".toList ++ [DQUOTE]

/-- The loop `while (control->cmdline->FindString("-c", line, true) && (i <= 11))`. The
list holds the lines the calls of `FindString` will find; `i` is the slot counter and
`exit_call_exists` the flag the loop sets. When `FindString` finds a line and `i` is
past 11, that line has been taken from the command line and the loop ends. -/
def cLoop (win32 : Bool) : List (List Char) → Nat → Bool → AUTOEXEC → Globals →
    Outcome (AUTOEXEC × Bool)
  | [], _, exit_call_exists, m, g => Outcome.ok (m, exit_call_exists) g
  | line :: rest, i, exit_call_exists, m, g =>
    if h : i ≤ 11 then
      if isExitLine (cLine win32 line) = true then cLoop win32 rest i true m g
      else
        match installSlot ⟨i, by omega⟩ (cLine win32 line) m g with
        | Outcome.fatal e g1 => Outcome.fatal e g1
        | Outcome.ok m1 g1 => cLoop win32 rest (i + 1) exit_call_exists m1 g1
    else Outcome.ok (m, exit_call_exists) g

/-- `strrchr(buffer, sep)` followed by `*name++ = 0`: the text in front of the last
`sep` and the text behind it; `none` when there is no `sep`. -/
def splitLast (sep : Char) : List Char → Option (List Char × List Char)
  | [] => none
  | c :: cs =>
    match splitLast sep cs with
    | some (a, b) => some (c :: a, b)
    | none => if c = sep then some ([], cs) else none

/-- What the loop over the commands finds for one argument, when it does not take
one of its `continue`s: a directory, or a file with the directory it lies in
(`buffer` after `*name++ = 0`) and its name as given (`orig`). -/
inductive Detected where
  | directory (buffer : List Char)
  | file (buffer orig : List Char)
  deriving DecidableEq, Repr

/-- The path found by `stat(buffer, &test)`, as given or, when that fails, under the
working directory, and whether it is a directory. -/
def locate (host : Host) (line : List Char) : Option (List Char × Bool) :=
  match host.stat (c_str line) with
  | some isDir => some (c_str line, isDir)
  | none =>
    match host.getcwd with
    | none => none
    | some cwd =>
      if cwd.length + line.length + 1 > host.CROSS_LEN then none
      else
        match host.stat (cwd ++ host.CROSS_FILESPLIT :: c_str line) with
        | some isDir => some (cwd ++ host.CROSS_FILESPLIT :: c_str line, isDir)
        | none => none

/-- The part of the loop body over the commands that comes before the first
`Install`: every `continue` gives `none`. -/
def detect (host : Host) (line : List Char) : Option Detected :=
  if line.length > host.CROSS_LEN then none
  else
    match locate host line with
    | none => none
    | some (buffer, true) => some (Detected.directory buffer)
    | some (buffer, false) =>
      match splitLast host.CROSS_FILESPLIT buffer with
      | some (dir, name) =>
        if host.path_exists dir = true then some (Detected.file dir name) else none
      | none =>
        -- "Only a filename"
        match host.getcwd with
        | none => none
        | some cwd =>
          if cwd.length + buffer.length + 1 > host.CROSS_LEN then none
          else
            match host.stat (cwd ++ host.CROSS_FILESPLIT :: buffer) with
            | none => none
            | some _ =>
              match splitLast host.CROSS_FILESPLIT (cwd ++ host.CROSS_FILESPLIT :: buffer) with
              | none => none
              | some (dir, name) =>
                if host.path_exists dir = true then some (Detected.file dir name) else none

/-- `strstr(name, pat) != 0`. -/
def hasSub (pat : String) (name : List Char) : Bool :=
  (findSub pat.toList name).isSome

/-- The installs of the loop body over the commands for what it found. -/
def installDetected (secure : Bool) (d : Detected) (m : AUTOEXEC) (g : Globals) :
    Outcome AUTOEXEC :=
  match d with
  | Detected.directory buffer =>
    (installSlot 12 (mountLine buffer) m g).andThen fun m1 g1 =>
    (installSlot 13 "C:".toList m1 g1).andThen fun m2 g2 =>
    installLockdown secure 14 m2 g2
  | Detected.file buffer orig =>
    -- `upcase(name)`
    let name := orig.map Char.toUpper
    (installSlot 12 (mountLine buffer) m g).andThen fun m1 g1 =>
    (installSlot 13 "C:".toList m1 g1).andThen fun m2 g2 =>
    if hasSub ".BAT" name = true then
      (installLockdown secure 14 m2 g2).andThen fun m3 g3 =>
      installSlot 15 ("CALL ".toList ++ name) m3 g3
    else if hasSub ".IMG" name = true ∨ hasSub ".IMA" name = true then
      installSlot 15 ("BOOT ".toList ++ orig) m2 g2
    else if hasSub ".ISO" name = true ∨ hasSub ".CUE" name = true then
      (installSlot 14 (imgmountLine orig) m2 g2).andThen fun m3 g3 =>
      installLockdown secure 15 m3 g3
    else
      (installLockdown secure 14 m2 g2).andThen fun m3 g3 =>
      installSlot 15 name m3 g3

/-- The loop `while (control->cmdline->FindCommand(command_index++, line) &&
!found_dir_or_command)`; the result holds `found_dir_or_command`. -/
def commandLoop (host : Host) (secure : Bool) : List (List Char) → AUTOEXEC → Globals →
    Outcome (AUTOEXEC × Bool)
  | [], m, g => Outcome.ok (m, false) g
  | line :: rest, m, g =>
    match detect host line with
    | none => commandLoop host secure rest m g
    | some d =>
      match installDetected secure d m g with
      | Outcome.fatal e g1 => Outcome.fatal e g1
      | Outcome.ok m1 g1 => Outcome.ok (m1, true) g1

/-- The part `if (autoexec_is_allowed) { ... } else if (secure && !found_dir_or_command)
{ ... }` of the constructor. -/
def installConfig (su : Startup) (found : Bool) (m : AUTOEXEC) (g : Globals) :
    Outcome AUTOEXEC :=
  if (!su.securemode && !su.noautoexec) = true then
    if su.join = true then ProcessConfigFileAutoexec m su.section_data g
    else if found = true then Outcome.ok m g
    else ProcessConfigFileAutoexec m su.overwritten_data g
  else if su.securemode = true ∧ found = false then installSlot 12 lockdown m g
  else Outcome.ok m g

/-- The constructor `AUTOEXEC(Section* configuration)`, run in the state `g` of the
registry; its line objects start as constructed. -/
def ctor (su : Startup) (host : Host) (g : Globals) : Outcome AUTOEXEC :=
  (cLoop su.WIN32 su.c_lines 1 false fresh g).andThen fun r1 g1 =>
  -- `addexit = exit_call_exists || exit_arg_exists || using_instant_launch`
  let addexit := r1.2 || su.exit_switch || su.instant_launch
  (commandLoop host su.securemode su.commands r1.1 g1).andThen fun r2 g2 =>
  (installConfig su r2.2 r2.1 g2).andThen fun m3 g3 =>
  (if addexit = true then installSlot 16 "exit".toList m3 g3 else Outcome.ok m3 g3).andThen
    fun m4 g4 =>
  -- `VFILE_Register("AUTOEXEC.BAT", autoexec_data, strlen(autoexec_data))`
  Outcome.ok m4 { g4 with vfile := some g4.autoexec_data }

end AUTOEXEC

/-! ## Sequences of installs -/

/-- One install request on the line object with number `id`. -/
inductive Op where
  | Install (id : Nat) (text : List Char)
  | InstallBefore (id : Nat) (text : List Char)
  deriving DecidableEq, Repr

/-- The line object an install request is made on. -/
def Op.id : Op → Nat
  | Op.Install id _ => id
  | Op.InstallBefore id _ => id

/-- The text of an install request. -/
def Op.text : Op → List Char
  | Op.Install _ text => text
  | Op.InstallBefore _ text => text

/-- The texts of the `Install` requests of a sequence, in their order. -/
def appended : List Op → List (List Char)
  | [] => []
  | Op.Install _ text :: ops => text :: appended ops
  | Op.InstallBefore _ _ :: ops => appended ops

/-- The texts of the `InstallBefore` requests of a sequence, in their order. -/
def prepended : List Op → List (List Char)
  | [] => []
  | Op.Install _ _ :: ops => prepended ops
  | Op.InstallBefore _ text :: ops => text :: prepended ops

/-- One request carried out on the line objects `objs`. -/
def runOp (op : Op) (objs : Nat → AutoexecObject) (g : Globals) :
    Outcome (Nat → AutoexecObject) :=
  match op with
  | Op.Install id text =>
    match (objs id).Install text g with
    | Outcome.ok o g1 => Outcome.ok (Function.update objs id o) g1
    | Outcome.fatal e g1 => Outcome.fatal e g1
  | Op.InstallBefore id text =>
    match (objs id).InstallBefore text g with
    | Outcome.ok o g1 => Outcome.ok (Function.update objs id o) g1
    | Outcome.fatal e g1 => Outcome.fatal e g1

/-- A sequence of requests carried out in order; a fatal exit ends the run. -/
def runOps : List Op → (Nat → AutoexecObject) → Globals → Outcome (Nat → AutoexecObject)
  | [], objs, g => Outcome.ok objs g
  | op :: ops, objs, g =>
    match runOp op objs g with
    | Outcome.ok objs1 g1 => runOps ops objs1 g1
    | Outcome.fatal e g1 => Outcome.fatal e g1

/-- The file-scope state an outcome carries. -/
def Outcome.globals {α : Type} : Outcome α → Globals
  | Outcome.ok _ g => g
  | Outcome.fatal _ g => g

/-- Did the call return? -/
def Outcome.isOk {α : Type} : Outcome α → Bool
  | Outcome.ok _ _ => true
  | Outcome.fatal _ _ => false

/-- The bytes `CreateAutoexec` writes for the lines `strings`: every line with CR LF
line ends, as the C string handed to `sprintf`, followed by CR LF. -/
def assembled (strings : List (List Char)) : List Char :=
  strings.flatMap (fun t => c_str (crlf t) ++ ['\r', '\n'])

/-- The size the capacity test of `CreateAutoexec` reckons for the lines `strings`:
the length of every line with CR LF line ends, plus two for its CR LF. -/
def lineSizes (strings : List (List Char)) : Nat :=
  (strings.map (fun t => (crlf t).length + 2)).sum

/-! ## The lines the constructor of `AUTOEXEC` installs

The functions of this section describe the outcome of the constructor; the theorems
about the constructor relate them to the code. -/

/-- The registry `g1` holds the lines of `g` with the lines `front` put before them and
the lines `back` appended, and its buffer is the assembled sequence as soon as a line was
installed (or if it was the assembled sequence before). -/
def Grows (g g1 : Globals) (front back : List (List Char)) : Prop :=
  g1.autoexec_strings = front ++ g.autoexec_strings ++ back
  ∧ ((front ++ back ≠ [] ∨ g.autoexec_data = assembled g.autoexec_strings) →
      g1.autoexec_data = assembled g1.autoexec_strings)

/-- No line object of the module from slot `k` on has been installed. -/
def SlotsFree (m : AUTOEXEC) (k : Nat) : Prop :=
  ∀ j : Fin 17, k ≤ j.val → (m.autoexec j).installed = false

/-- The line objects `autoexec[0]` and `autoexec_echo`, which take the configuration
content, have not been installed. -/
def ConfigFree (m : AUTOEXEC) : Prop :=
  (m.autoexec 0).installed = false ∧ m.autoexec_echo.installed = false

/-- The step `f` of the constructor, entered with the slots from `k` on free and with
room for the lines `back`, returns, has appended `back`, and leaves the slots from `k1`
on free. -/
def Stage (f : AUTOEXEC → Globals → Outcome AUTOEXEC) (k k1 : Nat)
    (back : List (List Char)) : Prop :=
  ∀ m g, SlotsFree m k → ConfigFree m →
    lineSizes (g.autoexec_strings ++ back) + 1 ≤ AUTOEXEC_SIZE →
    ∃ m1 g1, f m g = Outcome.ok m1 g1
      ∧ g1.autoexec_strings = g.autoexec_strings ++ back
      ∧ SlotsFree m1 k1 ∧ ConfigFree m1

/-- Modelled from the spec: does the argument name "an existing directory or file
(resolved first as given, then relative to the current working directory)"? -/
def Host.names (host : Host) (a : List Char) : Bool :=
  (host.stat (c_str a)).isSome ||
    match host.getcwd with
    | none => false
    | some cwd => (host.stat (cwd ++ host.CROSS_FILESPLIT :: c_str a)).isSome

namespace AUTOEXEC

/-- The `-c` lines, as the loop looks at them, that are neither `exit` nor `"exit"`. -/
def cCommands (win32 : Bool) (c_lines : List (List Char)) : List (List Char) :=
  (c_lines.map (cLine win32)).filter (fun l => !isExitLine l)

/-- Does the loop over the `-c` lines, entered with slot counter `i`, come across an
`exit` line while it still runs? -/
def cSawExit (win32 : Bool) : List (List Char) → Nat → Bool
  | [], _ => false
  | line :: rest, i =>
    if i ≤ 11 then
      if isExitLine (cLine win32 line) = true then true else cSawExit win32 rest (i + 1)
    else false

/-- The first argument for which the loop over the commands finds a directory or a
file. -/
def firstDetected (host : Host) (commands : List (List Char)) : Option Detected :=
  commands.findSome? (detect host)

/-- The lockdown line under secure mode, nothing otherwise. -/
def lockLines (secure : Bool) : List (List Char) :=
  if secure = true then [lockdown] else []

/-- The lines installed for a file named `orig` after `MOUNT C` and `C:`. -/
def fileLines (secure : Bool) (orig : List Char) : List (List Char) :=
  let name := orig.map Char.toUpper
  if hasSub ".BAT" name = true then lockLines secure ++ ["CALL ".toList ++ name]
  else if hasSub ".IMG" name = true ∨ hasSub ".IMA" name = true then
    ["BOOT ".toList ++ orig]
  else if hasSub ".ISO" name = true ∨ hasSub ".CUE" name = true then
    imgmountLine orig :: lockLines secure
  else lockLines secure ++ [name]

/-- The lines installed for what the loop over the commands found. -/
def detectedLines (secure : Bool) : Option Detected → List (List Char)
  | none => []
  | some (Detected.directory buffer) => [mountLine buffer, "C:".toList] ++ lockLines secure
  | some (Detected.file buffer orig) =>
    [mountLine buffer, "C:".toList] ++ fileLines secure orig

/-- The configuration content the constructor hands to `ProcessConfigFileAutoexec`,
empty when it does not call it. -/
def configData (su : Startup) (found : Bool) : List Char :=
  if (!su.securemode && !su.noautoexec) = true then
    if su.join = true then su.section_data
    else if found = true then [] else su.overwritten_data
  else []

/-- The line `ProcessConfigFileAutoexec` puts in front: `@echo off` when the content
starts with the directive. -/
def configFront (data : List Char) : List (List Char) :=
  if data ≠ [] ∧ (detectEchoOff data).1 = true then ["@echo off".toList] else []

/-- The line `ProcessConfigFileAutoexec` appends: what is left of the content. -/
def configBack (data : List Char) : List (List Char) :=
  if data = [] then []
  else
    let extra := if (detectEchoOff data).1 = true then skipLineEnd (detectEchoOff data).2
      else (detectEchoOff data).2
    if c_str extra = [] then [] else [c_str extra]

/-- The lines the constructor appends, in their order. -/
def appendedLines (su : Startup) (host : Host) : List (List Char) :=
  let found := firstDetected host su.commands
  (cCommands su.WIN32 su.c_lines).take 11
    ++ detectedLines su.securemode found
    ++ configBack (configData su found.isSome)
    ++ (if su.securemode = true ∧ found = none then [lockdown] else [])
    ++ (if (cSawExit su.WIN32 su.c_lines 1 || su.exit_switch || su.instant_launch) = true
        then ["exit".toList] else [])

end AUTOEXEC

/-- The step `f` of the constructor, entered with the slots from `k` on and the two
line objects of the configuration content not installed, installs no line object a
second time: its only fatal exit is the overflow of the buffer, and when it returns,
the slots from `k1` on and the two line objects of the configuration content are
still not installed. -/
def Careful (f : AUTOEXEC → Globals → Outcome AUTOEXEC) (k k1 : Nat) : Prop :=
  ∀ m g, SlotsFree m k → ConfigFree m →
    (∀ e g1, f m g = Outcome.fatal e g1 → e = Exit.file_overflow)
    ∧ (∀ m1 g1, f m g = Outcome.ok m1 g1 → SlotsFree m1 k1 ∧ ConfigFree m1)

/-! ## `DOS_Shell::Run` and `DOS_Shell::RunInternal` -/

/-- Modelled from the spec: the switches `Run` looks for on the shell's command line
(the command line class is not part of the sources at hand; the spec lists the
"CLI-observable flags consumed at Init: `/?`, `-?`, `/C <text>`, `/INIT <text>`").
`help` is `cmd->FindExist("/?") || cmd->FindExist("-?")`, `c` the text found by
`FindStringRemainBegin("/C", line)` and `init` the text found by
`FindString("/INIT", line, true)`. -/
structure ShellArgs where
  help : Bool
  c : Option (List Char)
  init : Option (List Char)
  deriving DecidableEq, Repr

/-- The process-wide state around a shell: the flag `shutdown_requested` and, in
`ext`, whatever else the collaborators keep (terminal, file system, ...). -/
structure World (σ : Type) where
  shutdown_requested : Bool
  ext : σ

/-- What `Run` and `RunInternal` do that can be seen from outside, in order. -/
inductive Event where
  /-- `WriteOut(MSG_Get(...))` of the named message. -/
  | WriteOut (msg : String)
  /-- `WriteOut_NoParsing(text)`. -/
  | WriteOut_NoParsing (text : List Char)
  /-- The welcome banner of `/INIT`. -/
  | Banner
  | ShowPrompt
  /-- `InputCommand(input_line)`: one line is read from the terminal. -/
  | InputCommand
  /-- `bf->ReadLine(input_line)`: the script stream is asked for a line. -/
  | ReadLine
  /-- `ParseLine(input_line)`: the line is dispatched. -/
  | ParseLine (line : List Char)
  deriving DecidableEq, Repr

/-- The collaborators of the run loop, as functions on the shell and the world
around it. `ParseLine` is the effect of dispatching a line (it may set
`exit_cmd_called`, open a script stream, ...), `InputCommand` reads a line from the
terminal, `wants_welcome_banner` is the start-up verbosity test and `CMD_MAXLINE` the
size of `input_line` (declared in a header that is not part of the sources at
hand). -/
structure Collaborators (σ : Type) where
  ParseLine : List Char → DOS_Shell → World σ → DOS_Shell × World σ
  InputCommand : DOS_Shell → World σ → List Char × World σ
  wants_welcome_banner : Bool
  CMD_MAXLINE : Nat

/-- A shell at work: the shell, the world, and what it has done so far. -/
structure RunState (σ : Type) where
  sh : DOS_Shell
  w : World σ
  trace : List Event

/-- Modelled from the spec: `bf->ReadLine(input_line)` gives the next line of the
script stream, or fails at its end. -/
def BatchFile.ReadLine (bf : BatchFile) : Option (List Char × BatchFile) :=
  match bf.lines with
  | [] => none
  | line :: rest => some (line, { bf with lines := rest })

namespace DOS_Shell

/-- A call of `ParseLine`: it is recorded, and the collaborator says what it does. -/
def callParseLine {σ : Type} (env : Collaborators σ) (line : List Char) (s : RunState σ) :
    RunState σ :=
  let r := env.ParseLine line s.sh s.w
  { sh := r.1, w := r.2, trace := s.trace ++ [Event.ParseLine line] }

/-- The echo of a script line in front of its dispatch:
`if (echo) { if (input_line[0] != '@') { ShowPrompt(); WriteOut_NoParsing(input_line);
WriteOut_NoParsing("\n"); } }`. -/
def echoLine {σ : Type} (input_line : List Char) (s : RunState σ) : RunState σ :=
  if s.sh.echo = true ∧ (c_str input_line).head? ≠ some '@' then
    { s with trace := s.trace ++ [Event.ShowPrompt, Event.WriteOut_NoParsing input_line,
        Event.WriteOut_NoParsing ['\n']] }
  else s

/-- The body of the `do { ... } while` loop of `Run`. -/
def Run.body {σ : Type} (env : Collaborators σ) (s : RunState σ) : RunState σ :=
  match s.sh.bf with
  | some bf =>
    match bf.ReadLine with
    | some (input_line, bf1) =>
      let s1 : RunState σ :=
        { s with sh := { s.sh with bf := some bf1 }, trace := s.trace ++ [Event.ReadLine] }
      callParseLine env input_line (echoLine input_line s1)
    | none =>
      -- `bf.reset()`
      { s with sh := { s.sh with bf := none }, trace := s.trace ++ [Event.ReadLine] }
  | none =>
    let s1 : RunState σ :=
      if s.sh.echo = true then { s with trace := s.trace ++ [Event.ShowPrompt] } else s
    let r := env.InputCommand s1.sh s1.w
    callParseLine env r.1 { s1 with w := r.2, trace := s1.trace ++ [Event.InputCommand] }

/-- The loop `do { ... } while (!exit_cmd_called && !shutdown_requested)` of `Run`. The
first argument bounds the number of iterations; `none`: the loop is still running
when the bound is used up. -/
def Run.loop {σ : Type} (env : Collaborators σ) : Nat → RunState σ → Option (RunState σ)
  | 0, _ => none
  | fuel + 1, s =>
    let s1 := Run.body env s
    if s1.sh.exit_cmd_called = false ∧ s1.w.shutdown_requested = false then
      Run.loop env fuel s1
    else some s1

/-- `void DOS_Shell::RunInternal()`: `while (bf && !shutdown_requested) { ... }`, with
a bound on the number of iterations. -/
def RunInternal {σ : Type} (env : Collaborators σ) : Nat → RunState σ → Option (RunState σ)
  | 0, _ => none
  | fuel + 1, s =>
    match s.sh.bf with
    | none => some s
    | some bf =>
      if s.w.shutdown_requested = true then some s
      else
        match bf.ReadLine with
        | some (input_line, bf1) =>
          let s1 : RunState σ :=
            { s with sh := { s.sh with bf := some bf1 }, trace := s.trace ++ [Event.ReadLine] }
          let s2 := callParseLine env input_line (echoLine input_line s1)
          let s3 : RunState σ :=
            if s2.sh.echo = true then
              { s2 with trace := s2.trace ++ [Event.WriteOut_NoParsing ['\n']] }
            else s2
          RunInternal env fuel s3
        | none =>
          RunInternal env fuel
            { s with sh := { s.sh with bf := none }, trace := s.trace ++ [Event.ReadLine] }

/-- `safe_strcpy(input_line, line.c_str())` into `char input_line[CMD_MAXLINE]`. -/
def toInputLine {σ : Type} (env : Collaborators σ) (line : List Char) : List Char :=
  safe_strncpy line env.CMD_MAXLINE

/-- `void DOS_Shell::Run()`, with a bound `fuel` on the iterations of each of its
loops; `none`: a loop is still running when the bound is used up. -/
def Run {σ : Type} (env : Collaborators σ) (fuel : Nat) (cmd : ShellArgs) (s : RunState σ) :
    Option (RunState σ) :=
  if cmd.help = true then
    some { s with trace := s.trace ++ [Event.WriteOut "SHELL_CMD_COMMAND_HELP_LONG"] }
  else
    match cmd.c with
    | some line =>
      -- `char* sep = strpbrk(input_line, "\r\n"); if (sep) *sep = 0;`
      let input_line :=
        (toInputLine env line).takeWhile (fun ch => ch != '\r' && ch != '\n')
      -- `DOS_Shell temp; temp.echo = echo;`
      let temp : DOS_Shell := { bf := none, echo := s.sh.echo, exit_cmd_called := false }
      match RunInternal env fuel
          (callParseLine env input_line { sh := temp, w := s.w, trace := s.trace }) with
      | none => none
      | some t => some { sh := s.sh, w := t.w, trace := t.trace }
    | none =>
      let s1 : RunState σ :=
        match cmd.init with
        | some line =>
          let s0 : RunState σ :=
            if env.wants_welcome_banner = true then
              { s with trace := s.trace ++ [Event.Banner] }
            else s
          callParseLine env (toInputLine env line) s0
        | none => { s with trace := s.trace ++ [Event.WriteOut "SHELL_STARTUP_SUB"] }
      Run.loop env fuel s1

/-- The number of dispatches in a record of events. -/
def dispatches (trace : List Event) : Nat :=
  (trace.filter (fun e => match e with
    | Event.ParseLine _ => true
    | _ => false)).length

/-- The number of lines read from the terminal in a record of events. -/
def terminalReads (trace : List Event) : Nat :=
  (trace.filter (fun e => e == Event.InputCommand)).length

end DOS_Shell

namespace DOS_Shell

/-- One pass of the loop `while (bf && !shutdown_requested) { ... }` of `RunInternal`:
`none` when the loop test fails, otherwise the state after the body. -/
def RunInternal.step {σ : Type} (env : Collaborators σ) (s : RunState σ) :
    Option (RunState σ) :=
  match s.sh.bf with
  | none => none
  | some bf =>
    if s.w.shutdown_requested = true then none
    else
      match bf.ReadLine with
      | some (input_line, bf1) =>
        let s1 : RunState σ :=
          { s with sh := { s.sh with bf := some bf1 }, trace := s.trace ++ [Event.ReadLine] }
        let s2 := callParseLine env input_line (echoLine input_line s1)
        some (if s2.sh.echo = true then
            { s2 with trace := s2.trace ++ [Event.WriteOut_NoParsing ['\n']] }
          else s2)
      | none =>
        some { s with sh := { s.sh with bf := none }, trace := s.trace ++ [Event.ReadLine] }

/-- The state after `n` passes of the loop of `RunInternal`; `none` when the loop has
ended before. -/
def RunInternal.after {σ : Type} (env : Collaborators σ) : Nat → RunState σ →
    Option (RunState σ)
  | 0, s => some s
  | n + 1, s =>
    match RunInternal.step env s with
    | none => none
    | some s1 => RunInternal.after env n s1

/-- The lines dispatched in a record of events, in their order. -/
def dispatchedLines (trace : List Event) : List (List Char) :=
  trace.filterMap (fun e => match e with
    | Event.ParseLine line => some line
    | _ => none)

end DOS_Shell

/-! ## `DOS_Shell::ParseLine` -/

/-- Modelled from the spec: `rtrim` is support code that is not part of the sources at
hand; the spec has "trim leading/trailing whitespace". It cuts the C string after
its last character that is not whitespace. -/
def rtrim (s : List Char) : List Char :=
  ((c_str s).reverse.dropWhile isspace).reverse

/-- Modelled from the spec: `trim` is support code that is not part of the sources at
hand; the spec has "trim leading/trailing whitespace": `ltrim(rtrim(str))`. -/
def trim (s : List Char) : List Char :=
  ltrim (rtrim s)

/-- Modelled from the spec: the file-handle table of the running process (the DOS
kernel is not part of the sources at hand; the spec lists `open(name, mode) ->
handle|failure`, `close(handle)`, `seek_to_end(handle)`). Entry `h` holds the name of
what is open on handle `h`; `none` is a free entry (`0xff`). A handle past the end of
the list is free. -/
abbrev HandleTable := List (Option (List Char))

namespace HandleTable

/-- The entry of handle `h`: `psp->GetFileHandle(h)`. -/
def entry (t : HandleTable) (h : Nat) : Option (List Char) :=
  t.getD h none

/-- The test `psp->GetFileHandle(h) != 0xff`. -/
def isOpen (t : HandleTable) (h : Nat) : Bool :=
  (t.entry h).isSome

/-- The lowest free handle number. -/
def lowestFree : HandleTable → Nat
  | [] => 0
  | none :: _ => 0
  | some _ :: t => lowestFree t + 1

/-- The table with entry `h` set to `v`. -/
def put : HandleTable → Nat → Option (List Char) → HandleTable
  | [], 0, v => [v]
  | [], h + 1, v => none :: put [] h v
  | _ :: t, 0, v => v :: t
  | x :: t, h + 1, v => x :: put t h v

end HandleTable

/-- Modelled from the spec: which files the file system can open and create (the
outcomes "input file existing or not" and "output open/create succeeding or
failing"). -/
structure FileSystem where
  /-- `DOS_OpenFile(name, ...)` finds the file. -/
  canOpen : List Char → Bool
  /-- `DOS_CreateFile(name, ...)` can create the file. -/
  canCreate : List Char → Bool
  /-- `DOS_OpenFileExtended(name, ..., 0x12, ...)` can open or create the file. -/
  canOpenExtended : List Char → Bool

/-- One call of the file interface, with its result. -/
inductive FileCall where
  | OpenFile (name : List Char) (handle : Option Nat)
  | CreateFile (name : List Char) (handle : Option Nat)
  | OpenFileExtended (name : List Char) (handle : Option Nat)
  | CloseFile (handle : Nat)
  | SeekFile (handle : Nat)
  deriving DecidableEq, Repr

/-- The state the file interface works on: the handle table, the calls made so far,
and whatever else the dispatched command may change. -/
structure Dos (σ : Type) where
  handles : HandleTable
  calls : List FileCall
  ext : σ

/-- The console device name that `ParseLine` opens. -/
def con : List Char := "con".toList

namespace Dos

/-- What is open on handles 0 and 1. -/
def stdio {σ : Type} (d : Dos σ) : Bool × Bool :=
  (d.handles.isOpen 0, d.handles.isOpen 1)

/-- Modelled from the spec: a successful open or create takes the lowest free handle
number. -/
def allocate {σ : Type} (name : List Char) (d : Dos σ) : Nat × Dos σ :=
  (d.handles.lowestFree,
    { d with handles := d.handles.put d.handles.lowestFree (some name) })

/-- Modelled from the spec: `DOS_OpenFile(name, flags, &handle)`. Opening the console
always succeeds. The result is the new handle, or `none` when the call fails. -/
def DOS_OpenFile {σ : Type} (fs : FileSystem) (name : List Char) (d : Dos σ) :
    Option Nat × Dos σ :=
  if name = con ∨ fs.canOpen name = true then
    let r := allocate name d
    (some r.1, { r.2 with calls := d.calls ++ [FileCall.OpenFile name (some r.1)] })
  else (none, { d with calls := d.calls ++ [FileCall.OpenFile name none] })

/-- Modelled from the spec: `DOS_CreateFile(name, attributes, &handle)`. -/
def DOS_CreateFile {σ : Type} (fs : FileSystem) (name : List Char) (d : Dos σ) :
    Option Nat × Dos σ :=
  if fs.canCreate name = true then
    let r := allocate name d
    (some r.1, { r.2 with calls := d.calls ++ [FileCall.CreateFile name (some r.1)] })
  else (none, { d with calls := d.calls ++ [FileCall.CreateFile name none] })

/-- Modelled from the spec: `DOS_OpenFileExtended(name, flags, attributes, 0x12, ...)`:
open the file, or create it when it is not there. -/
def DOS_OpenFileExtended {σ : Type} (fs : FileSystem) (name : List Char) (d : Dos σ) :
    Option Nat × Dos σ :=
  if fs.canOpenExtended name = true then
    let r := allocate name d
    (some r.1, { r.2 with calls := d.calls ++ [FileCall.OpenFileExtended name (some r.1)] })
  else (none, { d with calls := d.calls ++ [FileCall.OpenFileExtended name none] })

/-- Modelled from the spec: `DOS_CloseFile(handle)` frees the entry (and fails, leaving
the table as it is, when the handle is not open). -/
def DOS_CloseFile {σ : Type} (handle : Nat) (d : Dos σ) : Dos σ :=
  { d with
    handles := if d.handles.isOpen handle = true then d.handles.put handle none
      else d.handles,
    calls := d.calls ++ [FileCall.CloseFile handle] }

/-- Modelled from the spec: `DOS_SeekFile(handle, &pos, DOS_SEEK_END)` leaves the table
as it is. -/
def DOS_SeekFile {σ : Type} (handle : Nat) (d : Dos σ) : Dos σ :=
  { d with calls := d.calls ++ [FileCall.SeekFile handle] }

end Dos

/-- The collaborators of `ParseLine`: the file system and the command dispatcher
`DoCommand`, given by what it does to the state of the file interface. -/
structure Dispatcher (σ : Type) where
  fs : FileSystem
  DoCommand : List Char → Dos σ → Dos σ

/-- What a call of `ParseLine` leaves: the state of the file interface, the texts it
called `DoCommand` with, in order, and whether it logged "Multiple command on 1 line
not supported". -/
structure Parsed (σ : Type) where
  dos : Dos σ
  dispatched : List (List Char)
  multiple : Bool

namespace DOS_Shell

/-- The start of `ParseLine`: `if (line[0] == '@') line[0] = ' '; line = trim(line);`. -/
def ParseLine.prepare (line : List Char) : List Char :=
  trim (if line.head? = some '@' then ' ' :: line.tail else line)

/-- The block `if (in) { ... }` in front of the dispatch. -/
def ParseLine.openInput {σ : Type} (fs : FileSystem) (normalstdin : Bool)
    (inp : List Char) (d : Dos σ) : Dos σ :=
  match Dos.DOS_OpenFile fs inp d with
  | (some dummy, d1) =>
    let d2 := Dos.DOS_CloseFile dummy d1
    let d3 := if normalstdin = true then Dos.DOS_CloseFile 0 d2 else d2
    (Dos.DOS_OpenFile fs inp d3).2
  | (none, d1) => d1

/-- The open of the output target, "Create if not exist. Open if exist. Both in
read/write mode": the value of `status` and the state afterwards. -/
def ParseLine.openTarget {σ : Type} (fs : FileSystem) (append : Bool) (out : List Char)
    (d : Dos σ) : Bool × Dos σ :=
  if append = true then
    match Dos.DOS_OpenFile fs out d with
    | (some _, d1) => (true, Dos.DOS_SeekFile 1 d1)
    | (none, d1) => ((Dos.DOS_CreateFile fs out d1).1.isSome, (Dos.DOS_CreateFile fs out d1).2)
  else
    ((Dos.DOS_OpenFileExtended fs out d).1.isSome, (Dos.DOS_OpenFileExtended fs out d).2)

/-- The block `if (out) { ... }` in front of the dispatch; `hasIn` is `in != nullptr`. -/
def ParseLine.openOutput {σ : Type} (fs : FileSystem) (normalstdin normalstdout : Bool)
    (hasIn append : Bool) (out : List Char) (d : Dos σ) : Dos σ :=
  let d1 := if normalstdout = true then Dos.DOS_CloseFile 1 d else d
  let d2 := if normalstdin = false ∧ hasIn = false then (Dos.DOS_OpenFile fs con d1).2 else d1
  let r := ParseLine.openTarget fs append out d2
  let d4 := if r.1 = false ∧ normalstdout = true then (Dos.DOS_OpenFile fs con r.2).2 else r.2
  if normalstdin = false ∧ hasIn = false then Dos.DOS_CloseFile 0 d4 else d4

/-- The block `if (in) { ... }` after the dispatch. -/
def ParseLine.restoreInput {σ : Type} (fs : FileSystem) (normalstdin : Bool) (d : Dos σ) :
    Dos σ :=
  let d1 := Dos.DOS_CloseFile 0 d
  if normalstdin = true then (Dos.DOS_OpenFile fs con d1).2 else d1

/-- The block `if (out) { ... }` after the dispatch. -/
def ParseLine.restoreOutput {σ : Type} (fs : FileSystem) (normalstdin normalstdout : Bool)
    (d : Dos σ) : Dos σ :=
  let d1 := Dos.DOS_CloseFile 1 d
  let d2 := if normalstdin = false then (Dos.DOS_OpenFile fs con d1).2 else d1
  let d3 := if normalstdout = true then (Dos.DOS_OpenFile fs con d2).2 else d2
  if normalstdin = false then Dos.DOS_CloseFile 0 d3 else d3

/-- `void DOS_Shell::ParseLine(char * line)`. `append0` is the value the local
`bool append` happens to hold before `GetRedirection` is called (it has no
initializer). -/
def ParseLine {σ : Type} (env : Dispatcher σ) (append0 : Bool) (line : List Char)
    (d : Dos σ) : Parsed σ :=
  let r := GetRedirection (ParseLine.prepare line) none none append0
  let normalstdin := (r.ifn.isSome || r.ofn.isSome) && d.handles.isOpen 0
  let normalstdout := (r.ifn.isSome || r.ofn.isSome) && d.handles.isOpen 1
  let d1 :=
    match r.ifn with
    | some inp => ParseLine.openInput env.fs normalstdin inp d
    | none => d
  let d2 :=
    match r.ofn with
    | some out => ParseLine.openOutput env.fs normalstdin normalstdout r.ifn.isSome r.append out d1
    | none => d1
  -- `DoCommand(line)`: the line as `GetRedirection` left it, read as a C string
  let d3 := env.DoCommand (c_str r.line) d2
  let d4 := if r.ifn.isSome = true then ParseLine.restoreInput env.fs normalstdin d3 else d3
  let d5 :=
    if r.ofn.isSome = true then ParseLine.restoreOutput env.fs normalstdin normalstdout d4
    else d4
  { dos := d5, dispatched := [c_str r.line], multiple := decide (r.num > 1) }

end DOS_Shell

/-- A dispatcher that does nothing but record the texts it is called with. -/
def recordingDispatcher (fs : FileSystem) : Dispatcher (List (List Char)) :=
  { fs := fs,
    DoCommand := fun text d => { d with ext := d.ext ++ [text] } }

/-! ## Concrete states used in the examples -/

/-- The line `dir > "a|b"`: a command whose output filename is written in double
quotes and holds a `|`. -/
def quotedPipeLine : List Char :=
  "dir > ".toList ++ DQUOTE :: "a|b".toList ++ [DQUOTE]

/-- The requests of the C3 example: an append, a prepend, an append of two lines. -/
def c3Ops : List Op :=
  [Op.Install 1 "C:".toList, Op.InstallBefore 2 "@echo off".toList,
    Op.Install 3 "dir\nexit".toList]

/-- The state the requests of the C3 example lead to. -/
def c3Globals : Globals :=
  { autoexec_data := "@echo off\r\nC:\r\ndir\r\nexit\r\n".toList,
    autoexec_strings := ["@echo off".toList, "C:".toList, "dir\nexit".toList],
    first_shell := none,
    vfile := none,
    setenv := [] }

/-- The line objects the requests of the C3 example lead to. -/
def c3Objs : Nat → AutoexecObject :=
  Function.update
    (Function.update
      (Function.update (fun _ => AutoexecObject.fresh) 1 { installed := true, buf := "C:".toList })
      2 { installed := true, buf := "@echo off".toList })
    3 { installed := true, buf := "dir\nexit".toList }

/-- The registry with one line of 4000 letters in its sequence. -/
def c4Globals : Globals :=
  { Globals.init with
    autoexec_data := List.replicate 4000 'a' ++ ['\r', '\n'],
    autoexec_strings := [List.replicate 4000 'a'] }

/-- The registry after `C:` was installed in the empty registry. -/
def c6Globals : Globals :=
  { Globals.init with autoexec_data := "C:\r\n".toList, autoexec_strings := ["C:".toList] }

/-- A first shell that is running `Z:\\AUTOEXEC.BAT`. -/
def shellInAutoexec : DOS_Shell :=
  { bf := some { filename := "Z:\\AUTOEXEC.BAT".toList, lines := [] },
    echo := true,
    exit_cmd_called := false }

/-- The registry after `C:` was installed twice, by two line objects. -/
def c7Twice : Globals :=
  { Globals.init with
    autoexec_data := "C:\r\nC:\r\n".toList, autoexec_strings := ["C:".toList, "C:".toList] }

/-- The registry after `C:` and then `D:` were installed. -/
def c7Globals : Globals :=
  { Globals.init with
    autoexec_data := "C:\r\nD:\r\n".toList, autoexec_strings := ["C:".toList, "D:".toList] }

/-- A running first shell, in the middle of `AUTOEXEC.BAT`, with the line `C:`
installed. -/
def c8Plain : Globals :=
  { autoexec_data := "C:\r\n".toList,
    autoexec_strings := ["C:".toList],
    first_shell := some shellInAutoexec,
    vfile := some "C:\r\n".toList,
    setenv := [] }

/-- The state `c8Plain` after its line was removed. -/
def c8PlainAfter : Globals :=
  { autoexec_data := [],
    autoexec_strings := [],
    first_shell := some shellInAutoexec,
    vfile := some [],
    setenv := [] }

/-- A running first shell, in the middle of `AUTOEXEC.BAT`, with the lines `C:`,
`SET BLASTER=A220` and `dir` installed. -/
def c8Globals : Globals :=
  { autoexec_data := "C:\r\nSET BLASTER=A220\r\ndir\r\n".toList,
    autoexec_strings := ["C:".toList, "SET BLASTER=A220".toList, "dir".toList],
    first_shell := some shellInAutoexec,
    vfile := some "C:\r\nSET BLASTER=A220\r\ndir\r\n".toList,
    setenv := [] }

/-- The module after `ProcessConfigFileAutoexec` found nothing but the directive:
only `autoexec_echo` is installed. -/
def c9EchoOnly : AUTOEXEC :=
  { AUTOEXEC.fresh with autoexec_echo := { installed := true, buf := "@echo off".toList } }

/-- The registry after `@echo off` alone was put in front of an empty sequence. -/
def c9EchoOnlyGlobals : Globals :=
  { Globals.init with
    autoexec_data := "@echo off\r\n".toList, autoexec_strings := ["@echo off".toList] }

/-- The module after `ProcessConfigFileAutoexec` installed the directive and one
more line. -/
def c9Module : AUTOEXEC :=
  { autoexec := Function.update AUTOEXEC.fresh.autoexec 0
      { installed := true, buf := "set X=1".toList },
    autoexec_echo := { installed := true, buf := "@echo off".toList } }

/-- The registry after the content `echo off`, line feed, `set X=1` was processed with
the line `C:` already installed. -/
def c9Globals : Globals :=
  { Globals.init with
    autoexec_data := "@echo off\r\nC:\r\nset X=1\r\n".toList,
    autoexec_strings := ["@echo off".toList, "C:".toList, "set X=1".toList] }

/-- Collaborators for the examples of the run loop: dispatching a line changes
nothing and the terminal always delivers the line `dir`. -/
def idleCollaborators : Collaborators Unit :=
  { ParseLine := fun _ sh w => (sh, w),
    InputCommand := fun _ w => ("dir".toList, w),
    wants_welcome_banner := false,
    CMD_MAXLINE := 4096 }

/-- A shell started without switches, as constructed (`bf(nullptr)`, `echo(true)`),
with `shutdown_requested` already set. -/
def shutdownAtStart : RunState Unit :=
  { sh := { bf := none, echo := true, exit_cmd_called := false },
    w := { shutdown_requested := true, ext := () },
    trace := [] }

/-- A command line of the shell without `/?`, `-?`, `/C` and `/INIT`. -/
def noSwitches : ShellArgs :=
  { help := false, c := none, init := none }

/-- A file system in which no file can be opened or created. -/
def noFiles : FileSystem :=
  { canOpen := fun _ => false, canCreate := fun _ => false, canOpenExtended := fun _ => false }

/-- The file interface of a shell with the console on handles 0, 1 and 2. -/
def consoleDos : Dos (List (List Char)) :=
  { handles := [some con, some con, some con], calls := [], ext := [] }

/-- A host on which nothing exists. -/
def emptyHost : Host :=
  { stat := fun _ => none, getcwd := none, path_exists := fun _ => false,
    CROSS_LEN := 512, CROSS_FILESPLIT := '/' }

/-- Eleven `-c` lines, `a` to `k`. -/
def elevenLines : List (List Char) :=
  ["a", "b", "c", "d", "e", "f", "g", "h", "i", "j", "k"].map String.toList

/-- A command line with no switch but `-c`, used with various `-c` lines. -/
def onlyCLines (c_lines : List (List Char)) : Startup :=
  { securemode := false, noautoexec := false, join := false, c_lines := c_lines,
    exit_switch := false, instant_launch := false, commands := [], section_data := [],
    overwritten_data := [], WIN32 := false }

/-- A host with the directory `/games` and four files in it; the working directory
is `/home/user`. -/
def gamesHost : Host :=
  { stat := fun p =>
      if p = "/games".toList then some true
      else if p = "/games/run.bat".toList ∨ p = "/games/Doom.exe".toList
        ∨ p = "/games/Disk.img".toList ∨ p = "/games/Game.iso".toList
        ∨ p = "/games/a.bat.exe".toList then some false
      else none,
    getcwd := some "/home/user".toList,
    path_exists := fun p => p = "/games".toList,
    CROSS_LEN := 512, CROSS_FILESPLIT := '/' }

/-- A command line under secure mode with the given `-c` lines and arguments. -/
def secureWith (c_lines commands : List (List Char)) : Startup :=
  { securemode := true, noautoexec := false, join := false, c_lines := c_lines,
    exit_switch := false, instant_launch := false, commands := commands,
    section_data := "@echo off\nver".toList, overwritten_data := "@echo off\nver".toList,
    WIN32 := false }

/-- A command line without secure mode with the given `-c` lines and arguments. -/
def plainWith (c_lines commands : List (List Char)) : Startup :=
  { securemode := false, noautoexec := false, join := false, c_lines := c_lines,
    exit_switch := false, instant_launch := false, commands := commands,
    section_data := [], overwritten_data := [], WIN32 := false }

/-- A directory name of 513 characters. -/
def longDirectory : List Char := '/' :: List.replicate 512 'd'

/-- A host on which the directory `longDirectory` exists. -/
def longHost : Host :=
  { stat := fun p => if p = longDirectory then some true else none,
    getcwd := some "/home/user".toList,
    path_exists := fun _ => true,
    CROSS_LEN := 512, CROSS_FILESPLIT := '/' }

/-- The line `echo "a>b|c" x`: its `>` and `|` stand between double quotes. -/
def quotedOperatorsLine : List Char :=
  "echo ".toList ++ DQUOTE :: "a>b|c".toList ++ DQUOTE :: " x".toList

/-- A registry with the two lines `C:` and `dir`, line feed, `ver`, CR LF, `exit`, with
no shell running and nothing in the buffer yet. -/
def c25Globals : Globals :=
  { Globals.init with autoexec_strings := ["C:".toList, "dir\nver\r\nexit".toList] }

/-- The registry `c25Globals` after `CreateAutoexec`. -/
def c25Written : Globals :=
  { c25Globals with autoexec_data := "C:\r\ndir\r\nver\r\nexit\r\n".toList }

/-- The line `set X`: a `set ` line without `=`. -/
def setWithoutEquals : List Char := "set X".toList

/-- The registry after `set X` was installed, with no shell running. -/
def c34Globals : Globals :=
  { Globals.init with
    autoexec_data := "set X\r\n".toList, autoexec_strings := [setWithoutEquals] }

/-- The registry after `set X` and `C:` were installed, with no shell running. -/
def c35Globals : Globals :=
  { Globals.init with
    autoexec_data := "set X\r\nC:\r\n".toList,
    autoexec_strings := [setWithoutEquals, "C:".toList] }

/-- A shell in the middle of a script with the two lines `a` and `b` left, with echo
off and no shutdown request. -/
def twoLineScript : RunState (List (List Char)) :=
  { sh := { bf := some { filename := "T.BAT".toList, lines := ["a".toList, "b".toList] },
            echo := false, exit_cmd_called := false },
    w := { shutdown_requested := false, ext := [] },
    trace := [] }

/-- Collaborators whose `ParseLine` does nothing but log the line it is called with in
the world, and whose terminal would deliver `typed`. -/
def loggingCollaborators : Collaborators (List (List Char)) :=
  { ParseLine := fun line sh w => (sh, { w with ext := w.ext ++ [line] }),
    InputCommand := fun _ w => ("typed".toList, w),
    wants_welcome_banner := false,
    CMD_MAXLINE := 4096 }

/-- A dispatcher that records, every time it is called, the handle table and the calls
of the file interface made so far. -/
def probeDispatcher (fs : FileSystem) : Dispatcher (List (HandleTable × List FileCall)) :=
  { fs := fs,
    DoCommand := fun _ d => { d with ext := d.ext ++ [(d.handles, d.calls)] } }

/-- The file interface of a shell with the console on handles 0, 1 and 2, for the
dispatcher that records the handle table. -/
def consoleProbe : Dos (List (HandleTable × List FileCall)) :=
  { handles := [some con, some con, some con], calls := [], ext := [] }

/-! ## Theorems about `GetRedirection` -/

theorem c_str_of_noNul (s : List Char) (h : NoNul s) : c_str s = s := by
  unfold c_str
  rw [List.takeWhile_eq_self_iff]
  intro x hx
  simp only [bne_iff_ne, ne_eq]
  intro e
  exact h (e ▸ hx)

namespace DOS_Shell

theorem scan_nil (quote : Bool) (r : Redirection) : GetRedirection.scan [] quote r = r := by
  rw [GetRedirection.scan]

/-- Outside quotes a plain character is stored unchanged and the scan goes on. -/
theorem scan_plain_cons (ch : Char) (lr : List Char) (r : Redirection)
    (h : plainChar ch = true) :
    GetRedirection.scan (ch :: lr) false r
      = GetRedirection.scan lr false { r with line := r.line ++ [ch] } := by
  simp only [plainChar, Bool.and_eq_true, bne_iff_ne, ne_eq, Bool.not_eq_true'] at h
  obtain ⟨⟨⟨⟨⟨h0, _⟩, hq⟩, hlt⟩, hgt⟩, hp⟩ := h
  rw [GetRedirection.scan]
  simp [h0, hq, hlt, hgt, hp]

/-- Outside quotes a space is stored unchanged and the scan goes on. -/
theorem scan_space_cons (lr : List Char) (r : Redirection) :
    GetRedirection.scan (' ' :: lr) false r
      = GetRedirection.scan lr false { r with line := r.line ++ [' '] } := by
  rw [GetRedirection.scan]
  simp [NUL, DQUOTE]

/-- Outside quotes a run of plain characters is stored unchanged. -/
theorem scan_plain_append (c lr : List Char) (r : Redirection)
    (h : ∀ ch ∈ c, plainChar ch = true) :
    GetRedirection.scan (c ++ lr) false r
      = GetRedirection.scan lr false { r with line := r.line ++ c } := by
  induction c generalizing r with
  | nil => simp
  | cons ch cs ih =>
    rw [List.cons_append, scan_plain_cons ch _ r (h ch (List.mem_cons_self _ _))]
    rw [ih _ (fun x hx => h x (List.mem_cons_of_mem _ hx))]
    simp

theorem plainChar_inName (stop : Char) (c : Char) (h : plainChar c = true)
    (hs : stop = '<' ∨ stop = '>') : inName stop c = true := by
  simp only [plainChar, Bool.and_eq_true, bne_iff_ne, ne_eq, Bool.not_eq_true'] at h
  obtain ⟨⟨⟨⟨⟨h0, hsp⟩, _⟩, hlt⟩, hgt⟩, hp⟩ := h
  have hspace : c ≠ ' ' := by
    intro e
    rw [e] at hsp
    simp [isspace] at hsp
  simp only [inName, Bool.and_eq_true, bne_iff_ne, ne_eq]
  refine ⟨⟨⟨h0, hspace⟩, ?_⟩, hp⟩
  rcases hs with rfl | rfl
  · exact hlt
  · exact hgt

/-- The filename loop runs over a whole plain filename that ends the line. -/
theorem nameSpan_plain (stop : Char) (f : List Char) (hs : stop = '<' ∨ stop = '>')
    (h : ∀ ch ∈ f, plainChar ch = true) : nameSpan stop f = f := by
  unfold nameSpan
  rw [List.takeWhile_eq_self_iff]
  exact fun x hx => plainChar_inName stop x (h x hx) hs

theorem nameRest_plain (stop : Char) (f : List Char) (hs : stop = '<' ∨ stop = '>')
    (h : ∀ ch ∈ f, plainChar ch = true) : nameRest stop f = [] := by
  unfold nameRest
  rw [List.dropWhile_eq_nil_iff]
  exact fun x hx => plainChar_inName stop x (h x hx) hs

theorem noNul_of_plain (f : List Char) (h : ∀ ch ∈ f, plainChar ch = true) : NoNul f := by
  intro hmem
  have := h NUL hmem
  simp [plainChar] at this

/-- A plain filename that ends the line and has no trailing colon is copied whole. -/
theorem copyTarget_plain (stop : Char) (f : List Char) (hs : stop = '<' ∨ stop = '>')
    (h : ∀ ch ∈ f, plainChar ch = true) (hcolon : f.getLast? ≠ some ':') :
    copyTarget stop f = f := by
  unfold copyTarget
  simp only [nameSpan_plain stop f hs h, nameRest_plain stop f hs h]
  rw [if_neg (fun hh => hcolon hh.2)]
  simp [safe_strncpy, c_str_of_noNul f (noNul_of_plain f h)]

/-- `ltrim` stops at once at a plain filename. -/
theorem ltrim_plain (f : List Char) (h : ∀ ch ∈ f, plainChar ch = true) : ltrim f = f := by
  cases f with
  | nil => rfl
  | cons c cs =>
    have hc := h c (List.mem_cons_self _ _)
    simp only [plainChar, Bool.and_eq_true, bne_iff_ne, ne_eq, Bool.not_eq_true'] at hc
    simp [ltrim, hc.1.1.1.1.2]

/-- C1 (evaluation at the failing input). On `dir > "a|b"` the double quotes are
balanced and the `|` at position 8 lies between them, yet GetRedirection ends the
output filename at that `|` (the target is `"a`), stores a NUL in its place and
returns 1: the filename loop that follows `>` does not look at quotes, so the opening
quote is swallowed by the filename and the quote flag is still off at the `|`. -/
theorem C1_quoted_pipe_is_parsed :
    balancedQuotes quotedPipeLine = true
    ∧ quotedPipeLine.get? 8 = some '|'
    ∧ insideQuotes quotedPipeLine 8 = true
    ∧ GetRedirection quotedPipeLine none none false
        = { line := "dir ".toList ++ [NUL, 'b', DQUOTE],
            ifn := none,
            ofn := some [DQUOTE, 'a'],
            append := false,
            num := 1 } := by
  refine ⟨by decide, by decide, by decide, ?_⟩
  simp [quotedPipeLine, GetRedirection, GetRedirection.scan, NUL, DQUOTE, ltrim, isspace,
    skipSecondGt, nameRest, nameSpan, copyTarget, inName, safe_strncpy, c_str]

/-- C2 (counterexample). On `dir > out.txt` the normalized line is `dir` followed by
the space that stood before the operator, not `dir`. -/
theorem C2_normalized_line_keeps_space :
    (GetRedirection "dir > out.txt".toList none none false).line = "dir ".toList
    ∧ (GetRedirection "dir > out.txt".toList none none false).line ≠ "dir".toList := by
  have h : (GetRedirection "dir > out.txt".toList none none false).line = "dir ".toList := by
    simp [GetRedirection, GetRedirection.scan, NUL, DQUOTE, ltrim, isspace,
      skipSecondGt, nameRest, nameSpan, copyTarget, inName, safe_strncpy, c_str]
  refine ⟨h, ?_⟩
  rw [h]
  decide

/-- C2 (amended). For every command word `c` and filename `f` made of plain characters
(no NUL, whitespace, double quote, `<`, `>`, `|`), `f` not ending in `:`, GetRedirection
on `c > f` (one space on each side of the operator), called with both targets absent,
sets the output target to `f` and append to false, leaves the input target absent,
returns 0, and the normalized line is `c` followed by the one space that preceded
the operator. -/
theorem C2_output_redirection (c f : List Char) (a : Bool)
    (hc : ∀ ch ∈ c, plainChar ch = true) (hf : ∀ ch ∈ f, plainChar ch = true)
    (hcolon : f.getLast? ≠ some ':') :
    GetRedirection (c ++ " > ".toList ++ f) none none a
      = { line := c ++ [' '], ifn := none, ofn := some f, append := false, num := 0 } := by
  have hline : c ++ " > ".toList ++ f = c ++ (' ' :: '>' :: ' ' :: f) := by
    simp
  rw [hline]
  unfold GetRedirection
  rw [scan_plain_append c _ _ hc, scan_space_cons]
  rw [GetRedirection.scan]
  have hskip : skipSecondGt (' ' :: f) = ' ' :: f := by
    simp [skipSecondGt]
  have htrim : ltrim (' ' :: f) = f := by
    rw [ltrim]
    simp [NUL, isspace, ltrim_plain f hf]
  simp only [hskip, htrim, nameRest_plain '<' f (Or.inl rfl) hf,
    copyTarget_plain '<' f (Or.inl rfl) hf hcolon, scan_nil]
  simp [NUL, DQUOTE]

/-- C2 (witness): `dir > out.txt` gives target `out.txt`, append false and the
normalized line `dir` with its trailing space. -/
theorem C2_output_redirection_witness :
    (∀ ch ∈ "dir".toList, plainChar ch = true)
    ∧ (∀ ch ∈ "out.txt".toList, plainChar ch = true)
    ∧ "out.txt".toList.getLast? ≠ some ':'
    ∧ GetRedirection ("dir".toList ++ " > ".toList ++ "out.txt".toList) none none true
      = { line := "dir".toList ++ [' '], ifn := none, ofn := some "out.txt".toList,
          append := false, num := 0 } :=
  ⟨by decide, by decide, by decide,
    C2_output_redirection "dir".toList "out.txt".toList true (by decide) (by decide) (by decide)⟩

end DOS_Shell

/-! ## Theorems about the autoexec registry -/

theorem c_str_length_le (s : List Char) : (c_str s).length ≤ s.length := by
  unfold c_str
  exact (List.takeWhile_sublist _).length_le

theorem c_str_noNul (s : List Char) : NoNul (c_str s) := by
  unfold NoNul c_str
  intro h
  have := List.mem_takeWhile_imp h
  simp at this

theorem find_char_none_of_not_mem (s : List Char) (c : Char) (pos : Nat) (h : c ∉ s) :
    find_char s c pos = none := by
  unfold find_char
  rw [Option.map_eq_none', List.findIdx?_eq_none_iff]
  intro x hx
  have hxs : x ∈ s := List.mem_of_mem_drop hx
  rw [beq_eq_false_iff_ne]
  intro e
  exact h (e ▸ hxs)

/-- A text without line feed goes through the CR LF loop unchanged. -/
theorem crlfLoop_of_no_lf (fuel : Nat) (s : List Char) (offset : Nat) (h : '\n' ∉ s) :
    crlfLoop fuel s offset = s := by
  cases fuel with
  | zero => rfl
  | succ n =>
    unfold crlfLoop
    rw [find_char_none_of_not_mem s '\n' offset h]
    simp

theorem crlf_of_no_lf (s : List Char) (h : '\n' ∉ s) : crlf s = s :=
  crlfLoop_of_no_lf _ s 0 h

theorem replace_with_crlf_noNul (s : List Char) (n : Nat) (h : NoNul s) :
    NoNul (replace_with_crlf s n) := by
  unfold NoNul replace_with_crlf at *
  intro hm
  rw [List.mem_append] at hm
  rcases hm with hm | hm
  · exact h (List.mem_of_mem_take hm)
  · rw [List.mem_cons, List.mem_cons] at hm
    rcases hm with hm | hm | hm
    · exact absurd hm (by decide)
    · exact absurd hm (by decide)
    · exact h (List.mem_of_mem_drop hm)

/-- The CR LF loop puts no NUL into a text. -/
theorem crlfLoop_noNul (fuel : Nat) (s : List Char) (offset : Nat) (h : NoNul s) :
    NoNul (crlfLoop fuel s offset) := by
  induction fuel generalizing s offset with
  | zero => exact h
  | succ n ih =>
    unfold crlfLoop
    split
    · split
      · exact h
      · split
        · split
          · exact ih _ _ h
          · exact ih _ _ (replace_with_crlf_noNul _ _ h)
        · exact ih _ _ (replace_with_crlf_noNul _ _ h)
    · exact h

theorem crlf_noNul (s : List Char) (h : NoNul s) : NoNul (crlf s) :=
  crlfLoop_noNul _ s 0 h

/-! ### The CR LF loop comes to its end -/

theorem findIdx?_split (l : List Char) (c : Char) (i : Nat)
    (h : l.findIdx? (fun x => x == c) = some i) :
    ∃ a b, l = a ++ c :: b ∧ c ∉ a ∧ a.length = i := by
  induction l generalizing i with
  | nil => simp at h
  | cons x xs ih =>
    simp only [List.findIdx?_cons, Nat.zero_add, List.findIdx?_succ] at h
    split at h
    · rename_i hx
      simp only [Option.some.injEq] at h
      subst h
      rw [beq_iff_eq] at hx
      subst hx
      exact ⟨[], xs, rfl, by simp, rfl⟩
    · rename_i hx
      rw [Option.map_eq_some'] at h
      obtain ⟨j, hj, rfl⟩ := h
      obtain ⟨a, b, hl, hc, hlen⟩ := ih j hj
      refine ⟨x :: a, b, by rw [hl]; rfl, ?_, by simp [hlen]⟩
      intro hm
      rw [List.mem_cons] at hm
      rcases hm with e | hm
      · subst e
        simp at hx
      · exact hc hm

/-- What `find` tells about the text: from `pos` on it holds no `c` before position
`n`, and `c` at position `n`. -/
theorem find_char_split (s : List Char) (c : Char) (pos n : Nat)
    (h : find_char s c pos = some n) :
    ∃ a b, s.drop pos = a ++ c :: b ∧ c ∉ a ∧ n = pos + a.length := by
  unfold find_char at h
  rw [Option.map_eq_some'] at h
  obtain ⟨i, hi, rfl⟩ := h
  obtain ⟨a, b, hl, hc, hlen⟩ := findIdx?_split _ c i hi
  exact ⟨a, b, hl, hc, by rw [hlen]⟩

theorem drop_of_split (s a b : List Char) (c : Char) (pos : Nat)
    (h : s.drop pos = a ++ c :: b) : s.drop (pos + a.length + 1) = b := by
  have : s.drop (pos + a.length + 1) = (s.drop pos).drop (a.length + 1) := by
    rw [List.drop_drop]
    rfl
  rw [this, h, List.drop_append_eq_append_drop]
  simp

theorem lfAfter_of_find (s : List Char) (offset n : Nat)
    (h : find_char s '\n' offset = some n) :
    lfAfter s offset = lfAfter s (n + 1) + 1 := by
  obtain ⟨a, b, hl, hc, rfl⟩ := find_char_split s '\n' offset n h
  unfold lfAfter
  rw [drop_of_split s a b '\n' offset hl, hl, List.count_append,
    List.count_eq_zero_of_not_mem hc, List.count_cons_self]
  omega

theorem find_char_lt_length (s : List Char) (c : Char) (pos n : Nat)
    (h : find_char s c pos = some n) : n < s.length := by
  obtain ⟨a, b, hl, _, rfl⟩ := find_char_split s c pos n h
  have := congrArg List.length hl
  simp only [List.length_drop, List.length_append, List.length_cons] at this
  omega

theorem lfAfter_replace (s : List Char) (n : Nat) (h : n < s.length) :
    lfAfter (replace_with_crlf s n) (n + 2) = lfAfter s (n + 1) := by
  unfold lfAfter replace_with_crlf
  have hlen : (s.take n).length = n := by
    rw [List.length_take]
    omega
  rw [List.drop_append_eq_append_drop, hlen]
  have h0 : List.drop (n + 2) (List.take n s) = [] := by
    rw [List.drop_eq_nil_iff, hlen]
    omega
  rw [h0]
  simp

/-- The CR LF loop needs one iteration for every line feed that lies ahead and one
last test: with that many iterations allowed, allowing more changes nothing. -/
theorem crlfLoop_fuel (k : Nat) : ∀ (fuel : Nat) (s : List Char) (offset : Nat),
    lfAfter s offset = k → k < fuel →
    crlfLoop fuel s offset = crlfLoop (k + 1) s offset := by
  induction k with
  | zero =>
    intro fuel s offset hk hfuel
    obtain ⟨f, rfl⟩ : ∃ f, fuel = f + 1 := ⟨fuel - 1, by omega⟩
    unfold crlfLoop
    split
    · cases hfind : find_char s '\n' offset with
      | none => rfl
      | some n =>
        have := lfAfter_of_find s offset n hfind
        omega
    · rfl
  | succ k ih =>
    intro fuel s offset hk hfuel
    obtain ⟨f, rfl⟩ : ∃ f, fuel = f + 1 := ⟨fuel - 1, by omega⟩
    have hf : k < f := by omega
    unfold crlfLoop
    split
    · cases hfind : find_char s '\n' offset with
      | none => rfl
      | some n =>
        have h1 := lfAfter_of_find s offset n hfind
        have hn := find_char_lt_length s '\n' offset n hfind
        have h2 := lfAfter_replace s n hn
        have hk1 : lfAfter s (n + 1) = k := by omega
        have hk2 : lfAfter (replace_with_crlf s n) (n + 2) = k := by omega
        simp only
        split
        · split
          · exact ih f s (n + 1) hk1 hf
          · exact ih f _ (n + 2) hk2 hf
        · exact ih f _ (n + 2) hk2 hf
    · rfl

theorem lfAfter_le_length (s : List Char) (offset : Nat) : lfAfter s offset ≤ s.length := by
  unfold lfAfter
  have h1 := List.count_le_length '\n' (s.drop offset)
  have h2 : (s.drop offset).length ≤ s.length := by
    rw [List.length_drop]
    omega
  omega

/-- The bound on the iterations that `crlf` allows is never used up: allowing more
iterations gives the same text. -/
theorem crlf_fuel (s : List Char) (fuel : Nat) (h : s.length < fuel) :
    crlfLoop fuel s 0 = crlf s := by
  unfold crlf
  rw [crlfLoop_fuel (lfAfter s 0) fuel s 0 rfl
      (Nat.lt_of_le_of_lt (lfAfter_le_length s 0) h),
    crlfLoop_fuel (lfAfter s 0) (s.length + 1) s 0 rfl
      (Nat.lt_succ_of_le (lfAfter_le_length s 0))]

/-- The CR LF loop of `CreateAutoexec` comes to its end within one iteration for each
character of the line and one last test: whatever is allowed beyond that, the
resulting text is the same. -/
theorem crlf_needs_no_more_iterations (s : List Char) (n : Nat) :
    crlfLoop (s.length + 1 + n) s 0 = crlf s :=
  crlf_fuel s (s.length + 1 + n) (by omega)

namespace AutoexecObject

theorem assembled_nil : assembled [] = [] := rfl

theorem assembled_cons (t : List Char) (ts : List (List Char)) :
    assembled (t :: ts) = c_str (crlf t) ++ ['\r', '\n'] ++ assembled ts := by
  simp [assembled]

theorem assembled_append (xs ys : List (List Char)) :
    assembled (xs ++ ys) = assembled xs ++ assembled ys := by
  simp [assembled]

/-- When the loop of `CreateAutoexec` writes every line, the buffer holds what it
held before followed by the assembled lines. -/
theorem lines_ok (strs : List (List Char)) (data d : List Char)
    (h : CreateAutoexec.lines strs data = (true, d)) : d = data ++ assembled strs := by
  induction strs generalizing data with
  | nil =>
    simp only [CreateAutoexec.lines, Prod.mk.injEq, true_and] at h
    simp [assembled_nil, h]
  | cons t ts ih =>
    unfold CreateAutoexec.lines at h
    simp only at h
    split at h
    · simp at h
    · rw [ih _ h, assembled_cons]
      simp

/-- The loop of `CreateAutoexec` never leaves more in the buffer than fits with its
terminating NUL. -/
theorem lines_bound (strs : List (List Char)) (data : List Char)
    (h : data.length + 1 ≤ AUTOEXEC_SIZE) :
    (CreateAutoexec.lines strs data).2.length + 1 ≤ AUTOEXEC_SIZE := by
  induction strs generalizing data with
  | nil => simpa [CreateAutoexec.lines] using h
  | cons t ts ih =>
    unfold CreateAutoexec.lines
    simp only
    split
    · exact h
    · apply ih
      have := c_str_length_le (crlf t)
      simp only [List.length_append, List.length_cons, List.length_nil]
      omega

/-- The loop of `CreateAutoexec` writes every line when the sizes it reckons fit,
with one byte to spare for the terminating NUL. -/
theorem lines_of_fits (strs : List (List Char)) (data : List Char)
    (h : data.length + lineSizes strs + 1 ≤ AUTOEXEC_SIZE) :
    CreateAutoexec.lines strs data = (true, data ++ assembled strs) := by
  induction strs generalizing data with
  | nil => simp [CreateAutoexec.lines, assembled_nil]
  | cons t ts ih =>
    have hsz : lineSizes (t :: ts) = (crlf t).length + 2 + lineSizes ts := by
      simp [lineSizes]
    rw [hsz] at h
    unfold CreateAutoexec.lines
    simp only
    rw [if_neg (by omega)]
    rw [ih, assembled_cons]
    · simp
    · have := c_str_length_le (crlf t)
      simp only [List.length_append, List.length_cons, List.length_nil]
      omega

/-- The two ways `CreateAutoexec` can end, in terms of its loop. -/
theorem CreateAutoexec_eq (g : Globals) :
    CreateAutoexec g =
      if (CreateAutoexec.lines g.autoexec_strings []).1 = true then
        Outcome.ok ()
          { g with
            autoexec_data := (CreateAutoexec.lines g.autoexec_strings []).2,
            vfile := if g.first_shell.isSome then
                some (CreateAutoexec.lines g.autoexec_strings []).2 else g.vfile }
      else
        Outcome.fatal Exit.file_overflow
          { g with
            autoexec_data := (CreateAutoexec.lines g.autoexec_strings []).2,
            vfile := if g.first_shell.isSome then none else g.vfile } := by
  unfold CreateAutoexec
  cases hs : g.first_shell.isSome <;>
    rcases hl : CreateAutoexec.lines g.autoexec_strings [] with ⟨b, d⟩ <;>
    cases b <;> simp [hs, hl]

/-- `CreateAutoexec` returns when the sizes it reckons fit, and then the buffer holds
the assembled lines. -/
theorem CreateAutoexec_of_fits (g : Globals)
    (h : lineSizes g.autoexec_strings + 1 ≤ AUTOEXEC_SIZE) :
    CreateAutoexec g = Outcome.ok ()
      { g with
        autoexec_data := assembled g.autoexec_strings,
        vfile := if g.first_shell.isSome then some (assembled g.autoexec_strings)
          else g.vfile } := by
  rw [CreateAutoexec_eq, lines_of_fits g.autoexec_strings [] (by simpa using h)]
  simp

/-- When `CreateAutoexec` returns, the buffer holds the assembled lines and nothing
else of the state changed but the published file. -/
theorem CreateAutoexec_ok (g g1 : Globals) (h : CreateAutoexec g = Outcome.ok () g1) :
    g1 = { g with
        autoexec_data := assembled g.autoexec_strings,
        vfile := if g.first_shell.isSome then some (assembled g.autoexec_strings)
          else g.vfile } := by
  rw [CreateAutoexec_eq] at h
  split at h
  · rename_i hb
    have hl : CreateAutoexec.lines g.autoexec_strings []
        = (true, (CreateAutoexec.lines g.autoexec_strings []).2) := by
      rw [← hb]
    have hd := lines_ok _ _ _ hl
    simp only [List.nil_append] at hd
    simp only [Outcome.ok.injEq, true_and] at h
    rw [← h, hd]
  · simp at h

/-- The environment update of `Install` touches nothing but the `SetEnv` record. -/
theorem updateEnv_eq (buf : List Char) (g : Globals) :
    ∃ env, Install.updateEnv buf g = { g with setenv := env } := by
  unfold Install.updateEnv
  by_cases h1 : g.first_shell.isSome = true
  · by_cases h2 : isSetLine (safe_strncpy buf (buf.length + 1)) = true
    · cases h3 : strpbrk_eq (List.drop 4 (safe_strncpy buf (buf.length + 1))) with
      | none => exact ⟨_, by simp only [h1, h2, h3, if_true]; rfl⟩
      | some i => exact ⟨_, by simp only [h1, h2, h3, if_true]; rfl⟩
    · exact ⟨g.setenv, by simp only [h1, h2, if_true]; rfl⟩
  · exact ⟨g.setenv, by simp only [h1]; rfl⟩

/-- What a successful `Install` leaves: the latch set, the text appended, the buffer
rebuilt. -/
theorem Install_ok (o o1 : AutoexecObject) (text : List Char) (g g1 : Globals)
    (h : o.Install text g = Outcome.ok o1 g1) :
    o.installed = false ∧ o1 = { installed := true, buf := text }
    ∧ g1.autoexec_strings = g.autoexec_strings ++ [text]
    ∧ g1.autoexec_data = assembled (g.autoexec_strings ++ [text])
    ∧ g1.first_shell = g.first_shell := by
  unfold Install at h
  split at h
  · simp at h
  · rename_i hi
    split at h
    · simp at h
    · rename_i u g2 hc
      have hg2 := CreateAutoexec_ok _ _ hc
      obtain ⟨env, henv⟩ := updateEnv_eq text g2
      simp only [Outcome.ok.injEq] at h
      obtain ⟨ho, hg⟩ := h
      rw [henv] at hg
      subst hg
      subst hg2
      refine ⟨by simpa using hi, ho.symm, rfl, rfl, rfl⟩

/-- What a successful `InstallBefore` leaves: the latch set, the text put in front,
the buffer rebuilt. -/
theorem InstallBefore_ok (o o1 : AutoexecObject) (text : List Char) (g g1 : Globals)
    (h : o.InstallBefore text g = Outcome.ok o1 g1) :
    o.installed = false ∧ o1 = { installed := true, buf := text }
    ∧ g1.autoexec_strings = text :: g.autoexec_strings
    ∧ g1.autoexec_data = assembled (text :: g.autoexec_strings)
    ∧ g1.first_shell = g.first_shell := by
  unfold InstallBefore at h
  split at h
  · simp at h
  · rename_i hi
    split at h
    · simp at h
    · rename_i u g2 hc
      have hg2 := CreateAutoexec_ok _ _ hc
      simp only [Outcome.ok.injEq] at h
      obtain ⟨ho, hg⟩ := h
      subst hg
      subst hg2
      refine ⟨by simpa using hi, ho.symm, rfl, rfl, rfl⟩

/-- For texts without NUL the assembled bytes are the texts with CR LF line ends,
each followed by CR LF. -/
theorem assembled_of_noNul (strs : List (List Char)) (h : ∀ t ∈ strs, NoNul t) :
    assembled strs = strs.flatMap (fun t => crlf t ++ ['\r', '\n']) := by
  induction strs with
  | nil => rfl
  | cons t ts ih =>
    rw [assembled_cons, List.flatMap_cons, ih (fun x hx => h x (List.mem_cons_of_mem _ hx)),
      c_str_of_noNul _ (crlf_noNul t (h t (List.mem_cons_self _ _)))]

end AutoexecObject

theorem mem_appended (ops : List Op) (t : List Char) (h : t ∈ appended ops) :
    ∃ op ∈ ops, op.text = t := by
  induction ops with
  | nil => simp [appended] at h
  | cons op ops ih =>
    cases op with
    | Install id text =>
      simp only [appended, List.mem_cons] at h
      rcases h with h | h
      · exact ⟨_, List.mem_cons_self _ _, h.symm⟩
      · obtain ⟨op, hop, ht⟩ := ih h
        exact ⟨op, List.mem_cons_of_mem _ hop, ht⟩
    | InstallBefore id text =>
      simp only [appended] at h
      obtain ⟨op, hop, ht⟩ := ih h
      exact ⟨op, List.mem_cons_of_mem _ hop, ht⟩

theorem mem_prepended (ops : List Op) (t : List Char) (h : t ∈ prepended ops) :
    ∃ op ∈ ops, op.text = t := by
  induction ops with
  | nil => simp [prepended] at h
  | cons op ops ih =>
    cases op with
    | Install id text =>
      simp only [prepended] at h
      obtain ⟨op, hop, ht⟩ := ih h
      exact ⟨op, List.mem_cons_of_mem _ hop, ht⟩
    | InstallBefore id text =>
      simp only [prepended, List.mem_cons] at h
      rcases h with h | h
      · exact ⟨_, List.mem_cons_self _ _, h.symm⟩
      · obtain ⟨op, hop, ht⟩ := ih h
        exact ⟨op, List.mem_cons_of_mem _ hop, ht⟩

/-- After a run of installs that all return, the sequence holds the prepended texts,
latest first, then what it held before, then the appended texts in order; and the
buffer holds the assembled sequence whenever it did so before the run. -/
theorem runOps_ok (ops : List Op) (objs objs1 : Nat → AutoexecObject) (g g1 : Globals)
    (h : runOps ops objs g = Outcome.ok objs1 g1) :
    g1.autoexec_strings = (prepended ops).reverse ++ g.autoexec_strings ++ appended ops
    ∧ (g.autoexec_data = assembled g.autoexec_strings →
        g1.autoexec_data = assembled g1.autoexec_strings) := by
  induction ops generalizing objs g with
  | nil =>
    simp only [runOps, Outcome.ok.injEq] at h
    obtain ⟨_, hg⟩ := h
    subst hg
    simp [prepended, appended]
  | cons op ops ih =>
    unfold runOps at h
    split at h
    · rename_i objs2 g2 hop
      obtain ⟨hs, hd⟩ := ih _ _ h
      cases op with
      | Install id text =>
        unfold runOp at hop
        simp only at hop
        split at hop
        · rename_i o g3 hi
          simp only [Outcome.ok.injEq] at hop
          obtain ⟨_, hg⟩ := hop
          subst hg
          obtain ⟨_, _, hs3, hd3, _⟩ := AutoexecObject.Install_ok _ _ _ _ _ hi
          refine ⟨?_, fun _ => hd (by rw [hd3, hs3])⟩
          rw [hs, hs3]
          simp [prepended, appended]
        · simp at hop
      | InstallBefore id text =>
        unfold runOp at hop
        simp only at hop
        split at hop
        · rename_i o g3 hi
          simp only [Outcome.ok.injEq] at hop
          obtain ⟨_, hg⟩ := hop
          subst hg
          obtain ⟨_, _, hs3, hd3, _⟩ := AutoexecObject.InstallBefore_ok _ _ _ _ _ hi
          refine ⟨?_, fun _ => hd (by rw [hd3, hs3])⟩
          rw [hs, hs3]
          simp [prepended, appended]
        · simp at hop
    · simp at h

theorem lineSizes_nil : lineSizes [] = 0 := rfl

theorem lineSizes_cons (t : List Char) (ts : List (List Char)) :
    lineSizes (t :: ts) = (crlf t).length + 2 + lineSizes ts := by
  simp [lineSizes]

theorem lineSizes_append (xs ys : List (List Char)) :
    lineSizes (xs ++ ys) = lineSizes xs + lineSizes ys := by
  simp [lineSizes]

/-- An install on a line object that was not installed goes to `CreateAutoexec` with
the text appended. -/
theorem Install_of_fits (o : AutoexecObject) (text : List Char) (g : Globals)
    (hfresh : o.installed = false)
    (hfits : lineSizes (g.autoexec_strings ++ [text]) + 1 ≤ AUTOEXEC_SIZE) :
    ∃ g1, o.Install text g = Outcome.ok { installed := true, buf := text } g1
      ∧ g1.autoexec_strings = g.autoexec_strings ++ [text] := by
  unfold AutoexecObject.Install
  rw [if_neg (by simp [hfresh])]
  simp only
  rw [AutoexecObject.CreateAutoexec_of_fits _ hfits]
  obtain ⟨env, henv⟩ := AutoexecObject.updateEnv_eq text
    { g with
      autoexec_strings := g.autoexec_strings ++ [text],
      autoexec_data := assembled (g.autoexec_strings ++ [text]),
      vfile := if g.first_shell.isSome then some (assembled (g.autoexec_strings ++ [text]))
        else g.vfile }
  exact ⟨_, rfl, by simp only [henv]⟩

theorem InstallBefore_of_fits (o : AutoexecObject) (text : List Char) (g : Globals)
    (hfresh : o.installed = false)
    (hfits : lineSizes (text :: g.autoexec_strings) + 1 ≤ AUTOEXEC_SIZE) :
    ∃ g1, o.InstallBefore text g = Outcome.ok { installed := true, buf := text } g1
      ∧ g1.autoexec_strings = text :: g.autoexec_strings := by
  unfold AutoexecObject.InstallBefore
  rw [if_neg (by simp [hfresh])]
  simp only
  rw [AutoexecObject.CreateAutoexec_of_fits _ hfits]
  exact ⟨_, rfl, rfl⟩

/-- `CreateAutoexec` ends fatally, with the buffer within bounds, when the assembled
lines are longer than the buffer. -/
theorem CreateAutoexec_overflow (g : Globals)
    (hbig : AUTOEXEC_SIZE < (assembled g.autoexec_strings).length) :
    ∃ g1, AutoexecObject.CreateAutoexec g = Outcome.fatal Exit.file_overflow g1
      ∧ g1.autoexec_data.length + 1 ≤ AUTOEXEC_SIZE := by
  have hb := AutoexecObject.lines_bound g.autoexec_strings [] (by decide)
  rw [AutoexecObject.CreateAutoexec_eq]
  split
  · rename_i hflag
    have hl : AutoexecObject.CreateAutoexec.lines g.autoexec_strings []
        = (true, (AutoexecObject.CreateAutoexec.lines g.autoexec_strings []).2) := by
      rw [← hflag]
    have hd := AutoexecObject.lines_ok _ _ _ hl
    simp only [List.nil_append] at hd
    rw [hd] at hb
    omega
  · exact ⟨_, rfl, hb⟩

theorem assembled_length_cons_comm (t : List Char) (ts : List (List Char)) :
    (assembled (t :: ts)).length = (assembled (ts ++ [t])).length := by
  rw [AutoexecObject.assembled_append, AutoexecObject.assembled_cons,
    AutoexecObject.assembled_cons, AutoexecObject.assembled_nil]
  simp only [List.length_append, List.length_cons, List.length_nil]
  omega

/-! ### C3 to C6 -/

/-- C3. After every sequence of installs that all return, started with no line in
the sequence, the sequence holds the texts installed with InstallBefore, the latest
first, followed by the texts installed with Install in their order, and the buffer
is the concatenation of these texts (texts without NUL), each with CR LF line ends
and followed by CR LF; so every prepended line stands before every appended one. -/
theorem C3_buffer_is_ordered_concatenation (ops : List Op)
    (objs objs1 : Nat → AutoexecObject) (g g1 : Globals)
    (hstrings : g.autoexec_strings = []) (hdata : g.autoexec_data = [])
    (hnul : ∀ op ∈ ops, NoNul op.text)
    (h : runOps ops objs g = Outcome.ok objs1 g1) :
    g1.autoexec_strings = (prepended ops).reverse ++ appended ops
    ∧ g1.autoexec_data
        = ((prepended ops).reverse ++ appended ops).flatMap
            (fun t => crlf t ++ ['\r', '\n']) := by
  obtain ⟨hs, hd⟩ := runOps_ok ops objs objs1 g g1 h
  rw [hstrings] at hs
  simp only [List.append_nil] at hs
  refine ⟨hs, ?_⟩
  rw [hd (by rw [hstrings, hdata]; rfl), hs]
  apply AutoexecObject.assembled_of_noNul
  intro t ht
  rw [List.mem_append, List.mem_reverse] at ht
  rcases ht with ht | ht
  · obtain ⟨op, hop, e⟩ := mem_prepended ops t ht
    exact e ▸ hnul op hop
  · obtain ⟨op, hop, e⟩ := mem_appended ops t ht
    exact e ▸ hnul op hop

/-- C3 (witness): `C:` appended, `@echo off` prepended, `dir` and `exit` appended as
one text give the buffer `@echo off`, `C:`, `dir`, `exit`, each line ending in CR LF. -/
theorem C3_buffer_is_ordered_concatenation_witness :
    Globals.init.autoexec_strings = [] ∧ Globals.init.autoexec_data = []
    ∧ (∀ op ∈ c3Ops, NoNul op.text)
    ∧ runOps c3Ops (fun _ => AutoexecObject.fresh) Globals.init = Outcome.ok c3Objs c3Globals
    ∧ c3Globals.autoexec_strings = (prepended c3Ops).reverse ++ appended c3Ops
    ∧ c3Globals.autoexec_data
        = ((prepended c3Ops).reverse ++ appended c3Ops).flatMap
            (fun t => crlf t ++ ['\r', '\n']) :=
  ⟨rfl, rfl, by decide, by rfl,
    C3_buffer_is_ordered_concatenation c3Ops (fun _ => AutoexecObject.fresh) c3Objs
      Globals.init c3Globals rfl rfl (by decide) (by rfl)⟩

/-- C4. When the content assembled from the sequence with the new line (every line
with CR LF line ends plus its two-byte CR LF) is longer than the 4096 bytes of the
buffer, the install that adds the line, be it Install or InstallBefore, ends in
the fatal exit `SYSTEM:Autoexec.bat file overflow`, and what the buffer holds at that
moment fits in it together with the terminating NUL: nothing was written past the
end. -/
theorem C4_overflow_is_fatal (o : AutoexecObject) (text : List Char) (g : Globals)
    (hfresh : o.installed = false)
    (hbig : AUTOEXEC_SIZE < (assembled (g.autoexec_strings ++ [text])).length) :
    (∃ g1, o.Install text g = Outcome.fatal Exit.file_overflow g1
        ∧ g1.autoexec_data.length + 1 ≤ AUTOEXEC_SIZE)
    ∧ (∃ g1, o.InstallBefore text g = Outcome.fatal Exit.file_overflow g1
        ∧ g1.autoexec_data.length + 1 ≤ AUTOEXEC_SIZE) := by
  constructor
  · obtain ⟨g1, hc, hb⟩ := CreateAutoexec_overflow
      { g with autoexec_strings := g.autoexec_strings ++ [text] } hbig
    refine ⟨g1, ?_, hb⟩
    unfold AutoexecObject.Install
    rw [if_neg (by simp [hfresh])]
    simp only [hc]
  · obtain ⟨g1, hc, hb⟩ := CreateAutoexec_overflow
      { g with autoexec_strings := text :: g.autoexec_strings }
      (by rw [assembled_length_cons_comm]; exact hbig)
    refine ⟨g1, ?_, hb⟩
    unfold AutoexecObject.InstallBefore
    rw [if_neg (by simp [hfresh])]
    simp only [hc]

theorem not_mem_replicate_of_ne (n : Nat) (a b : Char) (h : b ≠ a) :
    b ∉ List.replicate n a := by
  intro hm
  exact h (List.eq_of_mem_replicate hm)

theorem crlf_replicate (n : Nat) (a : Char) (h : '\n' ≠ a) :
    crlf (List.replicate n a) = List.replicate n a :=
  crlf_of_no_lf _ (not_mem_replicate_of_ne n a '\n' h)

theorem c_str_replicate (n : Nat) (a : Char) (h : NUL ≠ a) :
    c_str (List.replicate n a) = List.replicate n a :=
  c_str_of_noNul _ (not_mem_replicate_of_ne n a NUL h)

/-- Two lines of `m` and of `n` letters take `m + n + 4` bytes in the buffer. -/
theorem assembled_two_replicate_length (m n : Nat) :
    (assembled ([List.replicate m 'a'] ++ [List.replicate n 'b'])).length = m + n + 4 := by
  simp only [List.singleton_append, AutoexecObject.assembled_cons,
    AutoexecObject.assembled_nil]
  rw [crlf_replicate m 'a' (by decide), crlf_replicate n 'b' (by decide),
    c_str_replicate m 'a' (by decide), c_str_replicate n 'b' (by decide)]
  simp only [List.length_append, List.length_replicate, List.length_cons, List.length_nil]
  omega

/-- C4 (witness): with a line of 4000 letters in the sequence, installing a line of
100 letters would make 4104 bytes, and the install is fatal. -/
theorem C4_overflow_is_fatal_witness :
    AutoexecObject.fresh.installed = false
    ∧ AUTOEXEC_SIZE
        < (assembled (c4Globals.autoexec_strings ++ [List.replicate 100 'b'])).length
    ∧ (∃ g1, AutoexecObject.fresh.Install (List.replicate 100 'b') c4Globals
            = Outcome.fatal Exit.file_overflow g1
        ∧ g1.autoexec_data.length + 1 ≤ AUTOEXEC_SIZE)
    ∧ (∃ g1, AutoexecObject.fresh.InstallBefore (List.replicate 100 'b') c4Globals
            = Outcome.fatal Exit.file_overflow g1
        ∧ g1.autoexec_data.length + 1 ≤ AUTOEXEC_SIZE) :=
  have hbig : AUTOEXEC_SIZE
      < (assembled (c4Globals.autoexec_strings ++ [List.replicate 100 'b'])).length := by
    have h := assembled_two_replicate_length 4000 100
    have e : c4Globals.autoexec_strings = [List.replicate 4000 'a'] := rfl
    rw [e, h]
    decide
  ⟨rfl, hbig,
    C4_overflow_is_fatal AutoexecObject.fresh (List.replicate 100 'b') c4Globals rfl hbig⟩

/-- A single line of `n` letters with `n + 3 > 4096` fails the size test at once. -/
theorem lines_single_replicate (n : Nat) (h : AUTOEXEC_SIZE < n + 3) :
    AutoexecObject.CreateAutoexec.lines [List.replicate n 'a'] [] = (false, []) := by
  unfold AutoexecObject.CreateAutoexec.lines
  simp only [crlf_replicate n 'a' (by decide), List.length_replicate, List.length_nil]
  rw [if_pos (by omega)]

/-- C5 (counterexample). One line of 4094 letters makes, with its CR LF, exactly the
4096 bytes of the capacity, and installing it on a fresh line object in the empty
registry is fatal: the terminating NUL needs the last byte. -/
theorem C5_exactly_full_is_fatal :
    lineSizes [List.replicate 4094 'a'] ≤ AUTOEXEC_SIZE
    ∧ ∃ g1, AutoexecObject.fresh.Install (List.replicate 4094 'a') Globals.init
        = Outcome.fatal Exit.file_overflow g1 := by
  constructor
  · rw [lineSizes_cons, lineSizes_nil, crlf_replicate 4094 'a' (by decide),
      List.length_replicate]
    decide
  · have hl := lines_single_replicate 4094 (by decide)
    unfold AutoexecObject.Install
    rw [if_neg (by simp [AutoexecObject.fresh])]
    simp only [AutoexecObject.CreateAutoexec_eq, Globals.init, List.nil_append, hl]
    exact ⟨_, rfl⟩

/-- C5 (amended). Every sequence of installs on distinct line objects that are not
yet installed returns without a fatal exit when the sizes of all lines, those
already in the sequence and the new ones (each line with CR LF line ends plus two
bytes for its CR LF), come to at most 4095 bytes, one less than the capacity. -/
theorem C5_installs_within_capacity (ops : List Op) (objs : Nat → AutoexecObject)
    (g : Globals)
    (hfresh : ∀ op ∈ ops, (objs op.id).installed = false)
    (hdistinct : (ops.map Op.id).Nodup)
    (hfits : lineSizes (g.autoexec_strings ++ ops.map Op.text) + 1 ≤ AUTOEXEC_SIZE) :
    ∃ objs1 g1, runOps ops objs g = Outcome.ok objs1 g1 := by
  induction ops generalizing objs g with
  | nil => exact ⟨objs, g, rfl⟩
  | cons op ops ih =>
    rw [List.map_cons, List.nodup_cons] at hdistinct
    obtain ⟨hnotin, hnodup⟩ := hdistinct
    have hrest : ∀ o1 : AutoexecObject, ∀ op1 ∈ ops,
        (Function.update objs op.id o1 op1.id).installed = false := by
      intro o1 op1 hop1
      have hne : op1.id ≠ op.id := by
        intro e
        exact hnotin (e ▸ List.mem_map_of_mem Op.id hop1)
      rw [Function.update_noteq hne]
      exact hfresh op1 (List.mem_cons_of_mem _ hop1)
    have hop := hfresh op (List.mem_cons_self _ _)
    rw [List.map_cons, lineSizes_append, lineSizes_cons] at hfits
    cases op with
    | Install id text =>
      obtain ⟨g1, hi, hs⟩ := Install_of_fits (objs id) text g hop (by
        rw [lineSizes_append, lineSizes_cons, lineSizes_nil]
        simp only [Op.text] at hfits
        omega)
      obtain ⟨objs2, g2, h2⟩ := ih (Function.update objs id { installed := true, buf := text })
        g1 (hrest _) hnodup (by
          rw [hs, lineSizes_append, lineSizes_append, lineSizes_cons, lineSizes_nil]
          simp only [Op.text] at hfits
          omega)
      refine ⟨objs2, g2, ?_⟩
      unfold runOps runOp
      simp only [hi, h2]
    | InstallBefore id text =>
      obtain ⟨g1, hi, hs⟩ := InstallBefore_of_fits (objs id) text g hop (by
        rw [lineSizes_cons]
        simp only [Op.text] at hfits
        omega)
      obtain ⟨objs2, g2, h2⟩ := ih (Function.update objs id { installed := true, buf := text })
        g1 (hrest _) hnodup (by
          rw [hs, lineSizes_append, lineSizes_cons]
          simp only [Op.text] at hfits
          omega)
      refine ⟨objs2, g2, ?_⟩
      unfold runOps runOp
      simp only [hi, h2]

/-- C5 (witness): the three installs of the C3 witness fit and return. -/
theorem C5_installs_within_capacity_witness :
    (∀ op ∈ c3Ops, ((fun _ => AutoexecObject.fresh) op.id : AutoexecObject).installed = false)
    ∧ (c3Ops.map Op.id).Nodup
    ∧ lineSizes (Globals.init.autoexec_strings ++ c3Ops.map Op.text) + 1 ≤ AUTOEXEC_SIZE
    ∧ ∃ objs1 g1, runOps c3Ops (fun _ => AutoexecObject.fresh) Globals.init
        = Outcome.ok objs1 g1 :=
  ⟨by decide, by decide, by decide,
    C5_installs_within_capacity c3Ops (fun _ => AutoexecObject.fresh) Globals.init
      (by decide) (by decide) (by decide)⟩

/-- C6. Once a line object has been installed with a text `a`, by Install or by
InstallBefore, every further Install or InstallBefore on it, with any text and in
any state of the registry, ends in the fatal exit `autoexec: already created` (with
the text `a`), and the state at that exit is the state before the call: no entry
was added to the sequence. -/
theorem C6_second_install_is_fatal (o o1 : AutoexecObject) (a b : List Char)
    (g g1 g2 : Globals)
    (h : o.Install a g = Outcome.ok o1 g1 ∨ o.InstallBefore a g = Outcome.ok o1 g1) :
    o1.Install b g2 = Outcome.fatal (Exit.already_created (c_str a)) g2
    ∧ o1.InstallBefore b g2 = Outcome.fatal (Exit.already_created (c_str a)) g2 := by
  have ho1 : o1 = { installed := true, buf := a } := by
    rcases h with h | h
    · exact (AutoexecObject.Install_ok _ _ _ _ _ h).2.1
    · exact (AutoexecObject.InstallBefore_ok _ _ _ _ _ h).2.1
  subst ho1
  constructor
  · unfold AutoexecObject.Install
    simp
  · unfold AutoexecObject.InstallBefore
    simp

/-- C6 (witness): a line object installed with `C:` cannot be installed again with
`D:`, neither at the back nor at the front. -/
theorem C6_second_install_is_fatal_witness :
    (AutoexecObject.fresh.Install "C:".toList Globals.init
        = Outcome.ok { installed := true, buf := "C:".toList } c6Globals
      ∨ AutoexecObject.fresh.InstallBefore "C:".toList Globals.init
        = Outcome.ok { installed := true, buf := "C:".toList } c6Globals)
    ∧ (({ installed := true, buf := "C:".toList } : AutoexecObject).Install "D:".toList
          c6Globals
        = Outcome.fatal (Exit.already_created (c_str "C:".toList)) c6Globals
      ∧ ({ installed := true, buf := "C:".toList } : AutoexecObject).InstallBefore
          "D:".toList c6Globals
        = Outcome.fatal (Exit.already_created (c_str "C:".toList)) c6Globals) :=
  ⟨Or.inl (by decide),
    C6_second_install_is_fatal AutoexecObject.fresh { installed := true, buf := "C:".toList }
      "C:".toList "D:".toList Globals.init c6Globals c6Globals (Or.inl (by decide))⟩

/-! ### The removal loop of the destructor -/

namespace AutoexecObject

theorem runsAutoexecBat_setenv (g : Globals) (env : List (List Char × List Char)) :
    runsAutoexecBat { g with setenv := env } = runsAutoexecBat g := rfl

theorem dtor_loop_nil (fuel : Nat) (buf : List Char) (before : List (List Char))
    (g : Globals) : dtor.loop (fuel + 1) buf before [] g = some (buf, before, g) := by
  simp [dtor.loop]

/-- An entry that differs from the text is passed over. -/
theorem dtor_loop_ne (fuel : Nat) (buf x : List Char) (before xs : List (List Char))
    (g : Globals) (h : x ≠ buf) :
    dtor.loop (fuel + 1) buf before (x :: xs) g = dtor.loop fuel buf (before ++ [x]) xs g := by
  simp [dtor.loop, h]

/-- An entry that equals the text is erased when no `AUTOEXEC.BAT` stream is active
and the loop does not take its `continue`. -/
theorem dtor_loop_erase_step (fuel : Nat) (buf : List Char) (before xs : List (List Char))
    (g : Globals) (hidle : runsAutoexecBat g = false) (hstall : stalls buf = false) :
    ∃ env, dtor.loop (fuel + 1) buf before (buf :: xs) g
      = dtor.loop fuel buf before xs { g with setenv := env } := by
  unfold stalls buf2 at hstall
  by_cases h2 : isSetLine (safe_strncpy buf (buf.length + 1)) = true
  · cases h3 : strpbrk_eq (List.drop 4 (safe_strncpy buf (buf.length + 1))) with
    | none => simp [h2, h3] at hstall
    | some i =>
      by_cases h1 : g.first_shell.isSome = true
      · refine ⟨g.setenv ++ [((List.drop 4 (safe_strncpy buf (buf.length + 1))).take i, [])], ?_⟩
        have hr : runsAutoexecBat
            { g with setenv := g.setenv
                ++ [((List.drop 4 (safe_strncpy buf (buf.length + 1))).take i, [])] } = false :=
          hidle
        simp only [dtor.loop, h2, h3, h1, if_true, hr]
        simp
      · refine ⟨g.setenv, ?_⟩
        simp only [dtor.loop, h2, h3, h1, if_true, hidle]
        simp [hidle]
  · refine ⟨g.setenv, ?_⟩
    simp only [dtor.loop, h2]
    simp

/-- An entry that equals the text is overwritten with spaces when the first shell
runs `AUTOEXEC.BAT` and the text is an assignment; the loop goes on with the
spaces as the object's text. -/
theorem dtor_loop_blank_step (fuel : Nat) (buf : List Char) (before xs : List (List Char))
    (g : Globals) (hrun : runsAutoexecBat g = true) (hset : stringset buf = true) :
    ∃ env, dtor.loop (fuel + 1) buf before (buf :: xs) g
      = dtor.loop fuel (List.replicate buf.length ' ')
          (before ++ [List.replicate buf.length ' ']) xs { g with setenv := env } := by
  unfold stringset buf2 at hset
  rw [Bool.and_eq_true] at hset
  obtain ⟨h2, h3⟩ := hset
  rw [Option.isSome_iff_exists] at h3
  obtain ⟨i, h3⟩ := h3
  have h1 : g.first_shell.isSome = true := by
    unfold runsAutoexecBat at hrun
    cases hf : g.first_shell with
    | none => simp [hf] at hrun
    | some sh => rfl
  refine ⟨g.setenv ++ [((List.drop 4 (safe_strncpy buf (buf.length + 1))).take i, [])], ?_⟩
  have hr : runsAutoexecBat
      { g with setenv := g.setenv
          ++ [((List.drop 4 (safe_strncpy buf (buf.length + 1))).take i, [])] } = true :=
    hrun
  simp only [dtor.loop, h2, h3, h1, if_true, hr]

/-- Entries that all differ from the text are passed over. -/
theorem dtor_loop_skip (fuel : Nat) (buf : List Char) (before pre rest : List (List Char))
    (g : Globals) (h : ∀ x ∈ pre, x ≠ buf) :
    dtor.loop (fuel + pre.length) buf before (pre ++ rest) g
      = dtor.loop fuel buf (before ++ pre) rest g := by
  induction pre generalizing before with
  | nil => simp
  | cons x xs ih =>
    have e : fuel + (x :: xs).length = (fuel + xs.length) + 1 := by
      simp only [List.length_cons]
      omega
    rw [e, List.cons_append, dtor_loop_ne _ _ _ _ _ _ (h x (List.mem_cons_self _ _)),
      ih _ (fun y hy => h y (List.mem_cons_of_mem _ hy))]
    simp

/-- With no `AUTOEXEC.BAT` stream active, and for a text at which the loop does not
take its `continue`, the loop ends and has erased exactly the entries that equal the
text. -/
theorem dtor_loop_erase (l : List (List Char)) (fuel : Nat) (buf : List Char)
    (before : List (List Char)) (g : Globals)
    (hidle : runsAutoexecBat g = false) (hstall : stalls buf = false)
    (hfuel : l.length < fuel) :
    ∃ env, dtor.loop fuel buf before l g
      = some (buf, before ++ l.filter (fun x => x ≠ buf), { g with setenv := env }) := by
  induction l generalizing fuel before g with
  | nil =>
    obtain ⟨f, rfl⟩ : ∃ f, fuel = f + 1 := ⟨fuel - 1, by omega⟩
    exact ⟨g.setenv, by simp [dtor_loop_nil]⟩
  | cons x xs ih =>
    obtain ⟨f, rfl⟩ : ∃ f, fuel = f + 1 := ⟨fuel - 1, by omega⟩
    have hf : xs.length < f := by
      simp only [List.length_cons] at hfuel
      omega
    by_cases hx : x = buf
    · subst hx
      obtain ⟨env, he⟩ := dtor_loop_erase_step f x before xs g hidle hstall
      obtain ⟨env2, he2⟩ := ih f before { g with setenv := env } hidle hf
      exact ⟨env2, by rw [he, he2]; simp⟩
    · obtain ⟨env2, he2⟩ := ih f (before ++ [x]) g hidle hf
      exact ⟨env2, by rw [dtor_loop_ne _ _ _ _ _ _ hx, he2]; simp [hx]⟩

end AutoexecObject

theorem runsAutoexecBat_congr (g g1 : Globals) (h : g1.first_shell = g.first_shell) :
    AutoexecObject.runsAutoexecBat g1 = AutoexecObject.runsAutoexecBat g := by
  unfold AutoexecObject.runsAutoexecBat
  rw [h]

theorem filter_ne_append_singleton (S : List (List Char)) (t : List Char) (h : t ∉ S) :
    (S ++ [t]).filter (fun x => x ≠ t) = S := by
  rw [List.filter_append, List.filter_eq_self.mpr, List.filter_singleton]
  · simp
  · intro a ha
    simp only [ne_eq, decide_not, Bool.not_eq_true', decide_eq_false_iff_not]
    intro e
    exact h (e ▸ ha)

theorem filter_ne_cons_self (S : List (List Char)) (t : List Char) (h : t ∉ S) :
    (t :: S).filter (fun x => x ≠ t) = S := by
  rw [List.filter_cons_of_neg (by simp), List.filter_eq_self]
  intro a ha
  simp only [ne_eq, decide_not, Bool.not_eq_true', decide_eq_false_iff_not]
  intro e
  exact h (e ▸ ha)

/-- Destroying a line object whose text occurs once, at either end of the sequence,
while no `AUTOEXEC.BAT` stream is active: the entry goes and the buffer is built
from the other entries. -/
theorem dtor_of_installed (t : List Char) (S : List (List Char)) (g g1 : Globals)
    (fuel : Nat)
    (hbuilt : AutoexecObject.rebuilt g)
    (hS : S = g.autoexec_strings)
    (hnew : t ∉ S)
    (hstall : AutoexecObject.stalls t = false)
    (hidle : AutoexecObject.runsAutoexecBat g = false)
    (hshell : g1.first_shell = g.first_shell)
    (hstr : g1.autoexec_strings = S ++ [t] ∨ g1.autoexec_strings = t :: S)
    (hfuel : S.length + 1 < fuel) :
    ∃ g2, AutoexecObject.dtor fuel { installed := true, buf := t } g1
        = some (Outcome.ok () g2)
      ∧ g2.autoexec_strings = g.autoexec_strings
      ∧ g2.autoexec_data = g.autoexec_data := by
  have hidle1 : AutoexecObject.runsAutoexecBat g1 = false := by
    rw [runsAutoexecBat_congr g g1 hshell]
    exact hidle
  have hlen : g1.autoexec_strings.length < fuel := by
    rcases hstr with e | e <;> rw [e] <;> simp <;> omega
  obtain ⟨env, hloop⟩ := AutoexecObject.dtor_loop_erase g1.autoexec_strings fuel t [] g1
    hidle1 hstall hlen
  have hfilter : g1.autoexec_strings.filter (fun x => x ≠ t) = S := by
    rcases hstr with e | e
    · rw [e]
      exact filter_ne_append_singleton S t hnew
    · rw [e]
      exact filter_ne_cons_self S t hnew
  rw [List.nil_append, hfilter] at hloop
  unfold AutoexecObject.rebuilt at hbuilt
  rw [← hS] at hbuilt
  unfold AutoexecObject.dtor
  simp only [Bool.not_true, Bool.false_eq_true, if_false, hloop,
    AutoexecObject.CreateAutoexec_eq, hbuilt, if_true]
  exact ⟨_, rfl, hS, rfl⟩

/-! ### C7 -/

/-- C7 (counterexample). With a line `C:` in the sequence, installing `C:` on a fresh
line object and destroying that object, with no shell running, also removes the
line that was there before: the sequence and the buffer end up empty. -/
theorem C7_equal_text_is_removed_too :
    AutoexecObject.rebuilt c6Globals
    ∧ AutoexecObject.runsAutoexecBat c6Globals = false
    ∧ AutoexecObject.fresh.Install "C:".toList c6Globals
        = Outcome.ok { installed := true, buf := "C:".toList } c7Twice
    ∧ AutoexecObject.dtor 3 { installed := true, buf := "C:".toList } c7Twice
        = some (Outcome.ok () Globals.init)
    ∧ Globals.init.autoexec_strings ≠ c6Globals.autoexec_strings
    ∧ Globals.init.autoexec_data ≠ c6Globals.autoexec_data := by
  refine ⟨by decide, by decide, by decide, by decide, by decide, by decide⟩

/-- C7 (amended). In every state in which the buffer holds the content built from
the sequence and no `AUTOEXEC.BAT` stream of a first shell is active, installing (at
the back or at the front) a text that is not yet in the sequence, and that is not
a `set ` line without `=`, on a line object and then destroying that object leaves
the sequence and the buffer exactly as they were before the install; the removal
loop ends within one test per entry and one more. -/
theorem C7_install_then_destroy (o o1 : AutoexecObject) (t : List Char) (g g1 : Globals)
    (fuel : Nat)
    (hbuilt : AutoexecObject.rebuilt g)
    (hnew : t ∉ g.autoexec_strings)
    (hstall : AutoexecObject.stalls t = false)
    (hidle : AutoexecObject.runsAutoexecBat g = false)
    (hinst : o.Install t g = Outcome.ok o1 g1 ∨ o.InstallBefore t g = Outcome.ok o1 g1)
    (hfuel : g.autoexec_strings.length + 1 < fuel) :
    ∃ g2, AutoexecObject.dtor fuel o1 g1 = some (Outcome.ok () g2)
      ∧ g2.autoexec_strings = g.autoexec_strings
      ∧ g2.autoexec_data = g.autoexec_data := by
  rcases hinst with h | h
  · obtain ⟨_, ho1, hs, _, hsh⟩ := AutoexecObject.Install_ok _ _ _ _ _ h
    subst ho1
    exact dtor_of_installed t g.autoexec_strings g g1 fuel hbuilt rfl hnew hstall hidle hsh
      (Or.inl hs) hfuel
  · obtain ⟨_, ho1, hs, _, hsh⟩ := AutoexecObject.InstallBefore_ok _ _ _ _ _ h
    subst ho1
    exact dtor_of_installed t g.autoexec_strings g g1 fuel hbuilt rfl hnew hstall hidle hsh
      (Or.inr hs) hfuel

/-- C7 (witness): with `C:` in the sequence, installing `D:` and destroying its line
object gives back the sequence `C:` and the buffer `C:` CR LF. -/
theorem C7_install_then_destroy_witness :
    AutoexecObject.rebuilt c6Globals
    ∧ "D:".toList ∉ c6Globals.autoexec_strings
    ∧ AutoexecObject.stalls "D:".toList = false
    ∧ AutoexecObject.runsAutoexecBat c6Globals = false
    ∧ (AutoexecObject.fresh.Install "D:".toList c6Globals
          = Outcome.ok { installed := true, buf := "D:".toList } c7Globals
        ∨ AutoexecObject.fresh.InstallBefore "D:".toList c6Globals
          = Outcome.ok { installed := true, buf := "D:".toList } c7Globals)
    ∧ c6Globals.autoexec_strings.length + 1 < 3
    ∧ ∃ g2, AutoexecObject.dtor 3 { installed := true, buf := "D:".toList } c7Globals
          = some (Outcome.ok () g2)
        ∧ g2.autoexec_strings = c6Globals.autoexec_strings
        ∧ g2.autoexec_data = c6Globals.autoexec_data :=
  ⟨by decide, by decide, by decide, by decide, Or.inl (by decide), by decide,
    C7_install_then_destroy AutoexecObject.fresh { installed := true, buf := "D:".toList }
      "D:".toList c6Globals c7Globals 3 (by decide) (by decide) (by decide) (by decide)
      (Or.inl (by decide)) (by decide)⟩

/-! ### C8 -/

/-- The size test of the loop of `CreateAutoexec` only looks at lengths: with
buffers of equal length it takes the same course and leaves equally long
contents. -/
theorem lines_length_congr (xs : List (List Char)) (d d1 : List Char)
    (h : d.length = d1.length) :
    (AutoexecObject.CreateAutoexec.lines xs d).1 = (AutoexecObject.CreateAutoexec.lines xs d1).1
    ∧ (AutoexecObject.CreateAutoexec.lines xs d).2.length
        = (AutoexecObject.CreateAutoexec.lines xs d1).2.length := by
  induction xs generalizing d d1 with
  | nil => simp [AutoexecObject.CreateAutoexec.lines, h]
  | cons t ts ih =>
    unfold AutoexecObject.CreateAutoexec.lines
    simp only [h]
    split
    · exact ⟨rfl, h⟩
    · apply ih
      simp [h]

/-- Replacing one line by a line that is as long, before and after it is made a C
string, changes neither the course of the loop nor the length of the content. -/
theorem lines_replace_congr (pre post : List (List Char)) (t b : List Char)
    (d d1 : List Char) (h : d.length = d1.length)
    (hlen : (crlf t).length = (crlf b).length)
    (hwritten : (c_str (crlf t)).length = (c_str (crlf b)).length) :
    (AutoexecObject.CreateAutoexec.lines (pre ++ t :: post) d).1
        = (AutoexecObject.CreateAutoexec.lines (pre ++ b :: post) d1).1
    ∧ (AutoexecObject.CreateAutoexec.lines (pre ++ t :: post) d).2.length
        = (AutoexecObject.CreateAutoexec.lines (pre ++ b :: post) d1).2.length := by
  induction pre generalizing d d1 with
  | nil =>
    simp only [List.nil_append]
    unfold AutoexecObject.CreateAutoexec.lines
    simp only [h, hlen]
    split
    · exact ⟨rfl, h⟩
    · apply lines_length_congr
      simp [h, hwritten]
  | cons x xs ih =>
    simp only [List.cons_append]
    unfold AutoexecObject.CreateAutoexec.lines
    simp only [h]
    split
    · exact ⟨rfl, h⟩
    · apply ih
      simp [h]

theorem safe_strncpy_of_noNul (t : List Char) (h : NoNul t) :
    safe_strncpy t (t.length + 1) = t := by
  simp [safe_strncpy, c_str_of_noNul t h]

/-- C8 (counterexample). The line `C:` is no assignment: destroying its line object
while the first shell runs `AUTOEXEC.BAT` removes the entry, and the buffer shrinks
from four bytes to none. -/
theorem C8_plain_line_is_removed :
    AutoexecObject.rebuilt c8Plain
    ∧ AutoexecObject.runsAutoexecBat c8Plain = true
    ∧ AutoexecObject.dtor 2 { installed := true, buf := "C:".toList } c8Plain
        = some (Outcome.ok () c8PlainAfter)
    ∧ c8PlainAfter.autoexec_strings = []
    ∧ c8PlainAfter.autoexec_data.length ≠ c8Plain.autoexec_data.length := by
  refine ⟨by decide, by decide, by decide, by decide, by decide⟩

/-- C8 (amended). Destroying the line object of an installed assignment (a text
without NUL and without line feed that starts with `set `, in any case, and has a
`=` after it) while the first shell's active script stream is `AUTOEXEC.BAT` does
not remove the first entry that holds the text but overwrites it with as many
spaces as the text is long; when no later entry consists of just that many spaces,
all other entries stay and the assembled buffer is as long as before. -/
theorem C8_assignment_is_blanked (t : List Char) (pre post : List (List Char))
    (g : Globals) (fuel : Nat)
    (hbuilt : AutoexecObject.rebuilt g)
    (hstr : g.autoexec_strings = pre ++ t :: post)
    (hfirst : t ∉ pre)
    (hrun : AutoexecObject.runsAutoexecBat g = true)
    (hset : AutoexecObject.stringset t = true)
    (hnul : NoNul t)
    (hlf : '\n' ∉ t)
    (hblank : List.replicate t.length ' ' ∉ post)
    (hfuel : g.autoexec_strings.length < fuel) :
    ∃ g1, AutoexecObject.dtor fuel { installed := true, buf := t } g = some (Outcome.ok () g1)
      ∧ g1.autoexec_strings = pre ++ List.replicate t.length ' ' :: post
      ∧ g1.autoexec_data.length = g.autoexec_data.length := by
  obtain ⟨f, hf⟩ : ∃ f, fuel = (f + post.length + 1) + 1 + pre.length := by
    rw [hstr] at hfuel
    simp only [List.length_append, List.length_cons] at hfuel
    exact ⟨fuel - (post.length + pre.length + 2), by omega⟩
  have hskip := AutoexecObject.dtor_loop_skip ((f + post.length + 1) + 1) t [] pre (t :: post) g
    (fun x hx e => hfirst (e ▸ hx))
  obtain ⟨env, hstep⟩ := AutoexecObject.dtor_loop_blank_step (f + post.length + 1) t
    ([] ++ pre) post g hrun hset
  have hpost := AutoexecObject.dtor_loop_skip (f + 1) (List.replicate t.length ' ')
    ([] ++ pre ++ [List.replicate t.length ' ']) post [] { g with setenv := env }
    (fun x hx e => hblank (e ▸ hx))
  have hfuel2 : f + post.length + 1 = f + 1 + post.length := by omega
  rw [List.append_nil, ← hfuel2, AutoexecObject.dtor_loop_nil] at hpost
  have hloop : AutoexecObject.dtor.loop fuel t [] g.autoexec_strings g
      = some (List.replicate t.length ' ', pre ++ List.replicate t.length ' ' :: post,
          { g with setenv := env }) := by
    rw [hf]
    conv => lhs; rw [hstr]
    rw [hskip, hstep, hpost]
    simp
  have hcong := lines_replace_congr pre post t (List.replicate t.length ' ') [] [] rfl
    (by rw [crlf_of_no_lf t hlf, crlf_replicate _ ' ' (by decide), List.length_replicate])
    (by rw [crlf_of_no_lf t hlf, crlf_replicate _ ' ' (by decide),
          c_str_of_noNul t hnul, c_str_replicate _ ' ' (by decide), List.length_replicate])
  unfold AutoexecObject.rebuilt at hbuilt
  rw [hstr] at hbuilt
  rw [hbuilt] at hcong
  obtain ⟨hflag, hlen⟩ := hcong
  unfold AutoexecObject.dtor
  simp only [Bool.not_true, Bool.false_eq_true, if_false, hloop,
    AutoexecObject.CreateAutoexec_eq, ← hflag, if_true]
  exact ⟨_, rfl, rfl, hlen.symm⟩

/-- C8 (witness): destroying the line object of `SET BLASTER=A220` while the first
shell runs `AUTOEXEC.BAT` leaves sixteen spaces in its place. -/
theorem C8_assignment_is_blanked_witness :
    AutoexecObject.rebuilt c8Globals
    ∧ c8Globals.autoexec_strings = ["C:".toList] ++ "SET BLASTER=A220".toList :: ["dir".toList]
    ∧ "SET BLASTER=A220".toList ∉ ["C:".toList]
    ∧ AutoexecObject.runsAutoexecBat c8Globals = true
    ∧ AutoexecObject.stringset "SET BLASTER=A220".toList = true
    ∧ NoNul "SET BLASTER=A220".toList
    ∧ '\n' ∉ "SET BLASTER=A220".toList
    ∧ List.replicate "SET BLASTER=A220".toList.length ' ' ∉ ["dir".toList]
    ∧ c8Globals.autoexec_strings.length < 4
    ∧ ∃ g1, AutoexecObject.dtor 4 { installed := true, buf := "SET BLASTER=A220".toList }
          c8Globals = some (Outcome.ok () g1)
        ∧ g1.autoexec_strings
            = ["C:".toList] ++ List.replicate "SET BLASTER=A220".toList.length ' '
                :: ["dir".toList]
        ∧ g1.autoexec_data.length = c8Globals.autoexec_data.length :=
  ⟨by decide, by decide, by decide, by decide, by decide, by decide, by decide, by decide,
    by decide,
    C8_assignment_is_blanked "SET BLASTER=A220".toList ["C:".toList] ["dir".toList] c8Globals 4
      (by decide) (by decide) (by decide) (by decide) (by decide) (by decide) (by decide)
      (by decide) (by decide)⟩

/-! ### C9 -/

theorem not_mem_of_map_toLower (d L : List Char) (c : Char) (h : d.map Char.toLower = L)
    (hc : c.toLower ∉ L) : c ∉ d := by
  intro hm
  exact hc (h ▸ List.mem_map_of_mem Char.toLower hm)

theorem c_str_append_of_noNul (d rest : List Char) (h : NoNul d) :
    c_str (d ++ rest) = d ++ c_str rest := by
  unfold c_str
  rw [List.takeWhile_append_of_pos]
  intro x hx
  simp only [bne_iff_ne, ne_eq]
  intro e
  exact h (e ▸ hx)

/-- The first line of `d ++ rest` is `d` when `d` holds no NUL and no line end and
`rest` is empty or starts with a line end. -/
theorem strcspn_crlf_directive (d rest : List Char) (hnul : NoNul d)
    (hcr : '\r' ∉ d) (hlf : '\n' ∉ d)
    (hrest : rest = [] ∨ rest.head? = some '\r' ∨ rest.head? = some '\n') :
    AUTOEXEC.strcspn_crlf (d ++ rest) = d.length := by
  unfold AUTOEXEC.strcspn_crlf
  rw [c_str_append_of_noNul d rest hnul, List.takeWhile_append_of_pos]
  · have : List.takeWhile (fun c => c != '\r' && c != '\n') (c_str rest) = [] := by
      rcases hrest with e | e | e
      · subst e
        rfl
      · cases rest with
        | nil => simp at e
        | cons c cs =>
          simp only [List.head?_cons, Option.some.injEq] at e
          subst e
          simp [c_str, NUL]
      · cases rest with
        | nil => simp at e
        | cons c cs =>
          simp only [List.head?_cons, Option.some.injEq] at e
          subst e
          simp [c_str, NUL]
    rw [this]
    simp
  · intro x hx
    simp only [Bool.and_eq_true, bne_iff_ne, ne_eq]
    exact ⟨fun e => hcr (e ▸ hx), fun e => hlf (e ▸ hx)⟩

theorem strncasecmp_eq_directive (d rest L : List Char) (hd : d.map Char.toLower = L)
    (hnul : NoNul d) (hL : ((c_str L).take L.length).map Char.toLower = L) :
    AutoexecObject.strncasecmp_eq (d ++ rest) L L.length = true := by
  have hlen : d.length = L.length := by
    rw [← hd, List.length_map]
  unfold AutoexecObject.strncasecmp_eq
  rw [c_str_append_of_noNul d rest hnul, ← hlen, List.take_left', hd, hlen, hL]
  · simp
  · rfl

/-- The directive test finds `echo off` and `@echo off`, in any case, when the
directive is the whole first line. -/
theorem detectEchoOff_directive (d rest : List Char)
    (hd : d.map Char.toLower = "echo off".toList ∨ d.map Char.toLower = "@echo off".toList)
    (hrest : rest = [] ∨ rest.head? = some '\r' ∨ rest.head? = some '\n') :
    AUTOEXEC.detectEchoOff (d ++ rest) = (true, rest) := by
  rcases hd with hd | hd
  · have hnul : NoNul d := not_mem_of_map_toLower d _ NUL hd (by decide)
    have hcr := not_mem_of_map_toLower d _ '\r' hd (by decide)
    have hlf := not_mem_of_map_toLower d _ '\n' hd (by decide)
    have hlen : d.length = 8 := by
      rw [← List.length_map d Char.toLower, hd]
      rfl
    have h1 := strncasecmp_eq_directive d rest "echo off".toList hd hnul (by decide)
    have h2 := strcspn_crlf_directive d rest hnul hcr hlf hrest
    have h8 : "echo off".toList.length = 8 := rfl
    rw [h8] at h1
    unfold AUTOEXEC.detectEchoOff
    simp only [h1, h2, hlen, beq_self_eq_true, Bool.and_self, if_true]
    rw [← hlen, List.drop_left']
    rfl
  · have hnul : NoNul d := not_mem_of_map_toLower d _ NUL hd (by decide)
    have hcr := not_mem_of_map_toLower d _ '\r' hd (by decide)
    have hlf := not_mem_of_map_toLower d _ '\n' hd (by decide)
    have hlen : d.length = 9 := by
      rw [← List.length_map d Char.toLower, hd]
      rfl
    have h1 := strncasecmp_eq_directive d rest "@echo off".toList hd hnul (by decide)
    have h2 := strcspn_crlf_directive d rest hnul hcr hlf hrest
    have h9 : "@echo off".toList.length = 9 := rfl
    rw [h9] at h1
    unfold AUTOEXEC.detectEchoOff
    simp only [h1, h2, hlen, Bool.true_and, beq_self_eq_true, if_true]
    rw [if_neg (by simp)]
    rw [← hlen, List.drop_left']
    rfl

theorem assembled_echo_off_cons (S : List (List Char)) :
    assembled ("@echo off".toList :: S) = "@echo off\r\n".toList ++ assembled S := by
  rw [AutoexecObject.assembled_cons]
  have : c_str (crlf "@echo off".toList) = "@echo off".toList := by decide
  rw [this]
  rfl

/-- C9 (counterexample). For the content `echo off` alone nothing is left after the
directive: `@echo off` is put in front, but no line is appended and `autoexec[0]`
stays uninstalled. -/
theorem C9_directive_alone_appends_nothing :
    AUTOEXEC.ProcessConfigFileAutoexec AUTOEXEC.fresh "echo off".toList Globals.init
      = Outcome.ok c9EchoOnly c9EchoOnlyGlobals
    ∧ c9EchoOnlyGlobals.autoexec_strings = ["@echo off".toList]
    ∧ c9EchoOnlyGlobals.autoexec_strings ≠ ["@echo off".toList, []]
    ∧ (c9EchoOnly.autoexec 0).installed = false := by
  refine ⟨by rfl, by rfl, by decide, by rfl⟩

/-- What `installRest` leaves when it returns: the rest of the content, as a C
string, appended as one line, or nothing when nothing is left. -/
theorem installRest_ok (m m1 : AUTOEXEC) (extra : List Char) (g g1 : Globals)
    (h : AUTOEXEC.installRest m extra g = Outcome.ok m1 g1) :
    g1.autoexec_strings
        = g.autoexec_strings ++ (if c_str extra = [] then [] else [c_str extra])
    ∧ (g.autoexec_data = assembled g.autoexec_strings →
        g1.autoexec_data = assembled g1.autoexec_strings) := by
  unfold AUTOEXEC.installRest at h
  split at h
  · rename_i hne
    split at h
    · simp at h
    · rename_i o g2 hi
      simp only [Outcome.ok.injEq] at h
      obtain ⟨_, hg⟩ := h
      subst hg
      obtain ⟨_, _, hs, hd, _⟩ := AutoexecObject.Install_ok _ _ _ _ _ hi
      refine ⟨?_, fun _ => by rw [hd, hs]⟩
      rw [hs, if_neg hne]
  · rename_i hempty
    simp only [Outcome.ok.injEq] at h
    obtain ⟨_, hg⟩ := h
    subst hg
    simp only [ne_eq, Decidable.not_not] at hempty
    exact ⟨by rw [if_pos hempty, List.append_nil], fun hd => hd⟩

/-- C9 (amended). For every configuration autoexec content whose first line is
exactly `echo off` or `@echo off` (in any case) and every state of the registry:
when ProcessConfigFileAutoexec returns, the sequence starts with the line `@echo off`
and the buffer begins with `@echo off` CR LF; what is left of the content (as a C
string) after the directive and the one line end that followed it (`\r`, `\n` or
`\r\n`) is installed as a single appended line, and when nothing is left no line is
appended. -/
theorem C9_echo_off_goes_first (m m1 : AUTOEXEC) (d rest : List Char) (g g1 : Globals)
    (hd : d.map Char.toLower = "echo off".toList ∨ d.map Char.toLower = "@echo off".toList)
    (hrest : rest = [] ∨ rest.head? = some '\r' ∨ rest.head? = some '\n')
    (h : AUTOEXEC.ProcessConfigFileAutoexec m (d ++ rest) g = Outcome.ok m1 g1) :
    (∃ tail, g1.autoexec_data = "@echo off\r\n".toList ++ tail)
    ∧ g1.autoexec_strings
        = "@echo off".toList :: g.autoexec_strings
            ++ (if c_str (AUTOEXEC.skipLineEnd rest) = [] then []
                else [c_str (AUTOEXEC.skipLineEnd rest)]) := by
  have hne : d ++ rest ≠ [] := by
    intro e
    rw [List.append_eq_nil] at e
    rcases hd with hd | hd <;> rw [e.1] at hd <;> simp at hd
  unfold AUTOEXEC.ProcessConfigFileAutoexec at h
  rw [if_neg hne, detectEchoOff_directive d rest hd hrest] at h
  simp only at h
  split at h
  · simp at h
  · rename_i o gA hi
    obtain ⟨_, _, hsA, hdA, _⟩ := AutoexecObject.InstallBefore_ok _ _ _ _ _ hi
    obtain ⟨hs, hdata⟩ := installRest_ok _ _ _ _ _ h
    have hd1 := hdata (by rw [hdA, hsA])
    rw [hsA] at hs
    refine ⟨?_, by rw [hs]⟩
    rw [hd1, hs, List.cons_append, assembled_echo_off_cons]
    exact ⟨_, rfl⟩

/-- C9 (witness): with the line `C:` installed before, the content `echo off`, line
feed, `set X=1` gives the buffer `@echo off`, `C:`, `set X=1`. -/
theorem C9_echo_off_goes_first_witness :
    ("echo off".toList.map Char.toLower = "echo off".toList
      ∨ "echo off".toList.map Char.toLower = "@echo off".toList)
    ∧ ("\nset X=1".toList = [] ∨ "\nset X=1".toList.head? = some '\r'
      ∨ "\nset X=1".toList.head? = some '\n')
    ∧ AUTOEXEC.ProcessConfigFileAutoexec AUTOEXEC.fresh
        ("echo off".toList ++ "\nset X=1".toList) c6Globals = Outcome.ok c9Module c9Globals
    ∧ (∃ tail, c9Globals.autoexec_data = "@echo off\r\n".toList ++ tail)
    ∧ c9Globals.autoexec_strings
        = "@echo off".toList :: c6Globals.autoexec_strings
            ++ (if c_str (AUTOEXEC.skipLineEnd "\nset X=1".toList) = [] then []
                else [c_str (AUTOEXEC.skipLineEnd "\nset X=1".toList)]) :=
  ⟨Or.inl (by decide), Or.inr (Or.inr (by decide)), by rfl,
    C9_echo_off_goes_first AUTOEXEC.fresh c9Module "echo off".toList "\nset X=1".toList
      c6Globals c9Globals (Or.inl (by decide)) (Or.inr (Or.inr (by decide))) (by rfl)⟩

/-! ## Theorems about the run loop -/

namespace DOS_Shell

theorem dispatches_append (xs ys : List Event) :
    dispatches (xs ++ ys) = dispatches xs + dispatches ys := by
  simp [dispatches]

theorem terminalReads_append (xs ys : List Event) :
    terminalReads (xs ++ ys) = terminalReads xs + terminalReads ys := by
  simp [terminalReads]

/-- A call of `ParseLine` keeps `shutdown_requested` set when the dispatch never
clears it. -/
theorem callParseLine_shutdown {σ : Type} (env : Collaborators σ) (line : List Char)
    (s : RunState σ)
    (hkeep : ∀ l sh w, w.shutdown_requested = true →
      (env.ParseLine l sh w).2.shutdown_requested = true)
    (h : s.w.shutdown_requested = true) :
    (callParseLine env line s).w.shutdown_requested = true := by
  unfold callParseLine
  exact hkeep line s.sh s.w h

theorem echoLine_w {σ : Type} (line : List Char) (s : RunState σ) :
    (echoLine line s).w = s.w := by
  unfold echoLine
  split <;> rfl

/-- One iteration of the main loop keeps `shutdown_requested` set when no
collaborator clears it. -/
theorem body_shutdown {σ : Type} (env : Collaborators σ) (s : RunState σ)
    (hparse : ∀ l sh w, w.shutdown_requested = true →
      (env.ParseLine l sh w).2.shutdown_requested = true)
    (hinput : ∀ sh w, w.shutdown_requested = true →
      (env.InputCommand sh w).2.shutdown_requested = true)
    (h : s.w.shutdown_requested = true) :
    (Run.body env s).w.shutdown_requested = true := by
  unfold Run.body
  split
  · split
    · apply callParseLine_shutdown env _ _ hparse
      rw [echoLine_w]
      exact h
    · exact h
  · apply callParseLine_shutdown env _ _ hparse
    simp only
    apply hinput
    split <;> exact h

/-- In interactive mode one iteration of the main loop reads one line from the
terminal and dispatches once. -/
theorem body_interactive {σ : Type} (env : Collaborators σ) (s : RunState σ)
    (h : s.sh.bf = none) :
    dispatches (Run.body env s).trace = dispatches s.trace + 1
    ∧ terminalReads (Run.body env s).trace = terminalReads s.trace + 1 := by
  unfold Run.body
  rw [h]
  simp only [callParseLine]
  split
  · simp [dispatches_append, terminalReads_append, dispatches, terminalReads]
  · simp [dispatches_append, terminalReads_append, dispatches, terminalReads]

/-- C10 (counterexample). A shell started without switches and with
`shutdown_requested` already set still goes once through the body of the main
loop: it shows the prompt, reads a line from the terminal and dispatches it. -/
theorem C10_first_iteration_runs_despite_shutdown :
    shutdownAtStart.w.shutdown_requested = true
    ∧ (Run idleCollaborators 1 noSwitches shutdownAtStart).map (fun r => r.trace)
        = some [Event.WriteOut "SHELL_STARTUP_SUB", Event.ShowPrompt, Event.InputCommand,
            Event.ParseLine "dir".toList]
    ∧ dispatches [Event.WriteOut "SHELL_STARTUP_SUB", Event.ShowPrompt, Event.InputCommand,
        Event.ParseLine "dir".toList] = 1
    ∧ terminalReads [Event.WriteOut "SHELL_STARTUP_SUB", Event.ShowPrompt, Event.InputCommand,
        Event.ParseLine "dir".toList] = 1 := by
  refine ⟨rfl, by rfl, by decide, by decide⟩

/-- C10 (amended). For every session started without `/?`, `-?`, `/C` and `/INIT`, with
`shutdown_requested` set before the first iteration of the main loop and
collaborators that never clear it: Run goes through the body of the loop exactly
once and then returns. The flags are tested after each iteration's work
(`do ... while`), not before it; with no script stream active that one iteration
reads one line from the terminal and dispatches it with one call of ParseLine. -/
theorem C10_one_iteration_then_return {σ : Type} (env : Collaborators σ) (fuel : Nat)
    (cmd : ShellArgs) (s : RunState σ)
    (hhelp : cmd.help = false) (hc : cmd.c = none) (hinit : cmd.init = none)
    (hshut : s.w.shutdown_requested = true)
    (hparse : ∀ l sh w, w.shutdown_requested = true →
      (env.ParseLine l sh w).2.shutdown_requested = true)
    (hinput : ∀ sh w, w.shutdown_requested = true →
      (env.InputCommand sh w).2.shutdown_requested = true) :
    Run env (fuel + 1) cmd s
      = some (Run.body env
          { s with trace := s.trace ++ [Event.WriteOut "SHELL_STARTUP_SUB"] })
    ∧ (s.sh.bf = none →
        dispatches (Run.body env
            { s with trace := s.trace ++ [Event.WriteOut "SHELL_STARTUP_SUB"] }).trace
          = dispatches s.trace + 1
        ∧ terminalReads (Run.body env
            { s with trace := s.trace ++ [Event.WriteOut "SHELL_STARTUP_SUB"] }).trace
          = terminalReads s.trace + 1) := by
  constructor
  · have hb := body_shutdown env
      { s with trace := s.trace ++ [Event.WriteOut "SHELL_STARTUP_SUB"] } hparse hinput hshut
    unfold Run
    simp only [hhelp, hc, hinit, Bool.false_eq_true, if_false]
    unfold Run.loop
    simp only [hb, Bool.true_eq_false, and_false, if_false]
  · intro hbf
    have h := body_interactive env
      { s with trace := s.trace ++ [Event.WriteOut "SHELL_STARTUP_SUB"] } hbf
    simp only [dispatches_append, terminalReads_append] at h
    exact ⟨by rw [h.1]; simp [dispatches], by rw [h.2]; simp [terminalReads]⟩

/-- C10 (witness): the shell of the counterexample returns after one iteration, with
one dispatch and one line read from the terminal. -/
theorem C10_one_iteration_then_return_witness :
    noSwitches.help = false ∧ noSwitches.c = none ∧ noSwitches.init = none
    ∧ shutdownAtStart.w.shutdown_requested = true
    ∧ (∀ l sh w, w.shutdown_requested = true →
        (idleCollaborators.ParseLine l sh w).2.shutdown_requested = true)
    ∧ (∀ sh w, w.shutdown_requested = true →
        (idleCollaborators.InputCommand sh w).2.shutdown_requested = true)
    ∧ (Run idleCollaborators (0 + 1) noSwitches shutdownAtStart
        = some (Run.body idleCollaborators
            { shutdownAtStart with
              trace := shutdownAtStart.trace ++ [Event.WriteOut "SHELL_STARTUP_SUB"] })
      ∧ (shutdownAtStart.sh.bf = none →
          dispatches (Run.body idleCollaborators
              { shutdownAtStart with
                trace := shutdownAtStart.trace ++ [Event.WriteOut "SHELL_STARTUP_SUB"] }).trace
            = dispatches shutdownAtStart.trace + 1
          ∧ terminalReads (Run.body idleCollaborators
              { shutdownAtStart with
                trace := shutdownAtStart.trace ++ [Event.WriteOut "SHELL_STARTUP_SUB"] }).trace
            = terminalReads shutdownAtStart.trace + 1)) :=
  ⟨rfl, rfl, rfl, rfl, fun _ _ _ h => h, fun _ _ h => h,
    C10_one_iteration_then_return idleCollaborators 0 noSwitches shutdownAtStart rfl rfl rfl rfl
      (fun _ _ _ h => h) (fun _ _ h => h)⟩

end DOS_Shell

/-! ## Theorems about `ParseLine` -/

namespace HandleTable

theorem entry_nil (k : Nat) : entry [] k = none := rfl

theorem entry_cons_zero (x : Option (List Char)) (t : HandleTable) :
    entry (x :: t) 0 = x := rfl

theorem entry_cons_succ (x : Option (List Char)) (t : HandleTable) (k : Nat) :
    entry (x :: t) (k + 1) = entry t k := rfl

theorem entry_put (t : HandleTable) (h k : Nat) (v : Option (List Char)) :
    (put t h v).entry k = if k = h then v else t.entry k := by
  induction t generalizing h k with
  | nil =>
    induction h generalizing k with
    | zero =>
      cases k with
      | zero => simp [put, entry_cons_zero]
      | succ k => simp [put, entry_cons_succ, entry_nil]
    | succ h ih =>
      cases k with
      | zero => simp [put, entry_cons_zero, entry_nil]
      | succ k => simp [put, entry_cons_succ, ih k, entry_nil]
  | cons x t ih =>
    cases h with
    | zero =>
      cases k with
      | zero => simp [put, entry_cons_zero]
      | succ k => simp [put, entry_cons_succ]
    | succ h =>
      cases k with
      | zero => simp [put, entry_cons_zero]
      | succ k => simp [put, entry_cons_succ, ih h k]

theorem isOpen_put (t : HandleTable) (h k : Nat) (v : Option (List Char)) :
    (put t h v).isOpen k = if k = h then v.isSome else t.isOpen k := by
  unfold isOpen
  rw [entry_put]
  split <;> rfl

/-- The lowest free handle is free. -/
theorem isOpen_lowestFree (t : HandleTable) : t.isOpen (lowestFree t) = false := by
  induction t with
  | nil => rfl
  | cons x t ih =>
    cases x with
    | none => rfl
    | some f =>
      simp only [lowestFree]
      simpa [isOpen, entry] using ih

/-- Every handle below the lowest free one is open. -/
theorem isOpen_of_lt_lowestFree (t : HandleTable) (k : Nat) (h : k < lowestFree t) :
    t.isOpen k = true := by
  induction t generalizing k with
  | nil => simp [lowestFree] at h
  | cons x t ih =>
    cases x with
    | none => simp [lowestFree] at h
    | some f =>
      cases k with
      | zero => rfl
      | succ k =>
        simp only [lowestFree, Nat.add_lt_add_iff_right] at h
        simpa [isOpen, entry] using ih k h

theorem lowestFree_eq_zero (t : HandleTable) (h : t.isOpen 0 = false) : lowestFree t = 0 := by
  by_contra hne
  have := isOpen_of_lt_lowestFree t 0 (Nat.pos_of_ne_zero hne)
  rw [h] at this
  exact Bool.noConfusion this

theorem lowestFree_eq_one (t : HandleTable) (h0 : t.isOpen 0 = true)
    (h1 : t.isOpen 1 = false) : lowestFree t = 1 := by
  have hne : lowestFree t ≠ 0 := by
    intro e
    have := isOpen_lowestFree t
    rw [e, h0] at this
    exact Bool.noConfusion this
  by_contra hne1
  have := isOpen_of_lt_lowestFree t 1 (by omega)
  rw [h1] at this
  exact Bool.noConfusion this

theorem two_le_lowestFree (t : HandleTable) (h0 : t.isOpen 0 = true)
    (h1 : t.isOpen 1 = true) : 2 ≤ lowestFree t := by
  by_contra hlt
  have hf := isOpen_lowestFree t
  have : lowestFree t = 0 ∨ lowestFree t = 1 := by omega
  rcases this with e | e
  · rw [e, h0] at hf
    exact Bool.noConfusion hf
  · rw [e, h1] at hf
    exact Bool.noConfusion hf

end HandleTable

namespace Dos

/-- What a successful open does to handles 0 and 1: handle 0 is open afterwards, and
handle 1 is open afterwards when it was open or when handle 0 was. -/
theorem stdio_allocate {σ : Type} (name : List Char) (d : Dos σ) :
    (allocate name d).2.stdio = (true, d.stdio.2 || d.stdio.1) := by
  unfold stdio allocate
  simp only [HandleTable.isOpen_put, Option.isSome_some]
  cases h0 : d.handles.isOpen 0
  · simp [HandleTable.lowestFree_eq_zero _ h0]
  · cases h1 : d.handles.isOpen 1
    · simp [HandleTable.lowestFree_eq_one _ h0 h1]
    · have := HandleTable.two_le_lowestFree _ h0 h1
      have e0 : ¬ (0 = d.handles.lowestFree) := by omega
      have e1 : ¬ (1 = d.handles.lowestFree) := by omega
      simp [e0, e1]

/-- Closing a handle closes it and leaves the other of handles 0 and 1 alone. -/
theorem stdio_DOS_CloseFile {σ : Type} (h : Nat) (d : Dos σ) :
    (DOS_CloseFile h d).stdio
      = (d.stdio.1 && decide (h ≠ 0), d.stdio.2 && decide (h ≠ 1)) := by
  unfold stdio DOS_CloseFile
  simp only
  cases ho : d.handles.isOpen h
  · simp only [Bool.false_eq_true, if_false]
    by_cases e0 : h = 0
    · subst e0
      simp [ho]
    · by_cases e1 : h = 1
      · subst e1
        simp [ho]
      · simp [e0, e1]
  · simp only [if_true, HandleTable.isOpen_put, Option.isSome_none]
    by_cases e0 : h = 0
    · subst e0
      simp
    · by_cases e1 : h = 1
      · subst e1
        simp
      · have e0' : ¬ (0 = h) := fun e => e0 e.symm
        have e1' : ¬ (1 = h) := fun e => e1 e.symm
        simp [e0, e1, e0', e1']

theorem stdio_DOS_SeekFile {σ : Type} (h : Nat) (d : Dos σ) :
    (DOS_SeekFile h d).stdio = d.stdio := rfl

/-- Opening a file and closing the handle it got leaves handles 0 and 1 as they
were. -/
theorem stdio_close_allocate {σ : Type} (name : List Char) (d : Dos σ) (c : List FileCall) :
    (DOS_CloseFile (allocate name d).1 { (allocate name d).2 with calls := c }).stdio
      = d.stdio := by
  unfold stdio DOS_CloseFile allocate
  simp only [HandleTable.isOpen_put, Option.isSome_some, if_true, Option.isSome_none]
  have hf := HandleTable.isOpen_lowestFree d.handles
  by_cases e0 : d.handles.lowestFree = 0
  · rw [e0] at hf
    simp [e0, hf]
  · by_cases e1 : d.handles.lowestFree = 1
    · rw [e1] at hf
      simp [e1, hf]
    · have e0' : ¬ (0 = d.handles.lowestFree) := fun e => e0 e.symm
      have e1' : ¬ (1 = d.handles.lowestFree) := fun e => e1 e.symm
      simp [e0', e1']

end Dos

namespace Dos

theorem stdio_calls {σ : Type} (d : Dos σ) (c : List FileCall) :
    ({ d with calls := c } : Dos σ).stdio = d.stdio := rfl

/-- An open either fails and leaves the table alone, or takes the lowest free
handle. -/
theorem stdio_DOS_OpenFile {σ : Type} (fs : FileSystem) (name : List Char) (d : Dos σ) :
    (DOS_OpenFile fs name d).2.stdio
      = if (DOS_OpenFile fs name d).1.isSome = true then (true, d.stdio.2 || d.stdio.1)
        else d.stdio := by
  unfold DOS_OpenFile
  split
  · simp only [Option.isSome_some, if_true, stdio_calls, stdio_allocate]
  · simp only [Option.isSome_none, Bool.false_eq_true, if_false, stdio_calls]

theorem stdio_DOS_CreateFile {σ : Type} (fs : FileSystem) (name : List Char) (d : Dos σ) :
    (DOS_CreateFile fs name d).2.stdio
      = if (DOS_CreateFile fs name d).1.isSome = true then (true, d.stdio.2 || d.stdio.1)
        else d.stdio := by
  unfold DOS_CreateFile
  split
  · simp only [Option.isSome_some, if_true, stdio_calls, stdio_allocate]
  · simp only [Option.isSome_none, Bool.false_eq_true, if_false, stdio_calls]

theorem stdio_DOS_OpenFileExtended {σ : Type} (fs : FileSystem) (name : List Char)
    (d : Dos σ) :
    (DOS_OpenFileExtended fs name d).2.stdio
      = if (DOS_OpenFileExtended fs name d).1.isSome = true then
          (true, d.stdio.2 || d.stdio.1)
        else d.stdio := by
  unfold DOS_OpenFileExtended
  split
  · simp only [Option.isSome_some, if_true, stdio_calls, stdio_allocate]
  · simp only [Option.isSome_none, Bool.false_eq_true, if_false, stdio_calls]

/-- Opening the console always succeeds. -/
theorem stdio_open_con {σ : Type} (fs : FileSystem) (d : Dos σ) :
    (DOS_OpenFile fs con d).2.stdio = (true, d.stdio.2 || d.stdio.1) := by
  unfold DOS_OpenFile
  simp only [true_or, if_true, stdio_calls, stdio_allocate]

end Dos

namespace DOS_Shell

/-- The input block in front of the dispatch, seen on handles 0 and 1: when the
input file can be opened, handle 0 holds it afterwards. -/
theorem stdio_openInput {σ : Type} (fs : FileSystem) (ns : Bool) (inp : List Char)
    (d : Dos σ) :
    ∃ ok : Bool, (ParseLine.openInput fs ns inp d).stdio
      = if ok = true then (true, d.stdio.2 || (d.stdio.1 && !ns)) else d.stdio := by
  unfold ParseLine.openInput
  by_cases hok : inp = con ∨ fs.canOpen inp = true
  · refine ⟨true, ?_⟩
    have hopen : Dos.DOS_OpenFile fs inp d
        = (some (Dos.allocate inp d).1,
            { (Dos.allocate inp d).2 with
              calls := d.calls ++ [FileCall.OpenFile inp (some (Dos.allocate inp d).1)] }) := by
      unfold Dos.DOS_OpenFile
      rw [if_pos hok]
    rw [hopen]
    simp only [if_true]
    rw [Dos.stdio_DOS_OpenFile]
    have hsome : ∀ x : Dos σ, (Dos.DOS_OpenFile fs inp x).1.isSome = true := by
      intro x
      unfold Dos.DOS_OpenFile
      rw [if_pos hok]
      rfl
    rw [hsome, if_pos rfl]
    have hprobe := Dos.stdio_close_allocate inp d
      (d.calls ++ [FileCall.OpenFile inp (some (Dos.allocate inp d).1)])
    cases ns
    · simp only [Bool.false_eq_true, if_false, hprobe, Bool.not_false, Bool.and_true]
    · simp only [if_true]
      rw [Dos.stdio_DOS_CloseFile 0, hprobe]
      simp
  · refine ⟨false, ?_⟩
    have hopen : Dos.DOS_OpenFile fs inp d
        = (none, { d with calls := d.calls ++ [FileCall.OpenFile inp none] }) := by
      unfold Dos.DOS_OpenFile
      rw [if_neg hok]
    rw [hopen]
    rfl

/-- The open of the output target either fails and leaves the table alone, or takes
the lowest free handle. -/
theorem stdio_openTarget {σ : Type} (fs : FileSystem) (append : Bool) (out : List Char)
    (d : Dos σ) :
    (ParseLine.openTarget fs append out d).2.stdio
      = if (ParseLine.openTarget fs append out d).1 = true then
          (true, d.stdio.2 || d.stdio.1)
        else d.stdio := by
  unfold ParseLine.openTarget
  cases append
  · simp only [Bool.false_eq_true, if_false]
    exact Dos.stdio_DOS_OpenFileExtended fs out d
  · simp only [if_true]
    by_cases hok : out = con ∨ fs.canOpen out = true
    · have hopen : Dos.DOS_OpenFile fs out d
          = (some (Dos.allocate out d).1,
              { (Dos.allocate out d).2 with
                calls := d.calls
                  ++ [FileCall.OpenFile out (some (Dos.allocate out d).1)] }) := by
        unfold Dos.DOS_OpenFile
        rw [if_pos hok]
      rw [hopen]
      simp only [if_true, Dos.stdio_DOS_SeekFile, Dos.stdio_calls, Dos.stdio_allocate]
    · have hopen : Dos.DOS_OpenFile fs out d
          = (none, { d with calls := d.calls ++ [FileCall.OpenFile out none] }) := by
        unfold Dos.DOS_OpenFile
        rw [if_neg hok]
      rw [hopen]
      simp only
      rw [Dos.stdio_DOS_CreateFile]
      rfl

/-- The output block in front of the dispatch, seen on handles 0 and 1, for some
outcome `status` of the open or create. -/
theorem stdio_openOutput {σ : Type} (fs : FileSystem) (ns nso hasIn append : Bool)
    (out : List Char) (d : Dos σ) :
    ∃ status : Bool, (ParseLine.openOutput fs ns nso hasIn append out d).stdio
      = (let a1 : Bool × Bool := (d.stdio.1, d.stdio.2 && !nso)
         let a2 : Bool × Bool := if ns = false ∧ hasIn = false then (true, a1.2 || a1.1) else a1
         let a3 : Bool × Bool := if status = true then (true, a2.2 || a2.1) else a2
         let a4 : Bool × Bool :=
           if status = false ∧ nso = true then (true, a3.2 || a3.1) else a3
         if ns = false ∧ hasIn = false then (false, a4.2) else a4) := by
  refine ⟨(ParseLine.openTarget fs append out
      (if ns = false ∧ hasIn = false then
        (Dos.DOS_OpenFile fs con (if nso = true then Dos.DOS_CloseFile 1 d else d)).2
      else (if nso = true then Dos.DOS_CloseFile 1 d else d))).1, ?_⟩
  unfold ParseLine.openOutput
  simp only
  generalize hd1 : (if nso = true then Dos.DOS_CloseFile 1 d else d) = d1
  have h1 : d1.stdio = (d.stdio.1, d.stdio.2 && !nso) := by
    rw [← hd1]
    cases nso
    · simp
    · simp [Dos.stdio_DOS_CloseFile]
  generalize hd2 : (if ns = false ∧ hasIn = false then (Dos.DOS_OpenFile fs con d1).2
    else d1) = d2
  have h2 : d2.stdio
      = if ns = false ∧ hasIn = false then (true, d1.stdio.2 || d1.stdio.1) else d1.stdio := by
    rw [← hd2]
    split
    · exact Dos.stdio_open_con fs d1
    · rfl
  have h3 := stdio_openTarget fs append out d2
  generalize ParseLine.openTarget fs append out d2 = r at h3
  obtain ⟨status, d3⟩ := r
  simp only at h3
  simp only
  generalize hd4 : (if status = false ∧ nso = true then (Dos.DOS_OpenFile fs con d3).2
    else d3) = d4
  have h4 : d4.stdio
      = if status = false ∧ nso = true then (true, d3.stdio.2 || d3.stdio.1) else d3.stdio := by
    rw [← hd4]
    split
    · exact Dos.stdio_open_con fs d3
    · rfl
  have h5 : (if ns = false ∧ hasIn = false then Dos.DOS_CloseFile 0 d4 else d4).stdio
      = if ns = false ∧ hasIn = false then (false, d4.stdio.2) else d4.stdio := by
    split
    · simp [Dos.stdio_DOS_CloseFile]
    · rfl
  rw [h5, h4, h3, h2, h1]

/-- The input block after the dispatch, seen on handles 0 and 1. -/
theorem stdio_restoreInput {σ : Type} (fs : FileSystem) (ns : Bool) (d : Dos σ) :
    (ParseLine.restoreInput fs ns d).stdio = (ns, d.stdio.2) := by
  unfold ParseLine.restoreInput
  cases ns
  · simp [Dos.stdio_DOS_CloseFile]
  · simp [Dos.stdio_DOS_CloseFile, Dos.stdio_open_con]

/-- The output block after the dispatch, seen on handles 0 and 1, when handle 0 is
open exactly if it was found open at the start: then both are open exactly if
they were found open at the start. -/
theorem stdio_restoreOutput {σ : Type} (fs : FileSystem) (ns nso : Bool) (d : Dos σ)
    (h : d.stdio.1 = ns) :
    (ParseLine.restoreOutput fs ns nso d).stdio = (ns, nso) := by
  unfold ParseLine.restoreOutput
  cases ns <;> cases nso <;> simp [Dos.stdio_DOS_CloseFile, Dos.stdio_open_con, h]

/-- C11. With a handle table that gives out the lowest free handle number, console
opens that always succeed and a dispatched command that leaves handles 0 and 1
open or closed as it found them: for every line, every behaviour of the file
system (input file there or not, output open or create succeeding or failing) and
every handle table, after ParseLine handle 0 is open exactly if it was open before
the call, and so is handle 1. -/
theorem C11_handles_restored {σ : Type} (env : Dispatcher σ) (append0 : Bool)
    (line : List Char) (d : Dos σ)
    (hcmd : ∀ text x, (env.DoCommand text x).stdio = x.stdio) :
    (ParseLine env append0 line d).dos.handles.isOpen 0 = d.handles.isOpen 0
    ∧ (ParseLine env append0 line d).dos.handles.isOpen 1 = d.handles.isOpen 1 := by
  have key : (ParseLine env append0 line d).dos.stdio = d.stdio := by
    unfold ParseLine
    simp only
    generalize GetRedirection (ParseLine.prepare line) none none append0 = r
    obtain ⟨rline, rifn, rofn, rappend, rnum⟩ := r
    simp only
    cases rifn with
    | none =>
      cases rofn with
      | none => simp [hcmd]
      | some out =>
        obtain ⟨status, hout⟩ := stdio_openOutput env.fs (d.handles.isOpen 0)
          (d.handles.isOpen 1) false rappend out d
        simp only [Option.isSome_none, Option.isSome_some, Bool.false_or, Bool.true_and,
          Bool.false_eq_true, if_false, if_true]
        rw [stdio_restoreOutput]
        · rfl
        · rw [hcmd, hout]
          simp only [Dos.stdio]
          cases d.handles.isOpen 0 <;> cases d.handles.isOpen 1 <;> cases status <;> rfl
    | some inp =>
      obtain ⟨ok, hin⟩ := stdio_openInput env.fs (d.handles.isOpen 0) inp d
      cases rofn with
      | none =>
        simp only [Option.isSome_none, Option.isSome_some, Bool.true_or, Bool.true_and,
          Bool.false_eq_true, if_false, if_true]
        rw [stdio_restoreInput, hcmd, hin]
        simp only [Dos.stdio]
        cases d.handles.isOpen 0 <;> cases d.handles.isOpen 1 <;> cases ok <;> rfl
      | some out =>
        obtain ⟨status, hout⟩ := stdio_openOutput env.fs (d.handles.isOpen 0)
          (d.handles.isOpen 1) true rappend out
          (ParseLine.openInput env.fs (d.handles.isOpen 0) inp d)
        simp only [Option.isSome_some, Bool.true_or, Bool.true_and, if_true]
        rw [stdio_restoreOutput]
        · rfl
        · rw [stdio_restoreInput]
  simp only [Dos.stdio, Prod.mk.injEq] at key
  exact key

/-- C11 (witness): with the console on handles 0 and 1 and no file that can be
opened, `sort < in.txt > out.txt` leaves both handles open as they were. -/
theorem C11_handles_restored_witness :
    (∀ text x, ((recordingDispatcher noFiles).DoCommand text x).stdio = x.stdio)
    ∧ (ParseLine (recordingDispatcher noFiles) false "sort < in.txt > out.txt".toList
          consoleDos).dos.handles.isOpen 0 = consoleDos.handles.isOpen 0
    ∧ (ParseLine (recordingDispatcher noFiles) false "sort < in.txt > out.txt".toList
          consoleDos).dos.handles.isOpen 1 = consoleDos.handles.isOpen 1 :=
  ⟨fun _ _ => rfl,
    C11_handles_restored (recordingDispatcher noFiles) false
      "sort < in.txt > out.txt".toList consoleDos (fun _ _ => rfl)⟩

end DOS_Shell

/-! ### C12 -/

namespace Dos

theorem ext_DOS_OpenFile {σ : Type} (fs : FileSystem) (name : List Char) (d : Dos σ) :
    (DOS_OpenFile fs name d).2.ext = d.ext := by
  unfold DOS_OpenFile
  split <;> rfl

theorem ext_DOS_CreateFile {σ : Type} (fs : FileSystem) (name : List Char) (d : Dos σ) :
    (DOS_CreateFile fs name d).2.ext = d.ext := by
  unfold DOS_CreateFile
  split <;> rfl

theorem ext_DOS_OpenFileExtended {σ : Type} (fs : FileSystem) (name : List Char)
    (d : Dos σ) : (DOS_OpenFileExtended fs name d).2.ext = d.ext := by
  unfold DOS_OpenFileExtended
  split <;> rfl

theorem ext_DOS_CloseFile {σ : Type} (h : Nat) (d : Dos σ) :
    (DOS_CloseFile h d).ext = d.ext := rfl

theorem ext_DOS_SeekFile {σ : Type} (h : Nat) (d : Dos σ) :
    (DOS_SeekFile h d).ext = d.ext := rfl

end Dos

namespace DOS_Shell

theorem ext_openInput {σ : Type} (fs : FileSystem) (ns : Bool) (inp : List Char)
    (d : Dos σ) : (ParseLine.openInput fs ns inp d).ext = d.ext := by
  unfold ParseLine.openInput
  have h := Dos.ext_DOS_OpenFile fs inp d
  generalize Dos.DOS_OpenFile fs inp d = r at h
  obtain ⟨handle, d1⟩ := r
  cases handle with
  | none => exact h
  | some dummy =>
    simp only
    rw [Dos.ext_DOS_OpenFile]
    split
    · simpa [Dos.ext_DOS_CloseFile] using h
    · simpa [Dos.ext_DOS_CloseFile] using h

theorem ext_openTarget {σ : Type} (fs : FileSystem) (append : Bool) (out : List Char)
    (d : Dos σ) : (ParseLine.openTarget fs append out d).2.ext = d.ext := by
  unfold ParseLine.openTarget
  split
  · have h := Dos.ext_DOS_OpenFile fs out d
    generalize Dos.DOS_OpenFile fs out d = r at h
    obtain ⟨handle, d1⟩ := r
    cases handle with
    | none =>
      simp only
      rw [Dos.ext_DOS_CreateFile]
      exact h
    | some x => exact h
  · exact Dos.ext_DOS_OpenFileExtended fs out d

theorem ext_openOutput {σ : Type} (fs : FileSystem) (ns nso hasIn append : Bool)
    (out : List Char) (d : Dos σ) :
    (ParseLine.openOutput fs ns nso hasIn append out d).ext = d.ext := by
  unfold ParseLine.openOutput
  simp only
  have h1 : (if nso = true then Dos.DOS_CloseFile 1 d else d).ext = d.ext := by
    split <;> rfl
  generalize (if nso = true then Dos.DOS_CloseFile 1 d else d) = d1 at h1
  have h2 : (if ns = false ∧ hasIn = false then (Dos.DOS_OpenFile fs con d1).2 else d1).ext
      = d.ext := by
    split
    · rw [Dos.ext_DOS_OpenFile]
      exact h1
    · exact h1
  generalize (if ns = false ∧ hasIn = false then (Dos.DOS_OpenFile fs con d1).2 else d1)
    = d2 at h2
  have h3 := ext_openTarget fs append out d2
  rw [h2] at h3
  generalize ParseLine.openTarget fs append out d2 = r at h3
  have h4 : (if r.1 = false ∧ nso = true then (Dos.DOS_OpenFile fs con r.2).2 else r.2).ext
      = d.ext := by
    split
    · rw [Dos.ext_DOS_OpenFile]
      exact h3
    · exact h3
  split
  · rw [Dos.ext_DOS_CloseFile]
    exact h4
  · exact h4

theorem ext_restoreInput {σ : Type} (fs : FileSystem) (ns : Bool) (d : Dos σ) :
    (ParseLine.restoreInput fs ns d).ext = d.ext := by
  unfold ParseLine.restoreInput
  simp only
  split
  · rw [Dos.ext_DOS_OpenFile]
    rfl
  · rfl

theorem ext_restoreOutput {σ : Type} (fs : FileSystem) (ns nso : Bool) (d : Dos σ) :
    (ParseLine.restoreOutput fs ns nso d).ext = d.ext := by
  unfold ParseLine.restoreOutput
  cases ns <;> cases nso <;>
    simp [Dos.ext_DOS_CloseFile, Dos.ext_DOS_OpenFile]

/-- C12. For every line, every behaviour of the file system (input file missing,
output file that cannot be opened or created, empty target) and every handle
table, ParseLine calls DoCommand exactly once, with the line as GetRedirection left
it, read as a C string: that is the one text it dispatches, and a dispatcher that
records the texts it is called with has recorded exactly this one text more when
ParseLine returns. -/
theorem C12_dispatch_exactly_once (fs : FileSystem) (append0 : Bool) (line : List Char)
    (d : Dos (List (List Char))) :
    (ParseLine (recordingDispatcher fs) append0 line d).dispatched
      = [c_str (GetRedirection (ParseLine.prepare line) none none append0).line]
    ∧ (ParseLine (recordingDispatcher fs) append0 line d).dos.ext
      = d.ext ++ [c_str (GetRedirection (ParseLine.prepare line) none none append0).line] := by
  refine ⟨rfl, ?_⟩
  unfold ParseLine
  simp only
  generalize GetRedirection (ParseLine.prepare line) none none append0 = r
  obtain ⟨rline, rifn, rofn, rappend, rnum⟩ := r
  simp only
  cases rifn <;> cases rofn <;>
    simp [recordingDispatcher, ext_restoreOutput, ext_restoreInput, ext_openOutput,
      ext_openInput]

end DOS_Shell
/-! ## Theorems about the constructor of `AUTOEXEC` -/

theorem grows_refl (g : Globals) : Grows g g [] [] := by
  refine ⟨by simp, fun h => ?_⟩
  rcases h with h | h
  · simp at h
  · exact h

theorem grows_trans {g g1 g2 : Globals} {f1 b1 f2 b2 : List (List Char)}
    (h1 : Grows g g1 f1 b1) (h2 : Grows g1 g2 f2 b2) :
    Grows g g2 (f2 ++ f1) (b1 ++ b2) := by
  obtain ⟨s1, d1⟩ := h1
  obtain ⟨s2, d2⟩ := h2
  refine ⟨by rw [s2, s1]; simp, fun h => ?_⟩
  by_cases hne : f2 ++ b2 = []
  · apply d2
    right
    apply d1
    rcases h with h | h
    · left
      simp only [List.append_eq_nil] at hne
      intro hc
      apply h
      simp only [List.append_eq_nil] at hc ⊢
      simp [hne.1, hne.2, hc.1, hc.2]
    · right; exact h
  · exact d2 (Or.inl hne)

theorem Outcome.andThen_ok {α β : Type} (r : Outcome α) (f : α → Globals → Outcome β)
    (b : β) (g2 : Globals) (h : r.andThen f = Outcome.ok b g2) :
    ∃ a g1, r = Outcome.ok a g1 ∧ f a g1 = Outcome.ok b g2 := by
  cases r with
  | ok a g1 => exact ⟨a, g1, rfl, h⟩
  | fatal e g1 => simp [Outcome.andThen] at h

namespace AUTOEXEC

theorem installSlot_grows (i : Fin 17) (text : List Char) (m m1 : AUTOEXEC)
    (g g1 : Globals) (h : installSlot i text m g = Outcome.ok m1 g1) :
    Grows g g1 [] [text] := by
  unfold installSlot at h
  split at h
  · simp at h
  · rename_i o g2 hi
    simp only [Outcome.ok.injEq] at h
    obtain ⟨_, hg⟩ := h
    subst hg
    obtain ⟨_, _, hs, hd, _⟩ := AutoexecObject.Install_ok _ _ _ _ _ hi
    exact ⟨by simpa using hs, fun _ => by rw [hd, hs]⟩

theorem installLockdown_grows (secure : Bool) (i : Fin 17) (m m1 : AUTOEXEC)
    (g g1 : Globals) (h : installLockdown secure i m g = Outcome.ok m1 g1) :
    Grows g g1 [] (lockLines secure) := by
  cases secure with
  | true => exact installSlot_grows _ _ _ _ _ _ (by simpa [installLockdown] using h)
  | false =>
    simp only [installLockdown, Bool.false_eq_true, if_false, Outcome.ok.injEq] at h
    rw [← h.2]
    exact grows_refl g

theorem cLoop_grows (win32 : Bool) (lines : List (List Char)) :
    ∀ (i : Nat) (e : Bool) (m : AUTOEXEC) (g : Globals) (r : AUTOEXEC × Bool) (g1 : Globals),
      cLoop win32 lines i e m g = Outcome.ok r g1 →
      Grows g g1 [] ((cCommands win32 lines).take (12 - i))
      ∧ r.2 = (e || cSawExit win32 lines i) := by
  induction lines with
  | nil =>
    intro i e m g r g1 h
    simp only [cLoop, Outcome.ok.injEq] at h
    obtain ⟨hr, hg⟩ := h
    subst hr; subst hg
    simpa [cCommands, cSawExit] using grows_refl g
  | cons line rest ih =>
    intro i e m g r g1 h
    unfold cLoop at h
    by_cases hi : i ≤ 11
    · simp only [hi, dite_true] at h
      by_cases hx : isExitLine (cLine win32 line) = true
      · simp only [hx, if_true] at h
        obtain ⟨hg, hr⟩ := ih i true m g r g1 h
        refine ⟨?_, ?_⟩
        · simpa [cCommands, hx] using hg
        · simp [hr, cSawExit, hi, hx]
      · have hx' : isExitLine (cLine win32 line) = false := by simpa using hx
        simp only [hx', Bool.false_eq_true, if_false] at h
        split at h
        · simp at h
        · rename_i m2 g2 hinst
          obtain ⟨hg, hr⟩ := ih (i + 1) e m2 g2 r g1 h
          have h0 := grows_trans (installSlot_grows _ _ _ _ _ _ hinst) hg
          refine ⟨?_, ?_⟩
          · have hk : 12 - i = (12 - (i + 1)) + 1 := by omega
            simpa [cCommands, List.filter_cons, hx', hk] using h0
          · simp [hr, cSawExit, hi, hx']
    · simp only [hi, dite_false, Outcome.ok.injEq] at h
      obtain ⟨hr, hg⟩ := h
      subst hr; subst hg
      have hk : 12 - i = 0 := by omega
      simpa [hk, cSawExit, hi] using grows_refl g


theorem mount_grows (buffer : List Char) (m m2 : AUTOEXEC) (g g2 : Globals)
    (tail : AUTOEXEC → Globals → Outcome AUTOEXEC) (back : List (List Char))
    (htail : ∀ m1 g1 m2 g2, tail m1 g1 = Outcome.ok m2 g2 → Grows g1 g2 [] back)
    (h : ((installSlot 12 (mountLine buffer) m g).andThen fun m1 g1 =>
          (installSlot 13 "C:".toList m1 g1).andThen tail) = Outcome.ok m2 g2) :
    Grows g g2 [] ([mountLine buffer, "C:".toList] ++ back) := by
  obtain ⟨ma, ga, h1, h⟩ := Outcome.andThen_ok _ _ _ _ h
  obtain ⟨mb, gb, h2, h⟩ := Outcome.andThen_ok _ _ _ _ h
  have := grows_trans (grows_trans (installSlot_grows _ _ _ _ _ _ h1)
    (installSlot_grows _ _ _ _ _ _ h2)) (htail _ _ _ _ h)
  simpa using this

theorem installDetected_grows (secure : Bool) (d : Detected) (m m1 : AUTOEXEC)
    (g g1 : Globals) (h : installDetected secure d m g = Outcome.ok m1 g1) :
    Grows g g1 [] (detectedLines secure (some d)) := by
  cases d with
  | directory buffer =>
    exact mount_grows buffer m m1 g g1 _ _
      (fun _ _ _ _ ht => installLockdown_grows _ _ _ _ _ _ ht) h
  | file buffer orig =>
    simp only [installDetected] at h
    refine mount_grows buffer m m1 g g1 _ _ (fun ma ga mb gb ht => ?_) h
    unfold fileLines
    simp only
    split at ht
    · rename_i hb
      rw [if_pos hb]
      obtain ⟨mc, gc, h1, h2⟩ := Outcome.andThen_ok _ _ _ _ ht
      simpa using grows_trans (installLockdown_grows _ _ _ _ _ _ h1)
        (installSlot_grows _ _ _ _ _ _ h2)
    · rename_i hb
      rw [if_neg hb]
      split at ht
      · rename_i hi
        rw [if_pos hi]
        exact installSlot_grows _ _ _ _ _ _ ht
      · rename_i hi
        rw [if_neg hi]
        split at ht
        · rename_i hc
          rw [if_pos hc]
          obtain ⟨mc, gc, h1, h2⟩ := Outcome.andThen_ok _ _ _ _ ht
          simpa using grows_trans (installSlot_grows _ _ _ _ _ _ h1)
            (installLockdown_grows _ _ _ _ _ _ h2)
        · rename_i hc
          rw [if_neg hc]
          obtain ⟨mc, gc, h1, h2⟩ := Outcome.andThen_ok _ _ _ _ ht
          simpa using grows_trans (installLockdown_grows _ _ _ _ _ _ h1)
            (installSlot_grows _ _ _ _ _ _ h2)

theorem commandLoop_grows (host : Host) (secure : Bool) (commands : List (List Char)) :
    ∀ (m : AUTOEXEC) (g : Globals) (r : AUTOEXEC × Bool) (g1 : Globals),
      commandLoop host secure commands m g = Outcome.ok r g1 →
      Grows g g1 [] (detectedLines secure (firstDetected host commands))
      ∧ r.2 = (firstDetected host commands).isSome := by
  induction commands with
  | nil =>
    intro m g r g1 h
    simp only [commandLoop, Outcome.ok.injEq] at h
    obtain ⟨hr, hg⟩ := h
    subst hr; subst hg
    exact ⟨by simpa [firstDetected, detectedLines] using grows_refl g, by simp [firstDetected]⟩
  | cons line rest ih =>
    intro m g r g1 h
    unfold commandLoop at h
    cases hd : detect host line with
    | none =>
      simp only [hd] at h
      simpa [firstDetected, List.findSome?_cons, hd] using ih m g r g1 h
    | some d =>
      simp only [hd] at h
      split at h
      · simp at h
      · rename_i m2 g2 hinst
        simp only [Outcome.ok.injEq] at h
        obtain ⟨hr, hg⟩ := h
        subst hr; subst hg
        exact ⟨by simpa [firstDetected, List.findSome?_cons, hd]
          using installDetected_grows _ _ _ _ _ _ hinst,
          by simp [firstDetected, List.findSome?_cons, hd]⟩

theorem ProcessConfigFileAutoexec_grows (m m1 : AUTOEXEC) (data : List Char)
    (g g1 : Globals) (h : ProcessConfigFileAutoexec m data g = Outcome.ok m1 g1) :
    Grows g g1 (configFront data) (configBack data) := by
  unfold ProcessConfigFileAutoexec at h
  by_cases hd : data = []
  · simp only [hd, if_true, Outcome.ok.injEq] at h
    rw [← h.2]
    simpa [configFront, configBack, hd] using grows_refl g
  · simp only [hd, if_false] at h
    have hrest : ∀ (ma mb : AUTOEXEC) (extra : List Char) (ga gb : Globals),
        installRest ma extra ga = Outcome.ok mb gb →
        Grows ga gb [] (if c_str extra = [] then [] else [c_str extra]) := by
      intro ma mb extra ga gb hr
      unfold installRest at hr
      split at hr
      · rename_i hne
        rw [if_neg hne]
        split at hr
        · simp at hr
        · rename_i o g2 hi
          simp only [Outcome.ok.injEq] at hr
          obtain ⟨_, hg⟩ := hr
          subst hg
          obtain ⟨_, _, hs, hdd, _⟩ := AutoexecObject.Install_ok _ _ _ _ _ hi
          exact ⟨by simpa using hs, fun _ => by rw [hdd, hs]⟩
      · rename_i hempty
        simp only [ne_eq, Decidable.not_not] at hempty
        simp only [Outcome.ok.injEq] at hr
        rw [← hr.2, if_pos hempty]
        exact grows_refl ga
    cases hde : detectEchoOff data with
    | mk b extra =>
      cases b with
      | true =>
        simp only [hde] at h
        split at h
        · simp at h
        · rename_i o g2 hi
          obtain ⟨_, _, hs, hdd, _⟩ := AutoexecObject.InstallBefore_ok _ _ _ _ _ hi
          have h1 : Grows g g2 ["@echo off".toList] [] :=
            ⟨by simpa using hs, fun _ => by rw [hdd, hs]⟩
          simpa [configFront, configBack, hd, hde] using grows_trans h1 (hrest _ _ _ _ _ h)
      | false =>
        simp only [hde] at h
        simpa [configFront, configBack, hd, hde] using hrest _ _ _ _ _ h

theorem installConfig_grows (su : Startup) (found : Bool) (m m1 : AUTOEXEC)
    (g g1 : Globals) (h : installConfig su found m g = Outcome.ok m1 g1) :
    Grows g g1 (configFront (configData su found))
      (configBack (configData su found)
        ++ (if su.securemode = true ∧ found = false then [lockdown] else [])) := by
  unfold installConfig at h
  unfold configData
  by_cases ha : (!su.securemode && !su.noautoexec) = true
  · have hs : su.securemode = false := by
      cases hsec : su.securemode <;> simp [hsec] at ha ⊢
    simp only [ha, if_true] at h ⊢
    simp only [hs, Bool.false_eq_true, false_and, if_false, List.append_nil]
    by_cases hj : su.join = true
    · simp only [hj, if_true] at h ⊢
      exact ProcessConfigFileAutoexec_grows _ _ _ _ _ h
    · simp only [hj, if_false, Bool.false_eq_true] at h ⊢
      by_cases hf : found = true
      · simp only [hf, if_true, Outcome.ok.injEq] at h ⊢
        rw [← h.2]
        simpa [configFront, configBack] using grows_refl g
      · simp only [hf, if_false, Bool.false_eq_true] at h ⊢
        exact ProcessConfigFileAutoexec_grows _ _ _ _ _ h
  · simp only [ha, if_false, Bool.false_eq_true] at h ⊢
    have h0 : configFront [] = [] ∧ configBack [] = [] := by simp [configFront, configBack]
    rw [h0.1, h0.2]
    by_cases hl : su.securemode = true ∧ found = false
    · simp only [hl, and_self, if_true] at h ⊢
      exact installSlot_grows _ _ _ _ _ _ h
    · simp only [hl, if_false, Outcome.ok.injEq] at h ⊢
      rw [← h.2]
      exact grows_refl g

/-- The lines of the registry when the constructor returns: the `@echo off` of the
configuration content in front, the lines found, then the lines the constructor
appends; and the buffer is the assembled sequence as soon as one line was installed. -/
theorem ctor_grows (su : Startup) (host : Host) (g g1 : Globals) (m : AUTOEXEC)
    (h : ctor su host g = Outcome.ok m g1) :
    Grows g g1 (configFront (configData su (firstDetected host su.commands).isSome))
      (appendedLines su host) := by
  unfold ctor at h
  obtain ⟨r1, ga, h1, h⟩ := Outcome.andThen_ok _ _ _ _ h
  obtain ⟨r2, gb, h2, h⟩ := Outcome.andThen_ok _ _ _ _ h
  obtain ⟨m3, gc, h3, h⟩ := Outcome.andThen_ok _ _ _ _ h
  obtain ⟨m4, gd, h4, h⟩ := Outcome.andThen_ok _ _ _ _ h
  obtain ⟨hg1, he1⟩ := cLoop_grows _ _ _ _ _ _ _ _ h1
  obtain ⟨hg2, hf2⟩ := commandLoop_grows _ _ _ _ _ _ _ h2
  have hg3 := installConfig_grows _ _ _ _ _ _ h3
  have hg4 : Grows gc gd [] (if (r1.2 || su.exit_switch || su.instant_launch) = true
      then ["exit".toList] else []) := by
    split at h4
    · rename_i hx
      rw [if_pos hx]
      exact installSlot_grows _ _ _ _ _ _ h4
    · rename_i hx
      rw [if_neg hx]
      simp only [Outcome.ok.injEq] at h4
      rw [← h4.2]
      exact grows_refl gc
  simp only [Outcome.ok.injEq] at h
  obtain ⟨_, hg⟩ := h
  have hfin : Grows gd g1 [] [] := by
    rw [← hg]
    exact ⟨by simp, fun hh => by
      rcases hh with hh | hh
      · simp at hh
      · exact hh⟩
  have := grows_trans (grows_trans (grows_trans (grows_trans hg1 hg2) hg3) hg4) hfin
  rw [hf2, he1] at this
  have hnone : ((firstDetected host su.commands).isSome = false)
      = (firstDetected host su.commands = none) := by
    cases firstDetected host su.commands <;> simp
  simpa [appendedLines, hnone] using this


theorem isOk_iff {α : Type} (r : Outcome α) :
    r.isOk = true ↔ ∃ a, r = Outcome.ok a r.globals := by
  cases r with
  | ok a g => exact ⟨fun _ => ⟨a, rfl⟩, fun _ => rfl⟩
  | fatal e g => exact ⟨fun h => by simp [Outcome.isOk] at h, fun ⟨a, h⟩ => by simp at h⟩

/-- The lines of the registry when the constructor returns. -/
theorem ctor_lines (su : Startup) (host : Host) (g : Globals)
    (h : (ctor su host g).isOk = true) :
    Grows g (ctor su host g).globals
      (configFront (configData su (firstDetected host su.commands).isSome))
      (appendedLines su host) := by
  obtain ⟨m, hm⟩ := (isOk_iff _).1 h
  exact ctor_grows su host g _ m hm

theorem cSawExit_of_split (win32 : Bool) (line : List Char) (rest : List (List Char))
    (hx : isExitLine (cLine win32 line) = true) (pre : List (List Char)) :
    ∀ i, (cCommands win32 pre).length + i ≤ 11 →
      cSawExit win32 (pre ++ line :: rest) i = true := by
  induction pre with
  | nil =>
    intro i hi
    have : i ≤ 11 := by simpa [cCommands] using hi
    simp [cSawExit, this, hx]
  | cons p pre ih =>
    intro i hi
    by_cases hp : isExitLine (cLine win32 p) = true
    · have h11 : i ≤ 11 := by omega
      simp [cSawExit, h11, hp]
    · have hp' : isExitLine (cLine win32 p) = false := by simpa using hp
      have hl : (cCommands win32 (p :: pre)).length = (cCommands win32 pre).length + 1 := by
        simp [cCommands, List.filter_cons, hp']
      have h11 : i ≤ 11 := by omega
      have := ih (i + 1) (by omega)
      simpa [cSawExit, h11, hp'] using this

theorem assembled_exit : assembled ["exit".toList] = "exit\r\n".toList := by decide

/-- C13 (amended). For every command line, host and state of the registry for which
the constructor returns without a fatal error: if the `-exit` switch is given, or the
launch policy is instant launch, or some `-c` line equals `exit` or `"exit"` and fewer
than eleven `-c` lines other than `exit` stand before it, then the last line of the
sequence is `exit` and the buffer ends with `exit` CR LF. -/
theorem C13_exit_is_last (su : Startup) (host : Host) (g : Globals)
    (h : (ctor su host g).isOk = true)
    (hexit : su.exit_switch = true ∨ su.instant_launch = true
      ∨ ∃ pre line rest, su.c_lines = pre ++ line :: rest
          ∧ isExitLine (cLine su.WIN32 line) = true
          ∧ (cCommands su.WIN32 pre).length < 11) :
    (ctor su host g).globals.autoexec_strings.getLast? = some "exit".toList
    ∧ ∃ pre, (ctor su host g).globals.autoexec_data = pre ++ "exit\r\n".toList := by
  have hflag : (cSawExit su.WIN32 su.c_lines 1 || su.exit_switch || su.instant_launch)
      = true := by
    rcases hexit with h1 | h1 | ⟨pre, line, rest, hc, hx, hl⟩
    · simp [h1]
    · simp [h1]
    · rw [hc, cSawExit_of_split su.WIN32 line rest hx pre 1 (by omega)]
      simp
  obtain ⟨hs, hd⟩ := ctor_lines su host g h
  obtain ⟨body, hbody⟩ : ∃ body, appendedLines su host = body ++ ["exit".toList] := by
    unfold appendedLines
    simp only [hflag, if_true]
    exact ⟨_, rfl⟩
  rw [hbody] at hs hd
  refine ⟨by rw [hs]; simp, ?_⟩
  rw [hd (Or.inl (by simp)), hs, ← List.append_assoc, AutoexecObject.assembled_append, assembled_exit]
  exact ⟨_, rfl⟩

/-- C13 (witness): the two `-c` lines `ver` and `exit` give a script whose last line
is `exit`. -/
theorem C13_exit_is_last_witness :
    (ctor (onlyCLines ["ver".toList, "exit".toList]) emptyHost Globals.init).globals.autoexec_strings.getLast?
        = some "exit".toList
    ∧ ∃ pre, (ctor (onlyCLines ["ver".toList, "exit".toList]) emptyHost
        Globals.init).globals.autoexec_data = pre ++ "exit\r\n".toList :=
  C13_exit_is_last (onlyCLines ["ver".toList, "exit".toList]) emptyHost Globals.init
    (by decide)
    (Or.inr (Or.inr ⟨["ver".toList], "exit".toList, [], by decide, by decide, by decide⟩))

/-- C13 (counterexample): with the eleven `-c` lines `a` to `k` followed by the `-c`
line `exit`, the constructor returns, the line `exit` is among the `-c` lines, and
the script is the eleven lines: its last line is `k`, not `exit`. -/
theorem C13_exit_after_eleven_lines_is_lost :
    "exit".toList ∈ (onlyCLines (elevenLines ++ ["exit".toList])).c_lines
    ∧ (ctor (onlyCLines (elevenLines ++ ["exit".toList])) emptyHost Globals.init).isOk = true
    ∧ (ctor (onlyCLines (elevenLines ++ ["exit".toList])) emptyHost
        Globals.init).globals.autoexec_strings = elevenLines
    ∧ (ctor (onlyCLines (elevenLines ++ ["exit".toList])) emptyHost
        Globals.init).globals.autoexec_strings.getLast? = some "k".toList
    ∧ (ctor (onlyCLines (elevenLines ++ ["exit".toList])) emptyHost
        Globals.init).globals.autoexec_data
        = "a\r\nb\r\nc\r\nd\r\ne\r\nf\r\ng\r\nh\r\ni\r\nj\r\nk\r\n".toList := by
  refine ⟨by decide, by rfl, by rfl, by rfl, by rfl⟩

/-- C14 (code bug). With eleven `-c` lines, none of them `exit`, the constructor
returns and all eleven are installed, in their order: the loop runs while the slot
counter, which starts at 1, is at most 11. -/
theorem C14_eleven_lines_are_installed :
    elevenLines.length = 11
    ∧ (∀ l ∈ elevenLines, isExitLine l = false)
    ∧ (ctor (onlyCLines elevenLines) emptyHost Globals.init).isOk = true
    ∧ (ctor (onlyCLines elevenLines) emptyHost Globals.init).globals.autoexec_strings
        = elevenLines
    ∧ (ctor (onlyCLines elevenLines) emptyHost Globals.init).globals.autoexec_data
        = "a\r\nb\r\nc\r\nd\r\ne\r\nf\r\ng\r\nh\r\ni\r\nj\r\nk\r\n".toList := by
  refine ⟨by rfl, by decide, by rfl, by rfl, by rfl⟩


theorem configData_secure (su : Startup) (found : Bool) (hs : su.securemode = true) :
    configData su found = [] := by
  simp [configData, hs]

theorem configFront_nil : configFront [] = [] := by simp [configFront]

theorem configBack_nil : configBack [] = [] := by simp [configBack]

theorem locate_of_not_names (host : Host) (a : List Char) (h : host.names a = false) :
    locate host a = none := by
  unfold Host.names at h
  simp only [Bool.or_eq_false_iff] at h
  obtain ⟨h1, h2⟩ := h
  unfold locate
  cases hs : host.stat (c_str a) with
  | some b => simp [hs] at h1
  | none =>
    cases hc : host.getcwd with
    | none => rfl
    | some cwd =>
      simp only [hc] at h2
      cases hs2 : host.stat (cwd ++ host.CROSS_FILESPLIT :: c_str a) with
      | some b => simp [hs2] at h2
      | none =>
        simp only
        split
        · rfl
        · rw [hs2]

theorem detect_of_not_names (host : Host) (a : List Char) (h : host.names a = false) :
    detect host a = none := by
  unfold detect
  rw [locate_of_not_names host a h]
  split <;> rfl

theorem firstDetected_of_not_names (host : Host) (commands : List (List Char))
    (h : ∀ a ∈ commands, host.names a = false) : firstDetected host commands = none := by
  induction commands with
  | nil => rfl
  | cons a rest ih =>
    have ha := detect_of_not_names host a (h a (by simp))
    have := ih (fun b hb => h b (by simp [hb]))
    simpa [firstDetected, List.findSome?_cons, ha] using this

theorem exitLines_cases (b : Bool) :
    (if b = true then ["exit".toList] else []) = ([] : List (List Char))
    ∨ (if b = true then ["exit".toList] else []) = ["exit".toList] := by
  cases b <;> simp

theorem lockdown_ne_imgmountLine (D : List Char) : lockdown ≠ imgmountLine D := by
  intro h
  have h1 : lockdown.head? = some 'z' := by rfl
  have h2 : (imgmountLine D).head? = some 'I' := by rfl
  rw [h, h2] at h1
  exact absurd h1 (by decide)

/-- C15 (amended). For every command line, host and state of the registry for which
the constructor returns: if the first argument the loop over the commands finds (an
argument of at most `CROSS_LEN` characters that `stat` finds as given or, when the
joined path fits `CROSS_LEN`, under the working directory) is a directory found at the
path `D`, then the sequence holds the line `MOUNT C "D"` directly followed by the line
`C:`, both after the lines that were in the registry and after all installed `-c`
lines (the first eleven other than `exit`), under secure mode directly followed by the
lockdown line; and the buffer is the assembled sequence. -/
theorem C15_directory_is_mounted (su : Startup) (host : Host) (g : Globals)
    (D : List Char) (h : (ctor su host g).isOk = true)
    (hd : firstDetected host su.commands = some (Detected.directory D)) :
    ∃ front rest,
      (ctor su host g).globals.autoexec_strings
        = front ++ g.autoexec_strings ++ (cCommands su.WIN32 su.c_lines).take 11
          ++ [mountLine D, "C:".toList] ++ lockLines su.securemode ++ rest
      ∧ (ctor su host g).globals.autoexec_data
        = assembled (ctor su host g).globals.autoexec_strings := by
  obtain ⟨hs, hdata⟩ := ctor_lines su host g h
  refine ⟨configFront (configData su (firstDetected host su.commands).isSome),
    configBack (configData su (firstDetected host su.commands).isSome)
      ++ (if (cSawExit su.WIN32 su.c_lines 1 || su.exit_switch || su.instant_launch) = true
        then ["exit".toList] else []), ?_, hdata (Or.inl ?_)⟩
  · rw [hs]
    simp [appendedLines, hd, detectedLines]
  · simp [appendedLines, hd, detectedLines]

/-- C15 (witness): under secure mode, with the `-c` line `ver` and the argument
`/games`, a directory, the script is `ver`, `MOUNT C "/games"`, `C:` and the lockdown
line. -/
theorem C15_directory_is_mounted_witness :
    firstDetected gamesHost ["/games".toList] = some (Detected.directory "/games".toList)
    ∧ ∃ front rest,
      (ctor (secureWith ["ver".toList] ["/games".toList]) gamesHost
          Globals.init).globals.autoexec_strings
        = front ++ Globals.init.autoexec_strings
          ++ (cCommands false ["ver".toList]).take 11
          ++ [mountLine "/games".toList, "C:".toList] ++ lockLines true ++ rest
      ∧ (ctor (secureWith ["ver".toList] ["/games".toList]) gamesHost
          Globals.init).globals.autoexec_data
        = assembled (ctor (secureWith ["ver".toList] ["/games".toList]) gamesHost
          Globals.init).globals.autoexec_strings :=
  ⟨by decide,
    C15_directory_is_mounted (secureWith ["ver".toList] ["/games".toList]) gamesHost
      Globals.init "/games".toList (by decide) (by decide)⟩

set_option maxRecDepth 100000

/-- C15 (counterexample): the only argument names an existing directory whose name has
513 characters, one more than `CROSS_LEN`; the constructor returns and the script is
empty: no `MOUNT C` line is installed. -/
theorem C15_long_directory_is_skipped :
    longHost.stat (c_str longDirectory) = some true
    ∧ longHost.names longDirectory = true
    ∧ longDirectory.length = longHost.CROSS_LEN + 1
    ∧ (ctor (plainWith [] [longDirectory]) longHost Globals.init).isOk = true
    ∧ (ctor (plainWith [] [longDirectory]) longHost Globals.init).globals.autoexec_strings
        = []
    ∧ (ctor (plainWith [] [longDirectory]) longHost Globals.init).globals.autoexec_data
        = [] := by
  refine ⟨by decide, by decide, by rfl, by rfl, by rfl, by rfl⟩


/-- C20. For every command line under secure mode none of whose arguments names an
existing directory or file, every host and every state of the registry for which the
constructor returns: the sequence is the lines that were in the registry, the
installed `-c` lines and the lockdown line, followed by nothing or by `exit`; nothing
is put in front and nothing of the configuration content is installed; the buffer is
the assembled sequence. -/
theorem C20_only_the_lockdown_line (su : Startup) (host : Host) (g : Globals)
    (h : (ctor su host g).isOk = true) (hs : su.securemode = true)
    (hn : ∀ a ∈ su.commands, host.names a = false) :
    (∃ rest, (rest = [] ∨ rest = ["exit".toList])
      ∧ (ctor su host g).globals.autoexec_strings
        = g.autoexec_strings ++ (cCommands su.WIN32 su.c_lines).take 11
          ++ [lockdown] ++ rest)
    ∧ (ctor su host g).globals.autoexec_data
        = assembled (ctor su host g).globals.autoexec_strings := by
  obtain ⟨hstr, hdata⟩ := ctor_lines su host g h
  have hd := firstDetected_of_not_names host su.commands hn
  refine ⟨⟨_, exitLines_cases
      (cSawExit su.WIN32 su.c_lines 1 || su.exit_switch || su.instant_launch), ?_⟩,
    hdata (Or.inl ?_)⟩
  · rw [hstr]
    simp [appendedLines, hd, detectedLines, hs, configData_secure, configFront_nil,
      configBack_nil]
  · simp [appendedLines, hd, hs]

/-- C20 (witness): under secure mode, with the `-c` lines `ver` and `exit`, the
argument `nothing` that names nothing, and a configuration content that starts with
`@echo off`, the script is `ver`, the lockdown line and `exit`. -/
theorem C20_only_the_lockdown_line_witness :
    (ctor (secureWith ["ver".toList, "exit".toList] ["nothing".toList]) gamesHost
        Globals.init).globals.autoexec_strings
      = ["ver".toList, lockdown, "exit".toList]
    ∧ (∃ rest, (rest = [] ∨ rest = ["exit".toList])
      ∧ (ctor (secureWith ["ver".toList, "exit".toList] ["nothing".toList]) gamesHost
          Globals.init).globals.autoexec_strings
        = Globals.init.autoexec_strings
          ++ (cCommands false ["ver".toList, "exit".toList]).take 11
          ++ [lockdown] ++ rest)
    ∧ (ctor (secureWith ["ver".toList, "exit".toList] ["nothing".toList]) gamesHost
        Globals.init).globals.autoexec_data
        = assembled (ctor (secureWith ["ver".toList, "exit".toList] ["nothing".toList])
          gamesHost Globals.init).globals.autoexec_strings :=
  ⟨by rfl,
    C20_only_the_lockdown_line
      (secureWith ["ver".toList, "exit".toList] ["nothing".toList]) gamesHost Globals.init
      (by decide) (by rfl) (by decide)⟩


theorem slotsFree_mono {m : AUTOEXEC} {k k1 : Nat} (h : SlotsFree m k) (hk : k ≤ k1) :
    SlotsFree m k1 :=
  fun j hj => h j (Nat.le_trans hk hj)

theorem slotsFree_fresh (k : Nat) : SlotsFree fresh k := fun _ _ => rfl

theorem configFree_fresh : ConfigFree fresh := ⟨rfl, rfl⟩

theorem stage_weaken {f : AUTOEXEC → Globals → Outcome AUTOEXEC} {k k1 : Nat}
    {back : List (List Char)} (h : Stage f k k1 back) (k0 k2 : Nat) (h0 : k0 ≤ k)
    (h2 : k1 ≤ k2) : Stage f k0 k2 back := by
  intro m g hfree hc hfits
  obtain ⟨m1, g1, hok, hs, hf1, hc1⟩ := h m g (slotsFree_mono hfree h0) hc hfits
  exact ⟨m1, g1, hok, hs, slotsFree_mono hf1 h2, hc1⟩

theorem stage_skip (k : Nat) : Stage (fun m g => Outcome.ok m g) k k [] := by
  intro m g hfree hc _
  exact ⟨m, g, rfl, by simp, hfree, hc⟩

theorem stage_seq {f f1 : AUTOEXEC → Globals → Outcome AUTOEXEC} {k k1 k2 : Nat}
    {b b1 : List (List Char)} (h : Stage f k k1 b) (h1 : Stage f1 k1 k2 b1) :
    Stage (fun m g => (f m g).andThen f1) k k2 (b ++ b1) := by
  intro m g hfree hc hfits
  have hfits0 : lineSizes (g.autoexec_strings ++ b) + 1 ≤ AUTOEXEC_SIZE := by
    simp only [lineSizes_append] at hfits ⊢
    omega
  obtain ⟨ma, ga, hok, hs, hfa, hca⟩ := h m g hfree hc hfits0
  have hfits1 : lineSizes (ga.autoexec_strings ++ b1) + 1 ≤ AUTOEXEC_SIZE := by
    rw [hs, List.append_assoc]
    exact hfits
  obtain ⟨mb, gb, hok1, hs1, hfb, hcb⟩ := h1 ma ga hfa hca hfits1
  refine ⟨mb, gb, ?_, by rw [hs1, hs, List.append_assoc], hfb, hcb⟩
  simp only [hok, Outcome.andThen]
  exact hok1

theorem stage_installSlot (i : Fin 17) (text : List Char) (hi : 1 ≤ i.val) :
    Stage (installSlot i text) i.val (i.val + 1) [text] := by
  intro m g hfree hc hfits
  obtain ⟨g1, hok, hs⟩ := Install_of_fits (m.autoexec i) text g (hfree i (Nat.le_refl _)) hfits
  refine ⟨{ m with autoexec := Function.update m.autoexec i { installed := true, buf := text } },
    g1, ?_, hs, ?_, ?_, hc.2⟩
  · simp only [AUTOEXEC.installSlot, hok]
  · intro j hj
    have hne : j ≠ i := by
      intro hji
      rw [hji] at hj
      omega
    simp only [Function.update_noteq hne]
    exact hfree j (by omega)
  · have hne : (0 : Fin 17) ≠ i := by
      intro h0
      rw [← h0] at hi
      simp at hi
    simp only [Function.update_noteq hne]
    exact hc.1

theorem stage_installLockdown (secure : Bool) (i : Fin 17) (hi : 1 ≤ i.val) :
    Stage (installLockdown secure i) i.val (i.val + 1) (lockLines secure) := by
  cases secure with
  | true =>
    have := stage_installSlot i lockdown hi
    simpa [AUTOEXEC.installLockdown, lockLines] using this
  | false =>
    have := stage_weaken (stage_skip i.val) i.val (i.val + 1) (Nat.le_refl _) (Nat.le_succ _)
    simpa [AUTOEXEC.installLockdown, lockLines] using this


theorem stage_mount (buffer : List Char) (tail : AUTOEXEC → Globals → Outcome AUTOEXEC)
    (back : List (List Char)) (h : Stage tail 14 16 back) :
    Stage (fun m g => (installSlot 12 (mountLine buffer) m g).andThen fun m1 g1 =>
        (installSlot 13 "C:".toList m1 g1).andThen tail) 12 16
      ([mountLine buffer, "C:".toList] ++ back) := by
  have s12 : Stage (installSlot 12 (mountLine buffer)) 12 13 [mountLine buffer] :=
    stage_installSlot 12 _ (by decide)
  have s13 : Stage (installSlot 13 "C:".toList) 13 14 ["C:".toList] :=
    stage_installSlot 13 _ (by decide)
  have key := stage_seq s12 (stage_seq s13 h)
  exact key

theorem stage_lock14 (secure : Bool) :
    Stage (installLockdown secure 14) 14 15 (lockLines secure) :=
  stage_installLockdown secure 14 (by decide)

theorem stage_lock15 (secure : Bool) :
    Stage (installLockdown secure 15) 15 16 (lockLines secure) :=
  stage_installLockdown secure 15 (by decide)

theorem stage_slot14 (text : List Char) : Stage (installSlot 14 text) 14 15 [text] :=
  stage_installSlot 14 text (by decide)

theorem stage_slot15 (text : List Char) : Stage (installSlot 15 text) 15 16 [text] :=
  stage_installSlot 15 text (by decide)

theorem stage_installDetected (secure : Bool) (d : Detected) :
    Stage (installDetected secure d) 12 16 (detectedLines secure (some d)) := by
  cases d with
  | directory buffer =>
    exact stage_mount buffer _ _ (stage_weaken (stage_lock14 secure) 14 16 (by omega) (by omega))
  | file buffer orig =>
    have htail : Stage (fun m2 g2 =>
        if hasSub ".BAT" (orig.map Char.toUpper) = true then
          (installLockdown secure 14 m2 g2).andThen fun m3 g3 =>
          installSlot 15 ("CALL ".toList ++ orig.map Char.toUpper) m3 g3
        else if hasSub ".IMG" (orig.map Char.toUpper) = true
            ∨ hasSub ".IMA" (orig.map Char.toUpper) = true then
          installSlot 15 ("BOOT ".toList ++ orig) m2 g2
        else if hasSub ".ISO" (orig.map Char.toUpper) = true
            ∨ hasSub ".CUE" (orig.map Char.toUpper) = true then
          (installSlot 14 (imgmountLine orig) m2 g2).andThen fun m3 g3 =>
          installLockdown secure 15 m3 g3
        else
          (installLockdown secure 14 m2 g2).andThen fun m3 g3 =>
          installSlot 15 (orig.map Char.toUpper) m3 g3) 14 16 (fileLines secure orig) := by
      unfold fileLines
      by_cases hb : hasSub ".BAT" (orig.map Char.toUpper) = true
      · simp only [hb, if_true]
        exact stage_seq (stage_lock14 secure) (stage_slot15 _)
      · simp only [hb, if_false]
        by_cases hi : hasSub ".IMG" (orig.map Char.toUpper) = true
            ∨ hasSub ".IMA" (orig.map Char.toUpper) = true
        · simp only [hi, if_true]
          exact stage_weaken (stage_slot15 _) 14 16 (by omega) (by omega)
        · simp only [hi, if_false]
          by_cases hc : hasSub ".ISO" (orig.map Char.toUpper) = true
              ∨ hasSub ".CUE" (orig.map Char.toUpper) = true
          · simp only [hc, if_true]
            exact stage_seq (stage_slot14 _) (stage_lock15 secure)
          · simp only [hc, if_false]
            exact stage_seq (stage_lock14 secure) (stage_slot15 _)
    exact stage_mount buffer _ _ htail


theorem cLoop_returns (win32 : Bool) (lines : List (List Char)) :
    ∀ (i : Nat) (e : Bool) (m : AUTOEXEC) (g : Globals), 1 ≤ i → i ≤ 12 →
      SlotsFree m i → ConfigFree m →
      lineSizes (g.autoexec_strings ++ (cCommands win32 lines).take (12 - i)) + 1
        ≤ AUTOEXEC_SIZE →
      ∃ r g1, cLoop win32 lines i e m g = Outcome.ok r g1
        ∧ g1.autoexec_strings = g.autoexec_strings ++ (cCommands win32 lines).take (12 - i)
        ∧ SlotsFree r.1 12 ∧ ConfigFree r.1 := by
  induction lines with
  | nil =>
    intro i e m g _ h12 hfree hc _
    exact ⟨(m, e), g, by simp [cLoop], by simp [cCommands], slotsFree_mono hfree h12, hc⟩
  | cons line rest ih =>
    intro i e m g h1 h12 hfree hc hfits
    unfold cLoop
    by_cases hi : i ≤ 11
    · simp only [hi, dite_true]
      by_cases hx : isExitLine (cLine win32 line) = true
      · simp only [hx, if_true]
        have hk : cCommands win32 (line :: rest) = cCommands win32 rest := by
          simp [cCommands, hx]
        rw [hk] at hfits ⊢
        exact ih i true m g h1 h12 hfree hc hfits
      · have hx' : isExitLine (cLine win32 line) = false := by simpa using hx
        simp only [hx', Bool.false_eq_true, if_false]
        have hk : (cCommands win32 (line :: rest)).take (12 - i)
            = cLine win32 line :: (cCommands win32 rest).take (12 - (i + 1)) := by
          have h2 : 12 - i = (12 - (i + 1)) + 1 := by omega
          simp [cCommands, List.filter_cons, hx', h2]
        rw [hk] at hfits ⊢
        have hfits0 : lineSizes (g.autoexec_strings ++ [cLine win32 line]) + 1
            ≤ AUTOEXEC_SIZE := by
          simp only [lineSizes_append, lineSizes_cons, lineSizes_nil] at hfits ⊢
          omega
        obtain ⟨m1, g1, hok, hs, hf1, hc1⟩ :=
          stage_installSlot ⟨i, by omega⟩ (cLine win32 line) h1 m g hfree hc hfits0
        simp only [hok]
        have hfits1 : lineSizes (g1.autoexec_strings
            ++ (cCommands win32 rest).take (12 - (i + 1))) + 1 ≤ AUTOEXEC_SIZE := by
          rw [hs, List.append_assoc]
          exact hfits
        obtain ⟨r, g2, hok2, hs2, hf2, hc2⟩ :=
          ih (i + 1) e m1 g1 (by omega) (by omega) hf1 hc1 hfits1
        exact ⟨r, g2, hok2, by rw [hs2, hs, List.append_assoc]; rfl, hf2, hc2⟩
    · simp only [hi, dite_false]
      have hk : 12 - i = 0 := by omega
      exact ⟨(m, e), g, rfl, by simp [hk], slotsFree_mono hfree h12, hc⟩

theorem commandLoop_returns (host : Host) (secure : Bool) (commands : List (List Char)) :
    ∀ (m : AUTOEXEC) (g : Globals), SlotsFree m 12 → ConfigFree m →
      lineSizes (g.autoexec_strings ++ detectedLines secure (firstDetected host commands)) + 1
        ≤ AUTOEXEC_SIZE →
      ∃ r g1, commandLoop host secure commands m g = Outcome.ok r g1
        ∧ g1.autoexec_strings
          = g.autoexec_strings ++ detectedLines secure (firstDetected host commands)
        ∧ SlotsFree r.1 (if (firstDetected host commands).isSome = true then 16 else 12)
        ∧ ConfigFree r.1 := by
  induction commands with
  | nil =>
    intro m g hfree hc _
    exact ⟨(m, false), g, rfl, by simp [firstDetected, detectedLines],
      by simpa [firstDetected] using hfree, hc⟩
  | cons line rest ih =>
    intro m g hfree hc hfits
    unfold commandLoop
    cases hd : detect host line with
    | none =>
      have hk : firstDetected host (line :: rest) = firstDetected host rest := by
        simp [firstDetected, List.findSome?_cons, hd]
      rw [hk] at hfits ⊢
      simpa [hd] using ih m g hfree hc hfits
    | some d =>
      have hk : firstDetected host (line :: rest) = some d := by
        simp [firstDetected, List.findSome?_cons, hd]
      rw [hk] at hfits ⊢
      obtain ⟨m1, g1, hok, hs, hf1, hc1⟩ := stage_installDetected secure d m g hfree hc hfits
      simp only [hok]
      exact ⟨(m1, true), g1, rfl, hs, by simpa using hf1, hc1⟩

theorem ProcessConfigFileAutoexec_returns (m : AUTOEXEC) (data : List Char) (g : Globals)
    (hc : ConfigFree m)
    (hfits : lineSizes (configFront data ++ g.autoexec_strings ++ configBack data) + 1
      ≤ AUTOEXEC_SIZE) :
    ∃ m1 g1, ProcessConfigFileAutoexec m data g = Outcome.ok m1 g1
      ∧ g1.autoexec_strings = configFront data ++ g.autoexec_strings ++ configBack data
      ∧ ∀ k, 1 ≤ k → SlotsFree m k → SlotsFree m1 k := by
  have hrest : ∀ (ma : AUTOEXEC) (extra : List Char) (ga : Globals),
      (ma.autoexec 0).installed = false →
      lineSizes (ga.autoexec_strings ++ (if c_str extra = [] then [] else [c_str extra])) + 1
        ≤ AUTOEXEC_SIZE →
      ∃ mb gb, installRest ma extra ga = Outcome.ok mb gb
        ∧ gb.autoexec_strings
          = ga.autoexec_strings ++ (if c_str extra = [] then [] else [c_str extra])
        ∧ ∀ k, 1 ≤ k → SlotsFree ma k → SlotsFree mb k := by
    intro ma extra ga h0 hf
    unfold installRest
    by_cases he : c_str extra = []
    · simp only [he, ne_eq, not_true_eq_false, if_false, if_true, List.append_nil]
      exact ⟨ma, ga, rfl, rfl, fun _ _ h => h⟩
    · simp only [he, ne_eq, not_false_eq_true, if_true, if_false] at hf ⊢
      obtain ⟨g1, hok, hs⟩ := Install_of_fits (ma.autoexec 0) (c_str extra) ga h0 hf
      simp only [hok]
      refine ⟨_, g1, rfl, hs, fun k hk hfree j hj => ?_⟩
      have hne : j ≠ 0 := by
        intro hj0
        rw [hj0] at hj
        simp at hj
        omega
      simp only [Function.update_noteq hne]
      exact hfree j hj
  unfold ProcessConfigFileAutoexec
  by_cases hd : data = []
  · simp only [hd, if_true]
    exact ⟨m, g, rfl, by simp [configFront, configBack], fun _ _ h => h⟩
  · simp only [hd, if_false]
    cases hde : detectEchoOff data with
    | mk b extra =>
      cases b with
      | true =>
        have hfr : configFront data = ["@echo off".toList] := by
          simp [configFront, hd, hde]
        have hbk : configBack data
            = (if c_str (skipLineEnd extra) = [] then [] else [c_str (skipLineEnd extra)]) := by
          simp [configBack, hd, hde]
        rw [hfr, hbk] at hfits ⊢
        have hfits0 : lineSizes ("@echo off".toList :: g.autoexec_strings) + 1
            ≤ AUTOEXEC_SIZE := by
          simp only [lineSizes_append, lineSizes_cons, lineSizes_nil] at hfits ⊢
          omega
        obtain ⟨g1, hok, hs⟩ :=
          InstallBefore_of_fits m.autoexec_echo "@echo off".toList g hc.2 hfits0
        simp only [hok]
        obtain ⟨mb, gb, hok2, hs2, hfree2⟩ := hrest
          { m with autoexec_echo := { installed := true, buf := "@echo off".toList } }
          (skipLineEnd extra) g1 hc.1 (by rw [hs]; simpa using hfits)
        exact ⟨mb, gb, hok2, by rw [hs2, hs]; simp, fun k hk hfree => hfree2 k hk hfree⟩
      | false =>
        have hfr : configFront data = [] := by
          simp [configFront, hde]
        have hbk : configBack data = (if c_str extra = [] then [] else [c_str extra]) := by
          simp [configBack, hd, hde]
        rw [hfr, hbk] at hfits ⊢
        simp only
        obtain ⟨mb, gb, hok2, hs2, hfree2⟩ := hrest m extra g hc.1 (by simpa using hfits)
        exact ⟨mb, gb, hok2, by rw [hs2]; simp, hfree2⟩


theorem installConfig_returns (su : Startup) (found : Bool) (m : AUTOEXEC) (g : Globals)
    (hc : ConfigFree m) (hfree : SlotsFree m (if found = true then 16 else 12))
    (hfits : lineSizes (configFront (configData su found) ++ g.autoexec_strings
        ++ (configBack (configData su found)
          ++ (if su.securemode = true ∧ found = false then [lockdown] else []))) + 1
      ≤ AUTOEXEC_SIZE) :
    ∃ m1 g1, installConfig su found m g = Outcome.ok m1 g1
      ∧ g1.autoexec_strings = configFront (configData su found) ++ g.autoexec_strings
        ++ (configBack (configData su found)
          ++ (if su.securemode = true ∧ found = false then [lockdown] else []))
      ∧ SlotsFree m1 16 := by
  have hfree16 : SlotsFree m 16 := by
    cases found
    · exact slotsFree_mono hfree (by simp)
    · simpa using hfree
  have hpc : ∀ data, configData su found = data → su.securemode = false →
      ∃ m1 g1, ProcessConfigFileAutoexec m data g = Outcome.ok m1 g1
        ∧ g1.autoexec_strings = configFront (configData su found) ++ g.autoexec_strings
          ++ (configBack (configData su found)
            ++ (if su.securemode = true ∧ found = false then [lockdown] else []))
        ∧ SlotsFree m1 16 := by
    intro data hdata hs
    rw [hdata] at hfits ⊢
    simp only [hs, Bool.false_eq_true, false_and, if_false, List.append_nil] at hfits ⊢
    obtain ⟨m1, g1, hok, hstr, hfr⟩ := ProcessConfigFileAutoexec_returns m data g hc hfits
    exact ⟨m1, g1, hok, hstr, hfr 16 (by omega) hfree16⟩
  unfold installConfig
  by_cases ha : (!su.securemode && !su.noautoexec) = true
  · have hs : su.securemode = false := by
      cases hsec : su.securemode <;> simp [hsec] at ha ⊢
    simp only [ha, if_true]
    by_cases hj : su.join = true
    · simp only [hj, if_true]
      exact hpc su.section_data (by simp [configData, ha, hj]) hs
    · have hj' : su.join = false := by simpa using hj
      cases found with
      | true =>
        simp only [hj', Bool.false_eq_true, if_false, if_true]
        have hcd : configData su true = [] := by simp [configData, ha, hj']
        refine ⟨m, g, rfl, ?_, hfree16⟩
        rw [hcd]
        simp [configFront_nil, configBack_nil, hs]
      | false =>
        have key := hpc su.overwritten_data (by simp [configData, ha, hj']) hs
        simpa [hj'] using key
  · simp only [ha, if_false]
    have hcd : configData su found = [] := by simp [configData, ha]
    rw [hcd, configFront_nil, configBack_nil] at hfits ⊢
    by_cases hl : su.securemode = true ∧ found = false
    · simp only [hl, and_self, if_true] at hfits ⊢
      have hfree12 : SlotsFree m 12 := by simpa [hl.2] using hfree
      have s12 : Stage (installSlot 12 lockdown) 12 13 [lockdown] :=
        stage_installSlot 12 _ (by decide)
      obtain ⟨m1, g1, hok, hstr, hf1, _⟩ := s12 m g hfree12 hc (by simpa using hfits)
      exact ⟨m1, g1, hok, by simpa using hstr, slotsFree_mono hf1 (by omega)⟩
    · simp only [hl, if_false]
      exact ⟨m, g, rfl, by simp, hfree16⟩

/-- The constructor returns whenever the lines it is to install fit into the buffer
together with the lines that are in the registry: no slot is installed twice, so the
overflow of the buffer is its only fatal error. -/
theorem ctor_returns (su : Startup) (host : Host) (g : Globals)
    (hfits : lineSizes (configFront (configData su (firstDetected host su.commands).isSome)
        ++ g.autoexec_strings ++ appendedLines su host) + 1 ≤ AUTOEXEC_SIZE) :
    (ctor su host g).isOk = true := by
  unfold appendedLines at hfits
  simp only [lineSizes_append] at hfits
  obtain ⟨r1, g1, hok1, hs1, hf1, hc1⟩ :=
    cLoop_returns su.WIN32 su.c_lines 1 false fresh g (by omega) (by omega)
      (slotsFree_fresh 1) configFree_fresh (by
        simp only [lineSizes_append]
        have : 12 - 1 = 11 := rfl
        rw [this]
        omega)
  have h11 : 12 - 1 = 11 := rfl
  rw [h11] at hs1
  obtain ⟨r2, g2, hok2, hs2, hf2, hc2⟩ :=
    commandLoop_returns host su.securemode su.commands r1.1 g1 hf1 hc1 (by
      rw [hs1]
      simp only [lineSizes_append]
      omega)
  obtain ⟨_, hfound⟩ := commandLoop_grows _ _ _ _ _ _ _ hok2
  have hnone : (firstDetected host su.commands = none)
      = ((firstDetected host su.commands).isSome = false) := by
    cases firstDetected host su.commands <;> simp
  obtain ⟨m3, g3, hok3, hs3, hf3⟩ :=
    installConfig_returns su r2.2 r2.1 g2 hc2 (by rw [hfound]; exact hf2) (by
      rw [hfound, hs2, hs1]
      simp only [hnone] at hfits
      simp only [lineSizes_append]
      omega)
  obtain ⟨_, he⟩ := cLoop_grows _ _ _ _ _ _ _ _ hok1
  unfold ctor
  simp only [hok1, Outcome.andThen, hok2, hok3]
  by_cases hx : (r1.2 || su.exit_switch || su.instant_launch) = true
  · simp only [hx, if_true]
    have s16 : Stage (installSlot 16 "exit".toList) 16 17 ["exit".toList] :=
      stage_installSlot 16 _ (by decide)
    have hx' : (cSawExit su.WIN32 su.c_lines 1 || su.exit_switch || su.instant_launch)
        = true := by
      rw [he] at hx
      simpa using hx
    rw [hx'] at hfits
    have hc3 : ConfigFree fresh := configFree_fresh
    obtain ⟨g4, hok4, _⟩ := Install_of_fits (m3.autoexec 16) "exit".toList g3
      (hf3 16 (by decide)) (by
        rw [hs3, hfound, hs2, hs1]
        simp only [hnone] at hfits
        simp only [lineSizes_append, if_true] at hfits ⊢
        omega)
    simp only [AUTOEXEC.installSlot, hok4]
    rfl
  · simp only [hx, if_false]
    rfl


/-- Under secure mode, with the `-c` line `ver` and the argument `/games/run.bat`, the
five lines to install are reckoned as 68 bytes and the constructor returns. -/
theorem ctor_returns_witness :
    lineSizes (configFront (configData (secureWith ["ver".toList] ["/games/run.bat".toList])
        (firstDetected gamesHost ["/games/run.bat".toList]).isSome)
      ++ Globals.init.autoexec_strings
      ++ appendedLines (secureWith ["ver".toList] ["/games/run.bat".toList]) gamesHost) = 68
    ∧ (ctor (secureWith ["ver".toList] ["/games/run.bat".toList]) gamesHost
        Globals.init).isOk = true :=
  ⟨by decide, ctor_returns (secureWith ["ver".toList] ["/games/run.bat".toList]) gamesHost
    Globals.init (by decide)⟩

end AUTOEXEC

/-! ## The buffer stays within its capacity -/

namespace AutoexecObject

/-- Every call of `CreateAutoexec`, whether it returns or ends in the overflow exit,
leaves a content that fits into the buffer together with its terminating NUL. -/
theorem CreateAutoexec_bound (g : Globals) :
    (CreateAutoexec g).globals.autoexec_data.length + 1 ≤ AUTOEXEC_SIZE := by
  have hb := lines_bound g.autoexec_strings [] (by decide)
  rw [CreateAutoexec_eq]
  split <;> exact hb

end AutoexecObject

/-- C30. For every line object, text (with or without NUL characters) and state of the
registry: when `Install` or `InstallBefore` returns, and when the destructor of an
installed line object returns, the content of the buffer is at most 4095 bytes long, so
that it fits into the 4096 bytes of `autoexec_data` together with its terminating NUL;
the destructor of a line object that was never installed leaves the buffer as it was,
within that bound if it was so before; and every rebuild by `CreateAutoexec`, also one
that ends in the overflow exit, leaves at most 4095 bytes in the buffer, since the size
test comes before each write. -/
theorem C30_buffer_stays_within_capacity (o : AutoexecObject) (text : List Char)
    (g : Globals) (fuel : Nat) :
    (∀ o1 g1, o.Install text g = Outcome.ok o1 g1 → g1.autoexec_data.length ≤ 4095)
    ∧ (∀ o1 g1, o.InstallBefore text g = Outcome.ok o1 g1 →
        g1.autoexec_data.length ≤ 4095)
    ∧ (∀ g1, AutoexecObject.dtor fuel o g = some (Outcome.ok () g1) →
        o.installed = true ∨ g.autoexec_data.length ≤ 4095 →
        g1.autoexec_data.length ≤ 4095)
    ∧ (AutoexecObject.CreateAutoexec g).globals.autoexec_data.length + 1 ≤ AUTOEXEC_SIZE
    ∧ AUTOEXEC_SIZE = 4096 := by
  have hsize : AUTOEXEC_SIZE = 4096 := rfl
  refine ⟨?_, ?_, ?_, AutoexecObject.CreateAutoexec_bound g, hsize⟩
  · intro o1 g1 h
    unfold AutoexecObject.Install at h
    split at h
    · simp at h
    · split at h
      · simp at h
      · rename_i u g2 hc
        have hb := AutoexecObject.CreateAutoexec_bound
          { g with autoexec_strings := g.autoexec_strings ++ [text] }
        rw [hc] at hb
        obtain ⟨env, henv⟩ := AutoexecObject.updateEnv_eq text g2
        simp only [Outcome.ok.injEq] at h
        rw [← h.2, henv]
        simp only [Outcome.globals] at hb
        show g2.autoexec_data.length ≤ 4095
        omega
  · intro o1 g1 h
    unfold AutoexecObject.InstallBefore at h
    split at h
    · simp at h
    · split at h
      · simp at h
      · rename_i u g2 hc
        have hb := AutoexecObject.CreateAutoexec_bound
          { g with autoexec_strings := text :: g.autoexec_strings }
        rw [hc] at hb
        simp only [Outcome.ok.injEq] at h
        rw [← h.2]
        simp only [Outcome.globals] at hb
        omega
  · intro g1 h hpre
    unfold AutoexecObject.dtor at h
    split at h
    · rename_i hni
      simp only [Option.some.injEq, Outcome.ok.injEq, true_and] at h
      rw [← h]
      rcases hpre with hi | hb
      · simp [hi] at hni
      · exact hb
    · split at h
      · simp at h
      · rename_i b strings g2 hl
        simp only [Option.some.injEq] at h
        have hb := AutoexecObject.CreateAutoexec_bound { g2 with autoexec_strings := strings }
        rw [h] at hb
        simp only [Outcome.globals] at hb
        omega

/-- C30 (example): the registry after `C:` was installed in the empty registry holds 4
bytes. -/
theorem C30_buffer_stays_within_capacity_witness :
    c6Globals.autoexec_data.length ≤ 4095 :=
  (C30_buffer_stays_within_capacity AutoexecObject.fresh "C:".toList Globals.init 0).1
    { installed := true, buf := "C:".toList } c6Globals (by rfl)

/-! ## The line ends that `CreateAutoexec` writes -/

theorem lfToCrlf_of_no_lf (a : List Char) (h : '\n' ∉ a) :
    ∀ prev, lfToCrlf prev a = a := by
  induction a with
  | nil => intro prev; rfl
  | cons c cs ih =>
    intro prev
    have hc : c ≠ '\n' := fun e => h (e ▸ List.mem_cons_self _ _)
    have hcs : '\n' ∉ cs := fun hm => h (List.mem_cons_of_mem _ hm)
    simp [lfToCrlf, hc, ih hcs]

/-- A run without line feed is kept, and what follows it sees the last character of the
run in front of it. -/
theorem lfToCrlf_append_of_no_lf (a rest : List Char) (h : '\n' ∉ a) :
    ∀ prev, lfToCrlf prev (a ++ rest)
      = a ++ lfToCrlf (if a = [] then prev else a.getLast?) rest := by
  induction a with
  | nil => intro prev; rfl
  | cons c cs ih =>
    intro prev
    have hc : c ≠ '\n' := fun e => h (e ▸ List.mem_cons_self _ _)
    have hcs : '\n' ∉ cs := fun hm => h (List.mem_cons_of_mem _ hm)
    have hlast : (if cs = [] then some c else cs.getLast?) = (c :: cs).getLast? := by
      cases cs with
      | nil => rfl
      | cons d ds => simp [List.getLast?_cons_cons]
    rw [List.cons_append, lfToCrlf, if_neg (by simp [hc]), ih hcs (some c), hlast]
    simp

theorem findSub_crlf_at (a b : List Char) (h : '\n' ∉ a) :
    findSub ['\r', '\n'] (a ++ '\r' :: '\n' :: b) = some a.length := by
  induction a with
  | nil => simp [findSub, List.isPrefixOf]
  | cons c cs ih =>
    have hcs : '\n' ∉ cs := fun hm => h (List.mem_cons_of_mem _ hm)
    have hnot : List.isPrefixOf ['\r', '\n'] (c :: (cs ++ '\r' :: '\n' :: b)) = false := by
      cases cs with
      | nil => simp [List.isPrefixOf]
      | cons d ds =>
        have hd : d ≠ '\n' := fun e => hcs (e ▸ List.mem_cons_self _ _)
        simp only [List.cons_append, List.isPrefixOf, Bool.and_eq_false_imp, beq_iff_eq,
          Bool.and_true, beq_eq_false_iff_ne]
        exact fun _ e => hd e.symm
    rw [List.cons_append, findSub, hnot, ih hcs]
    simp

theorem findSub_crlf_after (a b : List Char) (h : '\n' ∉ a)
    (hlast : a.getLast? ≠ some '\r') :
    ∀ k, findSub ['\r', '\n'] (a ++ '\n' :: b) = some k → a.length < k := by
  induction a with
  | nil =>
    intro k hk
    simp only [List.nil_append, findSub, List.isPrefixOf] at hk
    simp only [List.length_nil]
    simp at hk
    obtain ⟨j, _, rfl⟩ := hk
    omega
  | cons c cs ih =>
    intro k hk
    have hcs : '\n' ∉ cs := fun hm => h (List.mem_cons_of_mem _ hm)
    have hnot : List.isPrefixOf ['\r', '\n'] (c :: (cs ++ '\n' :: b)) = false := by
      cases cs with
      | nil =>
        have hc : c ≠ '\r' := by
          intro e
          apply hlast
          simp [e]
        simp only [List.nil_append, List.isPrefixOf, Bool.and_true, Bool.and_eq_false_imp,
          beq_iff_eq]
        exact fun e => absurd e.symm hc
      | cons d ds =>
        have hd : d ≠ '\n' := fun e => hcs (e ▸ List.mem_cons_self _ _)
        simp only [List.cons_append, List.isPrefixOf, Bool.and_eq_false_imp, beq_iff_eq,
          Bool.and_true, beq_eq_false_iff_ne]
        exact fun _ e => hd e.symm
    rw [List.cons_append, findSub, hnot] at hk
    simp only [Bool.false_eq_true, if_false, Option.map_eq_some'] at hk
    obtain ⟨j, hj, rfl⟩ := hk
    have hl : cs.getLast? ≠ some '\r' := by
      cases cs with
      | nil => simp
      | cons d ds =>
        intro e
        apply hlast
        rw [List.getLast?_cons_cons]
        exact e
    have := ih hcs hl j hj
    simp only [List.length_cons]
    omega

/-- The CR LF loop, entered at the end of the part `P` it has dealt with, a part that
does not end in a carriage return, leaves `P` and turns the rest `S` into the text with
every bare line feed replaced. -/
theorem crlfLoop_eq (fuel : Nat) : ∀ (P S : List Char), S.count '\n' < fuel →
    P.getLast? ≠ some '\r' →
    crlfLoop fuel (P ++ S) P.length = P ++ lfToCrlf P.getLast? S := by
  induction fuel with
  | zero => intro P S h; omega
  | succ fuel ih =>
    intro P S hfuel hP
    unfold crlfLoop
    by_cases hS : S = []
    · subst hS
      simp [lfToCrlf]
    · have hlt : P.length < (P ++ S).length := by
        have : 0 < S.length := List.length_pos.mpr hS
        simp only [List.length_append]
        omega
      rw [if_pos hlt]
      cases hfind : find_char (P ++ S) '\n' P.length with
      | none =>
        have hno : '\n' ∉ S := by
          unfold find_char at hfind
          rw [Option.map_eq_none', List.drop_left, List.findIdx?_eq_none_iff] at hfind
          intro hm
          have := hfind _ hm
          simp at this
        simp only
        rw [lfToCrlf_of_no_lf S hno]
      | some n =>
        obtain ⟨a, b, hl, hna, hn⟩ := find_char_split _ _ _ _ hfind
        rw [List.drop_left] at hl
        subst hl
        have hcount : b.count '\n' < fuel := by
          rw [List.count_append, List.count_eq_zero_of_not_mem hna,
            List.count_cons_self] at hfuel
          omega
        have hstr : find_str (P ++ (a ++ '\n' :: b)) ['\r', '\n'] P.length
            = (findSub ['\r', '\n'] (a ++ '\n' :: b)).map (fun i => P.length + i) := by
          unfold find_str
          rw [if_pos (by simp), List.drop_left]
        simp only
        rw [hstr]
        by_cases hlast : a.getLast? = some '\r'
        · -- the line feed follows a carriage return
          obtain ⟨a0, rfl⟩ : ∃ a0, a = a0 ++ ['\r'] := by
            rw [List.getLast?_eq_some_iff] at hlast
            exact hlast
          have hna0 : '\n' ∉ a0 := fun hm => hna (List.mem_append_left _ hm)
          have hsub : findSub ['\r', '\n'] (a0 ++ ['\r'] ++ '\n' :: b) = some a0.length := by
            have := findSub_crlf_at a0 b hna0
            simpa using this
          rw [hsub]
          simp only [Option.map_some']
          have hrn : P.length + a0.length + 1 = n := by
            rw [hn]
            simp
            omega
          rw [if_pos hrn]
          have key := ih (P ++ (a0 ++ ['\r']) ++ ['\n']) b hcount (by simp)
          have hlen : (P ++ (a0 ++ ['\r']) ++ ['\n']).length = n + 1 := by
            rw [hn]
            simp
            omega
          rw [hlen] at key
          have hli : P ++ (a0 ++ ['\r']) ++ ['\n'] ++ b = P ++ (a0 ++ ['\r'] ++ '\n' :: b) := by
            simp
          rw [hli] at key
          rw [key, lfToCrlf_append_of_no_lf (a0 ++ ['\r']) _ hna]
          simp [lfToCrlf]
        · -- a bare line feed
          have hrep : replace_with_crlf (P ++ (a ++ '\n' :: b)) n
              = P ++ a ++ ['\r', '\n'] ++ b := by
            unfold replace_with_crlf
            have h1 : (P ++ (a ++ '\n' :: b)).take n = P ++ a := by
              rw [hn, ← List.append_assoc, ← List.length_append, List.take_left]
            have h2 : (P ++ (a ++ '\n' :: b)).drop (n + 1) = b := by
              have : P ++ (a ++ '\n' :: b) = (P ++ a ++ ['\n']) ++ b := by simp
              rw [this]
              have hl2 : n + 1 = (P ++ a ++ ['\n']).length := by
                rw [hn]
                simp
                omega
              rw [hl2, List.drop_left]
            rw [h1, h2]
            simp
          have key := ih (P ++ a ++ ['\r', '\n']) b hcount (by simp)
          have hlen : (P ++ a ++ ['\r', '\n']).length = n + 2 := by
            rw [hn]
            simp
            omega
          rw [hlen] at key
          have hprev : (if a = [] then P.getLast? else a.getLast?) ≠ some '\r' := by
            split
            · exact hP
            · exact hlast
          have hspec : lfToCrlf P.getLast? (a ++ '\n' :: b)
              = a ++ '\r' :: '\n' :: lfToCrlf (some '\n') b := by
            rw [lfToCrlf_append_of_no_lf a _ hna]
            simp [lfToCrlf, hprev]
          have hgo : crlfLoop fuel (replace_with_crlf (P ++ (a ++ '\n' :: b)) n) (n + 2)
              = P ++ lfToCrlf P.getLast? (a ++ '\n' :: b) := by
            rw [hrep, key, hspec]
            simp
          cases hsub : findSub ['\r', '\n'] (a ++ '\n' :: b) with
          | none =>
            simp only [Option.map_none']
            exact hgo
          | some k =>
            have hk := findSub_crlf_after a b hna hlast k hsub
            simp only [Option.map_some']
            rw [if_neg (by omega)]
            exact hgo

/-- The text `CreateAutoexec` makes of a line is the line with every bare line feed
replaced by CR LF. -/
theorem crlf_eq (t : List Char) : crlf t = lfToCrlf none t := by
  have h := crlfLoop_eq (t.length + 1) [] t
    (Nat.lt_succ_of_le (List.count_le_length _ _)) (by simp)
  simpa [crlf] using h
theorem lfToCrlf_lf_follows_cr (t : List Char) :
    ∀ (prev : Option Char) (i : Nat), (lfToCrlf prev t).get? i = some '\n' →
      (i = 0 ∧ prev = some '\r') ∨ (0 < i ∧ (lfToCrlf prev t).get? (i - 1) = some '\r') := by
  induction t with
  | nil => intro prev i h; simp [lfToCrlf] at h
  | cons c cs ih =>
    intro prev i h
    by_cases hc : c = '\n' ∧ prev ≠ some '\r'
    · rw [lfToCrlf, if_pos hc] at h ⊢
      match i with
      | 0 => simp at h
      | 1 => right; simp
      | j + 2 =>
        right
        simp only [List.get?_cons_succ] at h
        rcases ih (some c) j h with ⟨_, h2⟩ | ⟨h1, h2⟩
        · rw [hc.1] at h2
          simp at h2
        · obtain ⟨k, rfl⟩ : ∃ k, j = k + 1 := ⟨j - 1, by omega⟩
          refine ⟨by omega, ?_⟩
          simpa using h2
    · rw [lfToCrlf, if_neg hc] at h ⊢
      match i with
      | 0 =>
        left
        simp only [List.get?_cons_zero, Option.some.injEq] at h
        refine ⟨rfl, ?_⟩
        by_contra hp
        exact hc ⟨h, hp⟩
      | j + 1 =>
        right
        simp only [List.get?_cons_succ] at h
        rcases ih (some c) j h with ⟨h1, h2⟩ | ⟨h1, h2⟩
        · subst h1
          simp only [Option.some.injEq] at h2
          simp [h2]
        · obtain ⟨k, rfl⟩ : ∃ k, j = k + 1 := ⟨j - 1, by omega⟩
          refine ⟨by omega, ?_⟩
          simpa using h2

theorem everyLf_lfToCrlf (t : List Char) : EveryLfFollowsCr (lfToCrlf none t) := by
  intro i h
  rcases lfToCrlf_lf_follows_cr t none i h with ⟨_, h2⟩ | h2
  · simp at h2
  · exact h2

theorem everyLf_append (x y : List Char) (hx : EveryLfFollowsCr x)
    (hy : EveryLfFollowsCr y) : EveryLfFollowsCr (x ++ y) := by
  unfold EveryLfFollowsCr at *
  simp only [List.get?_eq_getElem?] at *
  intro i h
  by_cases hi : i < x.length
  · rw [List.getElem?_append_left hi] at h
    obtain ⟨h1, h2⟩ := hx i h
    refine ⟨h1, ?_⟩
    rw [List.getElem?_append_left (by omega)]
    exact h2
  · rw [List.getElem?_append_right (by omega)] at h
    obtain ⟨h1, h2⟩ := hy _ h
    refine ⟨by omega, ?_⟩
    rw [List.getElem?_append_right (by omega)]
    have : i - 1 - x.length = i - x.length - 1 := by omega
    rw [this]
    exact h2

theorem everyLf_of_append (x y : List Char) (h : EveryLfFollowsCr (x ++ y)) :
    EveryLfFollowsCr x := by
  unfold EveryLfFollowsCr at *
  simp only [List.get?_eq_getElem?] at *
  intro i hi
  have hlt : i < x.length := by
    by_contra hge
    rw [List.getElem?_eq_none (by omega)] at hi
    simp at hi
  have := h i (by rw [List.getElem?_append_left hlt]; exact hi)
  refine ⟨this.1, ?_⟩
  have h2 := this.2
  rw [List.getElem?_append_left (by omega)] at h2
  exact h2

theorem everyLf_c_str (s : List Char) (h : EveryLfFollowsCr s) : EveryLfFollowsCr (c_str s) := by
  apply everyLf_of_append (c_str s) (s.dropWhile (fun c => c != NUL))
  unfold c_str
  rw [List.takeWhile_append_dropWhile]
  exact h

/-- In the bytes `CreateAutoexec` writes for a sequence of lines every line feed
directly follows a carriage return. -/
theorem everyLf_assembled (strings : List (List Char)) :
    EveryLfFollowsCr (assembled strings) := by
  induction strings with
  | nil => intro i h; simp [assembled] at h
  | cons t ts ih =>
    rw [AutoexecObject.assembled_cons]
    apply everyLf_append _ _ _ ih
    apply everyLf_append
    · apply everyLf_c_str
      rw [crlf_eq]
      exact everyLf_lfToCrlf t
    · intro i h
      match i with
      | 0 => simp at h
      | 1 => simp
      | j + 2 => simp at h

/-- For texts without NUL the bytes `CreateAutoexec` writes are, line by line, the text
with its bare line feeds made CR LF, and the CR LF that ends the line. -/
theorem assembled_eq_lfToCrlf (strings : List (List Char)) (hn : ∀ t ∈ strings, NoNul t) :
    assembled strings = strings.flatMap (fun t => lfToCrlf none t ++ ['\r', '\n']) := by
  induction strings with
  | nil => rfl
  | cons t ts ih =>
    rw [AutoexecObject.assembled_cons, List.flatMap_cons,
      c_str_of_noNul _ (crlf_noNul t (hn t (List.mem_cons_self _ _))), crlf_eq,
      ih (fun x hx => hn x (List.mem_cons_of_mem _ hx))]

/-- C25. For every state of the registry whose line texts hold no NUL character: when
`CreateAutoexec` returns, the buffer is the concatenation, in the order of the
sequence, of what it has written for each line, and that is the text of the line
with every line feed that does not directly follow a carriage return replaced by
CR LF and every other character, also each CR LF pair that was there, kept, followed
by the CR LF that ends the line. Consequently every line feed in the buffer directly
follows a carriage return. For every text, with or without NUL, the loop of
`CreateAutoexec` over `linecopy` makes exactly that replacement. -/
theorem C25_bare_line_feeds_become_crlf (t : List Char) (g g1 : Globals)
    (hn : ∀ x ∈ g.autoexec_strings, NoNul x)
    (h : AutoexecObject.CreateAutoexec g = Outcome.ok () g1) :
    g1.autoexec_data
        = g.autoexec_strings.flatMap (fun x => lfToCrlf none x ++ ['\r', '\n'])
    ∧ g1.autoexec_strings = g.autoexec_strings
    ∧ EveryLfFollowsCr g1.autoexec_data
    ∧ crlf t = lfToCrlf none t := by
  have hg1 := AutoexecObject.CreateAutoexec_ok g g1 h
  refine ⟨?_, ?_, ?_, crlf_eq t⟩
  · rw [hg1]
    exact assembled_eq_lfToCrlf g.autoexec_strings hn
  · rw [hg1]
  · rw [hg1]
    exact everyLf_assembled g.autoexec_strings

/-- C25 (witness): with the two lines `C:` and `dir`, line feed, `ver`, CR LF, `exit` in
the sequence, `CreateAutoexec` returns with the buffer `C:`, CR LF, `dir`, CR LF, `ver`,
CR LF, `exit`, CR LF. -/
theorem C25_bare_line_feeds_become_crlf_witness :
    (∀ x ∈ c25Globals.autoexec_strings, NoNul x)
    ∧ AutoexecObject.CreateAutoexec c25Globals = Outcome.ok () c25Written
    ∧ c25Written.autoexec_data = "C:\r\ndir\r\nver\r\nexit\r\n".toList
    ∧ c25Written.autoexec_data
        = c25Globals.autoexec_strings.flatMap (fun x => lfToCrlf none x ++ ['\r', '\n'])
    ∧ c25Written.autoexec_strings = c25Globals.autoexec_strings
    ∧ EveryLfFollowsCr c25Written.autoexec_data
    ∧ crlf "dir\nver\r\nexit".toList = lfToCrlf none "dir\nver\r\nexit".toList :=
  ⟨by decide, by decide, rfl,
    C25_bare_line_feeds_become_crlf "dir\nver\r\nexit".toList c25Globals c25Written
      (by decide) (by decide)⟩

/-! ## More theorems about `GetRedirection` -/

namespace DOS_Shell

/-! ### One iteration of the main loop -/

theorem scan_quoted (ch : Char) (lr : List Char) (r : Redirection) (h0 : ch ≠ NUL)
    (hq : ch ≠ DQUOTE) :
    GetRedirection.scan (ch :: lr) true r
      = GetRedirection.scan lr true { r with line := r.line ++ [ch] } := by
  rw [GetRedirection.scan]
  simp [h0, hq]

theorem scan_dquote (lr : List Char) (q : Bool) (r : Redirection) :
    GetRedirection.scan (DQUOTE :: lr) q r
      = GetRedirection.scan lr (!q) { r with line := r.line ++ [DQUOTE] } := by
  rw [GetRedirection.scan]
  simp [NUL, DQUOTE]

theorem scan_gt (lr : List Char) (r : Redirection) :
    GetRedirection.scan ('>' :: lr) false r
      = GetRedirection.scan (nameRest '<' (ltrim (skipSecondGt lr))) false
          { r with append := decide (lr.head? = some '>'),
                   ofn := some (copyTarget '<' (ltrim (skipSecondGt lr))) } := by
  rw [GetRedirection.scan]
  simp [NUL, DQUOTE]

theorem scan_lt (lr : List Char) (r : Redirection) :
    GetRedirection.scan ('<' :: lr) false r
      = GetRedirection.scan (nameRest '>' (ltrim lr)) false
          { r with ifn := some (copyTarget '>' (ltrim lr)) } := by
  rw [GetRedirection.scan]
  simp [NUL, DQUOTE]

theorem scan_pipe (lr : List Char) (r : Redirection) :
    GetRedirection.scan ('|' :: lr) false r
      = GetRedirection.scan lr false { r with line := r.line ++ [NUL], num := r.num + 1 } := by
  rw [GetRedirection.scan]
  simp [NUL, DQUOTE]

theorem scan_other (ch : Char) (lr : List Char) (r : Redirection) (h0 : ch ≠ NUL)
    (hq : ch ≠ DQUOTE) (hgt : ch ≠ '>') (hlt : ch ≠ '<') (hp : ch ≠ '|') :
    GetRedirection.scan (ch :: lr) false r
      = GetRedirection.scan lr false { r with line := r.line ++ [ch] } := by
  rw [GetRedirection.scan]
  simp [h0, hq, hgt, hlt, hp]

/-- Outside quotes a run of characters that are none of NUL, double quote, `<`, `>`, `|`
is stored unchanged. -/
theorem scan_other_append (c lr : List Char) (r : Redirection)
    (h : ∀ ch ∈ c, ch ≠ NUL ∧ ch ≠ DQUOTE ∧ ch ≠ '>' ∧ ch ≠ '<' ∧ ch ≠ '|') :
    GetRedirection.scan (c ++ lr) false r
      = GetRedirection.scan lr false { r with line := r.line ++ c } := by
  induction c generalizing r with
  | nil => simp
  | cons ch cs ih =>
    obtain ⟨h0, hq, hgt, hlt, hp⟩ := h ch (List.mem_cons_self _ _)
    rw [List.cons_append, scan_other ch _ r h0 hq hgt hlt hp,
      ih _ (fun x hx => h x (List.mem_cons_of_mem _ hx))]
    simp

theorem other_of_blank (ws : List Char) (h : blank ws) :
    ∀ ch ∈ ws, ch ≠ NUL ∧ ch ≠ DQUOTE ∧ ch ≠ '>' ∧ ch ≠ '<' ∧ ch ≠ '|' := by
  intro ch hch
  have := h ch hch
  refine ⟨?_, ?_, ?_, ?_, ?_⟩ <;> (intro e; rw [e] at this; revert this; decide)

theorem other_of_plain (c : List Char) (h : ∀ ch ∈ c, plainChar ch = true) :
    ∀ ch ∈ c, ch ≠ NUL ∧ ch ≠ DQUOTE ∧ ch ≠ '>' ∧ ch ≠ '<' ∧ ch ≠ '|' := by
  intro ch hch
  have := h ch hch
  simp only [plainChar, Bool.and_eq_true, bne_iff_ne, ne_eq, Bool.not_eq_true'] at this
  obtain ⟨⟨⟨⟨⟨h0, _⟩, hq⟩, hlt⟩, hgt⟩, hp⟩ := this
  exact ⟨h0, hq, hgt, hlt, hp⟩

/-! ### The filename after an operator -/

theorem inName_ne_nul (stop c : Char) (h : inName stop c = true) : c ≠ NUL := by
  simp only [inName, Bool.and_eq_true, bne_iff_ne, ne_eq] at h
  exact h.1.1.1

theorem nameSpan_noNul (stop : Char) (fn : List Char) : NoNul (nameSpan stop fn) := by
  intro hm
  have := List.mem_takeWhile_imp hm
  exact inName_ne_nul stop NUL this rfl

/-- The target that is stored is the run of the filename loop without the colon at its
end, whatever follows the run. -/
theorem copyTarget_eq (stop : Char) (fn : List Char) :
    copyTarget stop fn = stripColon (nameSpan stop fn) := by
  have hn := nameSpan_noNul stop fn
  unfold copyTarget stripColon
  simp only
  by_cases hc : (nameSpan stop fn).getLast? = some ':'
  · have hne : nameSpan stop fn ≠ [] := by
      intro e
      rw [e] at hc
      simp at hc
    rw [if_pos ⟨hne, hc⟩, if_pos hc]
    have hd : NoNul (nameSpan stop fn).dropLast :=
      fun hm => hn (List.mem_of_mem_dropLast hm)
    unfold safe_strncpy c_str
    rw [List.takeWhile_append_of_pos (fun a ha => by
      simp only [bne_iff_ne, ne_eq]
      intro e
      exact hd (e ▸ ha))]
    simp only [List.takeWhile_cons, bne_self_eq_false, Bool.false_eq_true, if_false,
      List.append_nil, Nat.add_sub_cancel]
    rw [List.take_of_length_le]
    simp
  · rw [if_neg (fun h => hc h.2), if_neg hc]
    unfold safe_strncpy c_str
    rw [List.takeWhile_append_of_pos (fun a ha => by
      simp only [bne_iff_ne, ne_eq]
      intro e
      exact hn (e ▸ ha))]
    simp

theorem ltrim_eq_dropWhile (l : List Char) :
    ltrim l = l.dropWhile (fun c => c != NUL && isspace c) := by
  induction l with
  | nil => rfl
  | cons c cs ih =>
    rw [ltrim, List.dropWhile_cons]
    split <;> simp_all

theorem isspace_nul : isspace NUL = false := by decide

theorem ltrim_blank_append (ws fn : List Char) (h : blank ws) :
    ltrim (ws ++ fn) = ltrim fn := by
  rw [ltrim_eq_dropWhile, ltrim_eq_dropWhile]
  apply List.dropWhile_append_of_pos
  intro a ha
  have hs := h a ha
  have h0 : a ≠ NUL := by
    intro e
    rw [e, isspace_nul] at hs
    exact absurd hs (by decide)
  simp [hs, h0]

theorem ltrim_of_startsName (fn : List Char) (h : startsName fn = true) : ltrim fn = fn := by
  cases fn with
  | nil => rfl
  | cons c cs =>
    simp only [startsName, List.head?_cons, Bool.not_eq_true'] at h
    simp [ltrim, h]

theorem nameSpan_bounded (stop : Char) (name rest : List Char)
    (hname : ∀ c ∈ name, inName stop c = true) (hrest : stopsName stop rest = true) :
    nameSpan stop (name ++ rest) = name ∧ nameRest stop (name ++ rest) = rest := by
  have hstop : List.takeWhile (inName stop) rest = []
      ∧ List.dropWhile (inName stop) rest = rest := by
    cases rest with
    | nil => simp
    | cons c cs =>
      simp only [stopsName, List.head?_cons, Bool.not_eq_true'] at hrest
      simp [List.takeWhile_cons, List.dropWhile_cons, hrest]
  unfold nameSpan nameRest
  rw [List.takeWhile_append_of_pos hname, List.dropWhile_append_of_pos hname]
  simp [hstop.1, hstop.2]

/-- The step of the main loop at an output operator, `>` or `>>`, that is followed by
whitespace, the run `name` of the filename loop, and a text at which that loop stops:
the target is `name` without a colon at its end and the scan goes on behind `name`. -/
theorem scan_output (double : Bool) (ws name rest : List Char) (r : Redirection)
    (hws : blank ws) (hname : ∀ c ∈ name, inName '<' c = true)
    (hstart : startsName (name ++ rest) = true) (hrest : stopsName '<' rest = true)
    (hsingle : double = false → (ws ++ name ++ rest).head? ≠ some '>') :
    GetRedirection.scan (gtOperator double ++ ws ++ name ++ rest) false r
      = GetRedirection.scan rest false
          { r with append := double, ofn := some (stripColon name) } := by
  have hb := nameSpan_bounded '<' name rest hname hrest
  cases double with
  | true =>
    have hl : gtOperator true ++ ws ++ name ++ rest = '>' :: '>' :: (ws ++ (name ++ rest)) := by
      simp [gtOperator]
    rw [hl, scan_gt]
    have hskip : skipSecondGt ('>' :: (ws ++ (name ++ rest))) = ws ++ (name ++ rest) := by
      simp [skipSecondGt]
    rw [hskip, ltrim_blank_append ws _ hws, ltrim_of_startsName _ hstart, copyTarget_eq,
      hb.1, hb.2]
    simp
  | false =>
    have hl : gtOperator false ++ ws ++ name ++ rest = '>' :: (ws ++ (name ++ rest)) := by
      simp [gtOperator]
    have hhead : (ws ++ (name ++ rest)).head? ≠ some '>' := by
      have := hsingle rfl
      rw [List.append_assoc] at this
      exact this
    rw [hl, scan_gt]
    have hskip : skipSecondGt (ws ++ (name ++ rest)) = ws ++ (name ++ rest) := by
      unfold skipSecondGt
      rw [if_neg hhead]
    rw [hskip, ltrim_blank_append ws _ hws, ltrim_of_startsName _ hstart, copyTarget_eq,
      hb.1, hb.2, decide_eq_false hhead]

/-- The step of the main loop at an input operator `<`, likewise. -/
theorem scan_input (ws name rest : List Char) (r : Redirection)
    (hws : blank ws) (hname : ∀ c ∈ name, inName '>' c = true)
    (hstart : startsName (name ++ rest) = true) (hrest : stopsName '>' rest = true) :
    GetRedirection.scan ('<' :: ws ++ name ++ rest) false r
      = GetRedirection.scan rest false { r with ifn := some (stripColon name) } := by
  have hb := nameSpan_bounded '>' name rest hname hrest
  have hl : '<' :: ws ++ name ++ rest = '<' :: (ws ++ (name ++ rest)) := by simp
  rw [hl, scan_lt, ltrim_blank_append ws _ hws, ltrim_of_startsName _ hstart, copyTarget_eq,
    hb.1, hb.2]


/-! ### The branches of the main loop, for any value of the quote flag -/

theorem scan_nul (cs : List Char) (q : Bool) (r : Redirection) :
    GetRedirection.scan (NUL :: cs) q r = r := by
  rw [GetRedirection.scan]
  simp

theorem scan_quoted_of (c : Char) (cs : List Char) (q : Bool) (r : Redirection)
    (h0 : ¬c = NUL) (h : q = true ∧ c ≠ DQUOTE) :
    GetRedirection.scan (c :: cs) q r
      = GetRedirection.scan cs q { r with line := r.line ++ [c] } := by
  rw [GetRedirection.scan]
  simp [h0, h.1, h.2]

theorem flag_of_not_quoted (q : Bool) (c : Char) (h : ¬(q = true ∧ c ≠ DQUOTE))
    (hc : c ≠ DQUOTE) : q = false := by
  cases q with
  | false => rfl
  | true => exact absurd ⟨rfl, hc⟩ h

theorem scan_gt_of (cs : List Char) (q : Bool) (r : Redirection)
    (h : ¬(q = true ∧ '>' ≠ DQUOTE)) :
    GetRedirection.scan ('>' :: cs) q r
      = GetRedirection.scan (nameRest '<' (ltrim (skipSecondGt cs))) q
          { r with append := decide (cs.head? = some '>'),
                   ofn := some (copyTarget '<' (ltrim (skipSecondGt cs))) } := by
  have hq := flag_of_not_quoted q '>' h (by decide)
  subst hq
  exact scan_gt cs r

theorem scan_lt_of (cs : List Char) (q : Bool) (r : Redirection)
    (h : ¬(q = true ∧ '<' ≠ DQUOTE)) :
    GetRedirection.scan ('<' :: cs) q r
      = GetRedirection.scan (nameRest '>' (ltrim cs)) q
          { r with ifn := some (copyTarget '>' (ltrim cs)) } := by
  have hq := flag_of_not_quoted q '<' h (by decide)
  subst hq
  exact scan_lt cs r

theorem scan_pipe_of (cs : List Char) (q : Bool) (r : Redirection)
    (h : ¬(q = true ∧ '|' ≠ DQUOTE)) :
    GetRedirection.scan ('|' :: cs) q r
      = GetRedirection.scan cs q { r with line := r.line ++ [NUL], num := r.num + 1 } := by
  have hq := flag_of_not_quoted q '|' h (by decide)
  subst hq
  exact scan_pipe cs r

theorem scan_other_of (c : Char) (cs : List Char) (q : Bool) (r : Redirection)
    (h0 : ¬c = NUL) (h : ¬(q = true ∧ c ≠ DQUOTE)) (hq : ¬c = DQUOTE) (hgt : ¬c = '>')
    (hlt : ¬c = '<') (hp : ¬c = '|') :
    GetRedirection.scan (c :: cs) q r
      = GetRedirection.scan cs q { r with line := r.line ++ [c] } := by
  have hf := flag_of_not_quoted q c h hq
  subst hf
  exact scan_other c cs r h0 hq hgt hlt hp

theorem mem_of_mem_ltrim (c : Char) (l : List Char) (h : c ∈ ltrim l) : c ∈ l := by
  rw [ltrim_eq_dropWhile] at h
  exact (List.dropWhile_sublist _).subset h

theorem mem_of_mem_skipSecondGt (c : Char) (l : List Char) (h : c ∈ skipSecondGt l) :
    c ∈ l := by
  unfold skipSecondGt at h
  split at h
  · exact List.mem_of_mem_tail h
  · exact h

theorem mem_of_mem_nameRest (stop c : Char) (l : List Char) (h : c ∈ nameRest stop l) :
    c ∈ l :=
  (List.dropWhile_sublist _).subset h

/-- A text without `>` leaves the output target and the append flag as they are. -/
theorem scan_ofn_of_no_gt (s : List Char) (q : Bool) (r : Redirection) (h : '>' ∉ s) :
    (GetRedirection.scan s q r).ofn = r.ofn
    ∧ (GetRedirection.scan s q r).append = r.append := by
  induction s, q, r using GetRedirection.scan.induct with
  | case1 q r => rw [scan_nil]; exact ⟨rfl, rfl⟩
  | case2 q r cs => rw [scan_nul]; exact ⟨rfl, rfl⟩
  | case3 q r c cs h0 hq ih =>
    rw [scan_quoted_of c cs q r h0 hq]
    exact ih (fun hm => h (List.mem_cons_of_mem _ hm))
  | case4 q r cs _ _ ih =>
    rw [scan_dquote]
    exact ih (fun hm => h (List.mem_cons_of_mem _ hm))
  | case5 q r cs fn _ _ _ ih => exact absurd (List.mem_cons_self _ _) h
  | case6 q r cs fn _ hq _ _ ih =>
    rw [scan_lt_of cs q r hq]
    exact ih (fun hm => h (List.mem_cons_of_mem _
      (mem_of_mem_ltrim _ _ (mem_of_mem_nameRest _ _ _ hm))))
  | case7 q r cs _ hq _ _ _ ih =>
    rw [scan_pipe_of cs q r hq]
    exact ih (fun hm => h (List.mem_cons_of_mem _ hm))
  | case8 q r c cs h0 hq h1 h2 h3 h4 ih =>
    rw [scan_other_of c cs q r h0 hq h1 h2 h3 h4]
    exact ih (fun hm => h (List.mem_cons_of_mem _ hm))

/-- A text without `<` leaves the input target as it is. -/
theorem scan_ifn_of_no_lt (s : List Char) (q : Bool) (r : Redirection) (h : '<' ∉ s) :
    (GetRedirection.scan s q r).ifn = r.ifn := by
  induction s, q, r using GetRedirection.scan.induct with
  | case1 q r => rw [scan_nil]
  | case2 q r cs => rw [scan_nul]
  | case3 q r c cs h0 hq ih =>
    rw [scan_quoted_of c cs q r h0 hq]
    exact ih (fun hm => h (List.mem_cons_of_mem _ hm))
  | case4 q r cs _ _ ih =>
    rw [scan_dquote]
    exact ih (fun hm => h (List.mem_cons_of_mem _ hm))
  | case5 q r cs fn _ hq _ ih =>
    rw [scan_gt_of cs q r hq]
    exact ih (fun hm => h (List.mem_cons_of_mem _
      (mem_of_mem_skipSecondGt _ _ (mem_of_mem_ltrim _ _ (mem_of_mem_nameRest _ _ _ hm)))))
  | case6 q r cs fn _ hq _ _ ih => exact absurd (List.mem_cons_self _ _) h
  | case7 q r cs _ hq _ _ _ ih =>
    rw [scan_pipe_of cs q r hq]
    exact ih (fun hm => h (List.mem_cons_of_mem _ hm))
  | case8 q r c cs h0 hq h1 h2 h3 h4 ih =>
    rw [scan_other_of c cs q r h0 hq h1 h2 h3 h4]
    exact ih (fun hm => h (List.mem_cons_of_mem _ hm))

/-- The count never goes down, and what was stored of the line stays in front. -/
theorem scan_grows (s : List Char) (q : Bool) (r : Redirection) :
    r.num ≤ (GetRedirection.scan s q r).num
    ∧ ∃ t, (GetRedirection.scan s q r).line = r.line ++ t := by
  induction s, q, r using GetRedirection.scan.induct with
  | case1 q r => rw [scan_nil]; exact ⟨Nat.le_refl _, [], by simp⟩
  | case2 q r cs => rw [scan_nul]; exact ⟨Nat.le_refl _, [], by simp⟩
  | case3 q r c cs h0 hq ih =>
    rw [scan_quoted_of c cs q r h0 hq]
    obtain ⟨h1, t, h2⟩ := ih
    exact ⟨h1, [c] ++ t, by rw [h2]; simp⟩
  | case4 q r cs _ _ ih =>
    rw [scan_dquote]
    obtain ⟨h1, t, h2⟩ := ih
    exact ⟨h1, [DQUOTE] ++ t, by rw [h2]; simp⟩
  | case5 q r cs fn _ hq _ ih =>
    rw [scan_gt_of cs q r hq]
    exact ih
  | case6 q r cs fn _ hq _ _ ih =>
    rw [scan_lt_of cs q r hq]
    exact ih
  | case7 q r cs _ hq _ _ _ ih =>
    rw [scan_pipe_of cs q r hq]
    obtain ⟨h1, t, h2⟩ := ih
    exact ⟨by simp only at h1; omega, [NUL] ++ t, by rw [h2]; simp⟩
  | case8 q r c cs h0 hq h1 h2 h3 h4 ih =>
    rw [scan_other_of c cs q r h0 hq h1 h2 h3 h4]
    obtain ⟨h1, t, h2⟩ := ih
    exact ⟨h1, [c] ++ t, by rw [h2]; simp⟩

/-- As long as no pipe is counted no NUL is stored. -/
theorem scan_line_noNul (s : List Char) (q : Bool) (r : Redirection)
    (hr : NUL ∉ r.line) (hnum : (GetRedirection.scan s q r).num = r.num) :
    NUL ∉ (GetRedirection.scan s q r).line := by
  induction s, q, r using GetRedirection.scan.induct with
  | case1 q r => rw [scan_nil]; exact hr
  | case2 q r cs => rw [scan_nul]; exact hr
  | case3 q r c cs h0 hq ih =>
    rw [scan_quoted_of c cs q r h0 hq] at hnum ⊢
    exact ih (by simp [hr, Ne.symm h0]) hnum
  | case4 q r cs h0 _ ih =>
    rw [scan_dquote] at hnum ⊢
    exact ih (by simp [hr, Ne.symm h0]) hnum
  | case5 q r cs fn _ hq _ ih =>
    rw [scan_gt_of cs q r hq] at hnum ⊢
    exact ih hr hnum
  | case6 q r cs fn _ hq _ _ ih =>
    rw [scan_lt_of cs q r hq] at hnum ⊢
    exact ih hr hnum
  | case7 q r cs _ hq _ _ _ ih =>
    rw [scan_pipe_of cs q r hq] at hnum
    have := (scan_grows cs q { r with line := r.line ++ [NUL], num := r.num + 1 }).1
    simp only at this
    omega
  | case8 q r c cs h0 hq h1 h2 h3 h4 ih =>
    rw [scan_other_of c cs q r h0 hq h1 h2 h3 h4] at hnum ⊢
    exact ih (by simp [hr, Ne.symm h0]) hnum


/-! ### Quotes -/

theorem odd_succ (n : Nat) : ((n + 1) % 2 == 1) = !(n % 2 == 1) := by
  rcases Nat.mod_two_eq_zero_or_one n with h | h <;> simp [Nat.add_mod, h]

theorem insideFrom_zero (q : Bool) (c : Char) (s : List Char) :
    insideFrom q (c :: s) 0 = (q && c != DQUOTE) := by
  by_cases hc : c = DQUOTE
  · simp [insideFrom, hc]
  · have h1 : (c != DQUOTE) = true := by simpa using hc
    have h2 : (some c != some DQUOTE) = true := by
      rw [bne_iff_ne]
      exact fun e => hc (Option.some.inj e)
    simp [insideFrom, h1, h2]

theorem insideFrom_succ (q : Bool) (c : Char) (s : List Char) (i : Nat) :
    insideFrom q (c :: s) (i + 1) = insideFrom (if c = DQUOTE then !q else q) s i := by
  unfold insideFrom
  by_cases hc : c = DQUOTE
  · subst hc
    simp only [List.take_succ_cons, List.count_cons_self, odd_succ, List.get?_cons_succ,
      if_true]
    cases q <;> cases (List.count DQUOTE (List.take i s) % 2 == 1) <;> rfl
  · have hne : (c == DQUOTE) = false := by simpa using hc
    simp only [List.take_succ_cons, List.count_cons, hne, Bool.false_eq_true, if_false,
      Nat.add_zero, List.get?_cons_succ, hc]

theorem insideQuotes_eq (s : List Char) (i : Nat) : insideQuotes s i = insideFrom false s i := by
  simp [insideQuotes, insideFrom]

theorem flag_cons (q : Bool) (c : Char) (s : List Char) :
    xor q ((c :: s).count DQUOTE % 2 == 1)
      = xor (if c = DQUOTE then !q else q) (s.count DQUOTE % 2 == 1) := by
  by_cases hc : c = DQUOTE
  · subst hc
    simp only [List.count_cons_self, odd_succ, if_true]
    cases q <;> cases (List.count DQUOTE s % 2 == 1) <;> rfl
  · have hne : (c == DQUOTE) = false := by simpa using hc
    simp only [List.count_cons, hne, Bool.false_eq_true, if_false, Nat.add_zero, hc]

theorem noNul_cons {c : Char} {s : List Char} (h : NoNul (c :: s)) : c ≠ NUL ∧ NoNul s :=
  ⟨fun e => h (e ▸ List.mem_cons_self _ _), fun hm => h (List.mem_cons_of_mem _ hm)⟩

/-- A text whose `<`, `>` and `|` all stand between double quotes is stored as it is,
and the quote flag behind it is the flag in front of it, turned over once for every
double quote of the text. -/
theorem scan_copy (s : List Char) : ∀ (q : Bool) (r : Redirection) (lr : List Char),
    NoNul s →
    (∀ i, i < s.length →
      (s.get? i = some '<' ∨ s.get? i = some '>' ∨ s.get? i = some '|') →
      insideFrom q s i = true) →
    GetRedirection.scan (s ++ lr) q r
      = GetRedirection.scan lr (xor q (s.count DQUOTE % 2 == 1))
          { r with line := r.line ++ s } := by
  induction s with
  | nil => intro q r lr _ _; simp
  | cons c s ih =>
    intro q r lr hn hops
    obtain ⟨h0, hns⟩ := noNul_cons hn
    have hrest : ∀ i, i < s.length →
        (s.get? i = some '<' ∨ s.get? i = some '>' ∨ s.get? i = some '|') →
        insideFrom (if c = DQUOTE then !q else q) s i = true := by
      intro i hi hop
      rw [← insideFrom_succ]
      exact hops (i + 1) (by simp; omega) (by simpa using hop)
    rw [flag_cons, List.cons_append]
    by_cases hc : c = DQUOTE
    · subst hc
      rw [scan_dquote, ih _ _ _ hns (by simpa using hrest)]
      simp
    · simp only [hc, if_false] at hrest ⊢
      cases q with
      | true =>
        rw [scan_quoted c _ r h0 hc, ih _ _ _ hns hrest]
        simp
      | false =>
        have hop : ¬(c = '<' ∨ c = '>' ∨ c = '|') := by
          intro hop
          have := hops 0 (by simp) (by simpa using hop)
          rw [insideFrom_zero] at this
          simp at this
        rw [scan_other c _ r h0 hc (fun e => hop (Or.inr (Or.inl e)))
          (fun e => hop (Or.inl e)) (fun e => hop (Or.inr (Or.inr e))),
          ih _ _ _ hns hrest]
        simp

/-- A quiet text in front of a line is stored as it is, and the scan arrives behind it
outside quotes. -/
theorem scan_quiet (pre lr : List Char) (r : Redirection) (h : Quiet pre) :
    GetRedirection.scan (pre ++ lr) false r
      = GetRedirection.scan lr false { r with line := r.line ++ pre } := by
  obtain ⟨hn, hbal, hops⟩ := h
  have hflag : xor false (pre.count DQUOTE % 2 == 1) = false := by
    simp only [balancedQuotes, beq_iff_eq] at hbal
    simp [hbal]
  rw [scan_copy pre false r lr hn (fun i hi hop => by
    rw [← insideQuotes_eq]
    exact hops i hi hop), hflag]

theorem pipesFrom_cons (q : Bool) (c : Char) (s : List Char) :
    pipesFrom q (c :: s)
      = (if c = '|' ∧ q = false then 1 else 0)
        + pipesFrom (if c = DQUOTE then !q else q) s := by
  unfold pipesFrom
  have hcongr : List.filter
      ((fun i => (c :: s).get? i == some '|' && !insideFrom q (c :: s) i) ∘ Nat.succ)
      (List.range s.length)
      = List.filter (fun i => s.get? i == some '|'
          && !insideFrom (if c = DQUOTE then !q else q) s i) (List.range s.length) := by
    apply List.filter_congr
    intro i _
    simp only [Function.comp, Nat.succ_eq_add_one, List.get?_cons_succ, insideFrom_succ]
  have hzero : ((c :: s).get? 0 == some '|' && !insideFrom q (c :: s) 0)
      = decide (c = '|' ∧ q = false) := by
    rw [insideFrom_zero]
    by_cases hp : c = '|'
    · subst hp
      cases q <;> simp [DQUOTE]
    · simp [hp]
  rw [List.length_cons, List.range_succ_eq_map, List.filter_cons, List.filter_map, hcongr,
    hzero]
  by_cases hcond : c = '|' ∧ q = false
  · rw [if_pos (by simpa using hcond), if_pos hcond, List.length_cons, List.length_map]
    omega
  · rw [if_neg (by simpa using hcond), if_neg hcond, List.length_map]
    omega

/-- When every `<` and `>` of the text stands between double quotes, the count grows by
the number of `|` that do not. -/
theorem scan_pipes (s : List Char) : ∀ (q : Bool) (r : Redirection),
    NoNul s →
    (∀ i, i < s.length → (s.get? i = some '<' ∨ s.get? i = some '>') →
      insideFrom q s i = true) →
    (GetRedirection.scan s q r).num = r.num + pipesFrom q s := by
  induction s with
  | nil => intro q r _ _; rw [scan_nil]; simp [pipesFrom]
  | cons c s ih =>
    intro q r hn hops
    obtain ⟨h0, hns⟩ := noNul_cons hn
    have hrest : ∀ i, i < s.length → (s.get? i = some '<' ∨ s.get? i = some '>') →
        insideFrom (if c = DQUOTE then !q else q) s i = true := by
      intro i hi hop
      rw [← insideFrom_succ]
      exact hops (i + 1) (by simp; omega) (by simpa using hop)
    rw [pipesFrom_cons]
    by_cases hc : c = DQUOTE
    · subst hc
      rw [scan_dquote, ih _ _ hns (by simpa using hrest)]
      simp [DQUOTE]
    · simp only [hc, if_false] at hrest ⊢
      cases q with
      | true =>
        rw [scan_quoted c _ r h0 hc, ih _ _ hns hrest]
        simp
      | false =>
        have hop : ¬(c = '<' ∨ c = '>') := by
          intro hop
          have := hops 0 (by simp) (by simpa using hop)
          rw [insideFrom_zero] at this
          simp at this
        by_cases hp : c = '|'
        · subst hp
          rw [scan_pipe, ih _ _ hns hrest]
          simp
          omega
        · rw [scan_other c _ r h0 hc (fun e => hop (Or.inr e)) (fun e => hop (Or.inl e)) hp,
            ih _ _ hns hrest]
          simp [hp]

theorem outsidePipes_eq (s : List Char) : outsidePipes s = pipesFrom false s := by
  unfold outsidePipes pipesFrom
  congr 1
  apply List.filter_congr
  intro i _
  rw [insideQuotes_eq]

/-- C23. For every line without NUL in which every `<` and `>` stands between double
quotes (an odd number of double quotes stands in front of it), and for whatever targets
and append flag the caller passes in, the value GetRedirection returns is the number of
`|` characters of the line that do not stand between double quotes. -/
theorem C23_count_of_pipes (s : List Char) (ifn ofn : Option (List Char)) (a : Bool)
    (hnul : NoNul s)
    (hred : ∀ i, i < s.length → (s.get? i = some '<' ∨ s.get? i = some '>') →
      insideQuotes s i = true) :
    (GetRedirection s ifn ofn a).num = outsidePipes s := by
  unfold GetRedirection
  rw [scan_pipes s false _ hnul (fun i hi hop => by
    rw [← insideQuotes_eq]
    exact hred i hi hop), outsidePipes_eq]
  simp

/-- C23 (witness): `a|b|c` returns 2, and in this line two `|` stand outside quotes. -/
theorem C23_count_of_pipes_witness :
    outsidePipes "a|b|c".toList = 2
    ∧ (GetRedirection "a|b|c".toList none none false).num = outsidePipes "a|b|c".toList :=
  ⟨by decide,
    C23_count_of_pipes "a|b|c".toList none none false (by decide) (by decide)⟩


/-! ### Plain words and filenames -/

theorem plain_not_space (ch : Char) (h : plainChar ch = true) : isspace ch = false := by
  simp only [plainChar, Bool.and_eq_true, bne_iff_ne, ne_eq, Bool.not_eq_true'] at h
  exact h.1.1.1.1.2

theorem startsName_plain (f rest : List Char) (hf : ∀ ch ∈ f, plainChar ch = true)
    (hrest : f = [] → startsName rest = true) : startsName (f ++ rest) = true := by
  cases f with
  | nil => simpa using hrest rfl
  | cons ch cs =>
    simp [startsName, plain_not_space ch (hf ch (List.mem_cons_self _ _))]

theorem stripColon_of_no_colon (f : List Char) (h : f.getLast? ≠ some ':') :
    stripColon f = f := by
  simp [stripColon, h]

theorem blank_space : blank [' '] := by decide

theorem blank_two_spaces : blank [' ', ' '] := by decide

/-- C21. For every command word `c` and filename `f` made of plain characters (no NUL,
whitespace, double quote, `<`, `>`, `|`), `f` not ending in `:`, and for whatever targets
and append flag the caller passes in: on `c >> f` GetRedirection sets the output target
to `f` and append to true, and both `>` are consumed as one operator (the normalized
line is `c` and the space that stood before the operator, the target is `f`, nothing is
counted); on `c > f` the result is the same with append false. -/
theorem C21_append_operator (c f : List Char) (ifn ofn : Option (List Char)) (a : Bool)
    (hc : ∀ ch ∈ c, plainChar ch = true) (hf : ∀ ch ∈ f, plainChar ch = true)
    (hcolon : f.getLast? ≠ some ':') :
    GetRedirection (c ++ " >> ".toList ++ f) ifn ofn a
      = { line := c ++ [' '], ifn := ifn, ofn := some f, append := true, num := 0 }
    ∧ GetRedirection (c ++ " > ".toList ++ f) ifn ofn a
      = { line := c ++ [' '], ifn := ifn, ofn := some f, append := false, num := 0 } := by
  have hpre : ∀ ch ∈ c ++ [' '], ch ≠ NUL ∧ ch ≠ DQUOTE ∧ ch ≠ '>' ∧ ch ≠ '<' ∧ ch ≠ '|' := by
    intro ch hch
    rcases List.mem_append.1 hch with h | h
    · exact other_of_plain c hc ch h
    · exact other_of_blank [' '] blank_space ch h
  have hname : ∀ ch ∈ f, inName '<' ch = true :=
    fun ch hch => plainChar_inName '<' ch (hf ch hch) (Or.inl rfl)
  have hstart : startsName (f ++ []) = true := startsName_plain f [] hf (fun _ => rfl)
  have key : ∀ double, GetRedirection ((c ++ [' ']) ++ (gtOperator double ++ [' '] ++ f ++ []))
      ifn ofn a
      = { line := c ++ [' '], ifn := ifn, ofn := some f, append := double, num := 0 } := by
    intro double
    unfold GetRedirection
    rw [scan_other_append _ _ _ hpre,
      scan_output double [' '] f [] _ blank_space hname hstart rfl (fun _ => by simp),
      scan_nil, stripColon_of_no_colon f hcolon]
    simp
  refine ⟨?_, ?_⟩
  · have := key true
    simpa [gtOperator] using this
  · have := key false
    simpa [gtOperator] using this

/-- C21 (witness): `dir >> out.txt` gives the target `out.txt` with append true, and
`dir > out.txt` the same target with append false. -/
theorem C21_append_operator_witness :
    GetRedirection ("dir".toList ++ " >> ".toList ++ "out.txt".toList) none none false
      = { line := "dir".toList ++ [' '], ifn := none, ofn := some "out.txt".toList,
          append := true, num := 0 }
    ∧ GetRedirection ("dir".toList ++ " > ".toList ++ "out.txt".toList) none none false
      = { line := "dir".toList ++ [' '], ifn := none, ofn := some "out.txt".toList,
          append := false, num := 0 } :=
  C21_append_operator "dir".toList "out.txt".toList none none false (by decide) (by decide)
    (by decide)


theorem other_of_plain_space (c : List Char) (hc : ∀ ch ∈ c, plainChar ch = true) :
    ∀ ch ∈ c ++ [' '], ch ≠ NUL ∧ ch ≠ DQUOTE ∧ ch ≠ '>' ∧ ch ≠ '<' ∧ ch ≠ '|' := by
  intro ch hch
  rcases List.mem_append.1 hch with h | h
  · exact other_of_plain c hc ch h
  · exact other_of_blank [' '] blank_space ch h

/-- A plain filename that lies in a word followed by spaces lies in the word. -/
theorem infix_of_infix_spaces (name c sp : List Char) (hne : name ≠ [])
    (hname : ∀ ch ∈ name, plainChar ch = true) (hsp : ∀ ch ∈ sp, ch = ' ')
    (h : name <:+: c ++ sp) : name <:+: c := by
  obtain ⟨x, y, hxy⟩ := h
  rw [List.append_eq_append_iff] at hxy
  rcases hxy with ⟨a1, h1, _⟩ | ⟨c1, h1, h2⟩
  · exact ⟨x, a1, h1.symm⟩
  · by_cases hc1 : c1 = []
    · subst hc1
      exact ⟨x, [], by simpa using h1⟩
    · exfalso
      have hl := congrArg List.getLast? h1
      rw [List.getLast?_append_of_ne_nil _ hne, List.getLast?_append_of_ne_nil _ hc1] at hl
      obtain ⟨ch, hch⟩ : ∃ ch, c1.getLast? = some ch := by
        cases hg : c1.getLast? with
        | none => exact absurd (List.getLast?_eq_none_iff.1 hg) hc1
        | some ch => exact ⟨ch, rfl⟩
      have hm1 : ch ∈ c1 := List.mem_of_getLast?_eq_some hch
      have hm2 : ch ∈ name := List.mem_of_getLast?_eq_some (hl.trans hch)
      have hspace : ch = ' ' := hsp ch (by rw [h2]; exact List.mem_append_left _ hm1)
      have := plain_not_space ch (hname ch hm2)
      rw [hspace] at this
      exact absurd this (by decide)

theorem not_mem_plain_spaces (c sp : List Char) (x : Char)
    (hc : ∀ ch ∈ c, plainChar ch = true) (hsp : ∀ ch ∈ sp, ch = ' ')
    (hx : plainChar x = false) (hns : x ≠ ' ') : x ∉ c ++ sp := by
  intro hm
  rcases List.mem_append.1 hm with h | h
  · rw [hc x h] at hx
    exact absurd hx (by decide)
  · exact hns (hsp x h)

/-- C22 (amended). For every command word `c` and filenames `i` and `o` made of plain
characters (no NUL, whitespace, double quote, `<`, `>`, `|`) that do not end in `:`, and
for whatever targets and append flag the caller passes in: on `c < i > o` and on `c > o < i`
GetRedirection sets the input target to `i` and the output target to `o`, and in both
cases the normalized line is `c` followed by the spaces that stood before the operators
(two, or one when the filename after the first operator is empty). It holds no `<` and no
`>`, and nothing of the filenames was stored in it: a filename that is not empty and does
not occur in `c` does not occur in the normalized line. -/
theorem C22_both_targets_in_either_order (c i o : List Char)
    (ifn ofn : Option (List Char)) (a : Bool)
    (hc : ∀ ch ∈ c, plainChar ch = true) (hi : ∀ ch ∈ i, plainChar ch = true)
    (ho : ∀ ch ∈ o, plainChar ch = true)
    (hicolon : i.getLast? ≠ some ':') (hocolon : o.getLast? ≠ some ':') :
    GetRedirection (c ++ " < ".toList ++ i ++ " > ".toList ++ o) ifn ofn a
      = { line := c ++ (if i = [] then [' '] else [' ', ' ']), ifn := some i, ofn := some o,
          append := false, num := 0 }
    ∧ GetRedirection (c ++ " > ".toList ++ o ++ " < ".toList ++ i) ifn ofn a
      = { line := c ++ (if o = [] then [' '] else [' ', ' ']), ifn := some i, ofn := some o,
          append := false, num := 0 }
    ∧ ∀ line, (line = (GetRedirection (c ++ " < ".toList ++ i ++ " > ".toList ++ o)
                  ifn ofn a).line
              ∨ line = (GetRedirection (c ++ " > ".toList ++ o ++ " < ".toList ++ i)
                  ifn ofn a).line) →
        '<' ∉ line ∧ '>' ∉ line
        ∧ ∀ name, (name = i ∨ name = o) → name ≠ [] → ¬ name <:+: c → ¬ name <:+: line := by
  have hpre := other_of_plain_space c hc
  have hiname : ∀ ch ∈ i, inName '>' ch = true :=
    fun ch hch => plainChar_inName '>' ch (hi ch hch) (Or.inr rfl)
  have honame : ∀ ch ∈ o, inName '<' ch = true :=
    fun ch hch => plainChar_inName '<' ch (ho ch hch) (Or.inl rfl)
  have h1 : GetRedirection (c ++ " < ".toList ++ i ++ " > ".toList ++ o) ifn ofn a
      = { line := c ++ (if i = [] then [' '] else [' ', ' ']), ifn := some i, ofn := some o,
          append := false, num := 0 } := by
    unfold GetRedirection
    by_cases hie : i = []
    · subst hie
      have hl : c ++ " < ".toList ++ [] ++ " > ".toList ++ o
          = (c ++ [' ']) ++ ('<' :: [' ', ' '] ++ [] ++ (gtOperator false ++ [' '] ++ o ++ [])) := by
        simp [gtOperator]
      rw [hl, scan_other_append _ _ _ hpre,
        scan_input [' ', ' '] [] (gtOperator false ++ [' '] ++ o ++ []) _ blank_two_spaces
          (by simp) (by simp [startsName, stopsName, gtOperator, isspace, inName]) (by simp [startsName, stopsName, gtOperator, isspace, inName]),
        scan_output false [' '] o [] _ blank_space honame
          (startsName_plain o [] ho (fun _ => rfl)) rfl (fun _ => by simp),
        scan_nil, stripColon_of_no_colon o hocolon]
      simp [stripColon]
    · have hl : c ++ " < ".toList ++ i ++ " > ".toList ++ o
          = (c ++ [' ']) ++ ('<' :: [' '] ++ i
              ++ ([' '] ++ (gtOperator false ++ [' '] ++ o ++ []))) := by
        simp [gtOperator]
      rw [hl, scan_other_append _ _ _ hpre,
        scan_input [' '] i ([' '] ++ (gtOperator false ++ [' '] ++ o ++ [])) _ blank_space hiname
          (startsName_plain i _ hi (fun e => absurd e hie)) (by simp [startsName, stopsName, gtOperator, isspace, inName]),
        scan_other_append [' '] _ _ (other_of_blank [' '] blank_space),
        scan_output false [' '] o [] _ blank_space honame
          (startsName_plain o [] ho (fun _ => rfl)) rfl (fun _ => by simp),
        scan_nil, stripColon_of_no_colon o hocolon, stripColon_of_no_colon i hicolon]
      simp [hie]
  have h2 : GetRedirection (c ++ " > ".toList ++ o ++ " < ".toList ++ i) ifn ofn a
      = { line := c ++ (if o = [] then [' '] else [' ', ' ']), ifn := some i, ofn := some o,
          append := false, num := 0 } := by
    unfold GetRedirection
    by_cases hoe : o = []
    · subst hoe
      have hl : c ++ " > ".toList ++ [] ++ " < ".toList ++ i
          = (c ++ [' ']) ++ (gtOperator false ++ [' ', ' '] ++ [] ++ ('<' :: [' '] ++ i ++ [])) := by
        simp [gtOperator]
      rw [hl, scan_other_append _ _ _ hpre,
        scan_output false [' ', ' '] [] ('<' :: [' '] ++ i ++ []) _ blank_two_spaces (by simp)
          (by simp [startsName, stopsName, gtOperator, isspace, inName]) (by simp [startsName, stopsName, gtOperator, isspace, inName])
          (fun _ => by simp),
        scan_input [' '] i [] _ blank_space hiname (startsName_plain i [] hi (fun _ => rfl)) rfl,
        scan_nil, stripColon_of_no_colon i hicolon]
      simp [stripColon]
    · have hl : c ++ " > ".toList ++ o ++ " < ".toList ++ i
          = (c ++ [' ']) ++ (gtOperator false ++ [' '] ++ o
              ++ ([' '] ++ ('<' :: [' '] ++ i ++ []))) := by
        simp [gtOperator]
      rw [hl, scan_other_append _ _ _ hpre,
        scan_output false [' '] o ([' '] ++ ('<' :: [' '] ++ i ++ [])) _ blank_space honame
          (startsName_plain o _ ho (fun e => absurd e hoe)) (by simp [startsName, stopsName, gtOperator, isspace, inName]) (fun _ => by simp),
        scan_other_append [' '] _ _ (other_of_blank [' '] blank_space),
        scan_input [' '] i [] _ blank_space hiname (startsName_plain i [] hi (fun _ => rfl)) rfl,
        scan_nil, stripColon_of_no_colon o hocolon, stripColon_of_no_colon i hicolon]
      simp [hoe]
  refine ⟨h1, h2, ?_⟩
  intro line hline
  obtain ⟨sp, hsp, hl⟩ : ∃ sp, (∀ ch ∈ sp, ch = ' ') ∧ line = c ++ sp := by
    rcases hline with e | e
    · rw [h1] at e
      refine ⟨_, ?_, e⟩
      split <;> simp
    · rw [h2] at e
      refine ⟨_, ?_, e⟩
      split <;> simp
  subst hl
  refine ⟨not_mem_plain_spaces c sp '<' hc hsp (by decide) (by decide),
    not_mem_plain_spaces c sp '>' hc hsp (by decide) (by decide), ?_⟩
  intro name hname hne hnot hin
  apply hnot
  apply infix_of_infix_spaces name c sp hne _ hsp hin
  rcases hname with e | e <;> subst e <;> assumption

/-- C22 (witness): `a.exe < in.txt > out.txt` and `a.exe > out.txt < in.txt` both give
the input target `in.txt`, the output target `out.txt` and the normalized line `a.exe`
with two spaces, in which neither filename occurs. -/
theorem C22_both_targets_in_either_order_witness :
    GetRedirection "a.exe < in.txt > out.txt".toList none none false
      = { line := "a.exe  ".toList, ifn := some "in.txt".toList,
          ofn := some "out.txt".toList, append := false, num := 0 }
    ∧ GetRedirection "a.exe > out.txt < in.txt".toList none none false
      = { line := "a.exe  ".toList, ifn := some "in.txt".toList,
          ofn := some "out.txt".toList, append := false, num := 0 }
    ∧ ¬ "in.txt".toList <:+: "a.exe  ".toList
    ∧ ¬ "out.txt".toList <:+: "a.exe  ".toList := by
  have h := C22_both_targets_in_either_order "a.exe".toList "in.txt".toList "out.txt".toList
    none none false (by decide) (by decide) (by decide) (by decide) (by decide)
  have h1 : GetRedirection "a.exe < in.txt > out.txt".toList none none false
      = { line := "a.exe  ".toList, ifn := some "in.txt".toList,
          ofn := some "out.txt".toList, append := false, num := 0 } := h.1
  refine ⟨h1, h.2.1, ?_, ?_⟩
  · exact (h.2.2 "a.exe  ".toList (Or.inl (by rw [h.1]; rfl))).2.2 "in.txt".toList
      (Or.inl rfl) (by decide) (by decide)
  · exact (h.2.2 "a.exe  ".toList (Or.inl (by rw [h.1]; rfl))).2.2 "out.txt".toList
      (Or.inr rfl) (by decide) (by decide)

/-- C22 (counterexample): on `a < a > b` the input target is `a` and the output target
is `b`, and the normalized line, `a` and two spaces, contains the filename `a`: the
command word itself is that text. -/
theorem C22_filename_inside_the_command_word :
    (∀ ch ∈ "a".toList, plainChar ch = true) ∧ (∀ ch ∈ "b".toList, plainChar ch = true)
    ∧ "a".toList.getLast? ≠ some ':' ∧ "b".toList.getLast? ≠ some ':'
    ∧ GetRedirection "a < a > b".toList none none false
      = { line := "a  ".toList, ifn := some "a".toList, ofn := some "b".toList,
          append := false, num := 0 }
    ∧ "a".toList <:+: "a  ".toList := by
  refine ⟨by decide, by decide, by decide, by decide, ?_, by decide⟩
  simp [GetRedirection, GetRedirection.scan, NUL, DQUOTE, ltrim, isspace,
    skipSecondGt, nameRest, nameSpan, copyTarget, inName, safe_strncpy, c_str]


/-! ### A redirection behind a quiet text -/

/-- An output redirection behind a quiet text: the target is the run of the filename
loop without a colon at its end, the append flag tells whether the operator was `>>`,
and nothing that follows changes them when no `>` follows. -/
theorem output_after_quiet (pre ws name rest : List Char) (ifn ofn : Option (List Char))
    (a double : Bool) (hpre : Quiet pre) (hws : blank ws)
    (hstart : startsName (name ++ rest) = true)
    (hname : ∀ c ∈ name, inName '<' c = true) (hrest : stopsName '<' rest = true)
    (hsingle : double = false → (ws ++ name ++ rest).head? ≠ some '>')
    (hlast : '>' ∉ rest) :
    (GetRedirection (pre ++ gtOperator double ++ ws ++ name ++ rest) ifn ofn a).ofn
      = some (stripColon name)
    ∧ (GetRedirection (pre ++ gtOperator double ++ ws ++ name ++ rest) ifn ofn a).append
      = double := by
  have hl : pre ++ gtOperator double ++ ws ++ name ++ rest
      = pre ++ (gtOperator double ++ ws ++ name ++ rest) := by simp
  unfold GetRedirection
  rw [hl, scan_quiet pre _ _ hpre, scan_output double ws name rest _ hws hname hstart hrest
    hsingle]
  exact scan_ofn_of_no_gt rest false _ hlast

/-- An input redirection behind a quiet text, likewise. -/
theorem input_after_quiet (pre ws name rest : List Char) (ifn ofn : Option (List Char))
    (a : Bool) (hpre : Quiet pre) (hws : blank ws)
    (hstart : startsName (name ++ rest) = true)
    (hname : ∀ c ∈ name, inName '>' c = true) (hrest : stopsName '>' rest = true)
    (hlast : '<' ∉ rest) :
    (GetRedirection (pre ++ '<' :: ws ++ name ++ rest) ifn ofn a).ifn
      = some (stripColon name) := by
  have hl : pre ++ '<' :: ws ++ name ++ rest = pre ++ ('<' :: ws ++ name ++ rest) := by simp
  unfold GetRedirection
  rw [hl, scan_quiet pre _ _ hpre, scan_input ws name rest _ hws hname hstart hrest]
  exact scan_ifn_of_no_lt rest false _ hlast

/-- C26 (counterexample): on `dir >a`, tab, `b` the output target is `a`, tab, `b`: the
filename does not end before the tab, although the tab is whitespace. -/
theorem C26_tab_does_not_end_the_filename :
    isspace '\t' = true
    ∧ (GetRedirection "dir >a\tb".toList none none false).ofn = some "a\tb".toList
    ∧ (GetRedirection "dir >a\tb".toList none none false).ofn ≠ some "a".toList := by
  have h : (GetRedirection "dir >a\tb".toList none none false).ofn = some "a\tb".toList := by
    simp [GetRedirection, GetRedirection.scan, NUL, DQUOTE, ltrim, isspace,
      skipSecondGt, nameRest, nameSpan, copyTarget, inName, safe_strncpy, c_str]
  refine ⟨by decide, h, ?_⟩
  rw [h]
  decide

theorem dropWhile_head_not (p : Char → Bool) (x : List Char) (c : Char) (l : List Char)
    (h : x.dropWhile p = c :: l) : p c = false := by
  induction x with
  | nil => simp at h
  | cons d ds ih =>
    rw [List.dropWhile_cons] at h
    split at h
    · exact ih h
    · rename_i hd
      simp only [List.cons.injEq] at h
      rw [← h.1]
      simpa using hd

/-- When a loop that skips characters stops in front of `y1 ++ y2`, it stops in front of
`y1` as well when `y2` is cut off, having skipped the same characters. -/
theorem dropWhile_split (p : Char → Bool) (x y1 y2 : List Char)
    (h : x.dropWhile p = y1 ++ y2) :
    x = x.takeWhile p ++ y1 ++ y2
    ∧ (x.takeWhile p ++ y1).dropWhile p = y1
    ∧ (x.takeWhile p ++ y1).takeWhile p = x.takeWhile p := by
  have hall : ∀ a ∈ x.takeWhile p, p a = true := fun a ha => List.mem_takeWhile_imp ha
  have hy : y1.dropWhile p = y1 ∧ y1.takeWhile p = [] := by
    cases y1 with
    | nil => simp
    | cons c cs =>
      have := dropWhile_head_not p x c (cs ++ y2) (by simpa using h)
      simp [List.dropWhile_cons, List.takeWhile_cons, this]
  refine ⟨?_, ?_, ?_⟩
  · rw [List.append_assoc, ← h, List.takeWhile_append_dropWhile]
  · rw [List.dropWhile_append_of_pos hall, hy.1]
  · rw [List.takeWhile_append_of_pos hall, hy.2, List.append_nil]

/-- The text at which `ltrim` and the filename loop are started, cut off at a `|` that
the scan comes to behind the filename: the filename loop runs over the same characters
and stops at the same place. -/
theorem name_cut (stop : Char) (l1 a1 b : List Char)
    (h : nameRest stop (ltrim l1) = a1 ++ '|' :: b) :
    ∃ v, l1 = v ++ '|' :: b
      ∧ nameRest stop (ltrim v) = a1
      ∧ nameSpan stop (ltrim v) = nameSpan stop (ltrim l1) := by
  obtain ⟨hn1, hn2, hn3⟩ := dropWhile_split (inName stop) (ltrim l1) a1 ('|' :: b) h
  have hl2 : l1.dropWhile (fun c => c != NUL && isspace c)
      = (List.takeWhile (inName stop) (ltrim l1) ++ a1) ++ '|' :: b := by
    rw [← ltrim_eq_dropWhile]
    exact hn1
  obtain ⟨hw1, hw2, _⟩ := dropWhile_split (fun c => c != NUL && isspace c) l1
    (List.takeWhile (inName stop) (ltrim l1) ++ a1) ('|' :: b) hl2
  have hcut : ltrim (List.takeWhile (fun c => c != NUL && isspace c) l1
      ++ (List.takeWhile (inName stop) (ltrim l1) ++ a1))
      = List.takeWhile (inName stop) (ltrim l1) ++ a1 := by
    rw [ltrim_eq_dropWhile]
    exact hw2
  refine ⟨List.takeWhile (fun c => c != NUL && isspace c) l1
    ++ (List.takeWhile (inName stop) (ltrim l1) ++ a1), hw1, ?_, ?_⟩
  · rw [hcut]
    exact hn2
  · rw [hcut]
    exact hn3

/-- The text behind an output operator, cut off at a `|` behind the filename. -/
theorem output_cut (lr a1 b : List Char)
    (h : nameRest '<' (ltrim (skipSecondGt lr)) = a1 ++ '|' :: b) :
    ∃ u, lr = u ++ '|' :: b
      ∧ nameRest '<' (ltrim (skipSecondGt u)) = a1
      ∧ nameSpan '<' (ltrim (skipSecondGt u)) = nameSpan '<' (ltrim (skipSecondGt lr))
      ∧ decide (u.head? = some '>') = decide (lr.head? = some '>') := by
  obtain ⟨v, hv, hrest, hspan⟩ := name_cut '<' (skipSecondGt lr) a1 b h
  by_cases hgt : lr.head? = some '>'
  · obtain ⟨tl, rfl⟩ : ∃ tl, lr = '>' :: tl := by
      cases lr with
      | nil => simp at hgt
      | cons c cs =>
        simp only [List.head?_cons, Option.some.injEq] at hgt
        exact ⟨cs, by rw [hgt]⟩
    have hs : ∀ l, skipSecondGt ('>' :: l) = l := fun l => by simp [skipSecondGt]
    rw [hs] at hv hspan
    refine ⟨'>' :: v, by rw [hv]; rfl, ?_, ?_, by simp⟩
    · rw [hs]
      exact hrest
    · rw [hs]
      exact hspan
  · have hs : skipSecondGt lr = lr := by
      unfold skipSecondGt
      rw [if_neg hgt]
    rw [hs] at hv hspan
    have hu : v.head? ≠ some '>' := by
      intro hh
      apply hgt
      rw [hv]
      cases v with
      | nil => simp at hh
      | cons c cs => simpa using hh
    have hsu : skipSecondGt v = v := by
      unfold skipSecondGt
      rw [if_neg hu]
    refine ⟨v, hv, ?_, ?_, ?_⟩
    · rw [hsu]
      exact hrest
    · rw [hsu, hs]
      exact hspan
    · rw [decide_eq_false hu, decide_eq_false hgt]

/-- The text behind an input operator, cut off at a `|` behind the filename. -/
theorem input_cut (lr a1 b : List Char)
    (h : nameRest '>' (ltrim lr) = a1 ++ '|' :: b) :
    ∃ u, lr = u ++ '|' :: b
      ∧ nameRest '>' (ltrim u) = a1
      ∧ nameSpan '>' (ltrim u) = nameSpan '>' (ltrim lr) :=
  name_cut '>' lr a1 b h

/-- When the scan counts a pipe, the text splits at the first `|` that it counts: the
part in front of it is scanned as if it were the whole line, without counting
anything, and at the `|` a NUL is stored and the count goes up. -/
theorem scan_first_pipe (s : List Char) (q : Bool) (r : Redirection)
    (h : (GetRedirection.scan s q r).num ≠ r.num) :
    ∃ first rest, s = first ++ '|' :: rest
      ∧ (GetRedirection.scan first q r).num = r.num
      ∧ GetRedirection.scan s q r
        = GetRedirection.scan rest false
            { (GetRedirection.scan first q r) with
              line := (GetRedirection.scan first q r).line ++ [NUL],
              num := (GetRedirection.scan first q r).num + 1 } := by
  induction s, q, r using GetRedirection.scan.induct with
  | case1 q r => rw [scan_nil] at h; exact absurd rfl h
  | case2 q r cs => rw [scan_nul] at h; exact absurd rfl h
  | case3 q r c cs h0 hq ih =>
    rw [scan_quoted_of c cs q r h0 hq] at h ⊢
    obtain ⟨a1, b, hs, hn, he⟩ := ih h
    refine ⟨c :: a1, b, by rw [hs]; rfl, ?_, ?_⟩
    · rw [scan_quoted_of c a1 q r h0 hq]
      exact hn
    · rw [scan_quoted_of c a1 q r h0 hq]
      exact he
  | case4 q r cs _ _ ih =>
    rw [scan_dquote] at h ⊢
    obtain ⟨a1, b, hs, hn, he⟩ := ih h
    refine ⟨DQUOTE :: a1, b, by rw [hs]; rfl, ?_, ?_⟩
    · rw [scan_dquote]
      exact hn
    · rw [scan_dquote]
      exact he
  | case5 q r cs fn _ hq _ ih =>
    rw [scan_gt_of cs q r hq] at h ⊢
    obtain ⟨a1, b, hs, hn, he⟩ := ih h
    obtain ⟨u, hu, hrest, hspan, hhead⟩ := output_cut cs a1 b hs
    have hstep : GetRedirection.scan ('>' :: u) q r
        = GetRedirection.scan a1 q
            { r with append := decide (cs.head? = some '>'),
                     ofn := some (copyTarget '<' (ltrim (skipSecondGt cs))) } := by
      rw [scan_gt_of u q r hq, hrest, copyTarget_eq, hspan, hhead, copyTarget_eq]
    refine ⟨'>' :: u, b, by rw [hu]; rfl, ?_, ?_⟩
    · rw [hstep]
      exact hn
    · rw [hstep]
      exact he
  | case6 q r cs fn _ hq _ _ ih =>
    rw [scan_lt_of cs q r hq] at h ⊢
    obtain ⟨a1, b, hs, hn, he⟩ := ih h
    obtain ⟨u, hu, hrest, hspan⟩ := input_cut cs a1 b hs
    have hstep : GetRedirection.scan ('<' :: u) q r
        = GetRedirection.scan a1 q
            { r with ifn := some (copyTarget '>' (ltrim cs)) } := by
      rw [scan_lt_of u q r hq, hrest, copyTarget_eq, hspan, copyTarget_eq]
    refine ⟨'<' :: u, b, by rw [hu]; rfl, ?_, ?_⟩
    · rw [hstep]
      exact hn
    · rw [hstep]
      exact he
  | case7 q r cs _ hq _ _ _ ih =>
    have hf := flag_of_not_quoted q '|' hq (by decide)
    subst hf
    refine ⟨[], cs, rfl, by rw [scan_nil], ?_⟩
    rw [scan_pipe, scan_nil]
  | case8 q r c cs h0 hq h1 h2 h3 h4 ih =>
    rw [scan_other_of c cs q r h0 hq h1 h2 h3 h4] at h ⊢
    obtain ⟨a1, b, hs, hn, he⟩ := ih h
    refine ⟨c :: a1, b, by rw [hs]; rfl, ?_, ?_⟩
    · rw [scan_other_of c a1 q r h0 hq h1 h2 h3 h4]
      exact hn
    · rw [scan_other_of c a1 q r h0 hq h1 h2 h3 h4]
      exact he

theorem c_str_append_nul (pre post : List Char) (h : NUL ∉ pre) :
    c_str (pre ++ NUL :: post) = pre := by
  unfold c_str
  rw [List.takeWhile_append_of_pos (fun a ha => by
    simp only [bne_iff_ne, ne_eq]
    intro e
    exact h (e ▸ ha))]
  simp

/-- When GetRedirection counts a pipe, the line splits at the first `|` it counts; the
normalized line is the normalized line of the part in front of it, a NUL, and what the
rest of the scan stores; read as a C string it is the normalized line of that first
part. -/
theorem first_segment (s : List Char) (ifn ofn : Option (List Char)) (a : Bool)
    (h : 1 ≤ (GetRedirection s ifn ofn a).num) :
    ∃ first rest tail, s = first ++ '|' :: rest
      ∧ (GetRedirection first ifn ofn a).num = 0
      ∧ NUL ∉ (GetRedirection first ifn ofn a).line
      ∧ (GetRedirection s ifn ofn a).line
        = (GetRedirection first ifn ofn a).line ++ NUL :: tail
      ∧ c_str (GetRedirection s ifn ofn a).line = (GetRedirection first ifn ofn a).line := by
  unfold GetRedirection at h ⊢
  obtain ⟨first, rest, hs, hn, he⟩ := scan_first_pipe s false
    { line := [], ifn := ifn, ofn := ofn, append := a, num := 0 } (by simp only; omega)
  have hnul := scan_line_noNul first false
    { line := [], ifn := ifn, ofn := ofn, append := a, num := 0 } (by simp) hn
  obtain ⟨_, t, ht⟩ := scan_grows rest false
    { (GetRedirection.scan first false
        { line := [], ifn := ifn, ofn := ofn, append := a, num := 0 }) with
      line := (GetRedirection.scan first false
        { line := [], ifn := ifn, ofn := ofn, append := a, num := 0 }).line ++ [NUL],
      num := (GetRedirection.scan first false
        { line := [], ifn := ifn, ofn := ofn, append := a, num := 0 }).num + 1 }
  have hline : (GetRedirection.scan s false
      { line := [], ifn := ifn, ofn := ofn, append := a, num := 0 }).line
      = (GetRedirection.scan first false
        { line := [], ifn := ifn, ofn := ofn, append := a, num := 0 }).line ++ NUL :: t := by
    rw [he, ht]
    simp
  refine ⟨first, rest, t, hs, hn, hnul, hline, ?_⟩
  rw [hline, c_str_append_nul _ _ hnul]

/-- What a dispatcher that records the texts it is called with has recorded when
ParseLine returns: the one text more that ParseLine called `DoCommand` with, which is
the line as GetRedirection left it, read as a C string. -/
theorem ParseLine_records (fs : FileSystem) (append0 : Bool) (line : List Char)
    (d : Dos (List (List Char))) :
    (ParseLine (recordingDispatcher fs) append0 line d).dos.ext
      = d.ext ++ [c_str (GetRedirection (ParseLine.prepare line) none none append0).line] := by
  unfold ParseLine
  simp only
  generalize GetRedirection (ParseLine.prepare line) none none append0 = r
  obtain ⟨rline, rifn, rofn, rappend, rnum⟩ := r
  simp only
  cases rifn <;> cases rofn <;>
    simp [recordingDispatcher, ext_restoreOutput, ext_restoreInput, ext_openOutput,
      ext_openInput]

/-- C24. For every line handed to ParseLine on which GetRedirection (called on the
trimmed line) counts a pipe: the trimmed line splits at the first `|` that is counted
into a first segment and a rest; in the normalized line a NUL stands in the place of
that `|`, behind the normalized line of the first segment, which holds no NUL itself;
and ParseLine calls DoCommand once, with exactly the normalized line of the first
segment (the segment as GetRedirection leaves it when it is the whole line, its
redirections taken out): a dispatcher that records the texts DoCommand is called
with has recorded exactly this one text more when ParseLine returns, whatever the
file system answers, so no character behind the first counted `|` is dispatched. -/
theorem C24_only_the_first_segment_is_dispatched (fs : FileSystem)
    (append0 : Bool) (line : List Char) (d : Dos (List (List Char)))
    (hpipe : 1 ≤ (GetRedirection (ParseLine.prepare line) none none append0).num) :
    ∃ first rest tail, ParseLine.prepare line = first ++ '|' :: rest
      ∧ (GetRedirection first none none append0).num = 0
      ∧ NUL ∉ (GetRedirection first none none append0).line
      ∧ (GetRedirection (ParseLine.prepare line) none none append0).line
        = (GetRedirection first none none append0).line ++ NUL :: tail
      ∧ (ParseLine (recordingDispatcher fs) append0 line d).dos.ext
        = d.ext ++ [(GetRedirection first none none append0).line]
      ∧ (ParseLine (recordingDispatcher fs) append0 line d).dispatched
        = [(GetRedirection first none none append0).line] := by
  obtain ⟨first, rest, tail, hs, hn, hnul, hline, hc⟩ :=
    first_segment (ParseLine.prepare line) none none append0 hpipe
  refine ⟨first, rest, tail, hs, hn, hnul, hline, ?_, ?_⟩
  · rw [ParseLine_records, hc]
  · show [c_str (GetRedirection (ParseLine.prepare line) none none append0).line] = _
    rw [hc]

/-- C24 (witness): on `dir | more` one pipe is counted, and the recording dispatcher
has recorded `dir` with the space behind it, the first segment, and nothing of
` more`. -/
theorem C24_only_the_first_segment_is_dispatched_witness :
    (ParseLine (recordingDispatcher noFiles) false "dir | more".toList consoleDos).dos.ext
      = ["dir ".toList]
    ∧ ∃ first rest tail, ParseLine.prepare "dir | more".toList = first ++ '|' :: rest
      ∧ (GetRedirection first none none false).num = 0
      ∧ NUL ∉ (GetRedirection first none none false).line
      ∧ (GetRedirection (ParseLine.prepare "dir | more".toList) none none false).line
        = (GetRedirection first none none false).line ++ NUL :: tail
      ∧ (ParseLine (recordingDispatcher noFiles) false "dir | more".toList consoleDos).dos.ext
        = consoleDos.ext ++ [(GetRedirection first none none false).line]
      ∧ (ParseLine (recordingDispatcher noFiles) false "dir | more".toList
          consoleDos).dispatched = [(GetRedirection first none none false).line] := by
  have hprep : ParseLine.prepare "dir | more".toList = "dir | more".toList := by decide
  have hred : GetRedirection "dir | more".toList none none false
      = { line := "dir ".toList ++ NUL :: " more".toList, ifn := none, ofn := none,
          append := false, num := 1 } := by
    simp [GetRedirection, GetRedirection.scan, NUL, DQUOTE, ltrim, isspace,
      skipSecondGt, nameRest, nameSpan, copyTarget, inName, safe_strncpy, c_str]
  refine ⟨?_, C24_only_the_first_segment_is_dispatched noFiles false
    "dir | more".toList consoleDos (by rw [hprep, hred])⟩
  rw [ParseLine_records, hprep, hred]
  decide

end DOS_Shell

/-! ## Lines without operators, and the scan run twice -/

namespace DOS_Shell

theorem noNul_c_str (s : List Char) : NoNul (c_str s) := by
  intro h
  have := List.mem_takeWhile_imp h
  simp at this

/-- The text at a pointer is its C string, followed by nothing or by a NUL and more. -/
theorem c_str_split (s : List Char) :
    ∃ tail, s = c_str s ++ tail ∧ (tail = [] ∨ ∃ rest, tail = NUL :: rest) := by
  refine ⟨s.dropWhile (fun c => c != NUL), (List.takeWhile_append_dropWhile _ s).symm, ?_⟩
  cases h : s.dropWhile (fun c => c != NUL) with
  | nil => exact Or.inl rfl
  | cons c rest =>
    right
    have := List.head_dropWhile_not (fun c => c != NUL) s (by rw [h]; simp)
    simp only [h, List.head_cons] at this
    simp at this
    exact ⟨rest, by rw [this]⟩

/-- A line whose `<`, `>` and `|` all stand between double quotes comes out as it went
in, with everything else as it was. -/
theorem scan_of_operatorsQuoted (s : List Char) (r : Redirection)
    (hops : OperatorsQuoted (c_str s)) :
    GetRedirection.scan s false r = { r with line := r.line ++ c_str s } := by
  obtain ⟨tail, hs, htail⟩ := c_str_split s
  have hcopy := scan_copy (c_str s) false r tail (noNul_c_str s) (fun i hi hop => by
    rw [← insideQuotes_eq]
    exact hops i hi hop)
  rw [← hs] at hcopy
  rw [hcopy]
  rcases htail with e | ⟨rest, e⟩
  · rw [e, scan_nil]
  · rw [e, scan_nul]

/-- C31. For every line (the C string at the pointer handed to GetRedirection) in which
every `<`, `>` and `|` stands between double quotes, GetRedirection stores the line
as it is, double quotes included, returns 0, and leaves the input target, the
output target and the append flag as the caller passed them. -/
theorem C31_line_without_operators_is_unchanged (s : List Char)
    (ifn ofn : Option (List Char)) (a : Bool)
    (hops : OperatorsQuoted (c_str s)) :
    GetRedirection s ifn ofn a
      = { line := c_str s, ifn := ifn, ofn := ofn, append := a, num := 0 } := by
  unfold GetRedirection
  rw [scan_of_operatorsQuoted s _ hops]
  simp

/-- C31 (witness): `echo "a>b|c" x` keeps all its characters, and targets that the caller
passed stay. -/
theorem C31_line_without_operators_is_unchanged_witness :
    OperatorsQuoted (c_str quotedOperatorsLine)
    ∧ GetRedirection quotedOperatorsLine (some "in".toList) none true
      = { line := c_str quotedOperatorsLine, ifn := some "in".toList, ofn := none,
          append := true, num := 0 } :=
  ⟨by decide,
    C31_line_without_operators_is_unchanged quotedOperatorsLine (some "in".toList) none true
      (by decide)⟩

theorem insideQuotes_append_left (l : List Char) (c : Char) (i : Nat) (hi : i < l.length) :
    insideQuotes (l ++ [c]) i = insideQuotes l i := by
  unfold insideQuotes
  rw [List.take_append_of_le_length (Nat.le_of_lt hi)]
  simp only [List.get?_eq_getElem?]
  rw [List.getElem?_append_left hi]

theorem insideQuotes_append_last (l : List Char) (c : Char) :
    insideQuotes (l ++ [c]) l.length = (l.count DQUOTE % 2 == 1 && c != DQUOTE) := by
  unfold insideQuotes
  simp only [List.get?_eq_getElem?, List.take_left', List.getElem?_concat_length]
  by_cases h : c = DQUOTE
  · simp [h]
  · have h1 : (c != DQUOTE) = true := by simpa using h
    have h2 : (some c != some DQUOTE) = true := by simpa using h
    rw [h1, h2]

/-- One more character behind a text whose operators stand between double quotes: the
operators still do, as long as the new character is no operator or stands behind an
odd number of double quotes. -/
theorem operatorsQuoted_append (l : List Char) (c : Char) (h : OperatorsQuoted l)
    (hc : (c = '<' ∨ c = '>' ∨ c = '|') → l.count DQUOTE % 2 = 1 ∧ c ≠ DQUOTE) :
    OperatorsQuoted (l ++ [c]) := by
  intro i hi hop
  simp only [List.length_append, List.length_singleton] at hi
  by_cases hlt : i < l.length
  · rw [insideQuotes_append_left l c i hlt]
    apply h i hlt
    simpa [List.get?_eq_getElem?, List.getElem?_append_left hlt] using hop
  · have hi' : i = l.length := by omega
    subst hi'
    rw [insideQuotes_append_last]
    have hop' : c = '<' ∨ c = '>' ∨ c = '|' := by
      simpa [List.get?_eq_getElem?] using hop
    obtain ⟨h1, h2⟩ := hc hop'
    simp [h1, h2]

theorem count_append_singleton (l : List Char) (c : Char) :
    (l ++ [c]).count DQUOTE = l.count DQUOTE + (if c = DQUOTE then 1 else 0) := by
  rw [List.count_append, List.count_singleton]
  by_cases h : c = DQUOTE
  · simp [h]
  · have : (c == DQUOTE) = false := by simpa using h
    simp [h, this]

/-- The quote flag of the scan is the parity of the double quotes stored so far, and
the scan stores a `<`, `>` or `|` only between double quotes. -/
theorem scan_operatorsQuoted (s : List Char) (q : Bool) (r : Redirection)
    (hpar : (r.line.count DQUOTE % 2 == 1) = q) (h : OperatorsQuoted r.line) :
    OperatorsQuoted (GetRedirection.scan s q r).line := by
  induction s, q, r using GetRedirection.scan.induct with
  | case1 q r => rw [scan_nil]; exact h
  | case2 q r cs => rw [scan_nul]; exact h
  | case3 q r c cs h0 hq ih =>
    rw [scan_quoted_of c cs q r h0 hq]
    apply ih
    · simp only
      rw [count_append_singleton, if_neg hq.2, Nat.add_zero]
      exact hpar
    · apply operatorsQuoted_append _ _ h
      intro _
      have hq1 := hq.1
      rw [← hpar] at hq1
      exact ⟨by simpa using hq1, hq.2⟩
  | case4 q r cs _ _ ih =>
    rw [scan_dquote]
    apply ih
    · simp only
      rw [count_append_singleton, if_pos rfl, odd_succ, hpar]
    · apply operatorsQuoted_append _ _ h
      intro hop
      rcases hop with e | e | e <;> simp [DQUOTE] at e
  | case5 q r cs fn _ hq _ ih =>
    rw [scan_gt_of cs q r hq]
    exact ih hpar h
  | case6 q r cs fn _ hq _ _ ih =>
    rw [scan_lt_of cs q r hq]
    exact ih hpar h
  | case7 q r cs _ hq _ _ _ ih =>
    rw [scan_pipe_of cs q r hq]
    apply ih
    · simp only
      rw [count_append_singleton, if_neg (by decide), Nat.add_zero]
      exact hpar
    · apply operatorsQuoted_append _ _ h
      intro hop
      rcases hop with e | e | e <;> simp [NUL] at e
  | case8 q r c cs h0 hq h1 h2 h3 h4 ih =>
    rw [scan_other_of c cs q r h0 hq h1 h2 h3 h4]
    apply ih
    · simp only
      rw [count_append_singleton, if_neg h1, Nat.add_zero]
      exact hpar
    · apply operatorsQuoted_append _ _ h
      intro hop
      rcases hop with e | e | e
      · exact absurd e h3
      · exact absurd e h2
      · exact absurd e h4

theorem operatorsQuoted_nil : OperatorsQuoted [] := by
  intro i hi
  simp at hi

/-- What holds of the operators of a text holds of the operators of its C string. -/
theorem operatorsQuoted_c_str (l : List Char) (h : OperatorsQuoted l) :
    OperatorsQuoted (c_str l) := by
  obtain ⟨tail, hs, _⟩ := c_str_split l
  intro i hi hop
  have hil : i < l.length := by
    rw [hs, List.length_append]
    omega
  have hget : l.get? i = (c_str l).get? i := by
    conv => lhs; rw [hs]
    simp only [List.get?_eq_getElem?]
    rw [List.getElem?_append_left hi]
  have htake : l.take i = (c_str l).take i := by
    conv => lhs; rw [hs]
    rw [List.take_append_of_le_length (Nat.le_of_lt hi)]
  have := h i hil (by rw [hget]; exact hop)
  unfold insideQuotes at this ⊢
  rw [← hget, ← htake]
  exact this

/-- C37. For every line and every state of the targets and the append flag, the
normalized line that GetRedirection leaves, read as a NUL-terminated string, has
every `<`, `>` and `|` between double quotes, and GetRedirection run on it with both
targets absent stores it as it is, returns 0 and sets no target. -/
theorem C37_second_run_changes_nothing (s : List Char) (ifn ofn : Option (List Char))
    (a a2 : Bool) :
    OperatorsQuoted (c_str (GetRedirection s ifn ofn a).line)
    ∧ GetRedirection (GetRedirection s ifn ofn a).line none none a2
        = { line := c_str (GetRedirection s ifn ofn a).line, ifn := none, ofn := none,
            append := a2, num := 0 } := by
  have h : OperatorsQuoted (c_str (GetRedirection s ifn ofn a).line) := by
    apply operatorsQuoted_c_str
    unfold GetRedirection
    exact scan_operatorsQuoted s false _ (by simp) operatorsQuoted_nil
  exact ⟨h, by
    unfold GetRedirection at h ⊢
    rw [scan_of_operatorsQuoted _ _ h]
    simp⟩

theorem scan_ofn_stays (s : List Char) (q : Bool) (r : Redirection) (h : r.ofn ≠ none) :
    (GetRedirection.scan s q r).ofn ≠ none := by
  induction s, q, r using GetRedirection.scan.induct with
  | case1 q r => rw [scan_nil]; exact h
  | case2 q r cs => rw [scan_nul]; exact h
  | case3 q r c cs h0 hq ih => rw [scan_quoted_of c cs q r h0 hq]; exact ih h
  | case4 q r cs _ _ ih => rw [scan_dquote]; exact ih h
  | case5 q r cs fn _ hq _ ih => rw [scan_gt_of cs q r hq]; exact ih (by simp)
  | case6 q r cs fn _ hq _ _ ih => rw [scan_lt_of cs q r hq]; exact ih h
  | case7 q r cs _ hq _ _ _ ih => rw [scan_pipe_of cs q r hq]; exact ih h
  | case8 q r c cs h0 hq h1 h2 h3 h4 ih =>
    rw [scan_other_of c cs q r h0 hq h1 h2 h3 h4]; exact ih h

/-- The scan started with another value of the append flag: either no `>` is met, the
output target stays as it was and the flag comes out as it went in, or a `>` is met,
an output target is set and the value the flag had at the start is lost. -/
theorem scan_append_flag (s : List Char) (q : Bool) (r : Redirection) (a : Bool) :
    ((GetRedirection.scan s q r).ofn = r.ofn
      ∧ GetRedirection.scan s q { r with append := a }
          = { GetRedirection.scan s q r with append := a })
    ∨ ((GetRedirection.scan s q r).ofn ≠ none
      ∧ GetRedirection.scan s q { r with append := a } = GetRedirection.scan s q r) := by
  induction s, q, r using GetRedirection.scan.induct with
  | case1 q r => left; simp [scan_nil]
  | case2 q r cs => left; simp [scan_nul]
  | case3 q r c cs h0 hq ih =>
    rw [scan_quoted_of c cs q r h0 hq, scan_quoted_of c cs q _ h0 hq]
    exact ih
  | case4 q r cs _ _ ih =>
    rw [scan_dquote, scan_dquote]
    exact ih
  | case5 q r cs fn _ hq _ ih =>
    right
    rw [scan_gt_of cs q r hq, scan_gt_of cs q _ hq]
    exact ⟨scan_ofn_stays _ _ _ (by simp), rfl⟩
  | case6 q r cs fn _ hq _ _ ih =>
    rw [scan_lt_of cs q r hq, scan_lt_of cs q _ hq]
    exact ih
  | case7 q r cs _ hq _ _ _ ih =>
    rw [scan_pipe_of cs q r hq, scan_pipe_of cs q _ hq]
    exact ih
  | case8 q r c cs h0 hq h1 h2 h3 h4 ih =>
    rw [scan_other_of c cs q r h0 hq h1 h2 h3 h4, scan_other_of c cs q _ h0 hq h1 h2 h3 h4]
    exact ih

/-- C38. For every line, with the output target null before the call: when it is
non-null after GetRedirection, the append flag that comes out does not depend on the
value the flag had before the call, so it was assigned during the call; and
ParseLine, whose local `append` has no initial value, does the same whatever that
value happens to be. -/
theorem C38_append_is_assigned_with_the_target {σ : Type} (env : Dispatcher σ)
    (s line : List Char) (ifn : Option (List Char)) (a a1 : Bool) (d : Dos σ) :
    ((GetRedirection s ifn none a).ofn ≠ none →
      (GetRedirection s ifn none a1).ofn = (GetRedirection s ifn none a).ofn
      ∧ (GetRedirection s ifn none a1).append = (GetRedirection s ifn none a).append)
    ∧ ParseLine env a1 line d = ParseLine env a line d := by
  have key : ∀ t : List Char, ∀ i : Option (List Char),
      ((GetRedirection t i none a).ofn = none
        ∧ GetRedirection t i none a1
            = { GetRedirection t i none a with append := a1 })
      ∨ GetRedirection t i none a1 = GetRedirection t i none a := by
    intro t i
    unfold GetRedirection
    rcases scan_append_flag t false
      { line := [], ifn := i, ofn := none, append := a, num := 0 } a1 with h | h
    · exact Or.inl h
    · exact Or.inr h.2
  refine ⟨?_, ?_⟩
  · intro h
    rcases key s ifn with ⟨h1, _⟩ | h2
    · exact absurd h1 h
    · rw [h2]
      exact ⟨rfl, rfl⟩
  · unfold ParseLine
    rcases key (ParseLine.prepare line) none with ⟨h1, h2⟩ | h2
    · rw [h2]
      simp only [h1]
    · rw [h2]

end DOS_Shell

/-! ## The removal loop of the destructor: its end, and what it removes -/

namespace AutoexecObject

/-- At an entry that equals a `set ` line without `=` the loop takes its `continue` and
comes back to the same entry. -/
theorem dtor_loop_stall_step (fuel : Nat) (buf : List Char) (before xs : List (List Char))
    (g : Globals) (hstall : stalls buf = true) :
    dtor.loop (fuel + 1) buf before (buf :: xs) g = dtor.loop fuel buf before (buf :: xs) g := by
  unfold stalls buf2 at hstall
  rw [Bool.and_eq_true] at hstall
  obtain ⟨h2, h3⟩ := hstall
  rw [Option.isNone_iff_eq_none] at h3
  simp only [dtor.loop, h2, h3, if_true]

/-- With a `set ` line without `=` among the entries, the loop does not come to its end,
however many times its test is run. -/
theorem dtor_loop_of_stalls (fuel : Nat) (buf : List Char) (before l : List (List Char))
    (g : Globals) (hstall : stalls buf = true) (hmem : buf ∈ l) :
    dtor.loop fuel buf before l g = none := by
  induction fuel generalizing before l with
  | zero => simp [dtor.loop]
  | succ fuel ih =>
    cases l with
    | nil => simp at hmem
    | cons x xs =>
      by_cases hx : x = buf
      · subst hx
        rw [dtor_loop_stall_step fuel x before xs g hstall]
        exact ih before (x :: xs) hmem
      · rw [dtor_loop_ne _ _ _ _ _ _ hx]
        apply ih
        rcases List.mem_cons.mp hmem with e | e
        · exact absurd e.symm hx
        · exact e

theorem dtor_of_stalls (fuel : Nat) (t : List Char) (g : Globals)
    (hstall : stalls t = true) (hmem : t ∈ g.autoexec_strings) :
    dtor fuel { installed := true, buf := t } g = none := by
  unfold dtor
  simp only [Bool.not_true, Bool.false_eq_true, if_false]
  rw [dtor_loop_of_stalls fuel t [] g.autoexec_strings g hstall hmem]

theorem CreateAutoexec_strings (g : Globals) :
    (CreateAutoexec g).globals.autoexec_strings = g.autoexec_strings := by
  rw [CreateAutoexec_eq]
  split <;> rfl

theorem runsAutoexecBat_of_idle (g : Globals)
    (hidle : ∀ sh, g.first_shell = some sh → sh.bf = none) : runsAutoexecBat g = false := by
  unfold runsAutoexecBat
  cases hf : g.first_shell with
  | none => rfl
  | some sh =>
    simp only
    rw [hidle sh hf]

end AutoexecObject

/-- C34 (code bug). For every text that is a `set ` line longer than four characters
without `=` (such as `set X`) and every state of the sequence that holds the text,
the removal loop of the destructor does not come to its end: whatever the bound on
the number of its tests, the destructor has not returned. -/
theorem C34_removal_loop_does_not_end (fuel : Nat) (t : List Char) (g : Globals)
    (hstall : AutoexecObject.stalls t = true) (hmem : t ∈ g.autoexec_strings) :
    AutoexecObject.dtor fuel { installed := true, buf := t } g = none :=
  AutoexecObject.dtor_of_stalls fuel t g hstall hmem

/-- C34 (witness): `set X` installed on a fresh line object with no shell running; the
destructor of that object has not returned after a thousand tests of its loop. -/
theorem C34_removal_loop_does_not_end_witness :
    AutoexecObject.fresh.Install setWithoutEquals Globals.init
      = Outcome.ok { installed := true, buf := setWithoutEquals } c34Globals
    ∧ AutoexecObject.stalls setWithoutEquals = true
    ∧ setWithoutEquals ∈ c34Globals.autoexec_strings
    ∧ AutoexecObject.dtor 1000 { installed := true, buf := setWithoutEquals } c34Globals = none :=
  ⟨by decide, by decide, by decide,
    C34_removal_loop_does_not_end 1000 setWithoutEquals c34Globals (by decide) (by decide)⟩

/-- For every text that is not a `set ` line without `=` and every state of the
registry in which no script stream is active (no first shell, or a first shell
without script stream): the destructor of an installed line object with that text
returns or ends in the overflow exit of CreateAutoexec after at most one test of its
loop per entry and one more, and the sequence is then the sequence of before
without the entries that equal the text, the other entries in their order. -/
theorem dtor_removes_equal_texts (t : List Char) (g : Globals) (fuel : Nat)
    (hidle : ∀ sh, g.first_shell = some sh → sh.bf = none)
    (hstall : AutoexecObject.stalls t = false)
    (hfuel : g.autoexec_strings.length < fuel) :
    ∃ out, AutoexecObject.dtor fuel { installed := true, buf := t } g = some out
      ∧ out.globals.autoexec_strings = g.autoexec_strings.filter (fun x => x ≠ t) := by
  obtain ⟨env, hloop⟩ := AutoexecObject.dtor_loop_erase g.autoexec_strings fuel t [] g
    (AutoexecObject.runsAutoexecBat_of_idle g hidle) hstall hfuel
  unfold AutoexecObject.dtor
  simp only [Bool.not_true, Bool.false_eq_true, if_false, hloop, List.nil_append]
  exact ⟨_, rfl, by rw [AutoexecObject.CreateAutoexec_strings]⟩

/-- With `C:` twice in the sequence, installed by two line objects, destroying one of
them removes both entries. -/
theorem dtor_removes_equal_texts_witness :
    (∀ sh, c7Twice.first_shell = some sh → sh.bf = none)
    ∧ AutoexecObject.stalls "C:".toList = false
    ∧ c7Twice.autoexec_strings.length < 3
    ∧ c7Twice.autoexec_strings.filter (fun x => x ≠ "C:".toList) = []
    ∧ ∃ out, AutoexecObject.dtor 3 { installed := true, buf := "C:".toList } c7Twice = some out
      ∧ out.globals.autoexec_strings
          = c7Twice.autoexec_strings.filter (fun x => x ≠ "C:".toList) :=
  ⟨fun sh h => by simp [c7Twice, Globals.init] at h, by decide, by decide, by decide,
    dtor_removes_equal_texts "C:".toList c7Twice 3
      (fun sh h => by simp [c7Twice, Globals.init] at h) (by decide) (by decide)⟩

/-- C35 (code bug). With no shell running and the two entries `set X` and `C:` in the
sequence, the destructor of the line object of `set X` does not remove the entry
that equals its text: for no bound on the tests of its loop does it return, so the
sequence is never rebuilt without that entry. -/
theorem C35_set_line_without_equals_is_not_removed :
    c35Globals.first_shell = none
    ∧ c35Globals.autoexec_strings = [setWithoutEquals, "C:".toList]
    ∧ AutoexecObject.stalls setWithoutEquals = true
    ∧ ¬ ∃ fuel out,
        AutoexecObject.dtor fuel { installed := true, buf := setWithoutEquals } c35Globals
          = some out := by
  refine ⟨rfl, rfl, by decide, ?_⟩
  rintro ⟨fuel, out, h⟩
  rw [AutoexecObject.dtor_of_stalls fuel setWithoutEquals c35Globals (by decide) (by decide)] at h
  simp at h

/-! ## The script-only loop `RunInternal` -/

namespace DOS_Shell

/-- The loop of `RunInternal` is the repetition of its pass. -/
theorem RunInternal_succ {σ : Type} (env : Collaborators σ) (fuel : Nat) (s : RunState σ) :
    RunInternal env (fuel + 1) s
      = match RunInternal.step env s with
        | none => some s
        | some s1 => RunInternal env fuel s1 := by
  rw [RunInternal]
  unfold RunInternal.step
  cases hbf : s.sh.bf with
  | none => rfl
  | some bf =>
    simp only
    by_cases hsd : s.w.shutdown_requested = true
    · rw [if_pos hsd, if_pos hsd]
    · rw [if_neg hsd, if_neg hsd]
      cases hr : bf.ReadLine with
      | none => rfl
      | some p => rfl

theorem dispatchedLines_append (xs ys : List Event) :
    dispatchedLines (xs ++ ys) = dispatchedLines xs ++ dispatchedLines ys := by
  simp [dispatchedLines, List.filterMap_append]

theorem echoLine_sh {σ : Type} (line : List Char) (s : RunState σ) :
    (echoLine line s).sh = s.sh := by
  unfold echoLine
  split <;> rfl

theorem echoLine_trace {σ : Type} (line : List Char) (s : RunState σ) :
    ∃ shown, (echoLine line s).trace = s.trace ++ shown
      ∧ dispatchedLines shown = [] ∧ terminalReads shown = 0 ∧ dispatches shown = 0 := by
  unfold echoLine
  split
  · exact ⟨_, rfl, rfl, rfl, rfl⟩
  · exact ⟨[], by simp, rfl, rfl, rfl⟩

/-- What one pass of the loop does: it is made only with a script stream and without
a shutdown request; it asks the stream for a line, and either dispatches that one
line or, at the end of the stream, drops the stream and dispatches nothing; it
reads nothing from the terminal. -/
theorem step_some {σ : Type} (env : Collaborators σ) (s s1 : RunState σ)
    (h : RunInternal.step env s = some s1) :
    ∃ bf, s.sh.bf = some bf ∧ s.w.shutdown_requested = false
      ∧ terminalReads s1.trace = terminalReads s.trace
      ∧ ((∃ line bf1, bf.ReadLine = some (line, bf1)
            ∧ (s1.sh, s1.w) = env.ParseLine line { s.sh with bf := some bf1 } s.w
            ∧ dispatchedLines s1.trace = dispatchedLines s.trace ++ [line]
            ∧ dispatches s1.trace = dispatches s.trace + 1)
          ∨ (bf.ReadLine = none ∧ s1.sh = { s.sh with bf := none } ∧ s1.w = s.w
            ∧ dispatchedLines s1.trace = dispatchedLines s.trace
            ∧ dispatches s1.trace = dispatches s.trace)) := by
  unfold RunInternal.step at h
  cases hbf : s.sh.bf with
  | none => simp [hbf] at h
  | some bf =>
    simp only [hbf] at h
    by_cases hsd : s.w.shutdown_requested = true
    · simp [hsd] at h
    · rw [if_neg hsd] at h
      have hsd' : s.w.shutdown_requested = false := by simpa using hsd
      refine ⟨bf, rfl, hsd', ?_⟩
      cases hr : bf.ReadLine with
      | none =>
        simp only [hr, Option.some.injEq] at h
        subst h
        refine ⟨?_, Or.inr ⟨rfl, rfl, rfl, ?_, ?_⟩⟩
        · simp only [terminalReads_append]
          rfl
        · simp only [dispatchedLines_append]
          simp [dispatchedLines]
        · simp only [dispatches_append]
          rfl
      | some p =>
        obtain ⟨line, bf1⟩ := p
        simp only [hr, Option.some.injEq] at h
        obtain ⟨shown, hshown, hs1, hs2, hs3⟩ := echoLine_trace line
          ({ s with sh := { s.sh with bf := some bf1 },
                    trace := s.trace ++ [Event.ReadLine] } : RunState σ)
        have htrace : ∃ tail, s1.trace
            = s.trace ++ [Event.ReadLine] ++ shown ++ [Event.ParseLine line] ++ tail
            ∧ dispatchedLines tail = [] ∧ terminalReads tail = 0 ∧ dispatches tail = 0 := by
          rw [← h]
          split
          · exact ⟨[Event.WriteOut_NoParsing ['\n']], by
              simp only [callParseLine, hshown], rfl, rfl, rfl⟩
          · exact ⟨[], by simp only [callParseLine, hshown, List.append_nil], rfl, rfl, rfl⟩
        obtain ⟨tail, ht, ht1, ht2, ht3⟩ := htrace
        have heffect : (s1.sh, s1.w) = env.ParseLine line { s.sh with bf := some bf1 } s.w := by
          rw [← h]
          split <;> simp only [callParseLine, echoLine_sh, echoLine_w]
        refine ⟨?_, Or.inl ⟨line, bf1, rfl, heffect, ?_, ?_⟩⟩
        · rw [ht]
          simp only [terminalReads_append, hs2, ht2]
          rfl
        · rw [ht]
          simp only [dispatchedLines_append, hs1, ht1]
          simp [dispatchedLines]
        · rw [ht]
          simp only [dispatches_append, hs3, ht3]
          rfl

theorem after_terminalReads {σ : Type} (env : Collaborators σ) (n : Nat) :
    ∀ s t : RunState σ, RunInternal.after env n s = some t →
      terminalReads t.trace = terminalReads s.trace := by
  induction n with
  | zero =>
    intro s t h
    simp only [RunInternal.after, Option.some.injEq] at h
    rw [h]
  | succ n ih =>
    intro s t h
    unfold RunInternal.after at h
    cases hs : RunInternal.step env s with
    | none => simp [hs] at h
    | some s1 =>
      simp only [hs] at h
      obtain ⟨_, _, _, hread, _⟩ := step_some env s s1 hs
      rw [ih s1 t h, hread]

theorem RunInternal_some {σ : Type} (env : Collaborators σ) (fuel : Nat) :
    ∀ s t : RunState σ, RunInternal env fuel s = some t →
      (∃ n, RunInternal.after env n s = some t) ∧ RunInternal.step env t = none := by
  induction fuel with
  | zero =>
    intro s t h
    simp [RunInternal] at h
  | succ fuel ih =>
    intro s t h
    rw [RunInternal_succ] at h
    cases hs : RunInternal.step env s with
    | none =>
      simp only [hs, Option.some.injEq] at h
      subst h
      exact ⟨⟨0, rfl⟩, hs⟩
    | some s1 =>
      simp only [hs] at h
      obtain ⟨⟨n, hn⟩, hend⟩ := ih s1 t h
      exact ⟨⟨n + 1, by simp only [RunInternal.after, hs, hn]⟩, hend⟩

theorem step_none_iff {σ : Type} (env : Collaborators σ) (s : RunState σ) :
    RunInternal.step env s = none ↔ (s.sh.bf = none ∨ s.w.shutdown_requested = true) := by
  unfold RunInternal.step
  cases hbf : s.sh.bf with
  | none => simp
  | some bf =>
    simp only
    by_cases hsd : s.w.shutdown_requested = true
    · simp [hsd]
    · rw [if_neg hsd]
      cases hr : bf.ReadLine with
      | none => simp [hsd]
      | some p => simp [hsd]

/-- What a collaborator that does nothing but log the line it is called with has
logged after any number of passes: the lines the script stream has handed out, as
many as were read, in their order. -/
theorem after_logging (n : Nat) :
    ∀ (s t : RunState (List (List Char))) (bf : BatchFile), s.sh.bf = some bf →
      RunInternal.after loggingCollaborators n s = some t →
      ∃ k, k ≤ n ∧ t.w.ext = s.w.ext ++ bf.lines.take k := by
  induction n with
  | zero =>
    intro s t bf _ h
    simp only [RunInternal.after, Option.some.injEq] at h
    exact ⟨0, Nat.le_refl _, by rw [← h]; simp⟩
  | succ n ih =>
    intro s t bf hbf h
    unfold RunInternal.after at h
    cases hs : RunInternal.step loggingCollaborators s with
    | none => simp [hs] at h
    | some s1 =>
      simp only [hs] at h
      obtain ⟨bf0, hbf0, _, _, hcase⟩ := step_some loggingCollaborators s s1 hs
      rw [hbf] at hbf0
      simp only [Option.some.injEq] at hbf0
      subst hbf0
      rcases hcase with ⟨line, bf1, hread, heff, _, _⟩ | ⟨hread, hsh, hw, _, _⟩
      · simp only [loggingCollaborators, Prod.mk.injEq] at heff
        have hlines : bf.lines = line :: bf1.lines := by
          unfold BatchFile.ReadLine at hread
          cases hl : bf.lines with
          | nil => simp [hl] at hread
          | cons x xs =>
            simp only [hl, Option.some.injEq, Prod.mk.injEq] at hread
            rw [← hread.1, ← hread.2]
        obtain ⟨k, hk, hext⟩ := ih s1 t bf1 (by rw [heff.1]) h
        refine ⟨k + 1, by omega, ?_⟩
        rw [hext, heff.2, hlines]
        simp
      · have hstop : RunInternal.step loggingCollaborators s1 = none := by
          unfold RunInternal.step
          rw [hsh]
        cases n with
        | zero =>
          simp only [RunInternal.after, Option.some.injEq] at h
          exact ⟨0, by omega, by rw [← h, hw]; simp⟩
        | succ m =>
          unfold RunInternal.after at h
          simp [hstop] at h

/-- C33. For every dispatcher and every state of the shell: (1) entered with no script
stream or with shutdown_requested set, RunInternal returns at once, without a
dispatch and with the state as it was; (2) every pass of its loop is made with a
script stream and without a shutdown request, reads nothing from the terminal, and
either dispatches exactly the one line it read from that stream, so that the shell
and the world after the pass are what ParseLine makes of that line, or, at the end
of the stream, drops the stream, dispatches nothing and leaves the world as it
was; (3) after any number of passes no line has been read from the terminal, and
the pass does not depend on what the terminal would deliver; (4) when RunInternal
returns, it does so after finitely many such passes, with no script stream left or
with shutdown_requested set; (5) a ParseLine that only logs the line it is called
with has logged, after any number of passes, exactly the lines the script stream
handed out, in their order. -/
theorem C33_only_script_lines_are_dispatched {σ : Type} (env : Collaborators σ) :
    (∀ fuel (s : RunState σ), (s.sh.bf = none ∨ s.w.shutdown_requested = true) →
      RunInternal env (fuel + 1) s = some s)
    ∧ (∀ s s1 : RunState σ, RunInternal.step env s = some s1 →
        ∃ bf, s.sh.bf = some bf ∧ s.w.shutdown_requested = false
          ∧ terminalReads s1.trace = terminalReads s.trace
          ∧ ((∃ line bf1, bf.ReadLine = some (line, bf1)
                ∧ (s1.sh, s1.w) = env.ParseLine line { s.sh with bf := some bf1 } s.w
                ∧ dispatchedLines s1.trace = dispatchedLines s.trace ++ [line]
                ∧ dispatches s1.trace = dispatches s.trace + 1)
              ∨ (bf.ReadLine = none ∧ s1.sh = { s.sh with bf := none } ∧ s1.w = s.w
                ∧ dispatchedLines s1.trace = dispatchedLines s.trace
                ∧ dispatches s1.trace = dispatches s.trace)))
    ∧ (∀ n (s t : RunState σ), RunInternal.after env n s = some t →
        terminalReads t.trace = terminalReads s.trace)
    ∧ (∀ (terminal : DOS_Shell → World σ → List Char × World σ) (s : RunState σ),
        RunInternal.step { env with InputCommand := terminal } s = RunInternal.step env s)
    ∧ (∀ fuel (s t : RunState σ), RunInternal env fuel s = some t →
        (∃ n, RunInternal.after env n s = some t)
        ∧ (t.sh.bf = none ∨ t.w.shutdown_requested = true))
    ∧ (∀ n (s t : RunState (List (List Char))) (bf : BatchFile), s.sh.bf = some bf →
        RunInternal.after loggingCollaborators n s = some t →
        ∃ k, k ≤ n ∧ t.w.ext = s.w.ext ++ bf.lines.take k) := by
  refine ⟨?_, step_some env, after_terminalReads env, fun _ _ => rfl, ?_, after_logging⟩
  · intro fuel s h
    rw [RunInternal_succ, (step_none_iff env s).mpr h]
  · intro fuel s t h
    obtain ⟨hn, hend⟩ := RunInternal_some env fuel s t h
    exact ⟨hn, (step_none_iff env t).mp hend⟩

/-- C33 (witness): entered with shutdown_requested set, RunInternal returns at once with
the state as it was; entered with a script of the two lines `a` and `b` and a
ParseLine that logs its lines, it makes three passes, reads nothing from the
terminal and returns with no script stream left and `a` and `b` logged. -/
theorem C33_only_script_lines_are_dispatched_witness :
    RunInternal idleCollaborators 1 shutdownAtStart = some shutdownAtStart
    ∧ (RunInternal loggingCollaborators 4 twoLineScript).map (fun t => t.w.ext)
        = some ["a".toList, "b".toList]
    ∧ (RunInternal loggingCollaborators 4 twoLineScript).map
        (fun t => dispatchedLines t.trace) = some ["a".toList, "b".toList]
    ∧ (RunInternal loggingCollaborators 4 twoLineScript).map
        (fun t => terminalReads t.trace) = some 0
    ∧ (RunInternal.after loggingCollaborators 3 twoLineScript).map (fun t => t.sh.bf)
        = some none :=
  ⟨(C33_only_script_lines_are_dispatched idleCollaborators).1 0 shutdownAtStart (Or.inr rfl),
    by decide, by decide, by decide, by decide⟩

end DOS_Shell

/-! ## Empty targets in `ParseLine` -/

namespace DOS_Shell

theorem entry_of_not_open (t : HandleTable) (k : Nat) (h : t.isOpen k = false) :
    t.entry k = none := by
  unfold HandleTable.isOpen at h
  cases he : t.entry k with
  | none => rfl
  | some x => simp [he] at h

/-- The output block in front of the dispatch for an empty target that the file system
refuses: the attempt is made, and afterwards handle 0 is as it was and handle 1 holds
the console if it was open. -/
theorem openOutput_empty {σ : Type} (fs : FileSystem) (a : Bool) (d : Dos σ)
    (ho : fs.canOpen [] = false) (hc : fs.canCreate [] = false)
    (hx : fs.canOpenExtended [] = false) :
    (ParseLine.openOutput fs (d.handles.isOpen 0) (d.handles.isOpen 1) false a [] d).handles.entry 0
      = d.handles.entry 0
    ∧ (ParseLine.openOutput fs (d.handles.isOpen 0) (d.handles.isOpen 1) false a [] d).handles.entry 1
      = (if d.handles.isOpen 1 = true then some con else d.handles.entry 1)
    ∧ ∃ new, (ParseLine.openOutput fs (d.handles.isOpen 0) (d.handles.isOpen 1) false a [] d).calls
        = d.calls ++ new
      ∧ (FileCall.OpenFile [] none ∈ new ∨ FileCall.OpenFileExtended [] none ∈ new) := by
  have hcon : ([] : List Char) ≠ con := by decide
  cases h0 : d.handles.isOpen 0 <;> cases h1 : d.handles.isOpen 1 <;> cases a <;>
    simp [ParseLine.openOutput, ParseLine.openTarget, Dos.DOS_OpenFile, Dos.DOS_CreateFile,
      Dos.DOS_OpenFileExtended, Dos.DOS_CloseFile, Dos.DOS_SeekFile, Dos.allocate, ho, hc, hx,
      hcon, h0, h1, HandleTable.entry_put, HandleTable.isOpen_put,
      HandleTable.lowestFree_eq_zero, HandleTable.lowestFree_eq_one, entry_of_not_open]

/-- The input block in front of the dispatch for an empty target that the file system
refuses: the attempt is made and the handle table stays as it was. -/
theorem openInput_empty {σ : Type} (fs : FileSystem) (ns : Bool) (d : Dos σ)
    (ho : fs.canOpen [] = false) :
    (ParseLine.openInput fs ns [] d).handles = d.handles
    ∧ (ParseLine.openInput fs ns [] d).calls = d.calls ++ [FileCall.OpenFile [] none] := by
  have hcon : ([] : List Char) ≠ con := by decide
  simp [ParseLine.openInput, Dos.DOS_OpenFile, ho, hcon]

/-- C32 (amended). For every line on which GetRedirection yields an empty-string output
target and no input target, or an empty-string input target and no output target,
and every file system that refuses the empty name: ParseLine does not skip the
target. Before it dispatches the command it has made calls of the file interface,
among them the attempt to open the empty name; the handle table the dispatched
command finds has handle 0 as it was before the call, and handle 1 as it was
before the call if that was closed or held the console. -/
theorem C32_empty_target_is_tried (fs : FileSystem) (append0 : Bool) (line : List Char)
    (d : Dos (List (HandleTable × List FileCall)))
    (ho : fs.canOpen [] = false) (hc : fs.canCreate [] = false)
    (hx : fs.canOpenExtended [] = false)
    (hr : ((GetRedirection (ParseLine.prepare line) none none append0).ifn = none
          ∧ (GetRedirection (ParseLine.prepare line) none none append0).ofn = some [])
        ∨ ((GetRedirection (ParseLine.prepare line) none none append0).ifn = some []
          ∧ (GetRedirection (ParseLine.prepare line) none none append0).ofn = none)) :
    ∃ handles new,
      (ParseLine (probeDispatcher fs) append0 line d).dos.ext
        = d.ext ++ [(handles, d.calls ++ new)]
      ∧ (FileCall.OpenFile [] none ∈ new ∨ FileCall.OpenFileExtended [] none ∈ new)
      ∧ handles.entry 0 = d.handles.entry 0
      ∧ ((d.handles.entry 1 = none ∨ d.handles.entry 1 = some con) →
          handles.entry 1 = d.handles.entry 1) := by
  unfold ParseLine
  simp only
  generalize GetRedirection (ParseLine.prepare line) none none append0 = r at hr
  obtain ⟨rline, rifn, rofn, rappend, rnum⟩ := r
  simp only at hr
  rcases hr with ⟨hi, hout⟩ | ⟨hi, hout⟩
  · subst hi
    subst hout
    obtain ⟨h0, h1, new, hnew, hmem⟩ := openOutput_empty fs rappend d ho hc hx
    refine ⟨(ParseLine.openOutput fs (d.handles.isOpen 0) (d.handles.isOpen 1) false
      rappend [] d).handles, new, ?_, hmem, h0, ?_⟩
    · simp only [Option.isSome_none, Option.isSome_some, Bool.false_or, Bool.true_and,
        Bool.false_eq_true, if_false, if_true, ext_restoreOutput, probeDispatcher,
        ext_openOutput, hnew]
    · intro hcon
      rw [h1]
      split
      · rename_i hopen
        rcases hcon with e | e
        · simp [HandleTable.isOpen, e] at hopen
        · exact e.symm
      · rfl
  · subst hi
    subst hout
    obtain ⟨hh, hcalls⟩ := openInput_empty fs (d.handles.isOpen 0) d ho
    refine ⟨d.handles, [FileCall.OpenFile [] none], ?_, Or.inl (List.mem_singleton.mpr rfl),
      rfl, fun _ => rfl⟩
    · simp only [Option.isSome_none, Option.isSome_some, Bool.or_false, Bool.true_and,
        Bool.false_eq_true, if_false, if_true, ext_restoreInput, probeDispatcher,
        ext_openInput, hcalls, hh]

/-- C32 (witness): on `dir >` with the console on handles 0, 1 and 2 and a file system
that refuses every name, the dispatched command finds the console on handles 0 and
1, after ParseLine has closed handle 1, tried to open the empty name and opened the
console again. -/
theorem C32_empty_target_is_tried_witness :
    ((GetRedirection (ParseLine.prepare "dir >".toList) none none false).ifn = none
      ∧ (GetRedirection (ParseLine.prepare "dir >".toList) none none false).ofn = some [])
    ∧ ∃ handles new,
      (ParseLine (probeDispatcher noFiles) false "dir >".toList consoleProbe).dos.ext
        = consoleProbe.ext ++ [(handles, consoleProbe.calls ++ new)]
      ∧ (FileCall.OpenFile [] none ∈ new ∨ FileCall.OpenFileExtended [] none ∈ new)
      ∧ handles.entry 0 = consoleProbe.handles.entry 0
      ∧ ((consoleProbe.handles.entry 1 = none ∨ consoleProbe.handles.entry 1 = some con) →
          handles.entry 1 = consoleProbe.handles.entry 1) := by
  have hprep : ParseLine.prepare "dir >".toList = "dir >".toList := by decide
  have hred : GetRedirection "dir >".toList none none false
      = { line := "dir ".toList, ifn := none, ofn := some [], append := false, num := 0 } := by
    simp [GetRedirection, GetRedirection.scan, NUL, DQUOTE, ltrim, isspace,
      skipSecondGt, nameRest, nameSpan, copyTarget, inName, safe_strncpy, c_str]
  have hr : (GetRedirection (ParseLine.prepare "dir >".toList) none none false).ifn = none
      ∧ (GetRedirection (ParseLine.prepare "dir >".toList) none none false).ofn = some [] := by
    rw [hprep, hred]
    exact ⟨rfl, rfl⟩
  exact ⟨hr, C32_empty_target_is_tried noFiles false "dir >".toList consoleProbe rfl rfl rfl
    (Or.inl hr)⟩

/-- C32 (counterexample): on `dir >` the output target is the empty string, and ParseLine
does not treat it as absent. With the console on handles 0, 1 and 2 and a file
system that refuses every name it closes handle 1, tries to open the empty name and
opens the console again before the dispatch, and closes handle 1 and opens the
console once more after it. -/
theorem C32_empty_target_is_not_skipped :
    (GetRedirection (ParseLine.prepare "dir >".toList) none none false).ofn = some []
    ∧ (ParseLine (probeDispatcher noFiles) false "dir >".toList consoleProbe).dos.ext
        = [([some con, some con, some con],
            [FileCall.CloseFile 1, FileCall.OpenFileExtended [] none,
              FileCall.OpenFile con (some 1)])]
    ∧ (ParseLine (probeDispatcher noFiles) false "dir >".toList consoleProbe).dos.calls
        = [FileCall.CloseFile 1, FileCall.OpenFileExtended [] none,
            FileCall.OpenFile con (some 1), FileCall.CloseFile 1,
            FileCall.OpenFile con (some 1)] := by
  have hprep : ParseLine.prepare "dir >".toList = "dir >".toList := by decide
  have hred : GetRedirection "dir >".toList none none false
      = { line := "dir ".toList, ifn := none, ofn := some [], append := false, num := 0 } := by
    simp [GetRedirection, GetRedirection.scan, NUL, DQUOTE, ltrim, isspace,
      skipSecondGt, nameRest, nameSpan, copyTarget, inName, safe_strncpy, c_str]
  refine ⟨by rw [hprep, hred], ?_, ?_⟩
  · unfold ParseLine
    rw [hprep, hred]
    decide
  · unfold ParseLine
    rw [hprep, hred]
    decide

end DOS_Shell

/-! ## No line object of the constructor is installed twice -/

namespace AutoexecObject

theorem CreateAutoexec_fatal (g g1 : Globals) (e : Exit)
    (h : CreateAutoexec g = Outcome.fatal e g1) : e = Exit.file_overflow := by
  rw [CreateAutoexec_eq] at h
  split at h
  · simp at h
  · simp only [Outcome.fatal.injEq] at h
    exact h.1.symm

/-- An install on a line object that was not installed can only fail for lack of room. -/
theorem Install_fatal (o : AutoexecObject) (text : List Char) (g g1 : Globals) (e : Exit)
    (hfresh : o.installed = false) (h : o.Install text g = Outcome.fatal e g1) :
    e = Exit.file_overflow := by
  unfold Install at h
  rw [if_neg (by simp [hfresh])] at h
  simp only at h
  split at h
  · rename_i e1 g2 hc
    simp only [Outcome.fatal.injEq] at h
    rw [← h.1]
    exact CreateAutoexec_fatal _ _ _ hc
  · simp at h

theorem InstallBefore_fatal (o : AutoexecObject) (text : List Char) (g g1 : Globals)
    (e : Exit) (hfresh : o.installed = false)
    (h : o.InstallBefore text g = Outcome.fatal e g1) : e = Exit.file_overflow := by
  unfold InstallBefore at h
  rw [if_neg (by simp [hfresh])] at h
  simp only at h
  split at h
  · rename_i e1 g2 hc
    simp only [Outcome.fatal.injEq] at h
    rw [← h.1]
    exact CreateAutoexec_fatal _ _ _ hc
  · simp at h

end AutoexecObject

namespace AUTOEXEC

theorem careful_weaken {f : AUTOEXEC → Globals → Outcome AUTOEXEC} {k k1 : Nat}
    (h : Careful f k k1) (k0 k2 : Nat) (h0 : k0 ≤ k) (h2 : k1 ≤ k2) : Careful f k0 k2 := by
  intro m g hfree hc
  obtain ⟨hf, hok⟩ := h m g (slotsFree_mono hfree h0) hc
  exact ⟨hf, fun m1 g1 e => ⟨slotsFree_mono (hok m1 g1 e).1 h2, (hok m1 g1 e).2⟩⟩

theorem careful_skip (k : Nat) : Careful (fun m g => Outcome.ok m g) k k := by
  intro m g hfree hc
  refine ⟨fun e g1 h => by simp at h, fun m1 g1 h => ?_⟩
  simp only [Outcome.ok.injEq] at h
  rw [← h.1]
  exact ⟨hfree, hc⟩

theorem careful_seq {f f1 : AUTOEXEC → Globals → Outcome AUTOEXEC} {k k1 k2 : Nat}
    (h : Careful f k k1) (h1 : Careful f1 k1 k2) :
    Careful (fun m g => (f m g).andThen f1) k k2 := by
  intro m g hfree hc
  obtain ⟨hf, hok⟩ := h m g hfree hc
  cases hr : f m g with
  | fatal e0 g0 =>
    refine ⟨fun e g1 he => ?_, fun m1 g1 he => ?_⟩
    · simp only [hr, Outcome.andThen, Outcome.fatal.injEq] at he
      rw [← he.1]
      exact hf e0 g0 hr
    · simp [hr, Outcome.andThen] at he
  | ok ma ga =>
    obtain ⟨hfa, hca⟩ := hok ma ga hr
    obtain ⟨hf1, hok1⟩ := h1 ma ga hfa hca
    refine ⟨fun e g1 he => ?_, fun m1 g1 he => ?_⟩
    · simp only [hr, Outcome.andThen] at he
      exact hf1 e g1 he
    · simp only [hr, Outcome.andThen] at he
      exact hok1 m1 g1 he

theorem careful_installSlot (i : Fin 17) (text : List Char) (hi : 1 ≤ i.val) :
    Careful (installSlot i text) i.val (i.val + 1) := by
  intro m g hfree hc
  have hfresh := hfree i (Nat.le_refl _)
  unfold installSlot
  cases hr : (m.autoexec i).Install text g with
  | fatal e0 g0 =>
    refine ⟨fun e g1 he => ?_, fun m1 g1 he => by simp at he⟩
    simp only [Outcome.fatal.injEq] at he
    rw [← he.1]
    exact AutoexecObject.Install_fatal _ _ _ _ _ hfresh hr
  | ok o ga =>
    refine ⟨fun e g1 he => by simp at he, fun m1 g1 he => ?_⟩
    simp only [Outcome.ok.injEq] at he
    rw [← he.1]
    refine ⟨?_, ?_, hc.2⟩
    · intro j hj
      have hne : j ≠ i := by
        intro hji
        rw [hji] at hj
        omega
      simp only [Function.update_noteq hne]
      exact hfree j (by omega)
    · have hne : (0 : Fin 17) ≠ i := by
        intro h0
        rw [← h0] at hi
        simp at hi
      simp only [Function.update_noteq hne]
      exact hc.1

theorem installSlot_fatal (i : Fin 17) (text : List Char) (m : AUTOEXEC) (g g1 : Globals)
    (e : Exit) (hfresh : (m.autoexec i).installed = false)
    (h : installSlot i text m g = Outcome.fatal e g1) : e = Exit.file_overflow := by
  unfold installSlot at h
  cases hr : (m.autoexec i).Install text g with
  | fatal e0 g0 =>
    simp only [hr, Outcome.fatal.injEq] at h
    rw [← h.1]
    exact AutoexecObject.Install_fatal _ _ _ _ _ hfresh hr
  | ok o ga => simp [hr] at h

theorem careful_installLockdown (secure : Bool) (i : Fin 17) (hi : 1 ≤ i.val) :
    Careful (installLockdown secure i) i.val (i.val + 1) := by
  cases secure with
  | true =>
    have := careful_installSlot i lockdown hi
    simpa [AUTOEXEC.installLockdown] using this
  | false =>
    have := careful_weaken (careful_skip i.val) i.val (i.val + 1) (Nat.le_refl _)
      (Nat.le_succ _)
    simpa [AUTOEXEC.installLockdown] using this

theorem careful_mount (buffer : List Char) (tail : AUTOEXEC → Globals → Outcome AUTOEXEC)
    (h : Careful tail 14 16) :
    Careful (fun m g => (installSlot 12 (mountLine buffer) m g).andThen fun m1 g1 =>
        (installSlot 13 "C:".toList m1 g1).andThen tail) 12 16 := by
  have s12 : Careful (installSlot 12 (mountLine buffer)) 12 13 :=
    careful_installSlot 12 _ (by decide)
  have s13 : Careful (installSlot 13 "C:".toList) 13 14 :=
    careful_installSlot 13 _ (by decide)
  have key := careful_seq s12 (careful_seq s13 h)
  exact key

theorem careful_lock14 (secure : Bool) : Careful (installLockdown secure 14) 14 15 :=
  careful_installLockdown secure 14 (by decide)

theorem careful_lock15 (secure : Bool) : Careful (installLockdown secure 15) 15 16 :=
  careful_installLockdown secure 15 (by decide)

theorem careful_slot14 (text : List Char) : Careful (installSlot 14 text) 14 15 :=
  careful_installSlot 14 text (by decide)

theorem careful_slot15 (text : List Char) : Careful (installSlot 15 text) 15 16 :=
  careful_installSlot 15 text (by decide)

/-- The installs for a directory or a file go to the slots 12 to 15, each at most
once. -/
theorem careful_installDetected (secure : Bool) (d : Detected) :
    Careful (installDetected secure d) 12 16 := by
  cases d with
  | directory buffer =>
    exact careful_mount buffer _ (careful_weaken (careful_lock14 secure) 14 16 (by omega)
      (by omega))
  | file buffer orig =>
    have htail : Careful (fun m2 g2 =>
        if hasSub ".BAT" (orig.map Char.toUpper) = true then
          (installLockdown secure 14 m2 g2).andThen fun m3 g3 =>
          installSlot 15 ("CALL ".toList ++ orig.map Char.toUpper) m3 g3
        else if hasSub ".IMG" (orig.map Char.toUpper) = true
            ∨ hasSub ".IMA" (orig.map Char.toUpper) = true then
          installSlot 15 ("BOOT ".toList ++ orig) m2 g2
        else if hasSub ".ISO" (orig.map Char.toUpper) = true
            ∨ hasSub ".CUE" (orig.map Char.toUpper) = true then
          (installSlot 14 (imgmountLine orig) m2 g2).andThen fun m3 g3 =>
          installLockdown secure 15 m3 g3
        else
          (installLockdown secure 14 m2 g2).andThen fun m3 g3 =>
          installSlot 15 (orig.map Char.toUpper) m3 g3) 14 16 := by
      by_cases hb : hasSub ".BAT" (orig.map Char.toUpper) = true
      · simp only [hb, if_true]
        exact careful_seq (careful_lock14 secure) (careful_slot15 _)
      · simp only [hb, if_false]
        by_cases hi : hasSub ".IMG" (orig.map Char.toUpper) = true
            ∨ hasSub ".IMA" (orig.map Char.toUpper) = true
        · simp only [hi, if_true]
          exact careful_weaken (careful_slot15 _) 14 16 (by omega) (by omega)
        · simp only [hi, if_false]
          by_cases hc : hasSub ".ISO" (orig.map Char.toUpper) = true
              ∨ hasSub ".CUE" (orig.map Char.toUpper) = true
          · simp only [hc, if_true]
            exact careful_seq (careful_slot14 _) (careful_lock15 secure)
          · simp only [hc, if_false]
            exact careful_seq (careful_lock14 secure) (careful_slot15 _)
    exact careful_mount buffer _ htail

/-- The loop over the `-c` lines, entered with its counter at `i`, installs on the
slots `i` to 11, each at most once. -/
theorem cLoop_careful (win32 : Bool) (lines : List (List Char)) :
    ∀ (i : Nat) (x : Bool) (m : AUTOEXEC) (g : Globals), 1 ≤ i → i ≤ 12 →
      SlotsFree m i → ConfigFree m →
      (∀ e g1, cLoop win32 lines i x m g = Outcome.fatal e g1 → e = Exit.file_overflow)
      ∧ (∀ r g1, cLoop win32 lines i x m g = Outcome.ok r g1 →
          SlotsFree r.1 12 ∧ ConfigFree r.1) := by
  induction lines with
  | nil =>
    intro i x m g _ h12 hfree hc
    refine ⟨fun e g1 h => by simp [cLoop] at h, fun r g1 h => ?_⟩
    simp only [cLoop, Outcome.ok.injEq] at h
    rw [← h.1]
    exact ⟨slotsFree_mono hfree h12, hc⟩
  | cons line rest ih =>
    intro i x m g h1 h12 hfree hc
    unfold cLoop
    by_cases hi : i ≤ 11
    · simp only [hi, dite_true]
      by_cases hx : isExitLine (cLine win32 line) = true
      · simp only [hx, if_true]
        exact ih i true m g h1 h12 hfree hc
      · have hx' : isExitLine (cLine win32 line) = false := by simpa using hx
        simp only [hx', Bool.false_eq_true, if_false]
        obtain ⟨hf, hok⟩ :=
          careful_installSlot ⟨i, by omega⟩ (cLine win32 line) h1 m g hfree hc
        cases hr : installSlot ⟨i, by omega⟩ (cLine win32 line) m g with
        | fatal e0 g0 =>
          refine ⟨fun e g1 he => ?_, fun r g1 he => by simp at he⟩
          simp only [Outcome.fatal.injEq] at he
          rw [← he.1]
          exact hf e0 g0 hr
        | ok m1 g1 =>
          obtain ⟨hf1, hc1⟩ := hok m1 g1 hr
          exact ih (i + 1) x m1 g1 (by omega) (by omega) hf1 hc1
    · simp only [hi, dite_false]
      refine ⟨fun e g1 h => by simp at h, fun r g1 h => ?_⟩
      simp only [Outcome.ok.injEq] at h
      rw [← h.1]
      exact ⟨slotsFree_mono hfree h12, hc⟩

/-- The loop over the commands installs for the first directory or file it finds, and
for no other. -/
theorem commandLoop_careful (host : Host) (secure : Bool) (commands : List (List Char)) :
    ∀ (m : AUTOEXEC) (g : Globals), SlotsFree m 12 → ConfigFree m →
      (∀ e g1, commandLoop host secure commands m g = Outcome.fatal e g1 →
        e = Exit.file_overflow)
      ∧ (∀ r g1, commandLoop host secure commands m g = Outcome.ok r g1 →
          SlotsFree r.1 (if r.2 = true then 16 else 12) ∧ ConfigFree r.1) := by
  induction commands with
  | nil =>
    intro m g hfree hc
    refine ⟨fun e g1 h => by simp [commandLoop] at h, fun r g1 h => ?_⟩
    simp only [commandLoop, Outcome.ok.injEq] at h
    rw [← h.1]
    exact ⟨by simpa using hfree, hc⟩
  | cons line rest ih =>
    intro m g hfree hc
    unfold commandLoop
    cases hd : detect host line with
    | none => simpa [hd] using ih m g hfree hc
    | some d =>
      simp only
      obtain ⟨hf, hok⟩ := careful_installDetected secure d m g hfree hc
      cases hr : installDetected secure d m g with
      | fatal e0 g0 =>
        refine ⟨fun e g1 he => ?_, fun r g1 he => by simp at he⟩
        simp only [Outcome.fatal.injEq] at he
        rw [← he.1]
        exact hf e0 g0 hr
      | ok m1 g1 =>
        obtain ⟨hf1, hc1⟩ := hok m1 g1 hr
        refine ⟨fun e g2 he => by simp at he, fun r g2 he => ?_⟩
        simp only [Outcome.ok.injEq] at he
        rw [← he.1]
        exact ⟨by simpa using hf1, hc1⟩

theorem installRest_careful (m : AUTOEXEC) (extra : List Char) (g : Globals)
    (h0 : (m.autoexec 0).installed = false) :
    (∀ e g1, installRest m extra g = Outcome.fatal e g1 → e = Exit.file_overflow)
    ∧ (∀ m1 g1, installRest m extra g = Outcome.ok m1 g1 →
        ∀ k, 1 ≤ k → SlotsFree m k → SlotsFree m1 k) := by
  unfold installRest
  by_cases he : c_str extra = []
  · simp only [he, ne_eq, not_true_eq_false, if_false]
    refine ⟨fun e g1 h => by simp at h, fun m1 g1 h => ?_⟩
    simp only [Outcome.ok.injEq] at h
    rw [← h.1]
    exact fun _ _ hfree => hfree
  · simp only [he, ne_eq, not_false_eq_true, if_true]
    cases hr : (m.autoexec 0).Install (c_str extra) g with
    | fatal e0 g0 =>
      refine ⟨fun e g1 h => ?_, fun m1 g1 h => by simp at h⟩
      simp only [Outcome.fatal.injEq] at h
      rw [← h.1]
      exact AutoexecObject.Install_fatal _ _ _ _ _ h0 hr
    | ok o ga =>
      refine ⟨fun e g1 h => by simp at h, fun m1 g1 h => ?_⟩
      simp only [Outcome.ok.injEq] at h
      rw [← h.1]
      intro k hk hfree j hj
      have hne : j ≠ 0 := by
        intro hj0
        rw [hj0] at hj
        simp at hj
        omega
      simp only [Function.update_noteq hne]
      exact hfree j hj

/-- The configuration content goes to `autoexec_echo` and `autoexec[0]`, each at most
once. -/
theorem ProcessConfigFileAutoexec_careful (m : AUTOEXEC) (data : List Char) (g : Globals)
    (hc : ConfigFree m) :
    (∀ e g1, ProcessConfigFileAutoexec m data g = Outcome.fatal e g1 →
      e = Exit.file_overflow)
    ∧ (∀ m1 g1, ProcessConfigFileAutoexec m data g = Outcome.ok m1 g1 →
        ∀ k, 1 ≤ k → SlotsFree m k → SlotsFree m1 k) := by
  unfold ProcessConfigFileAutoexec
  by_cases hd : data = []
  · simp only [hd, if_true]
    refine ⟨fun e g1 h => by simp at h, fun m1 g1 h => ?_⟩
    simp only [Outcome.ok.injEq] at h
    rw [← h.1]
    exact fun _ _ hfree => hfree
  · simp only [hd, if_false]
    cases hde : detectEchoOff data with
    | mk b extra =>
      cases b with
      | true =>
        simp only
        cases hr : m.autoexec_echo.InstallBefore "@echo off".toList g with
        | fatal e0 g0 =>
          refine ⟨fun e g1 h => ?_, fun m1 g1 h => by simp at h⟩
          simp only [Outcome.fatal.injEq] at h
          rw [← h.1]
          exact AutoexecObject.InstallBefore_fatal _ _ _ _ _ hc.2 hr
        | ok o ga =>
          simp only
          obtain ⟨hf, hok⟩ := installRest_careful { m with autoexec_echo := o }
            (skipLineEnd extra) ga hc.1
          exact ⟨hf, fun m1 g1 h k hk hfree => hok m1 g1 h k hk hfree⟩
      | false =>
        simp only
        exact installRest_careful m extra g hc.1

theorem installConfig_careful (su : Startup) (found : Bool) (m : AUTOEXEC) (g : Globals)
    (hc : ConfigFree m) (hfree : SlotsFree m (if found = true then 16 else 12)) :
    (∀ e g1, installConfig su found m g = Outcome.fatal e g1 → e = Exit.file_overflow)
    ∧ (∀ m1 g1, installConfig su found m g = Outcome.ok m1 g1 → SlotsFree m1 16) := by
  have hfree16 : SlotsFree m 16 := by
    cases found
    · exact slotsFree_mono hfree (by simp)
    · simpa using hfree
  have hpc : ∀ data,
      (∀ e g1, ProcessConfigFileAutoexec m data g = Outcome.fatal e g1 →
        e = Exit.file_overflow)
      ∧ (∀ m1 g1, ProcessConfigFileAutoexec m data g = Outcome.ok m1 g1 →
          SlotsFree m1 16) := by
    intro data
    obtain ⟨hf, hok⟩ := ProcessConfigFileAutoexec_careful m data g hc
    exact ⟨hf, fun m1 g1 h => hok m1 g1 h 16 (by omega) hfree16⟩
  have hskip : (∀ e g1, (Outcome.ok m g : Outcome AUTOEXEC) = Outcome.fatal e g1 →
        e = Exit.file_overflow)
      ∧ (∀ m1 g1, (Outcome.ok m g : Outcome AUTOEXEC) = Outcome.ok m1 g1 →
          SlotsFree m1 16) := by
    refine ⟨fun e g1 h => by simp at h, fun m1 g1 h => ?_⟩
    simp only [Outcome.ok.injEq] at h
    rw [← h.1]
    exact hfree16
  unfold installConfig
  by_cases ha : (!su.securemode && !su.noautoexec) = true
  · simp only [ha, if_true]
    by_cases hj : su.join = true
    · simp only [hj, if_true]
      exact hpc su.section_data
    · have hj' : su.join = false := by simpa using hj
      simp only [hj', Bool.false_eq_true, if_false]
      cases found with
      | true =>
        simp only [if_true]
        exact hskip
      | false =>
        simp only [Bool.false_eq_true, if_false]
        exact hpc su.overwritten_data
  · simp only [ha, if_false]
    by_cases hl : su.securemode = true ∧ found = false
    · simp only [hl, and_self, if_true]
      have hfree12 : SlotsFree m 12 := by simpa [hl.2] using hfree
      have s12 : Careful (installSlot 12 lockdown) 12 13 :=
        careful_installSlot 12 _ (by decide)
      obtain ⟨hf, hok⟩ := s12 m g hfree12 hc
      exact ⟨hf, fun m1 g1 h => slotsFree_mono (hok m1 g1 h).1 (by omega)⟩
    · simp only [hl, if_false]
      exact hskip

/-- C36. For every command line (secure, no-autoexec, join and exit switches, instant
launch, any number of `-c` lines of any content, any arguments), every host file
system, every configuration content and every state of the registry, the
constructor, run on its 18 freshly constructed line objects, either returns or ends
in the overflow exit of the buffer: the fatal exit `already created` is not taken,
that is, no Install or InstallBefore is called on a line object that has been
installed before. (The slots are indexed by `Fin 17`; the one computed index, the
counter of the `-c` loop, is at most 11 where it is used.) -/
theorem C36_no_line_object_is_installed_twice (su : Startup) (host : Host) (g : Globals) :
    ((ctor su host g).isOk = true
      ∨ ∃ g1, ctor su host g = Outcome.fatal Exit.file_overflow g1)
    ∧ ∀ buf g1, ctor su host g ≠ Outcome.fatal (Exit.already_created buf) g1 := by
  have key : ∀ e g1, ctor su host g = Outcome.fatal e g1 → e = Exit.file_overflow := by
    intro e gx h
    unfold ctor at h
    generalize "exit".toList = ex at h
    obtain ⟨hf1, hok1⟩ := cLoop_careful su.WIN32 su.c_lines 1 false fresh g (by omega)
      (by omega) (slotsFree_fresh 1) configFree_fresh
    cases hr1 : cLoop su.WIN32 su.c_lines 1 false fresh g with
    | fatal e1 g1 =>
      simp only [hr1, Outcome.andThen, Outcome.fatal.injEq] at h
      rw [← h.1]
      exact hf1 e1 g1 hr1
    | ok r1 g1 =>
      obtain ⟨hs1, hc1⟩ := hok1 r1 g1 hr1
      obtain ⟨hf2, hok2⟩ := commandLoop_careful host su.securemode su.commands r1.1 g1 hs1 hc1
      simp only [hr1, Outcome.andThen] at h
      cases hr2 : commandLoop host su.securemode su.commands r1.1 g1 with
      | fatal e2 g2 =>
        simp only [hr2, Outcome.fatal.injEq] at h
        rw [← h.1]
        exact hf2 e2 g2 hr2
      | ok r2 g2 =>
        obtain ⟨hs2, hc2⟩ := hok2 r2 g2 hr2
        obtain ⟨hf3, hok3⟩ := installConfig_careful su r2.2 r2.1 g2 hc2 hs2
        simp only [hr2] at h
        cases hr3 : installConfig su r2.2 r2.1 g2 with
        | fatal e3 g3 =>
          simp only [hr3, Outcome.fatal.injEq] at h
          rw [← h.1]
          exact hf3 e3 g3 hr3
        | ok m3 g3 =>
          have hs3 := hok3 m3 g3 hr3
          simp only [hr3] at h
          by_cases hx : (r1.2 || su.exit_switch || su.instant_launch) = true
          · simp only [hx, if_true] at h
            cases hr4 : installSlot 16 ex m3 g3 with
            | fatal e4 g4 =>
              simp only [hr4, Outcome.fatal.injEq] at h
              rw [← h.1]
              exact installSlot_fatal 16 ex m3 g3 g4 e4 (hs3 16 (by decide)) hr4
            | ok o4 g4 => simp [hr4] at h
          · simp [hx] at h
  constructor
  · cases hr : ctor su host g with
    | ok m g1 => exact Or.inl rfl
    | fatal e g1 =>
      right
      exact ⟨g1, by rw [key e g1 hr]⟩
  · intro buf g1 h
    have := key _ _ h
    simp at this

end AUTOEXEC

/-! ## The end of the removal loop for all other texts -/

namespace AutoexecObject

theorem stalls_replicate_space (n : Nat) : stalls (List.replicate n ' ') = false := by
  have hset : isSetLine (buf2 (List.replicate n ' ')) = false := by
    cases n with
    | zero => decide
    | succ k =>
      have hne : strncasecmp_eq (buf2 (List.replicate (k + 1) ' ')) "set ".toList 4 = false := by
        unfold strncasecmp_eq
        rw [beq_eq_false_iff_ne]
        intro e
        have h0 := congrArg List.head? e
        simp [buf2, safe_strncpy, List.replicate_succ, c_str, NUL] at h0
      unfold isSetLine
      rw [hne]
      rfl
  unfold stalls
  rw [hset]
  rfl

/-- For a text at which the loop does not take its `continue`, the loop comes to its
end after at most one test per entry and one more, in every state. -/
theorem dtor_loop_ends (l : List (List Char)) :
    ∀ (fuel : Nat) (buf : List Char) (before : List (List Char)) (g : Globals),
      stalls buf = false → l.length < fuel →
      ∃ res, dtor.loop fuel buf before l g = some res := by
  induction l with
  | nil =>
    intro fuel buf before g _ hfuel
    obtain ⟨f, rfl⟩ : ∃ f, fuel = f + 1 := ⟨fuel - 1, by simp at hfuel; omega⟩
    exact ⟨_, dtor_loop_nil f buf before g⟩
  | cons x xs ih =>
    intro fuel buf before g hstall hfuel
    obtain ⟨f, rfl⟩ : ∃ f, fuel = f + 1 := ⟨fuel - 1, by omega⟩
    have hf : xs.length < f := by
      simp only [List.length_cons] at hfuel
      omega
    by_cases hx : x = buf
    · subst hx
      by_cases hrun : runsAutoexecBat g = true
      · by_cases hset : stringset x = true
        · obtain ⟨env, he⟩ := dtor_loop_blank_step f x before xs g hrun hset
          rw [he]
          exact ih f _ _ _ (stalls_replicate_space _) hf
        · have h2 : isSetLine (safe_strncpy x (x.length + 1)) = false := by
            unfold stringset buf2 at hset
            unfold stalls buf2 at hstall
            cases hs : isSetLine (safe_strncpy x (x.length + 1)) with
            | false => rfl
            | true =>
              rw [hs] at hset hstall
              cases hp : strpbrk_eq (List.drop 4 (safe_strncpy x (x.length + 1))) with
              | none => simp [hp] at hstall
              | some i => simp [hp] at hset
          have he : dtor.loop (f + 1) x before (x :: xs) g = dtor.loop f x before xs g := by
            simp [dtor.loop, h2]
          rw [he]
          exact ih f _ _ _ hstall hf
      · have hidle : runsAutoexecBat g = false := by simpa using hrun
        obtain ⟨env, he⟩ := dtor_loop_erase_step f x before xs g hidle hstall
        rw [he]
        exact ih f _ _ _ hstall hf
    · rw [dtor_loop_ne _ _ _ _ _ _ hx]
      exact ih f _ _ _ hstall hf

/-- The destructor returns, or ends in the overflow exit of `CreateAutoexec`, for every
text that is not a `set ` line without `=`, in every state of the registry: its
loop needs at most one test per entry and one more. -/
theorem dtor_ends_of_not_stalls (o : AutoexecObject) (g : Globals) (fuel : Nat)
    (hstall : stalls o.buf = false) (hfuel : g.autoexec_strings.length < fuel) :
    ∃ out, dtor fuel o g = some out := by
  unfold dtor
  cases o.installed with
  | false => exact ⟨_, rfl⟩
  | true =>
    obtain ⟨res, hres⟩ := dtor_loop_ends g.autoexec_strings fuel o.buf [] g hstall hfuel
    simp only [Bool.not_true, Bool.false_eq_true, if_false, hres]
    exact ⟨_, rfl⟩

/-- The line object of `SET BLASTER=A220` is destroyed while the first shell runs
`AUTOEXEC.BAT`: the loop ends within four tests. -/
theorem dtor_ends_of_not_stalls_witness :
    stalls "SET BLASTER=A220".toList = false
    ∧ c8Globals.autoexec_strings.length < 4
    ∧ ∃ out, dtor 4 { installed := true, buf := "SET BLASTER=A220".toList } c8Globals
        = some out :=
  ⟨by decide, by decide,
    dtor_ends_of_not_stalls { installed := true, buf := "SET BLASTER=A220".toList } c8Globals 4
      (by decide) (by decide)⟩

end AutoexecObject

/-! ## The two cursors of `GetRedirection` -/

namespace DOS_Shell

theorem peek_at (a t : List Char) (i : Nat) (h : a.length = i) :
    peek (a ++ t) i = t.headD NUL := by
  unfold peek
  subst h
  rw [List.getD_append_right _ _ _ _ (Nat.le_refl _), Nat.sub_self]
  cases t <;> rfl

theorem drop_at (a t : List Char) (i : Nat) (h : a.length = i) : (a ++ t).drop i = t := by
  subst h
  simp

theorem set_at (line junk cs : List Char) (ch x : Char) :
    (line ++ junk ++ ch :: cs).set line.length x
      = (line ++ [x]) ++ (junk ++ [ch]).tail ++ cs := by
  cases junk with
  | nil => simp
  | cons j js => simp

theorem tail_concat_length (junk : List Char) (ch : Char) :
    (junk ++ [ch]).tail.length = junk.length := by
  simp

theorem ltrim_split (l : List Char) : ∃ ws, l = ws ++ ltrim l ∧ NoNul ws := by
  induction l with
  | nil => exact ⟨[], rfl, by simp [NoNul]⟩
  | cons c cs ih =>
    unfold ltrim
    by_cases h : (c != NUL && isspace c) = true
    · obtain ⟨ws, hws, hn⟩ := ih
      refine ⟨c :: ws, ?_, ?_⟩
      · rw [if_pos h, List.cons_append, ← hws]
      · intro hm
        rcases List.mem_cons.mp hm with e | e
        · rw [← e] at h
          simp at h
        · exact hn e
    · exact ⟨[], by rw [if_neg h]; rfl, by simp [NoNul]⟩

theorem ltrimAt_at (a l : List Char) (i : Nat) (h : a.length = i) :
    ∃ ws, l = ws ++ ltrim l ∧ NoNul ws ∧ ltrimAt (a ++ l) i = i + ws.length := by
  obtain ⟨ws, hws, hn⟩ := ltrim_split l
  refine ⟨ws, hws, hn, ?_⟩
  unfold ltrimAt
  rw [drop_at a l i h]
  have : l.length = ws.length + (ltrim l).length := by
    conv => lhs; rw [hws]
    simp
  omega

theorem set_at_nil (a rest : List Char) (last x : Char) :
    (a ++ last :: rest).set a.length x = a ++ x :: rest := by
  simp

/-- The filename block on the storage does what `copyTarget` says: with the filename at
offset `i`, the read cursor ends behind the filename, the storage changes at most
in the last character of the filename, and the copy is the target. -/
theorem takeName_at (stop : Char) (a fnText : List Char) (i : Nat) (h : a.length = i) :
    ∃ written, written.length = (nameSpan stop fnText).length
      ∧ GetRedirection.takeName stop (a ++ fnText) i
        = (a ++ written ++ nameRest stop fnText, i + (nameSpan stop fnText).length,
            copyTarget stop fnText) := by
  have hsplit : fnText = nameSpan stop fnText ++ nameRest stop fnText :=
    (List.takeWhile_append_dropWhile _ _).symm
  unfold GetRedirection.takeName copyTarget GetRedirection.colonIndex
  rw [drop_at a fnText i h]
  simp only
  generalize nameSpan stop fnText = name at hsplit ⊢
  generalize nameRest stop fnText = rest at hsplit ⊢
  subst hsplit
  subst h
  rcases List.eq_nil_or_concat name with hnil | ⟨init, last, hcat⟩
  · subst hnil
    refine ⟨[], rfl, ?_⟩
    simp
  · rw [List.concat_eq_append] at hcat
    subst hcat
    have hpeek : peek (a ++ (init ++ [last] ++ rest)) (a.length + (init ++ [last]).length - 1)
        = last := by
      have e1 : a ++ (init ++ [last] ++ rest) = (a ++ init) ++ (last :: rest) := by simp
      have e2 : a.length + (init ++ [last]).length - 1 = (a ++ init).length := by simp
      rw [e1, e2, peek_at (a ++ init) (last :: rest) _ rfl]
      rfl
    have hne : a.length ≠ a.length + (init ++ [last]).length := by simp
    have hlast : (init ++ [last]).getLast? = some last := by simp
    have hnn : init ++ [last] ≠ [] := by simp
    rw [if_pos hne]
    simp only
    rw [hpeek, hlast]
    by_cases hl : last = ':'
    · refine ⟨init ++ [NUL], by simp, ?_⟩
      have hc2 : (init ++ [last] ≠ [] ∧ some last = some ':') := ⟨hnn, by rw [hl]⟩
      rw [if_pos hl, if_pos hc2]
      have e1 : a ++ (init ++ [last] ++ rest) = (a ++ init) ++ (last :: rest) := by simp
      have e2 : a.length + (init ++ [last]).length - 1 = (a ++ init).length := by simp
      have e3 : ((a ++ init) ++ (last :: rest)).set (a ++ init).length NUL
          = a ++ (init ++ NUL :: rest) := by
        rw [set_at_nil]
        simp
      rw [e1, e2, e3, drop_at a _ _ rfl]
      have e4 : a.length + (init ++ [last]).length - a.length + 1
          = (init ++ [last]).length + 1 := by omega
      rw [e4]
      simp
    · refine ⟨init ++ [last], rfl, ?_⟩
      have hc2 : ¬(init ++ [last] ≠ [] ∧ some last = some ':') := by
        intro hh
        exact hl (Option.some.inj hh.2)
      rw [if_neg hl, if_neg hc2, drop_at a _ _ rfl]
      have e4 : a.length + (init ++ [last]).length - a.length + 1
          = (init ++ [last]).length + 1 := by omega
      rw [e4]
      simp

theorem tracks_mem (s : List Char) (c : InPlace) (t : List Char) (r : Redirection)
    (h : c.Tracks s t r) :
    c.mem = c.mem.take c.lr ++ t ∧ (c.mem.take c.lr).length = c.lr := by
  obtain ⟨pre, junk, hs, hpre, hmem, hlen, hlr, hlw, hi, ho, ha, hn⟩ := h
  have ht : c.mem.take c.lr = r.line ++ junk := by
    rw [hmem, hlr, ← hlen, List.take_left']
    rfl
  rw [ht]
  exact ⟨hmem, by rw [hlen, hlr]⟩

/-- One character is read and one is stored: the write cursor stays behind. -/
theorem tracks_store (s : List Char) (c c1 : InPlace) (ch x : Char) (cs : List Char)
    (r r1 : Redirection) (h : c.Tracks s (ch :: cs) r) (h0 : ch ≠ NUL)
    (hm : c1.mem = c.mem.set c.lw x) (hr : c1.lr = c.lr + 1) (hw : c1.lw = c.lw + 1)
    (hline : r1.line = r.line ++ [x])
    (hi1 : c1.ifn = r1.ifn) (ho1 : c1.ofn = r1.ofn) (ha1 : c1.append = r1.append)
    (hn1 : c1.num = r1.num) : c1.Tracks s cs r1 := by
  obtain ⟨pre, junk, hs, hpre, hmem, hlen, hlr, hlw, hi, ho, ha, hn⟩ := h
  refine ⟨pre ++ [ch], (junk ++ [ch]).tail, by rw [hs]; simp, ?_, ?_, ?_, ?_, ?_, hi1, ho1,
    ha1, hn1⟩
  · intro hmem1
    rcases List.mem_append.mp hmem1 with e | e
    · exact hpre e
    · exact h0 (List.mem_singleton.mp e).symm
  · rw [hm, hmem, hlw, set_at, hline]
  · rw [hline]
    simp only [List.length_append, List.length_singleton, tail_concat_length] at hlen ⊢
    omega
  · rw [hr, hlr]
    simp
  · rw [hw, hlw, hline]
    simp

/-- Characters are read and none is stored: the write cursor falls back. -/
theorem tracks_skip (s : List Char) (c c1 : InPlace) (mid written t1 : List Char)
    (r r1 : Redirection) (h : c.Tracks s (mid ++ t1) r) (hmid : NoNul mid)
    (hwritten : written.length = mid.length)
    (hm : c1.mem = c.mem.take c.lr ++ written ++ t1) (hr : c1.lr = c.lr + mid.length)
    (hw : c1.lw = c.lw) (hline : r1.line = r.line)
    (hi1 : c1.ifn = r1.ifn) (ho1 : c1.ofn = r1.ofn) (ha1 : c1.append = r1.append)
    (hn1 : c1.num = r1.num) : c1.Tracks s t1 r1 := by
  obtain ⟨pre, junk, hs, hpre, hmem, hlen, hlr, hlw, hi, ho, ha, hn⟩ := h
  have ht : c.mem.take c.lr = r.line ++ junk := by
    rw [hmem, hlr, ← hlen, List.take_left']
    rfl
  refine ⟨pre ++ mid, junk ++ written, by rw [hs]; simp, ?_, ?_, ?_, ?_, ?_, hi1, ho1,
    ha1, hn1⟩
  · intro hmem1
    rcases List.mem_append.mp hmem1 with e | e
    · exact hpre e
    · exact hmid e
  · rw [hm, ht, hline]
    simp
  · rw [hline]
    simp only [List.length_append] at hlen ⊢
    omega
  · rw [hr, hlr]
    simp
  · rw [hw, hlw, hline]

theorem headD_eq_iff (cs : List Char) (x : Char) (hx : x ≠ NUL) :
    (cs.headD NUL = x) ↔ (cs.head? = some x) := by
  cases cs with
  | nil => simp [hx.symm]
  | cons c cs => simp

theorem skipSecondGt_split (cs : List Char) :
    ∃ g, cs = g ++ skipSecondGt cs ∧ NoNul g
      ∧ g.length = (if cs.head? = some '>' then 1 else 0) := by
  unfold skipSecondGt
  by_cases h : cs.head? = some '>'
  · rw [if_pos h, if_pos h]
    cases cs with
    | nil => simp at h
    | cons x xs =>
      simp only [List.head?_cons, Option.some.injEq] at h
      subst h
      exact ⟨['>'], rfl, by simp [NoNul, NUL], rfl⟩
  · rw [if_neg h, if_neg h]
    exact ⟨[], rfl, by simp [NoNul], rfl⟩

theorem noNul_append {a b : List Char} (ha : NoNul a) (hb : NoNul b) : NoNul (a ++ b) := by
  intro h
  rcases List.mem_append.mp h with e | e
  · exact ha e
  · exact hb e

/-- The filename block after an operator: the read cursor goes behind the filename,
nothing is stored through the write cursor, and the target is the one of the scan.
`mid0` is what the read cursor has passed since the loop head (the operator, and a
second `>`), `l` the text from there on. -/
theorem tracks_name (stop : Char) (s : List Char) (c : InPlace) (mid0 l : List Char)
    (r : Redirection) (h : c.Tracks s (mid0 ++ l) r) (hmid0 : NoNul mid0) :
    ∃ mid written,
      (GetRedirection.takeName stop c.mem (ltrimAt c.mem (c.lr + mid0.length))).1
        = c.mem.take c.lr ++ written ++ nameRest stop (ltrim l)
      ∧ (GetRedirection.takeName stop c.mem (ltrimAt c.mem (c.lr + mid0.length))).2.1
        = c.lr + mid.length
      ∧ (GetRedirection.takeName stop c.mem (ltrimAt c.mem (c.lr + mid0.length))).2.2
        = copyTarget stop (ltrim l)
      ∧ mid0 ++ l = mid ++ nameRest stop (ltrim l) ∧ NoNul mid
      ∧ written.length = mid.length := by
  obtain ⟨hmem, hlen⟩ := tracks_mem s c _ r h
  have hmem1 : c.mem = (c.mem.take c.lr ++ mid0) ++ l := by
    conv => lhs; rw [hmem]
    simp
  obtain ⟨ws, hws, hnws, hat⟩ := ltrimAt_at (c.mem.take c.lr ++ mid0) l (c.lr + mid0.length)
    (by rw [List.length_append, hlen])
  rw [← hmem1] at hat
  have hmem2 : c.mem = (c.mem.take c.lr ++ mid0 ++ ws) ++ ltrim l := by
    conv => lhs; rw [hmem1]
    conv => lhs; rw [hws]
    simp
  obtain ⟨written, hwl, htake⟩ := takeName_at stop (c.mem.take c.lr ++ mid0 ++ ws) (ltrim l)
    (c.lr + mid0.length + ws.length) (by simp only [List.length_append, hlen])
  rw [← hmem2] at htake
  rw [hat, htake]
  have hsplit : ltrim l = nameSpan stop (ltrim l) ++ nameRest stop (ltrim l) :=
    (List.takeWhile_append_dropWhile _ _).symm
  refine ⟨mid0 ++ ws ++ nameSpan stop (ltrim l), mid0 ++ ws ++ written, ?_, ?_, rfl, ?_, ?_, ?_⟩
  · simp
  · simp only [List.length_append]
    omega
  · conv => lhs; rw [hws, hsplit]
    simp
  · exact noNul_append (noNul_append hmid0 hnws) (nameSpan_noNul stop _)
  · simp only [List.length_append, hwl]

theorem tracks_peek (s : List Char) (c : InPlace) (t : List Char) (r : Redirection)
    (h : c.Tracks s t r) : peek c.mem c.lr = t.headD NUL := by
  obtain ⟨hmem, hlen⟩ := tracks_mem s c t r h
  rw [hmem, peek_at _ _ _ hlen]

/-- At the end of the text the loop on the storage ends, as the scan does. -/
theorem pass_end (s : List Char) (c : InPlace) (t : List Char) (r : Redirection)
    (h : c.Tracks s t r) (ht : t.headD NUL = NUL) :
    GetRedirection.pass c = none ∧ GetRedirection.scan t c.quote r = r := by
  constructor
  · unfold GetRedirection.pass
    simp only [tracks_peek s c t r h, ht, if_true]
  · cases t with
    | nil => exact scan_nil _ _
    | cons x xs =>
      simp only [List.headD_cons] at ht
      rw [ht]
      exact scan_nul _ _ _

/-- One pass of the loop on the storage is one step of the scan. -/
theorem pass_tracks (s : List Char) (c : InPlace) (ch : Char) (cs : List Char)
    (r : Redirection) (h : c.Tracks s (ch :: cs) r) (h0 : ch ≠ NUL) :
    ∃ c1 t1 r1, GetRedirection.pass c = some c1 ∧ c1.Tracks s t1 r1
      ∧ t1.length < (ch :: cs).length
      ∧ GetRedirection.scan (ch :: cs) c.quote r = GetRedirection.scan t1 c1.quote r1 := by
  have hpeek : peek c.mem c.lr = ch := tracks_peek s c _ r h
  have hfields := h
  obtain ⟨pre, junk, hs, hpre, hmem, hlen, hlr, hlw, hi, ho, ha, hn⟩ := hfields
  unfold GetRedirection.pass
  simp only [hpeek]
  rw [if_neg h0]
  by_cases hq : c.quote = true ∧ ch ≠ DQUOTE
  · rw [if_pos hq]
    exact ⟨_, cs, { r with line := r.line ++ [ch] }, rfl,
      tracks_store s c _ ch ch cs r _ h h0 rfl rfl rfl rfl hi ho ha hn, by simp,
      scan_quoted_of ch cs c.quote r h0 hq⟩
  · rw [if_neg hq]
    by_cases hd : ch = DQUOTE
    · rw [if_pos hd]
      subst hd
      exact ⟨_, cs, { r with line := r.line ++ [DQUOTE] }, rfl,
        tracks_store s c _ DQUOTE DQUOTE cs r _ h h0 rfl rfl rfl rfl hi ho ha hn, by simp,
        scan_dquote cs c.quote r⟩
    · rw [if_neg hd]
      by_cases hgt : ch = '>'
      · rw [if_pos hgt]
        subst hgt
        have hmem1 := (tracks_mem s c _ r h).1
        have hlen1 := (tracks_mem s c _ r h).2
        have hpeek1 : peek c.mem (c.lr + 1) = cs.headD NUL := by
          have e : c.mem = (c.mem.take c.lr ++ ['>']) ++ cs := by
            conv => lhs; rw [hmem1]
            simp
          rw [e, peek_at _ _ _ (by simp only [List.length_append, hlen1]; rfl)]
        have happ : decide (peek c.mem (c.lr + 1) = '>') = decide (cs.head? = some '>') := by
          rw [hpeek1]
          exact decide_eq_decide.mpr (headD_eq_iff cs '>' (by decide))
        obtain ⟨g, hg, hng, hglen⟩ := skipSecondGt_split cs
        have hcur : (if decide (peek c.mem (c.lr + 1) = '>') = true then c.lr + 1 + 1
            else c.lr + 1) = c.lr + ('>' :: g).length := by
          rw [happ]
          by_cases hh : cs.head? = some '>'
          · simp [hh, hglen]
          · simp [hh, hglen]
        have htr : c.Tracks s (('>' :: g) ++ skipSecondGt cs) r := by
          rw [List.cons_append, ← hg]
          exact h
        obtain ⟨mid, written, e1, e2, e3, e4, hnmid, hwl⟩ :=
          tracks_name '<' s c ('>' :: g) (skipSecondGt cs) r htr (by
            intro hm
            rcases List.mem_cons.mp hm with e | e
            · exact absurd e (by decide)
            · exact hng e)
        have htr2 : c.Tracks s (mid ++ nameRest '<' (ltrim (skipSecondGt cs))) r := by
          rw [← e4, List.cons_append, ← hg]
          exact h
        simp only [hcur]
        refine ⟨_, nameRest '<' (ltrim (skipSecondGt cs)),
          { r with append := decide (cs.head? = some '>'),
                   ofn := some (copyTarget '<' (ltrim (skipSecondGt cs))) }, rfl,
          tracks_skip s c _ mid written _ r _ htr2 hnmid hwl e1 e2 rfl rfl hi
            (by simp only [e3]) (by simp only [happ]) hn, ?_, scan_gt_of cs c.quote r hq⟩
        simp only [List.length_cons]
        exact Nat.lt_succ_of_le
          (Nat.le_trans (afterName_length_le _ _) (skipSecondGt_length_le _))
      · rw [if_neg hgt]
        by_cases hlt : ch = '<'
        · rw [if_pos hlt]
          subst hlt
          have htr : c.Tracks s (['<'] ++ cs) r := h
          obtain ⟨mid, written, e1, e2, e3, e4, hnmid, hwl⟩ :=
            tracks_name '>' s c ['<'] cs r htr (by simp [NoNul, NUL])
          have htr2 : c.Tracks s (mid ++ nameRest '>' (ltrim cs)) r := by
            rw [← e4]
            exact h
          refine ⟨_, nameRest '>' (ltrim cs),
            { r with ifn := some (copyTarget '>' (ltrim cs)) }, rfl,
            tracks_skip s c _ mid written _ r _ htr2 hnmid hwl e1 e2 rfl rfl
              (congrArg some e3) ho ha hn, ?_, scan_lt_of cs c.quote r hq⟩
          simp only [List.length_cons]
          exact Nat.lt_succ_of_le (afterName_length_le _ _)
        · rw [if_neg hlt]
          by_cases hp : ch = '|'
          · rw [if_pos hp]
            subst hp
            exact ⟨_, cs, { r with line := r.line ++ [NUL], num := r.num + 1 }, rfl,
              tracks_store s c _ '|' NUL cs r _ h h0 rfl rfl rfl rfl hi ho ha
                (by simp only [hn]), by simp,
              scan_pipe_of cs c.quote r hq⟩
          · rw [if_neg hp]
            exact ⟨_, cs, { r with line := r.line ++ [ch] }, rfl,
              tracks_store s c _ ch ch cs r _ h h0 rfl rfl rfl rfl hi ho ha hn, by simp,
              scan_other_of ch cs c.quote r h0 hq hd hgt hlt hp⟩

theorem tracks_start (s : List Char) (ifn ofn : Option (List Char)) (a : Bool) :
    (GetRedirection.start s ifn ofn a).Tracks s s
      { line := [], ifn := ifn, ofn := ofn, append := a, num := 0 } :=
  ⟨[], [], rfl, by simp [NoNul], rfl, rfl, rfl, rfl, rfl, rfl, rfl, rfl⟩

/-- What the correspondence says about the cursors and the storage. -/
theorem tracks_cursors (s : List Char) (c : InPlace) (t : List Char) (r : Redirection)
    (h : c.Tracks s t r) :
    c.lw ≤ c.lr ∧ c.lr ≤ (c_str s).length ∧ c.mem.length = s.length
    ∧ c.mem.drop c.lr = s.drop c.lr ∧ c.mem.take c.lw = r.line := by
  obtain ⟨pre, junk, hs, hpre, hmem, hlen, hlr, hlw, hi, ho, ha, hn⟩ := h
  refine ⟨?_, ?_, ?_, ?_, ?_⟩
  · rw [hlr, hlw, ← hlen, List.length_append]
    omega
  · rw [hs, c_str_append_of_noNul pre t hpre, hlr, List.length_append]
    omega
  · rw [hmem, hs, List.length_append, hlen, List.length_append]
  · rw [hmem, hs, drop_at _ _ _ (by rw [hlen, hlr]), drop_at _ _ _ hlr.symm]
  · rw [hmem, hlw, List.append_assoc, List.take_left']
    rfl

theorem after_tracks (s : List Char) (n : Nat) :
    ∀ (c c1 : InPlace) (t : List Char) (r : Redirection), c.Tracks s t r →
      GetRedirection.after n c = some c1 → ∃ t1 r1, c1.Tracks s t1 r1 := by
  induction n with
  | zero =>
    intro c c1 t r h ha
    simp only [GetRedirection.after, Option.some.injEq] at ha
    exact ⟨t, r, ha ▸ h⟩
  | succ n ih =>
    intro c c1 t r h ha
    unfold GetRedirection.after at ha
    by_cases ht : t.headD NUL = NUL
    · rw [(pass_end s c t r h ht).1] at ha
      simp at ha
    · cases t with
      | nil => simp at ht
      | cons ch cs =>
        simp only [List.headD_cons] at ht
        obtain ⟨c2, t2, r2, hp, htr, _, _⟩ := pass_tracks s c ch cs r h ht
        rw [hp] at ha
        exact ih c2 c1 t2 r2 htr ha

/-- The loop on the storage ends within one pass per character of the text and one
more, where the scan ends and with what the scan gives. -/
theorem loop_tracks (s : List Char) (fuel : Nat) :
    ∀ (c : InPlace) (t : List Char) (r : Redirection), c.Tracks s t r → t.length < fuel →
      ∃ (c0 : InPlace) (t0 : List Char),
        GetRedirection.loop fuel c = some { c0 with lr := c0.lr + 1 }
        ∧ c0.Tracks s t0 (GetRedirection.scan t c.quote r) := by
  induction fuel with
  | zero =>
    intro c t r _ hf
    omega
  | succ f ih =>
    intro c t r h hf
    unfold GetRedirection.loop
    by_cases ht : t.headD NUL = NUL
    · obtain ⟨hp, hsc⟩ := pass_end s c t r h ht
      rw [hp, hsc]
      exact ⟨c, t, rfl, h⟩
    · cases t with
      | nil => simp at ht
      | cons ch cs =>
        simp only [List.headD_cons] at ht
        obtain ⟨c1, t1, r1, hp, htr, hlt, hsc⟩ := pass_tracks s c ch cs r h ht
        rw [hp, hsc]
        exact ih c1 t1 r1 htr (by omega)

theorem c_str_append_nul_cons (l rest : List Char) : c_str (l ++ NUL :: rest) = c_str l := by
  unfold c_str
  induction l with
  | nil => simp
  | cons x xs ih =>
    simp only [List.cons_append, List.takeWhile_cons]
    split
    · rw [ih]
    · rfl

/-- The final `*lw = 0`: the storage then holds, as a C string, the line of the record
as a C string. -/
theorem c_str_set_nul (line rest : List Char) :
    c_str ((line ++ rest).set line.length NUL) = c_str line
    ∧ peek ((line ++ rest).set line.length NUL) line.length = NUL
    ∧ ((line ++ rest).set line.length NUL).take line.length = line := by
  cases rest with
  | nil =>
    have e : (line ++ []).set line.length NUL = line := by
      rw [List.append_nil, List.set_eq_of_length_le (Nat.le_refl _)]
    rw [e]
    refine ⟨rfl, ?_, List.take_length line⟩
    unfold peek
    exact List.getD_eq_default _ _ (Nat.le_refl _)
  | cons x xs =>
    have : (line ++ x :: xs).set line.length NUL = line ++ NUL :: xs := by simp
    rw [this, c_str_append_nul_cons, peek_at line _ _ rfl]
    simp

/-- C39. For every line, targets and append flag, `GetRedirection` run on the storage
of the line: (1) at the head of every pass of its loop the write cursor is not in
front of the read cursor, the read cursor is within the line (not behind its
terminating NUL), the storage has the size it had, and everything from the read
cursor on is as it was in the line at the start, so that no character is
overwritten before it is read; (2) the loop ends within one pass per character and
one more, the final NUL is stored at an offset within the line (at most the offset
of its terminating NUL), the normalized line is not longer than the line, and
what is in the storage and in the targets, the flag and the count is what the
scan of the line gives. -/
theorem C39_write_cursor_stays_behind (s : List Char) (ifn ofn : Option (List Char))
    (a : Bool) :
    (∀ n c, GetRedirection.after n (GetRedirection.start s ifn ofn a) = some c →
      c.lw ≤ c.lr ∧ c.lr ≤ (c_str s).length ∧ c.mem.length = s.length
      ∧ c.mem.drop c.lr = s.drop c.lr)
    ∧ ∀ fuel, s.length < fuel →
      ∃ c, GetRedirection.inPlace fuel s ifn ofn a = some c
        ∧ c.lw < c.lr ∧ c.lw ≤ (c_str s).length ∧ c.mem.length = s.length
        ∧ peek c.mem c.lw = NUL
        ∧ c.mem.take c.lw = (GetRedirection s ifn ofn a).line
        ∧ c_str c.mem = c_str (GetRedirection s ifn ofn a).line
        ∧ (GetRedirection s ifn ofn a).line.length ≤ (c_str s).length
        ∧ c.ifn = (GetRedirection s ifn ofn a).ifn
        ∧ c.ofn = (GetRedirection s ifn ofn a).ofn
        ∧ c.append = (GetRedirection s ifn ofn a).append
        ∧ c.num = (GetRedirection s ifn ofn a).num := by
  constructor
  · intro n c h
    obtain ⟨t1, r1, htr⟩ := after_tracks s n _ c s _ (tracks_start s ifn ofn a) h
    obtain ⟨h1, h2, h3, h4, _⟩ := tracks_cursors s c t1 r1 htr
    exact ⟨h1, h2, h3, h4⟩
  · intro fuel hfuel
    obtain ⟨c0, t0, hloop, htr⟩ := loop_tracks s fuel _ s _ (tracks_start s ifn ofn a) hfuel
    have hscan : GetRedirection.scan s (GetRedirection.start s ifn ofn a).quote
        { line := [], ifn := ifn, ofn := ofn, append := a, num := 0 }
          = GetRedirection s ifn ofn a := rfl
    rw [hscan] at htr
    obtain ⟨h1, h2, h3, _, h5⟩ := tracks_cursors s c0 t0 _ htr
    obtain ⟨pre, junk, hs, hpre, hmem, hlen, hlr, hlw, hi, ho, ha, hn⟩ := htr
    have hmem2 : c0.mem = (GetRedirection s ifn ofn a).line ++ (junk ++ t0) := by
      rw [hmem, List.append_assoc]
    obtain ⟨k1, k2, k3⟩ := c_str_set_nul (GetRedirection s ifn ofn a).line (junk ++ t0)
    refine ⟨{ c0 with lr := c0.lr + 1, mem := c0.mem.set c0.lw NUL }, ?_, ?_, ?_, ?_, ?_, ?_,
      ?_, ?_, hi, ho, ha, hn⟩
    · unfold GetRedirection.inPlace
      rw [hloop]
      rfl
    · exact Nat.lt_succ_of_le h1
    · exact Nat.le_trans h1 h2
    · simp only [List.length_set]
      exact h3
    · simp only [hmem2, hlw]
      exact k2
    · simp only [hmem2, hlw]
      exact k3
    · simp only [hmem2, hlw]
      exact k1
    · rw [← hlw]
      exact Nat.le_trans h1 h2

/-- C39 (witness): on `dir > nul: x` the loop ends with the read cursor at 13 and the
write cursor at 6; the storage then holds `dir  x`, the NUL, what is left of the
filename with a NUL in the place of its colon, and ` x`; at the head of every pass
the write cursor was not in front of the read cursor. -/
theorem C39_write_cursor_stays_behind_witness :
    GetRedirection.inPlace 13 "dir > nul: x".toList none none false
      = some { mem := "dir  x".toList ++ NUL :: "ul".toList ++ NUL :: " x".toList,
               lr := 13, lw := 6, quote := false, ifn := none, ofn := some "nul".toList,
               append := false, num := 0 }
    ∧ ∀ n c, GetRedirection.after n (GetRedirection.start "dir > nul: x".toList none none false)
        = some c →
      c.lw ≤ c.lr ∧ c.lr ≤ (c_str "dir > nul: x".toList).length
      ∧ c.mem.length = "dir > nul: x".toList.length
      ∧ c.mem.drop c.lr = "dir > nul: x".toList.drop c.lr :=
  ⟨by decide, (C39_write_cursor_stays_behind "dir > nul: x".toList none none false).1⟩

end DOS_Shell

/-! ## The targets at every operator that the loop of `GetRedirection` reads

The states that the loop on the storage of the line comes to are those of the scan, so
what a pass at an operator stores can be said for every line and every operator that
is read as one, whatever stands in front of it. -/

namespace DOS_Shell

theorem after_succ (n : Nat) : ∀ c : InPlace,
    GetRedirection.after (n + 1) c
      = (GetRedirection.after n c).bind GetRedirection.pass := by
  induction n with
  | zero =>
    intro c
    simp only [GetRedirection.after, Option.some_bind]
    cases GetRedirection.pass c <;> rfl
  | succ n ih =>
    intro c
    rw [GetRedirection.after]
    cases h : GetRedirection.pass c with
    | none =>
      have : GetRedirection.after (n + 1) c = none := by
        rw [GetRedirection.after, h]
      rw [this]
      rfl
    | some c1 =>
      have : GetRedirection.after (n + 1) c = GetRedirection.after n c1 := by
        rw [GetRedirection.after, h]
      rw [this]
      exact ih c1

theorem after_add (n k : Nat) (c : InPlace) :
    GetRedirection.after (n + k) c
      = (GetRedirection.after n c).bind (GetRedirection.after k) := by
  induction k with
  | zero =>
    simp only [Nat.add_zero]
    cases GetRedirection.after n c <;> rfl
  | succ k ih =>
    rw [← Nat.add_assoc, after_succ, ih]
    cases GetRedirection.after n c with
    | none => rfl
    | some c1 =>
      simp only [Option.some_bind]
      rw [after_succ]

theorem tracks_text (s : List Char) (c : InPlace) (t : List Char) (r : Redirection)
    (h : c.Tracks s t r) : t = s.drop c.lr := by
  obtain ⟨pre, junk, hs, hpre, hmem, hlen, hlr, hlw, hi, ho, ha, hn⟩ := h
  rw [hs, drop_at _ _ _ hlr.symm]

/-- After any number of passes the loop on the storage stands where the scan, started
from there, gives what it gives from the start. -/
theorem after_scan (s : List Char) (n : Nat) :
    ∀ (c c1 : InPlace) (t : List Char) (r : Redirection), c.Tracks s t r →
      GetRedirection.after n c = some c1 →
      ∃ t1 r1, c1.Tracks s t1 r1
        ∧ GetRedirection.scan t1 c1.quote r1 = GetRedirection.scan t c.quote r := by
  induction n with
  | zero =>
    intro c c1 t r h ha
    simp only [GetRedirection.after, Option.some.injEq] at ha
    subst ha
    exact ⟨t, r, h, rfl⟩
  | succ n ih =>
    intro c c1 t r h ha
    unfold GetRedirection.after at ha
    by_cases ht : t.headD NUL = NUL
    · rw [(pass_end s c t r h ht).1] at ha
      simp at ha
    · cases t with
      | nil => simp at ht
      | cons ch cs =>
        simp only [List.headD_cons] at ht
        obtain ⟨c2, t2, r2, hp, htr, _, hsc⟩ := pass_tracks s c ch cs r h ht
        rw [hp] at ha
        obtain ⟨t1, r1, h1, h2⟩ := ih c2 c1 t2 r2 htr ha
        exact ⟨t1, r1, h1, by rw [h2, hsc]⟩

/-- A state the loop comes to from the start stands at the text of the line from its
read cursor on, and the scan from there gives what `GetRedirection` gives. -/
theorem reach (s : List Char) (ifn ofn : Option (List Char)) (a : Bool) (n : Nat)
    (c : InPlace)
    (h : GetRedirection.after n (GetRedirection.start s ifn ofn a) = some c) :
    ∃ r, c.Tracks s (s.drop c.lr) r
      ∧ GetRedirection.scan (s.drop c.lr) c.quote r = GetRedirection s ifn ofn a := by
  obtain ⟨t1, r1, htr, hsc⟩ := after_scan s n _ c s _ (tracks_start s ifn ofn a) h
  have ht := tracks_text s c t1 r1 htr
  subst ht
  exact ⟨r1, htr, hsc⟩

/-- The loop on the storage comes to its end. -/
theorem ends (s : List Char) (k : Nat) :
    ∀ (c : InPlace) (t : List Char) (r : Redirection), c.Tracks s t r → t.length ≤ k →
      ∃ m cend, GetRedirection.after m c = some cend ∧ GetRedirection.pass cend = none := by
  induction k with
  | zero =>
    intro c t r h hk
    have ht : t = [] := List.length_eq_zero.mp (by omega)
    subst ht
    exact ⟨0, c, rfl, (pass_end s c [] r h rfl).1⟩
  | succ k ih =>
    intro c t r h hk
    by_cases ht : t.headD NUL = NUL
    · exact ⟨0, c, rfl, (pass_end s c t r h ht).1⟩
    · cases t with
      | nil => simp at ht
      | cons ch cs =>
        simp only [List.headD_cons] at ht
        obtain ⟨c1, t1, r1, hp, htr, hlt, _⟩ := pass_tracks s c ch cs r h ht
        obtain ⟨m, cend, hm, hend⟩ := ih c1 t1 r1 htr (by
          simp only [List.length_cons] at hlt hk
          omega)
        exact ⟨m + 1, cend, by rw [GetRedirection.after, hp]; exact hm, hend⟩

/-- Where the loop on the storage ends, the targets, the flag and the count are those
that `GetRedirection` gives. -/
theorem final_of_end (s : List Char) (ifn ofn : Option (List Char)) (a : Bool) (n : Nat)
    (c : InPlace)
    (h : GetRedirection.after n (GetRedirection.start s ifn ofn a) = some c)
    (hend : GetRedirection.pass c = none) :
    c.ifn = (GetRedirection s ifn ofn a).ifn ∧ c.ofn = (GetRedirection s ifn ofn a).ofn
    ∧ c.append = (GetRedirection s ifn ofn a).append
    ∧ c.num = (GetRedirection s ifn ofn a).num := by
  obtain ⟨r, htr, hsc⟩ := reach s ifn ofn a n c h
  have ht : (s.drop c.lr).headD NUL = NUL := by
    by_contra hne
    cases hd : s.drop c.lr with
    | nil => simp [hd] at hne
    | cons ch cs =>
      rw [hd] at htr hne
      simp only [List.headD_cons] at hne
      obtain ⟨c1, _, _, hp, _⟩ := pass_tracks s c ch cs r htr hne
      rw [hend] at hp
      simp at hp
  rw [(pass_end s c _ r htr ht).2] at hsc
  obtain ⟨pre, junk, hs, hpre, hmem, hlen, hlr, hlw, hi, ho, ha, hn⟩ := htr
  rw [← hsc]
  exact ⟨hi, ho, ha, hn⟩


theorem headD_ne_of_head (l : List Char) (x : Char) (hx : x ≠ NUL)
    (h : l.head? ≠ some x) : l.headD NUL ≠ x := by
  intro e
  exact h ((headD_eq_iff l x hx).mp e)

/-- The filename block on the storage, with the filename `name` at offset `fn` and the
text `rest`, at which the filename loop stops, behind it. -/
theorem takeName_bounded (stop : Char) (a name rest : List Char) (fn : Nat)
    (h : a.length = fn) (hname : ∀ ch ∈ name, inName stop ch = true)
    (hrest : stopsName stop rest = true) :
    (GetRedirection.takeName stop (a ++ (name ++ rest)) fn).2.1 = fn + name.length
    ∧ (GetRedirection.takeName stop (a ++ (name ++ rest)) fn).2.2 = stripColon name
    ∧ (GetRedirection.takeName stop (a ++ (name ++ rest)) fn).1.length
        = (a ++ (name ++ rest)).length
    ∧ (GetRedirection.takeName stop (a ++ (name ++ rest)) fn).1.drop (fn + name.length)
        = rest := by
  obtain ⟨written, hwl, htake⟩ := takeName_at stop a (name ++ rest) fn h
  have hb := nameSpan_bounded stop name rest hname hrest
  rw [htake, copyTarget_eq, hb.1, hb.2]
  rw [hb.1] at hwl
  refine ⟨rfl, rfl, ?_, ?_⟩
  · simp only [List.length_append, hwl]
    omega
  · exact drop_at (a ++ written) rest _ (by simp only [List.length_append, hwl, h])

/-- The pass of the loop at an output operator, `>` or `>>`, outside quotes, that is
followed by whitespace, the run `name` of the filename loop and a text at which that
loop stops: the filename block runs at the offset behind the whitespace, the target is
`name` without a colon at its end, and the read cursor goes behind `name`. -/
theorem pass_output (s : List Char) (c : InPlace) (r : Redirection) (double : Bool)
    (ws name rest : List Char)
    (h : c.Tracks s (gtOperator double ++ ws ++ name ++ rest) r) (hq : c.quote = false)
    (hws : blank ws) (hname : ∀ ch ∈ name, inName '<' ch = true)
    (hstart : startsName (name ++ rest) = true) (hrest : stopsName '<' rest = true)
    (hsingle : double = false → (ws ++ name ++ rest).head? ≠ some '>') :
    GetRedirection.pass c
        = some { c with
            mem := (GetRedirection.takeName '<' c.mem
                      (c.lr + (gtOperator double).length + ws.length)).1,
            lr := c.lr + (gtOperator double).length + ws.length + name.length,
            append := double, ofn := some (stripColon name) }
      ∧ c.mem.drop (c.lr + (gtOperator double).length + ws.length) = name ++ rest := by
  obtain ⟨hmem, hlen⟩ := tracks_mem s c _ r h
  generalize c.mem.take c.lr = a at hmem hlen
  have hop : gtOperator double = '>' :: (gtOperator double).tail := by
    cases double <;> rfl
  have hpeek0 : peek c.mem c.lr = '>' := by
    rw [hmem, peek_at _ _ _ hlen, hop]
    rfl
  have hpeek1 : decide (peek c.mem (c.lr + 1) = '>') = double := by
    cases double with
    | true =>
      have e : c.mem = (a ++ ['>']) ++ ('>' :: (ws ++ name ++ rest)) := by
        rw [hmem]
        simp [gtOperator]
      rw [e, peek_at _ _ _ (by simp only [List.length_append, hlen]; rfl)]
      rfl
    | false =>
      have e : c.mem = (a ++ ['>']) ++ (ws ++ name ++ rest) := by
        rw [hmem]
        simp [gtOperator]
      rw [e, peek_at _ _ _ (by simp only [List.length_append, hlen]; rfl)]
      exact decide_eq_false (headD_ne_of_head _ '>' (by decide) (hsingle rfl))
  have hcur : (if double = true then c.lr + 1 + 1 else c.lr + 1)
      = c.lr + (gtOperator double).length := by
    cases double <;> rfl
  have e1 : c.mem = (a ++ gtOperator double) ++ (ws ++ (name ++ rest)) := by
    rw [hmem]
    simp
  have hat : ltrimAt c.mem (c.lr + (gtOperator double).length)
      = c.lr + (gtOperator double).length + ws.length := by
    unfold ltrimAt
    rw [e1, drop_at _ _ _ (by simp only [List.length_append, hlen]),
      ltrim_blank_append ws _ hws, ltrim_of_startsName _ hstart]
    simp only [List.length_append]
    omega
  have e2 : c.mem = (a ++ gtOperator double ++ ws) ++ (name ++ rest) := by
    rw [hmem]
    simp
  have hfn : (a ++ gtOperator double ++ ws).length
      = c.lr + (gtOperator double).length + ws.length := by
    simp only [List.length_append, hlen]
  have hb := takeName_bounded '<' _ name rest _ hfn hname hrest
  rw [← e2] at hb
  refine ⟨?_, ?_⟩
  · unfold GetRedirection.pass
    simp only [hpeek0, hpeek1, hcur, hat, hb.1, hb.2.1]
    rw [if_neg (by decide), if_neg (by rw [hq]; simp), if_neg (by decide), if_pos trivial]
  · conv => lhs; rw [e2]
    exact drop_at _ _ _ hfn

/-- The pass of the loop at an input operator `<` outside quotes, likewise. -/
theorem pass_input (s : List Char) (c : InPlace) (r : Redirection)
    (ws name rest : List Char)
    (h : c.Tracks s ('<' :: ws ++ name ++ rest) r) (hq : c.quote = false)
    (hws : blank ws) (hname : ∀ ch ∈ name, inName '>' ch = true)
    (hstart : startsName (name ++ rest) = true) (hrest : stopsName '>' rest = true) :
    GetRedirection.pass c
        = some { c with
            mem := (GetRedirection.takeName '>' c.mem (c.lr + 1 + ws.length)).1,
            lr := c.lr + 1 + ws.length + name.length,
            ifn := some (stripColon name) }
      ∧ c.mem.drop (c.lr + 1 + ws.length) = name ++ rest := by
  obtain ⟨hmem, hlen⟩ := tracks_mem s c _ r h
  generalize c.mem.take c.lr = a at hmem hlen
  have hpeek0 : peek c.mem c.lr = '<' := by
    rw [hmem, peek_at _ _ _ hlen]
    rfl
  have e1 : c.mem = (a ++ ['<']) ++ (ws ++ (name ++ rest)) := by
    rw [hmem]
    simp
  have hat : ltrimAt c.mem (c.lr + 1) = c.lr + 1 + ws.length := by
    unfold ltrimAt
    rw [e1, drop_at _ _ _ (by simp only [List.length_append, hlen]; rfl),
      ltrim_blank_append ws _ hws, ltrim_of_startsName _ hstart]
    simp only [List.length_append]
    omega
  have e2 : c.mem = (a ++ ['<'] ++ ws) ++ (name ++ rest) := by
    rw [hmem]
    simp
  have hfn : (a ++ ['<'] ++ ws).length = c.lr + 1 + ws.length := by
    simp only [List.length_append, hlen]
    rfl
  have hb := takeName_bounded '>' _ name rest _ hfn hname hrest
  rw [← e2] at hb
  refine ⟨?_, ?_⟩
  · unfold GetRedirection.pass
    simp only [hpeek0, hat, hb.1, hb.2.1]
    rw [if_neg (by decide), if_neg (by rw [hq]; simp), if_neg (by decide),
      if_neg (by decide), if_pos trivial]
  · conv => lhs; rw [e2]
    exact drop_at _ _ _ hfn


theorem tracks_drop (s : List Char) (c : InPlace) (mid rest : List Char) (r : Redirection)
    (h : c.Tracks s (mid ++ rest) r) : s.drop (c.lr + mid.length) = rest := by
  obtain ⟨pre, junk, hs, hpre, hmem, hlen, hlr, hlw, hi, ho, ha, hn⟩ := h
  have e : s = (pre ++ mid) ++ rest := by
    rw [hs]
    simp
  conv => lhs; rw [e]
  exact drop_at _ _ _ (by simp only [List.length_append, hlr])

/-- A pass that does not read `>` as an operator leaves the output target and the append
flag as they are. -/
theorem pass_keeps_output (s : List Char) (c c1 : InPlace) (t : List Char) (r : Redirection)
    (h : c.Tracks s t r) (hp : GetRedirection.pass c = some c1)
    (hno : ¬(c.quote = false ∧ t.head? = some '>')) :
    c1.ofn = c.ofn ∧ c1.append = c.append := by
  have hpeek := tracks_peek s c t r h
  unfold GetRedirection.pass at hp
  simp only [hpeek] at hp
  by_cases h0 : t.headD NUL = NUL
  · rw [if_pos h0] at hp
    cases hp
  · rw [if_neg h0] at hp
    by_cases hq : c.quote = true ∧ t.headD NUL ≠ DQUOTE
    · rw [if_pos hq] at hp
      cases hp
      exact ⟨rfl, rfl⟩
    · rw [if_neg hq] at hp
      by_cases hd : t.headD NUL = DQUOTE
      · rw [if_pos hd] at hp
        cases hp
        exact ⟨rfl, rfl⟩
      · rw [if_neg hd] at hp
        by_cases hgt : t.headD NUL = '>'
        · exact absurd ⟨flag_of_not_quoted c.quote _ hq hd,
            (headD_eq_iff t '>' (by decide)).mp hgt⟩ hno
        · rw [if_neg hgt] at hp
          by_cases hlt : t.headD NUL = '<'
          · rw [if_pos hlt] at hp
            cases hp
            exact ⟨rfl, rfl⟩
          · rw [if_neg hlt] at hp
            by_cases hpipe : t.headD NUL = '|'
            · rw [if_pos hpipe] at hp
              cases hp
              exact ⟨rfl, rfl⟩
            · rw [if_neg hpipe] at hp
              cases hp
              exact ⟨rfl, rfl⟩

/-- A pass that does not read `<` as an operator leaves the input target as it is. -/
theorem pass_keeps_input (s : List Char) (c c1 : InPlace) (t : List Char) (r : Redirection)
    (h : c.Tracks s t r) (hp : GetRedirection.pass c = some c1)
    (hno : ¬(c.quote = false ∧ t.head? = some '<')) :
    c1.ifn = c.ifn := by
  have hpeek := tracks_peek s c t r h
  unfold GetRedirection.pass at hp
  simp only [hpeek] at hp
  by_cases h0 : t.headD NUL = NUL
  · rw [if_pos h0] at hp
    cases hp
  · rw [if_neg h0] at hp
    by_cases hq : c.quote = true ∧ t.headD NUL ≠ DQUOTE
    · rw [if_pos hq] at hp
      cases hp
      rfl
    · rw [if_neg hq] at hp
      by_cases hd : t.headD NUL = DQUOTE
      · rw [if_pos hd] at hp
        cases hp
        rfl
      · rw [if_neg hd] at hp
        by_cases hgt : t.headD NUL = '>'
        · rw [if_pos hgt] at hp
          cases hp
          rfl
        · rw [if_neg hgt] at hp
          by_cases hlt : t.headD NUL = '<'
          · exact absurd ⟨flag_of_not_quoted c.quote _ hq hd,
              (headD_eq_iff t '<' (by decide)).mp hlt⟩ hno
          · rw [if_neg hlt] at hp
            by_cases hpipe : t.headD NUL = '|'
            · rw [if_pos hpipe] at hp
              cases hp
              rfl
            · rw [if_neg hpipe] at hp
              cases hp
              rfl

theorem stays_output (s : List Char) (m : Nat) :
    ∀ (c c2 : InPlace) (t : List Char) (r : Redirection), c.Tracks s t r →
      (∀ k c3, GetRedirection.after k c = some c3 →
        ¬(c3.quote = false ∧ (s.drop c3.lr).head? = some '>')) →
      GetRedirection.after m c = some c2 → c2.ofn = c.ofn ∧ c2.append = c.append := by
  induction m with
  | zero =>
    intro c c2 t r h hno ha
    simp only [GetRedirection.after, Option.some.injEq] at ha
    subst ha
    exact ⟨rfl, rfl⟩
  | succ m ih =>
    intro c c2 t r h hno ha
    rw [after_succ] at ha
    cases hm : GetRedirection.after m c with
    | none =>
      rw [hm] at ha
      cases ha
    | some c3 =>
      rw [hm, Option.some_bind] at ha
      obtain ⟨t3, r3, htr3, _⟩ := after_scan s m c c3 t r h hm
      have ht3 := tracks_text s c3 t3 r3 htr3
      have hk := pass_keeps_output s c3 c2 t3 r3 htr3 ha (by rw [ht3]; exact hno m c3 hm)
      have hprev := ih c c3 t r h hno hm
      exact ⟨hk.1.trans hprev.1, hk.2.trans hprev.2⟩

theorem stays_input (s : List Char) (m : Nat) :
    ∀ (c c2 : InPlace) (t : List Char) (r : Redirection), c.Tracks s t r →
      (∀ k c3, GetRedirection.after k c = some c3 →
        ¬(c3.quote = false ∧ (s.drop c3.lr).head? = some '<')) →
      GetRedirection.after m c = some c2 → c2.ifn = c.ifn := by
  induction m with
  | zero =>
    intro c c2 t r h hno ha
    simp only [GetRedirection.after, Option.some.injEq] at ha
    subst ha
    rfl
  | succ m ih =>
    intro c c2 t r h hno ha
    rw [after_succ] at ha
    cases hm : GetRedirection.after m c with
    | none =>
      rw [hm] at ha
      cases ha
    | some c3 =>
      rw [hm, Option.some_bind] at ha
      obtain ⟨t3, r3, htr3, _⟩ := after_scan s m c c3 t r h hm
      have ht3 := tracks_text s c3 t3 r3 htr3
      have hk := pass_keeps_input s c3 c2 t3 r3 htr3 ha (by rw [ht3]; exact hno m c3 hm)
      exact hk.trans (ih c c3 t r h hno hm)

/-- When no later pass reads `>` as an operator, the output target and the append flag
that `GetRedirection` gives are those of the state. -/
theorem output_to_the_end (s : List Char) (ifn ofn : Option (List Char)) (a : Bool)
    (n : Nat) (c1 : InPlace)
    (h : GetRedirection.after n (GetRedirection.start s ifn ofn a) = some c1)
    (hno : ∀ m c2, GetRedirection.after m c1 = some c2 →
      ¬(c2.quote = false ∧ (s.drop c2.lr).head? = some '>')) :
    (GetRedirection s ifn ofn a).ofn = c1.ofn
    ∧ (GetRedirection s ifn ofn a).append = c1.append := by
  obtain ⟨r, htr, _⟩ := reach s ifn ofn a n c1 h
  obtain ⟨k, cend, hk, hend⟩ := ends s _ c1 _ r htr (Nat.le_refl _)
  have hreach : GetRedirection.after (n + k) (GetRedirection.start s ifn ofn a)
      = some cend := by
    rw [after_add, h]
    exact hk
  have hf := final_of_end s ifn ofn a (n + k) cend hreach hend
  have hs := stays_output s k c1 cend _ r htr hno hk
  exact ⟨hf.2.1.symm.trans hs.1, hf.2.2.1.symm.trans hs.2⟩

/-- When no later pass reads `<` as an operator, the input target that `GetRedirection`
gives is that of the state. -/
theorem input_to_the_end (s : List Char) (ifn ofn : Option (List Char)) (a : Bool)
    (n : Nat) (c1 : InPlace)
    (h : GetRedirection.after n (GetRedirection.start s ifn ofn a) = some c1)
    (hno : ∀ m c2, GetRedirection.after m c1 = some c2 →
      ¬(c2.quote = false ∧ (s.drop c2.lr).head? = some '<')) :
    (GetRedirection s ifn ofn a).ifn = c1.ifn := by
  obtain ⟨r, htr, _⟩ := reach s ifn ofn a n c1 h
  obtain ⟨k, cend, hk, hend⟩ := ends s _ c1 _ r htr (Nat.le_refl _)
  have hreach : GetRedirection.after (n + k) (GetRedirection.start s ifn ofn a)
      = some cend := by
    rw [after_add, h]
    exact hk
  have hf := final_of_end s ifn ofn a (n + k) cend hreach hend
  exact hf.1.symm.trans (stays_input s k c1 cend _ r htr hno hk)

/-- Where the loop has ended, no further state is reached. -/
theorem none_after_end (c : InPlace) (h : GetRedirection.pass c = none) :
    ∀ m c2, GetRedirection.after m c = some c2 → c2 = c := by
  intro m c2 h2
  cases m with
  | zero =>
    simp only [GetRedirection.after, Option.some.injEq] at h2
    exact h2.symm
  | succ m =>
    rw [GetRedirection.after, h] at h2
    cases h2

theorem ltrim_parts (l : List Char) : ∃ ws, l = ws ++ ltrim l ∧ blank ws := by
  induction l with
  | nil => exact ⟨[], rfl, by simp [blank]⟩
  | cons c cs ih =>
    unfold ltrim
    by_cases h : (c != NUL && isspace c) = true
    · obtain ⟨ws, hws, hb⟩ := ih
      refine ⟨c :: ws, ?_, ?_⟩
      · rw [if_pos h, List.cons_append, ← hws]
      · intro x hx
        rcases List.mem_cons.mp hx with e | e
        · rw [e]
          simp only [Bool.and_eq_true] at h
          exact h.2
        · exact hb x e
    · exact ⟨[], by rw [if_neg h]; rfl, by simp [blank]⟩

theorem startsName_ltrim (l : List Char) : startsName (ltrim l) = true := by
  induction l with
  | nil => rfl
  | cons c cs ih =>
    unfold ltrim
    by_cases h : (c != NUL && isspace c) = true
    · rw [if_pos h]
      exact ih
    · rw [if_neg h]
      simp only [startsName, List.head?_cons, Bool.not_eq_true']
      by_cases h0 : c = NUL
      · rw [h0]
        exact isspace_nul
      · simp only [Bool.and_eq_true, bne_iff_ne, ne_eq, not_and, Bool.not_eq_true] at h
        exact h h0

theorem stopsName_nameRest (stop : Char) (l : List Char) :
    stopsName stop (nameRest stop l) = true := by
  unfold nameRest
  induction l with
  | nil => rfl
  | cons c cs ih =>
    rw [List.dropWhile_cons]
    by_cases h : inName stop c = true
    · rw [if_pos h]
      exact ih
    · rw [if_neg h]
      simp only [stopsName, List.head?_cons, Bool.not_eq_true']
      simpa using h

/-- Every text behind a `>` splits into the second `>` if there is one, whitespace, the
run of the filename loop and a rest at which that loop stops. -/
theorem output_parts (cs : List Char) :
    ∃ double ws name rest,
      '>' :: cs = gtOperator double ++ ws ++ name ++ rest ∧ blank ws
      ∧ startsName (name ++ rest) = true ∧ (∀ ch ∈ name, inName '<' ch = true)
      ∧ stopsName '<' rest = true
      ∧ (double = false → (ws ++ name ++ rest).head? ≠ some '>') := by
  obtain ⟨ws, hws, hb⟩ := ltrim_parts (skipSecondGt cs)
  have hsplit : ltrim (skipSecondGt cs)
      = nameSpan '<' (ltrim (skipSecondGt cs)) ++ nameRest '<' (ltrim (skipSecondGt cs)) :=
    (List.takeWhile_append_dropWhile _ _).symm
  have hall : skipSecondGt cs
      = ws ++ nameSpan '<' (ltrim (skipSecondGt cs))
          ++ nameRest '<' (ltrim (skipSecondGt cs)) := by
    rw [List.append_assoc, ← hsplit]
    exact hws
  refine ⟨decide (cs.head? = some '>'), ws, nameSpan '<' (ltrim (skipSecondGt cs)),
    nameRest '<' (ltrim (skipSecondGt cs)), ?_, hb, ?_, ?_, stopsName_nameRest _ _, ?_⟩
  · by_cases hh : cs.head? = some '>'
    · cases cs with
      | nil => simp at hh
      | cons x xs =>
        simp only [List.head?_cons, Option.some.injEq] at hh
        subst hh
        have hsk : skipSecondGt ('>' :: xs) = xs := by simp [skipSecondGt]
        rw [hsk] at hall ⊢
        simp only [List.head?_cons, decide_True, gtOperator, if_true]
        conv => lhs; rw [hall]
        simp
    · have hsk : skipSecondGt cs = cs := by
        unfold skipSecondGt
        rw [if_neg hh]
      rw [hsk] at hall ⊢
      simp only [hh, decide_False, gtOperator, Bool.false_eq_true, if_false]
      conv => lhs; rw [hall]
      simp
  · rw [← hsplit]
    exact startsName_ltrim _
  · intro ch hch
    exact List.mem_takeWhile_imp hch
  · intro hd
    have hh : ¬cs.head? = some '>' := by
      intro e
      rw [decide_eq_true e] at hd
      cases hd
    have hsk : skipSecondGt cs = cs := by
      unfold skipSecondGt
      rw [if_neg hh]
    rw [hsk] at hall ⊢
    rw [← hall]
    exact hh

/-- Every text behind a `<` splits into whitespace, the run of the filename loop and a
rest at which that loop stops. -/
theorem input_parts (cs : List Char) :
    ∃ ws name rest,
      '<' :: cs = '<' :: ws ++ name ++ rest ∧ blank ws
      ∧ startsName (name ++ rest) = true ∧ (∀ ch ∈ name, inName '>' ch = true)
      ∧ stopsName '>' rest = true := by
  obtain ⟨ws, hws, hb⟩ := ltrim_parts cs
  have hsplit : ltrim cs = nameSpan '>' (ltrim cs) ++ nameRest '>' (ltrim cs) :=
    (List.takeWhile_append_dropWhile _ _).symm
  refine ⟨ws, nameSpan '>' (ltrim cs), nameRest '>' (ltrim cs), ?_, hb, ?_, ?_,
    stopsName_nameRest _ _⟩
  · conv => lhs; rw [hws, hsplit]
    simp
  · rw [← hsplit]
    exact startsName_ltrim _
  · intro ch hch
    exact List.mem_takeWhile_imp hch

/-- The loop of `GetRedirection` on the storage of the line returns, with the targets
and the append flag that the scan gives. -/
theorem inPlace_returns (s : List Char) (ifn ofn : Option (List Char)) (a : Bool)
    (fuel : Nat) (hfuel : s.length < fuel) :
    ∃ out, GetRedirection.inPlace fuel s ifn ofn a = some out
      ∧ out.ifn = (GetRedirection s ifn ofn a).ifn
      ∧ out.ofn = (GetRedirection s ifn ofn a).ofn
      ∧ out.append = (GetRedirection s ifn ofn a).append := by
  obtain ⟨c0, t0, hloop, htr⟩ := loop_tracks s fuel _ s _ (tracks_start s ifn ofn a) hfuel
  have hscan : GetRedirection.scan s (GetRedirection.start s ifn ofn a).quote
      { line := [], ifn := ifn, ofn := ofn, append := a, num := 0 }
        = GetRedirection s ifn ofn a := rfl
  rw [hscan] at htr
  obtain ⟨pre, junk, hs, hpre, hmem, hlen, hlr, hlw, hi, ho, ha, hn⟩ := htr
  refine ⟨{ c0 with lr := c0.lr + 1, mem := c0.mem.set c0.lw NUL }, ?_, hi, ho, ha⟩
  unfold GetRedirection.inPlace
  rw [hloop]
  rfl


/-- All that a pass at an output operator does, for the state `c` that the loop has come
to outside quotes on the line `s`. -/
theorem output_pass_facts (s : List Char) (ifn ofn : Option (List Char)) (a : Bool)
    (n : Nat) (c : InPlace)
    (hreach : GetRedirection.after n (GetRedirection.start s ifn ofn a) = some c)
    (hq : c.quote = false) (double : Bool) (ws name rest : List Char)
    (hparts : s.drop c.lr = gtOperator double ++ ws ++ name ++ rest) (hws : blank ws)
    (hstart : startsName (name ++ rest) = true) (hname : ∀ ch ∈ name, inName '<' ch = true)
    (hrest : stopsName '<' rest = true)
    (hsingle : double = false → (ws ++ name ++ rest).head? ≠ some '>') :
    ∃ c1, GetRedirection.pass c = some c1
      ∧ GetRedirection.after (n + 1) (GetRedirection.start s ifn ofn a) = some c1
      ∧ c1.mem = (GetRedirection.takeName '<' c.mem
                    (c.lr + (gtOperator double).length + ws.length)).1
      ∧ (GetRedirection.takeName '<' c.mem
            (c.lr + (gtOperator double).length + ws.length)).2.1 = c1.lr
      ∧ c1.lr = c.lr + (gtOperator double).length + ws.length + name.length
      ∧ c.mem.drop (c.lr + (gtOperator double).length + ws.length) = name ++ rest
      ∧ c1.ofn = some (stripColon name) ∧ c1.append = double ∧ c1.ifn = c.ifn
      ∧ c1.quote = false ∧ s.drop c1.lr = rest := by
  obtain ⟨r, htr, _⟩ := reach s ifn ofn a n c hreach
  rw [hparts] at htr
  obtain ⟨hp, hdrop⟩ := pass_output s c r double ws name rest htr hq hws hname hstart hrest
    hsingle
  obtain ⟨hmem, hlen⟩ := tracks_mem s c _ r htr
  have e2 : c.mem = (c.mem.take c.lr ++ gtOperator double ++ ws) ++ (name ++ rest) := by
    conv => lhs; rw [hmem]
    simp
  have hfn : (c.mem.take c.lr ++ gtOperator double ++ ws).length
      = c.lr + (gtOperator double).length + ws.length := by
    simp only [List.length_append, hlen]
  have hb := takeName_bounded '<' _ name rest _ hfn hname hrest
  rw [← e2] at hb
  refine ⟨_, hp, ?_, rfl, hb.1, rfl, hdrop, rfl, rfl, rfl, hq, ?_⟩
  · rw [after_succ, hreach]
    exact hp
  · have := tracks_drop s c (gtOperator double ++ ws ++ name) rest r htr
    simp only [List.length_append] at this
    simp only [← Nat.add_assoc] at this
    exact this

/-- All that a pass at an input operator does, likewise. -/
theorem input_pass_facts (s : List Char) (ifn ofn : Option (List Char)) (a : Bool)
    (n : Nat) (c : InPlace)
    (hreach : GetRedirection.after n (GetRedirection.start s ifn ofn a) = some c)
    (hq : c.quote = false) (ws name rest : List Char)
    (hparts : s.drop c.lr = '<' :: ws ++ name ++ rest) (hws : blank ws)
    (hstart : startsName (name ++ rest) = true) (hname : ∀ ch ∈ name, inName '>' ch = true)
    (hrest : stopsName '>' rest = true) :
    ∃ c1, GetRedirection.pass c = some c1
      ∧ GetRedirection.after (n + 1) (GetRedirection.start s ifn ofn a) = some c1
      ∧ c1.mem = (GetRedirection.takeName '>' c.mem (c.lr + 1 + ws.length)).1
      ∧ (GetRedirection.takeName '>' c.mem (c.lr + 1 + ws.length)).2.1 = c1.lr
      ∧ c1.lr = c.lr + 1 + ws.length + name.length
      ∧ c.mem.drop (c.lr + 1 + ws.length) = name ++ rest
      ∧ c1.ifn = some (stripColon name) ∧ c1.ofn = c.ofn ∧ c1.append = c.append
      ∧ c1.quote = false ∧ s.drop c1.lr = rest := by
  obtain ⟨r, htr, _⟩ := reach s ifn ofn a n c hreach
  rw [hparts] at htr
  obtain ⟨hp, hdrop⟩ := pass_input s c r ws name rest htr hq hws hname hstart hrest
  obtain ⟨hmem, hlen⟩ := tracks_mem s c _ r htr
  have e2 : c.mem = (c.mem.take c.lr ++ ['<'] ++ ws) ++ (name ++ rest) := by
    conv => lhs; rw [hmem]
    simp
  have hfn : (c.mem.take c.lr ++ ['<'] ++ ws).length = c.lr + 1 + ws.length := by
    simp only [List.length_append, hlen]
    rfl
  have hb := takeName_bounded '>' _ name rest _ hfn hname hrest
  rw [← e2] at hb
  refine ⟨_, hp, ?_, rfl, hb.1, rfl, hdrop, rfl, rfl, rfl, hq, ?_⟩
  · rw [after_succ, hreach]
    exact hp
  · have htr2 : c.Tracks s (('<' :: ws ++ name) ++ rest) r := htr
    have := tracks_drop s c ('<' :: ws ++ name) rest r htr2
    have e : c.lr + ('<' :: ws ++ name).length = c.lr + 1 + ws.length + name.length := by
      simp only [List.cons_append, List.length_cons, List.length_append]
      omega
    rw [e] at this
    exact this


/-- C26 (amended). For every line `s` and every state `c` that the loop of GetRedirection
comes to outside quotes: when the text at the read cursor starts with `>`, it is an
operator `>` or `>>`, a run of whitespace `ws`, a run `name` of characters that are none
of NUL, space, `<`, `|` and does not start with whitespace, and a rest that is empty or
starts with NUL, space, `<` or `|`; and for every such splitting the pass of the loop
stores `name`, without the colon at its end if it has one, as the output target, sets
the append flag for `>>` only, leaves the input target alone and goes on at the rest.
The run ends at a space, not at a tab or another whitespace character. If no later
pass reads a `>` as an operator, that target is the output target GetRedirection gives.
The same holds for `<` and the input target, with `>` in the place of `<`. -/
theorem C26_target_at_every_operator (s : List Char) (ifn ofn : Option (List Char))
    (a : Bool) (n : Nat) (c : InPlace)
    (hreach : GetRedirection.after n (GetRedirection.start s ifn ofn a) = some c)
    (hq : c.quote = false) :
    ((s.drop c.lr).head? = some '>' →
      ∃ double ws name rest,
        s.drop c.lr = gtOperator double ++ ws ++ name ++ rest ∧ blank ws
        ∧ startsName (name ++ rest) = true ∧ (∀ ch ∈ name, inName '<' ch = true)
        ∧ stopsName '<' rest = true
        ∧ (double = false → (ws ++ name ++ rest).head? ≠ some '>'))
    ∧ (∀ double ws name rest,
        s.drop c.lr = gtOperator double ++ ws ++ name ++ rest → blank ws →
        startsName (name ++ rest) = true → (∀ ch ∈ name, inName '<' ch = true) →
        stopsName '<' rest = true →
        (double = false → (ws ++ name ++ rest).head? ≠ some '>') →
        ∃ c1, GetRedirection.pass c = some c1
          ∧ c1.ofn = some (stripColon name) ∧ c1.append = double ∧ c1.ifn = c.ifn
          ∧ c1.quote = false ∧ s.drop c1.lr = rest
          ∧ ((∀ m c2, GetRedirection.after m c1 = some c2 →
                ¬(c2.quote = false ∧ (s.drop c2.lr).head? = some '>')) →
              (GetRedirection s ifn ofn a).ofn = some (stripColon name)
              ∧ (GetRedirection s ifn ofn a).append = double))
    ∧ ((s.drop c.lr).head? = some '<' →
      ∃ ws name rest,
        s.drop c.lr = '<' :: ws ++ name ++ rest ∧ blank ws
        ∧ startsName (name ++ rest) = true ∧ (∀ ch ∈ name, inName '>' ch = true)
        ∧ stopsName '>' rest = true)
    ∧ (∀ ws name rest,
        s.drop c.lr = '<' :: ws ++ name ++ rest → blank ws →
        startsName (name ++ rest) = true → (∀ ch ∈ name, inName '>' ch = true) →
        stopsName '>' rest = true →
        ∃ c1, GetRedirection.pass c = some c1
          ∧ c1.ifn = some (stripColon name) ∧ c1.ofn = c.ofn ∧ c1.append = c.append
          ∧ c1.quote = false ∧ s.drop c1.lr = rest
          ∧ ((∀ m c2, GetRedirection.after m c1 = some c2 →
                ¬(c2.quote = false ∧ (s.drop c2.lr).head? = some '<')) →
              (GetRedirection s ifn ofn a).ifn = some (stripColon name))) := by
  refine ⟨fun hh => ?_, fun double ws name rest hparts hws hstart hname hrest hsingle => ?_,
    fun hh => ?_, fun ws name rest hparts hws hstart hname hrest => ?_⟩
  · cases hd : s.drop c.lr with
    | nil =>
      rw [hd] at hh
      cases hh
    | cons x xs =>
      rw [hd] at hh
      simp only [List.head?_cons, Option.some.injEq] at hh
      rw [hh]
      exact output_parts xs
  · obtain ⟨c1, hp, hc1, _, _, _, _, ho, hap, hi, hq1, hd⟩ :=
      output_pass_facts s ifn ofn a n c hreach hq double ws name rest hparts hws hstart
        hname hrest hsingle
    refine ⟨c1, hp, ho, hap, hi, hq1, hd, fun hlast => ?_⟩
    have hf := output_to_the_end s ifn ofn a (n + 1) c1 hc1 hlast
    exact ⟨hf.1.trans ho, hf.2.trans hap⟩
  · cases hd : s.drop c.lr with
    | nil =>
      rw [hd] at hh
      cases hh
    | cons x xs =>
      rw [hd] at hh
      simp only [List.head?_cons, Option.some.injEq] at hh
      rw [hh]
      exact input_parts xs
  · obtain ⟨c1, hp, hc1, _, _, _, _, hi, ho, hap, hq1, hd⟩ :=
      input_pass_facts s ifn ofn a n c hreach hq ws name rest hparts hws hstart hname hrest
    refine ⟨c1, hp, hi, ho, hap, hq1, hd, fun hlast => ?_⟩
    exact (input_to_the_end s ifn ofn a (n + 1) c1 hc1 hlast).trans hi

/-- C26 (witness): on `sort < in > out` the loop stands at the `>` after seven passes;
the text there is `>`, a space and the run `out` up to the end of the line; the pass
stores `out` as the output target and leaves the input target `in`, and `out` is the
output target GetRedirection gives. After five passes it stands at the `<`, and the
pass stores `in`, the run up to the next space, as the input target. -/
theorem C26_target_at_every_operator_witness :
    GetRedirection.after 7 (GetRedirection.start "sort < in > out".toList none none false)
      = some { mem := "sort   in > out".toList, lr := 10, lw := 6, quote := false,
               ifn := some "in".toList, ofn := none, append := false, num := 0 }
    ∧ "sort < in > out".toList.drop 10
        = gtOperator false ++ " ".toList ++ "out".toList ++ []
    ∧ ((GetRedirection "sort < in > out".toList none none false).ofn = some "out".toList
      ∧ (GetRedirection "sort < in > out".toList none none false).append = false)
    ∧ ∃ c1, GetRedirection.pass
          { mem := "sort < in > out".toList, lr := 5, lw := 5, quote := false,
            ifn := none, ofn := none, append := false, num := 0 } = some c1
        ∧ c1.ifn = some "in".toList
        ∧ "sort < in > out".toList.drop c1.lr = " > out".toList := by
  refine ⟨by decide, by decide, ?_, ?_⟩
  · obtain ⟨c1, hp, _, _, _, _, hd, hfin⟩ :=
      (C26_target_at_every_operator "sort < in > out".toList none none false 7
        { mem := "sort   in > out".toList, lr := 10, lw := 6, quote := false,
          ifn := some "in".toList, ofn := none, append := false, num := 0 }
        (by decide) rfl).2.1 false " ".toList "out".toList [] (by decide) (by decide)
        (by decide) (by decide) (by decide) (by decide)
    have e : c1 =
        { mem := "sort   in > out".toList, lr := 15, lw := 6, quote := false,
          ifn := some "in".toList, ofn := some "out".toList, append := false, num := 0 } :=
      Option.some.inj (hp.symm.trans (by decide))
    have hend : GetRedirection.pass c1 = none := by
      rw [e]
      decide
    exact hfin (fun m c2 h2 => by
      rw [none_after_end c1 hend m c2 h2, hd]
      simp)
  · obtain ⟨c1, hp, hi, _, _, _, hd, _⟩ :=
      (C26_target_at_every_operator "sort < in > out".toList none none false 5
        { mem := "sort < in > out".toList, lr := 5, lw := 5, quote := false,
          ifn := none, ofn := none, append := false, num := 0 }
        (by decide) rfl).2.2.2 " ".toList "in".toList " > out".toList (by decide)
        (by decide) (by decide) (by decide) (by decide)
    exact ⟨c1, hp, hi, hd⟩


/-- C28 (amended). For every line `s` and every state `c` that the loop of GetRedirection
comes to outside quotes: when the text at the read cursor is an operator `>` or `>>`
followed by nothing but whitespace up to the end of the line, the output target that
GetRedirection gives is present and is the empty string, and the run on the storage of
the line returns with that target; likewise for `<` and the input target. -/
theorem C28_operator_read_at_the_end (s : List Char) (ifn ofn : Option (List Char))
    (a : Bool) (n : Nat) (c : InPlace) (ws : List Char)
    (hreach : GetRedirection.after n (GetRedirection.start s ifn ofn a) = some c)
    (hq : c.quote = false) (hws : blank ws) :
    (∀ double, s.drop c.lr = gtOperator double ++ ws →
      (GetRedirection s ifn ofn a).ofn = some []
      ∧ (GetRedirection s ifn ofn a).append = double
      ∧ ∀ fuel, s.length < fuel →
          ∃ out, GetRedirection.inPlace fuel s ifn ofn a = some out ∧ out.ofn = some [])
    ∧ (s.drop c.lr = '<' :: ws →
      (GetRedirection s ifn ofn a).ifn = some []
      ∧ ∀ fuel, s.length < fuel →
          ∃ out, GetRedirection.inPlace fuel s ifn ofn a = some out ∧ out.ifn = some []) := by
  obtain ⟨r, htr, hsc⟩ := reach s ifn ofn a n c hreach
  rw [hq] at hsc
  have hhead : ∀ double : Bool, double = false → (ws ++ [] ++ []).head? ≠ some '>' := by
    intro _ _ hh
    cases ws with
    | nil => simp at hh
    | cons x xs =>
      simp only [List.append_nil, List.head?_cons, Option.some.injEq] at hh
      have := hws x (List.mem_cons_self _ _)
      rw [hh] at this
      exact absurd this (by decide)
  refine ⟨fun double hparts => ?_, fun hparts => ?_⟩
  · have hstep := scan_output double ws [] [] r hws (by simp) rfl rfl (hhead double)
    simp only [List.append_nil] at hstep
    rw [hparts, hstep, scan_nil] at hsc
    have ho : (GetRedirection s ifn ofn a).ofn = some [] := by
      rw [← hsc]
      rfl
    refine ⟨ho, by rw [← hsc], fun fuel hfuel => ?_⟩
    obtain ⟨out, hout, _, h2, _⟩ := inPlace_returns s ifn ofn a fuel hfuel
    exact ⟨out, hout, h2.trans ho⟩
  · have hstep := scan_input ws [] [] r hws (by simp) rfl rfl
    simp only [List.append_nil] at hstep
    rw [hparts, hstep, scan_nil] at hsc
    have hi : (GetRedirection s ifn ofn a).ifn = some [] := by
      rw [← hsc]
      rfl
    refine ⟨hi, fun fuel hfuel => ?_⟩
    obtain ⟨out, hout, h1, _, _⟩ := inPlace_returns s ifn ofn a fuel hfuel
    exact ⟨out, hout, h1.trans hi⟩

/-- C28 (witness): `dir >` followed by two spaces leaves the output target present and
empty, also when an output target was passed in, and the run on the storage returns
with it; `sort <` leaves the input target present and empty. -/
theorem C28_operator_read_at_the_end_witness :
    GetRedirection.after 4
        (GetRedirection.start "dir >  ".toList none (some "old".toList) false)
      = some { mem := "dir >  ".toList, lr := 4, lw := 4, quote := false,
               ifn := none, ofn := some "old".toList, append := false, num := 0 }
    ∧ (GetRedirection "dir >  ".toList none (some "old".toList) false).ofn = some []
    ∧ (∃ out, GetRedirection.inPlace 8 "dir >  ".toList none (some "old".toList) false
          = some out ∧ out.ofn = some [])
    ∧ (GetRedirection "sort <".toList none none false).ifn = some [] :=
  ⟨by decide,
   ((C28_operator_read_at_the_end "dir >  ".toList none (some "old".toList) false 4
      { mem := "dir >  ".toList, lr := 4, lw := 4, quote := false,
        ifn := none, ofn := some "old".toList, append := false, num := 0 }
      "  ".toList (by decide) rfl (by decide)).1 false (by decide)).1,
   ((C28_operator_read_at_the_end "dir >  ".toList none (some "old".toList) false 4
      { mem := "dir >  ".toList, lr := 4, lw := 4, quote := false,
        ifn := none, ofn := some "old".toList, append := false, num := 0 }
      "  ".toList (by decide) rfl (by decide)).1 false (by decide)).2.2 8 (by decide),
   ((C28_operator_read_at_the_end "sort <".toList none none false 5
      { mem := "sort <".toList, lr := 5, lw := 5, quote := false,
        ifn := none, ofn := none, append := false, num := 0 }
      [] (by decide) rfl (by decide)).2 (by decide)).1⟩

/-- C28 (counterexample): `dir >b>` ends in a `>` that stands outside quotes, and the
output target is `b>`, not the empty string: the filename loop does not stop at `>`,
so the final `>` is part of the filename. On `dir >"a b" >` the final `>` stands outside
the quotes of the line, the output target is the double quote and `a`, and the final
`>` is stored in the normalized line: the filename loop has taken the opening quote,
and the scan takes the closing one for an opening one. -/
theorem C28_final_operator_is_not_read :
    "dir >b>".toList.getLast? = some '>'
    ∧ insideQuotes "dir >b>".toList 6 = false
    ∧ (GetRedirection "dir >b>".toList none none false).ofn = some "b>".toList
    ∧ (GetRedirection "dir >b>".toList none none false).ofn ≠ some []
    ∧ ("dir >".toList ++ DQUOTE :: "a b".toList ++ DQUOTE :: " >".toList).getLast?
        = some '>'
    ∧ insideQuotes ("dir >".toList ++ DQUOTE :: "a b".toList ++ DQUOTE :: " >".toList) 11
        = false
    ∧ GetRedirection ("dir >".toList ++ DQUOTE :: "a b".toList ++ DQUOTE :: " >".toList)
        none none false
      = { line := "dir  b".toList ++ DQUOTE :: " >".toList, ifn := none,
          ofn := some (DQUOTE :: "a".toList), append := false, num := 0 } := by
  have h1 : (GetRedirection "dir >b>".toList none none false).ofn = some "b>".toList := by
    simp [GetRedirection, GetRedirection.scan, NUL, DQUOTE, ltrim, isspace,
      skipSecondGt, nameRest, nameSpan, copyTarget, inName, safe_strncpy, c_str]
  refine ⟨by decide, by decide, h1, ?_, by decide, by decide, ?_⟩
  · rw [h1]
    decide
  · simp [GetRedirection, GetRedirection.scan, NUL, DQUOTE, ltrim, isspace,
      skipSecondGt, nameRest, nameSpan, copyTarget, inName, safe_strncpy, c_str]

end DOS_Shell
